import Mathlib

/-!
# Verification of the McEliece public-key generation core

Shallow embedding of

* `math/gf8192/gf8192.go`: arithmetic in GF(2^13), and
* `kem/mceliece/templates/pk_gen_vec.templ.go`: bitslicing, the sort-key scan, the
  Gaussian elimination and the serialisation performed by `pkGen`.

Machine integers are natural numbers; every operation that can leave the 64-bit (or 16-bit)
range is reduced modulo `2^64` (or `2^16`) explicitly.
-/

/-! ## 64-bit machine words -/

/-- Wrap a natural number to a `uint64`. -/
def u64 (x : Nat) : Nat := x % 2 ^ 64

/-- The `uint64` product `x * y`. -/
def mul64 (x y : Nat) : Nat := (x * y) % 2 ^ 64

/-- The `uint64` left shift `x << s`. -/
def shl64 (x s : Nat) : Nat := (x <<< s) % 2 ^ 64

/-- The `uint64` difference `x - y` (wrapping). -/
def sub64 (x y : Nat) : Nat := (x + 2 ^ 64 - y % 2 ^ 64) % 2 ^ 64

/-- The `uint64` negation `-x` (wrapping). -/
def neg64 (x : Nat) : Nat := (2 ^ 64 - x % 2 ^ 64) % 2 ^ 64

/-! ## `gf8192`: the field GF(2^13) -/

namespace gf8192

/-- The constant `GfBits`. -/
def GfBits : Nat := 13

/-- The constant `GfMask = (1 << GfBits) - 1`. -/
def GfMask : Nat := (1 <<< GfBits) - 1

/-- The function `Add`: addition is XOR. -/
def Add (a b : Nat) : Nat := a ^^^ b

/-- The function `Mul`: carry-less multiplication "with holes", then reduction. -/
def Mul (a b : Nat) : Nat :=
  let x := a
  let y := b
  let x0 := x &&& 0x1111111111111
  let x1 := x &&& 0x2222222222222
  let x2 := x &&& 0x4444444444444
  let x3 := x &&& 0x8888888888888
  let y0 := y &&& 0x1111111111111
  let y1 := y &&& 0x2222222222222
  let y2 := y &&& 0x4444444444444
  let y3 := y &&& 0x8888888888888
  let z0 := mul64 x0 y0 ^^^ mul64 x1 y3 ^^^ mul64 x2 y2 ^^^ mul64 x3 y1
  let z1 := mul64 x0 y1 ^^^ mul64 x1 y0 ^^^ mul64 x2 y3 ^^^ mul64 x3 y2
  let z2 := mul64 x0 y2 ^^^ mul64 x1 y1 ^^^ mul64 x2 y0 ^^^ mul64 x3 y3
  let z3 := mul64 x0 y3 ^^^ mul64 x1 y2 ^^^ mul64 x2 y1 ^^^ mul64 x3 y0
  let z0 := z0 &&& 0x1111111111111
  let z1 := z1 &&& 0x2222222222222
  let z2 := z2 &&& 0x4444444444444
  let z3 := z3 &&& 0x8888888888888
  let tmp := z0 ||| z1 ||| z2 ||| z3
  -- polynomial reduction
  let t := tmp &&& 0x1FF0000
  let tmp := tmp ^^^ ((t >>> 9) ^^^ (t >>> 10) ^^^ (t >>> 12) ^^^ (t >>> 13))
  let t := tmp &&& 0x000E000
  let tmp := tmp ^^^ ((t >>> 9) ^^^ (t >>> 10) ^^^ (t >>> 12) ^^^ (t >>> 13))
  (tmp &&& GfMask) % 2 ^ 16

/-- The function `sqr2`: computes `a^4`. -/
def sqr2 (a : Nat) : Nat :=
  let a64 := a
  let a64 := (a64 ||| shl64 a64 24) &&& 0x000000FF000000FF
  let a64 := (a64 ||| shl64 a64 12) &&& 0x000F000F000F000F
  let a64 := (a64 ||| shl64 a64 6) &&& 0x0303030303030303
  let a64 := (a64 ||| shl64 a64 3) &&& 0x1111111111111111
  let t := a64 &&& 0x0001FF0000000000
  let a64 := a64 ^^^ ((t >>> 9) ^^^ (t >>> 10) ^^^ (t >>> 12) ^^^ (t >>> 13))
  let t := a64 &&& 0x000000FF80000000
  let a64 := a64 ^^^ ((t >>> 9) ^^^ (t >>> 10) ^^^ (t >>> 12) ^^^ (t >>> 13))
  let t := a64 &&& 0x000000007FC00000
  let a64 := a64 ^^^ ((t >>> 9) ^^^ (t >>> 10) ^^^ (t >>> 12) ^^^ (t >>> 13))
  let t := a64 &&& 0x00000000003FE000
  let a64 := a64 ^^^ ((t >>> 9) ^^^ (t >>> 10) ^^^ (t >>> 12) ^^^ (t >>> 13))
  (a64 &&& GfMask) % 2 ^ 16

/-- The function `sqrMul`: computes the product of `a^2` and `b`. -/
def sqrMul (a b : Nat) : Nat :=
  let a64 := a
  let b64 := b
  let x := mul64 (shl64 b64 6) (a64 &&& (1 <<< 6))
  let a64 := a64 ^^^ shl64 a64 7
  let x := x ^^^ mul64 b64 (a64 &&& 0x04001)
  let x := x ^^^ shl64 (mul64 b64 (a64 &&& 0x08002)) 1
  let x := x ^^^ shl64 (mul64 b64 (a64 &&& 0x10004)) 2
  let x := x ^^^ shl64 (mul64 b64 (a64 &&& 0x20008)) 3
  let x := x ^^^ shl64 (mul64 b64 (a64 &&& 0x40010)) 4
  let x := x ^^^ shl64 (mul64 b64 (a64 &&& 0x80020)) 5
  let t := x &&& 0x0000001FF0000000
  let x := x ^^^ ((t >>> 9) ^^^ (t >>> 10) ^^^ (t >>> 12) ^^^ (t >>> 13))
  let t := x &&& 0x000000000FF80000
  let x := x ^^^ ((t >>> 9) ^^^ (t >>> 10) ^^^ (t >>> 12) ^^^ (t >>> 13))
  let t := x &&& 0x000000000007E000
  let x := x ^^^ ((t >>> 9) ^^^ (t >>> 10) ^^^ (t >>> 12) ^^^ (t >>> 13))
  (x &&& GfMask) % 2 ^ 16

/-- The function `sqr2Mul`: computes the product of `a^4` and `b`. -/
def sqr2Mul (a b : Nat) : Nat :=
  let a64 := a
  let b64 := b
  let x := mul64 (shl64 b64 18) (a64 &&& (1 <<< 6))
  let a64 := a64 ^^^ shl64 a64 21
  let x := x ^^^ mul64 b64 (a64 &&& 0x010000001)
  let x := x ^^^ shl64 (mul64 b64 (a64 &&& 0x020000002)) 3
  let x := x ^^^ shl64 (mul64 b64 (a64 &&& 0x040000004)) 6
  let x := x ^^^ shl64 (mul64 b64 (a64 &&& 0x080000008)) 9
  let x := x ^^^ shl64 (mul64 b64 (a64 &&& 0x100000010)) 12
  let x := x ^^^ shl64 (mul64 b64 (a64 &&& 0x200000020)) 15
  let t := x &&& 0x1FF0000000000000
  let x := x ^^^ ((t >>> 9) ^^^ (t >>> 10) ^^^ (t >>> 12) ^^^ (t >>> 13))
  let t := x &&& 0x000FF80000000000
  let x := x ^^^ ((t >>> 9) ^^^ (t >>> 10) ^^^ (t >>> 12) ^^^ (t >>> 13))
  let t := x &&& 0x000007FC00000000
  let x := x ^^^ ((t >>> 9) ^^^ (t >>> 10) ^^^ (t >>> 12) ^^^ (t >>> 13))
  let t := x &&& 0x00000003FE000000
  let x := x ^^^ ((t >>> 9) ^^^ (t >>> 10) ^^^ (t >>> 12) ^^^ (t >>> 13))
  let t := x &&& 0x0000000001FE0000
  let x := x ^^^ ((t >>> 9) ^^^ (t >>> 10) ^^^ (t >>> 12) ^^^ (t >>> 13))
  let t := x &&& 0x000000000001E000
  let x := x ^^^ ((t >>> 9) ^^^ (t >>> 10) ^^^ (t >>> 12) ^^^ (t >>> 13))
  (x &&& GfMask) % 2 ^ 16

/-- The function `Div`: computes `a / b` through the addition chain for `b^8190`. -/
def Div (a b : Nat) : Nat :=
  let tmp3 := sqrMul b b
  let tmp15 := sqr2Mul tmp3 tmp3
  let out := sqr2 tmp15
  let out := sqr2Mul out tmp15
  let out := sqr2 out
  let out := sqr2Mul out tmp15
  sqrMul out a

/-- The function `Inv`: the multiplicative inverse of `a`. -/
def Inv (a : Nat) : Nat := Div 1 a

/-! ### Evaluation twins

The same functions written with the primitive operations of `Nat`, which the kernel evaluates
quickly; they are definitionally equal to the functions above and serve the exhaustive checks. -/

/-- One reduction step `x ^= (t>>9) ^ (t>>10) ^ (t>>12) ^ (t>>13)` with `t = x & c`. -/
def redStep (c x : Nat) : Nat :=
  Nat.xor x (Nat.xor (Nat.xor (Nat.xor (Nat.shiftRight (Nat.land x c) 9)
    (Nat.shiftRight (Nat.land x c) 10)) (Nat.shiftRight (Nat.land x c) 12))
    (Nat.shiftRight (Nat.land x c) 13))

/-- Primitive form of `mul64`. -/
def mulW (x y : Nat) : Nat := Nat.mod (Nat.mul x y) 18446744073709551616

/-- Primitive form of `shl64`. -/
def shlW (x s : Nat) : Nat := Nat.mod (Nat.shiftLeft x s) 18446744073709551616

/-- The four masked partial products of `Mul`, already combined with `|`. -/
def mulHoles (a b : Nat) : Nat :=
  Nat.lor (Nat.lor (Nat.lor
    (Nat.land (Nat.xor (Nat.xor (Nat.xor
      (mulW (Nat.land a 0x1111111111111) (Nat.land b 0x1111111111111))
      (mulW (Nat.land a 0x2222222222222) (Nat.land b 0x8888888888888)))
      (mulW (Nat.land a 0x4444444444444) (Nat.land b 0x4444444444444)))
      (mulW (Nat.land a 0x8888888888888) (Nat.land b 0x2222222222222))) 0x1111111111111)
    (Nat.land (Nat.xor (Nat.xor (Nat.xor
      (mulW (Nat.land a 0x1111111111111) (Nat.land b 0x2222222222222))
      (mulW (Nat.land a 0x2222222222222) (Nat.land b 0x1111111111111)))
      (mulW (Nat.land a 0x4444444444444) (Nat.land b 0x8888888888888)))
      (mulW (Nat.land a 0x8888888888888) (Nat.land b 0x4444444444444))) 0x2222222222222))
    (Nat.land (Nat.xor (Nat.xor (Nat.xor
      (mulW (Nat.land a 0x1111111111111) (Nat.land b 0x4444444444444))
      (mulW (Nat.land a 0x2222222222222) (Nat.land b 0x2222222222222)))
      (mulW (Nat.land a 0x4444444444444) (Nat.land b 0x1111111111111)))
      (mulW (Nat.land a 0x8888888888888) (Nat.land b 0x8888888888888))) 0x4444444444444))
    (Nat.land (Nat.xor (Nat.xor (Nat.xor
      (mulW (Nat.land a 0x1111111111111) (Nat.land b 0x8888888888888))
      (mulW (Nat.land a 0x2222222222222) (Nat.land b 0x4444444444444)))
      (mulW (Nat.land a 0x4444444444444) (Nat.land b 0x2222222222222)))
      (mulW (Nat.land a 0x8888888888888) (Nat.land b 0x1111111111111))) 0x8888888888888)

/-- Primitive form of `Mul`. -/
def MulW (a b : Nat) : Nat :=
  Nat.mod (Nat.land (redStep 0x000E000 (redStep 0x1FF0000 (mulHoles a b))) 8191) 65536

/-- One spreading step `(x | x << s) & m` of `sqr2`. -/
def spreadStep (s m x : Nat) : Nat := Nat.land (Nat.lor x (shlW x s)) m

/-- Primitive form of `sqr2`. -/
def sqr2W (a : Nat) : Nat :=
  Nat.mod (Nat.land (redStep 0x00000000003FE000 (redStep 0x000000007FC00000
    (redStep 0x000000FF80000000 (redStep 0x0001FF0000000000
      (spreadStep 3 0x1111111111111111 (spreadStep 6 0x0303030303030303
        (spreadStep 12 0x000F000F000F000F (spreadStep 24 0x000000FF000000FF a)))))))) 8191) 65536

/-- The unreduced accumulator `x` of `sqrMul`. -/
def sqrMulAcc (a b : Nat) : Nat :=
  Nat.xor (Nat.xor (Nat.xor (Nat.xor (Nat.xor (Nat.xor
    (mulW (shlW b 6) (Nat.land a 64))
    (mulW b (Nat.land (Nat.xor a (shlW a 7)) 0x04001)))
    (shlW (mulW b (Nat.land (Nat.xor a (shlW a 7)) 0x08002)) 1))
    (shlW (mulW b (Nat.land (Nat.xor a (shlW a 7)) 0x10004)) 2))
    (shlW (mulW b (Nat.land (Nat.xor a (shlW a 7)) 0x20008)) 3))
    (shlW (mulW b (Nat.land (Nat.xor a (shlW a 7)) 0x40010)) 4))
    (shlW (mulW b (Nat.land (Nat.xor a (shlW a 7)) 0x80020)) 5)

/-- Primitive form of `sqrMul`. -/
def sqrMulW (a b : Nat) : Nat :=
  Nat.mod (Nat.land (redStep 0x000000000007E000 (redStep 0x000000000FF80000
    (redStep 0x0000001FF0000000 (sqrMulAcc a b)))) 8191) 65536

/-- The unreduced accumulator `x` of `sqr2Mul`. -/
def sqr2MulAcc (a b : Nat) : Nat :=
  Nat.xor (Nat.xor (Nat.xor (Nat.xor (Nat.xor (Nat.xor
    (mulW (shlW b 18) (Nat.land a 64))
    (mulW b (Nat.land (Nat.xor a (shlW a 21)) 0x010000001)))
    (shlW (mulW b (Nat.land (Nat.xor a (shlW a 21)) 0x020000002)) 3))
    (shlW (mulW b (Nat.land (Nat.xor a (shlW a 21)) 0x040000004)) 6))
    (shlW (mulW b (Nat.land (Nat.xor a (shlW a 21)) 0x080000008)) 9))
    (shlW (mulW b (Nat.land (Nat.xor a (shlW a 21)) 0x100000010)) 12))
    (shlW (mulW b (Nat.land (Nat.xor a (shlW a 21)) 0x200000020)) 15)

/-- Primitive form of `sqr2Mul`. -/
def sqr2MulW (a b : Nat) : Nat :=
  Nat.mod (Nat.land (redStep 0x000000000001E000 (redStep 0x0000000001FE0000
    (redStep 0x00000003FE000000 (redStep 0x000007FC00000000
      (redStep 0x000FF80000000000 (redStep 0x1FF0000000000000 (sqr2MulAcc a b))))))) 8191) 65536

/-- The power `b^4095` computed by the addition chain of `Div`. -/
def divChain (b : Nat) : Nat :=
  sqr2MulW (sqr2W (sqr2MulW (sqr2W (sqr2MulW (sqrMulW b b) (sqrMulW b b)))
    (sqr2MulW (sqrMulW b b) (sqrMulW b b)))) (sqr2MulW (sqrMulW b b) (sqrMulW b b))

/-- Primitive form of `Div`. -/
def DivW (a b : Nat) : Nat := sqrMulW (divChain b) a

/-- The `i`-th hole mask of `Mul`: the bits at positions congruent to `i` modulo 4. -/
def holeMask : Nat → Nat
  | 0 => 0x1111111111111
  | 1 => 0x2222222222222
  | 2 => 0x4444444444444
  | _ => 0x8888888888888

/-- The value with bits `i`, `i+4`, `i+8`, `i+12` taken from bits 0..3 of the index `t`. -/
def holeVal (i t : Nat) : Nat :=
  Nat.shiftLeft (Nat.lor (Nat.lor (Nat.lor (Nat.land t 1) (Nat.shiftLeft (Nat.land t 2) 3))
    (Nat.shiftLeft (Nat.land t 4) 6)) (Nat.shiftLeft (Nat.land t 8) 9)) i

/-- The index collecting bits `i`, `i+4`, `i+8`, `i+12` of `a`. -/
def holeIdx (i a : Nat) : Nat :=
  Nat.lor (Nat.lor (Nat.lor (Nat.land (Nat.shiftRight a i) 1)
    (Nat.land (Nat.shiftRight a (i + 3)) 2)) (Nat.land (Nat.shiftRight a (i + 6)) 4))
    (Nat.land (Nat.shiftRight a (i + 9)) 8)

/-- One masked partial product of `Mul`. -/
def holeTerm (i j a b : Nat) : Nat :=
  Nat.land (mulW (Nat.land a (holeMask i)) (Nat.land b (holeMask j))) (holeMask ((i + j) % 4))

/-- Bounded universal check: `f (base + i)` for every `i < n`. -/
def checkRange (f : Nat → Bool) (base : Nat) : Nat → Bool
  | 0 => true
  | n + 1 => f (base + n) && checkRange f base n

/-- Two-level bounded check: `f i` for every `i < m * n`, in `n` rows of length `m`. -/
def checkGrid (f : Nat → Bool) (m : Nat) : Nat → Bool
  | 0 => true
  | n + 1 => checkRange f (m * n) m && checkGrid f m n

/-! ### Reference multiplication in GF(2)[z]/(z^13 + z^4 + z^3 + z + 1) -/

/-- The carry-less (XOR) product of the polynomial `a` with the low `n` coefficients of `b`. -/
def clmul (a b : Nat) : Nat → Nat
  | 0 => 0
  | n + 1 => clmul a b n ^^^ (if b.testBit n then a <<< n else 0)

/-- The modulus `z^13 + z^4 + z^3 + z + 1` of the type `Gf`. -/
def gfPoly : Nat := 0x201B

/-- Polynomial remainder modulo `gfPoly`: cancel the coefficients of degree `13 + n - 1` down to
`13`, highest first. -/
def polyMod (x : Nat) : Nat → Nat
  | 0 => x
  | n + 1 => polyMod (if x.testBit (13 + n) then x ^^^ (gfPoly <<< n) else x) n

/-- The reference product: the carry-less product of two 16-bit polynomials, reduced modulo
`gfPoly` (the product has degree at most 30). -/
def MulRef (a b : Nat) : Nat := polyMod (clmul a b 16) 18

end gf8192

/-! ## `pk_gen_vec.templ.go`: public-key generation

The file is a template instantiated once per parameter set.  The template flags and the package
constants it refers to (`gfBits`, `sysT`, `sysN`, `pkNRows`, `pkNCols`, `pkRowBytes`) are the
fields of `Params`.  Arrays are functions from indices; a slice `a[off:]` is the array together
with the offset `off`. -/

namespace mceliece

/-! ### Loops and arrays -/

/-- The loop `for i := 0; i < n; i++ { s = body i s }`. -/
def loopUp {σ : Type} (n : Nat) (body : Nat → σ → σ) (s : σ) : σ :=
  match n with
  | 0 => s
  | n + 1 => body n (loopUp n body s)

/-- The loop `for i := n - 1; i >= 0; i-- { s = body i s }`. -/
def loopDown {σ : Type} (n : Nat) (body : Nat → σ → σ) (s : σ) : σ :=
  match n with
  | 0 => s
  | n + 1 => loopDown n body (body n s)

/-- The loop `for i := lo; i < hi; i++ { s = body i s }`. -/
def loopRange {σ : Type} (lo hi : Nat) (body : Nat → σ → σ) (s : σ) : σ :=
  loopUp (hi - lo) (fun t => body (lo + t)) s

/-- The loop `for i := 0; i < n; i++` whose body may `return false` (`none`). -/
def loopUpM {σ : Type} (n : Nat) (body : Nat → σ → Option σ) (s : σ) : Option σ :=
  match n with
  | 0 => some s
  | n + 1 => (loopUpM n body s).bind (body n)

/-- The loop `for i := hi - 1; i >= lo; i-- { s = body i s }`. -/
def loopDownRange {σ : Type} (lo hi : Nat) (body : Nat → σ → σ) (s : σ) : σ :=
  loopDown (hi - lo) (fun t => body (lo + t)) s

/-- The loop `for i := lo; i < hi; i++` whose body may `return false` (`none`). -/
def loopRangeM {σ : Type} (lo hi : Nat) (body : Nat → σ → Option σ) (s : σ) : Option σ :=
  loopUpM (hi - lo) (fun t => body (lo + t)) s

/-- The assignment `a[i] = v`. -/
def set1 {α : Type} (a : Nat → α) (i : Nat) (v : α) : Nat → α :=
  fun k => if k = i then v else a k

/-- The assignment `m[r][c] = v`. -/
def set2 (m : Nat → Nat → Nat) (r c v : Nat) : Nat → Nat → Nat :=
  fun i j => if i = r ∧ j = c then v else m i j

/-! ### Parameters -/

/-- The template flags and the package constants used by the template. -/
structure Params where
  /-- The flag `.Is348864`. -/
  Is348864 : Bool
  /-- The flag `.Is6688128`. -/
  Is6688128 : Bool
  /-- The flag `.Is6960119`. -/
  Is6960119 : Bool
  /-- The flag `.Is8192128`. -/
  Is8192128 : Bool
  /-- The constant `gfBits`. -/
  gfBits : Nat
  /-- The constant `sysT`. -/
  sysT : Nat
  /-- The constant `sysN`. -/
  sysN : Nat
  /-- The constant `pkNRows`. -/
  pkNRows : Nat
  /-- The constant `pkNCols`. -/
  pkNCols : Nat
  /-- The constant `pkRowBytes`. -/
  pkRowBytes : Nat

/-- The parameter set `mceliece348864` (field size `2^12`, `t = 64`, `n = 3488`). -/
def mceliece348864 : Params :=
  { Is348864 := true, Is6688128 := false, Is6960119 := false, Is8192128 := false,
    gfBits := 12, sysT := 64, sysN := 3488, pkNRows := 768, pkNCols := 2720,
    pkRowBytes := 340 }

/-- The parameter set `mceliece460896` (field size `2^13`, `t = 96`, `n = 4608`). -/
def mceliece460896 : Params :=
  { Is348864 := false, Is6688128 := false, Is6960119 := false, Is8192128 := false,
    gfBits := 13, sysT := 96, sysN := 4608, pkNRows := 1248, pkNCols := 3360,
    pkRowBytes := 420 }

/-- The parameter set `mceliece6688128` (field size `2^13`, `t = 128`, `n = 6688`). -/
def mceliece6688128 : Params :=
  { Is348864 := false, Is6688128 := true, Is6960119 := false, Is8192128 := false,
    gfBits := 13, sysT := 128, sysN := 6688, pkNRows := 1664, pkNCols := 5024,
    pkRowBytes := 628 }

/-- The parameter set `mceliece6960119` (field size `2^13`, `t = 119`, `n = 6960`). -/
def mceliece6960119 : Params :=
  { Is348864 := false, Is6688128 := false, Is6960119 := true, Is8192128 := false,
    gfBits := 13, sysT := 119, sysN := 6960, pkNRows := 1547, pkNCols := 5413,
    pkRowBytes := 677 }

/-- The parameter set `mceliece8192128` (field size `2^13`, `t = 128`, `n = 8192`). -/
def mceliece8192128 : Params :=
  { Is348864 := false, Is6688128 := false, Is6960119 := false, Is8192128 := true,
    gfBits := 13, sysT := 128, sysN := 8192, pkNRows := 1664, pkNCols := 6528,
    pkRowBytes := 816 }

/-- The constant `exponent`. -/
def exponent (P : Params) : Nat := if P.Is348864 then 64 else 128

/-- Modelled from the spec: the package constant `gfMask` is not in the source files; it is the
mask of the low `m = gfBits` bits of a field element in `[0, 2^m)`. -/
def gfMask (P : Params) : Nat := (1 <<< P.gfBits) - 1

/-- The constant `nblocksH`. -/
def nblocksH (P : Params) : Nat := (P.sysN + 63) / 64

/-- The constant `nblocksI`. -/
def nblocksI (P : Params) : Nat := (P.pkNRows + 63) / 64

/-- The constant `blockIdx`. -/
def blockIdx (P : Params) : Nat :=
  if P.Is348864 || P.Is6688128 then nblocksI P else nblocksI P - 1

/-- The constant `tail`. -/
def tail (P : Params) : Nat := P.pkNRows % 64

/-- The functions of the package that `pkGen` calls and that live in other files. -/
structure Ext where
  /-- The function `loadGf(in)`: a field element read from a byte slice. -/
  loadGf : (Nat → Nat) → Nat
  /-- The function `fft(out, in)`: the new contents of `out`. -/
  fft : (Nat → Nat → Nat) → (Nat → Nat → Nat) → (Nat → Nat → Nat)
  /-- The function `vecMul(out, a, b)`: the block written to `out`. -/
  vecMul : (Nat → Nat) → (Nat → Nat) → (Nat → Nat)
  /-- The function `vecInv(out, a)`: the block written to `out`. -/
  vecInv : (Nat → Nat) → (Nat → Nat)
  /-- The function `internal.UInt64Sort(list, n)`: the new contents of `list`. -/
  UInt64Sort : (Nat → Nat) → Nat → (Nat → Nat)

/-- Modelled from the spec: `vecCopy` is not in the source files; section 4.4 reads
`p_0 = e_0` and `inv_0 = runningInverse`, a copy of the block. -/
def vecCopy (inp : Nat → Nat) : Nat → Nat := inp

/-! ### Byte stores -/

/-- The function `storeI`, writing into the slice `out[off:]`. -/
def storeI (out : Nat → Nat) (off : Nat) (inp : Nat) (i : Nat) : Nat → Nat :=
  loopUp i (fun j out => set1 out (off + j) (((inp >>> (j * 8)) &&& 0xFF) % 256)) out

/-- Modelled from the spec: `store8` is not in the source files; full words are emitted
"directly", in the byte order of `storeI`, eight bytes at a time. -/
def store8 (out : Nat → Nat) (off : Nat) (inp : Nat) : Nat → Nat :=
  storeI out off inp 8

/-! ### Bitslicing -/

/-- The function `deBitSlicing`. -/
def deBitSlicing (P : Params) (out : Nat → Nat) (inp : Nat → Nat → Nat) : Nat → Nat :=
  let out := loopUp (1 <<< P.gfBits) (fun i out => set1 out i 0) out
  loopUp (exponent P) (fun i out =>
    loopDown P.gfBits (fun j out =>
      loopUp 64 (fun r out =>
        let out := set1 out (i * 64 + r) (shl64 (out (i * 64 + r)) 1)
        set1 out (i * 64 + r) (out (i * 64 + r) ||| ((inp i j >>> r) &&& 1))) out) out) out

/-- The function `toBitslicing2x`; the result is the pair `(out0, out1)`. -/
def toBitslicing2x (P : Params) (out0 out1 : Nat → Nat → Nat) (inp : Nat → Nat) :
    (Nat → Nat → Nat) × (Nat → Nat → Nat) :=
  loopUp (exponent P) (fun i (s : (Nat → Nat → Nat) × (Nat → Nat → Nat)) =>
    let out1 := loopDown P.gfBits (fun j out1 =>
      loopDown 64 (fun r out1 =>
        let out1 := set2 out1 i j (shl64 (out1 i j) 1)
        set2 out1 i j (out1 i j ||| ((inp (i * 64 + r) >>> (j + P.gfBits)) &&& 1))) out1) s.2
    let out0 := loopDown P.gfBits (fun j out0 =>
      loopDown 64 (fun r out0 =>
        let out0 := set2 out0 i (P.gfBits - 1 - j) (shl64 (out0 i (P.gfBits - 1 - j)) 1)
        set2 out0 i (P.gfBits - 1 - j)
          (out0 i (P.gfBits - 1 - j) ||| ((inp (i * 64 + r) >>> j) &&& 1))) out0) s.1
    (out0, out1)) (out0, out1)

/-! ### Loading the polynomial -/

/-- The function `irrLoad`.  For `.Is348864` the output is a one-dimensional array, kept here
as row 0 of `out`. -/
def irrLoad (P : Params) (E : Ext) (out : Nat → Nat → Nat) (inp : Nat → Nat) :
    Nat → Nat → Nat :=
  if P.Is6688128 || P.Is8192128 then
    let irr : Nat → Nat := loopUp P.sysT
      (fun i irr => set1 irr i (E.loadGf (fun k => inp (i * 2 + k)) % 2 ^ 16)) (fun _ => 0)
    (loopUp P.gfBits (fun i (s : (Nat → Nat → Nat) × Nat × Nat) =>
      let v := loopDown 64 (fun j (v : Nat × Nat) =>
        let v0 := shl64 v.1 1
        let v1 := shl64 v.2 1
        let v0 := v0 ||| ((irr j >>> i) &&& 1)
        let v1 := v1 ||| ((irr (j + 64) >>> i) &&& 1)
        (v0, v1)) s.2
      let out := set2 s.1 0 i v.1
      let out := set2 out 1 i v.2
      (out, v)) (out, 0, 0)).1
  else
    let irr : Nat → Nat := loopUp P.sysT
      (fun i irr => set1 irr i (E.loadGf (fun k => inp (i * 2 + k)) % 2 ^ 16)) (fun _ => 0)
    let irr := set1 irr P.sysT 1
    if P.Is348864 then
      let out := loopUp P.gfBits (fun i out => set2 out 0 i 0) out
      loopDown (P.sysT + 1) (fun i out =>
        loopUp P.gfBits (fun j out =>
          let out := set2 out 0 j (shl64 (out 0 j) 1)
          set2 out 0 j (out 0 j ||| ((irr i >>> j) &&& 1))) out) out
    else
      loopUp P.gfBits (fun i out =>
        let v0 := loopDown 64 (fun j v0 => shl64 v0 1 ||| ((irr j >>> i) &&& 1)) 0
        let v1 := loopDownRange 64 (P.sysT + 1)
          (fun j v1 => shl64 v1 1 ||| ((irr j >>> i) &&& 1)) 0
        let out := set2 out 0 i v0
        set2 out 1 i v1) out

/-! ### The stages of `pkGen` -/

/-- The conversion `int16(x)` of a 64-bit word. -/
def toInt16 (x : Nat) : Int := ((x + 2 ^ 15) % 2 ^ 16 : Nat) - 2 ^ 15

/-- Lines 170-179 of `pkGen`: the inverses of the evaluations, `prod` on exit. -/
def batchInverse (P : Params) (E : Ext) (eval prod : Nat → Nat → Nat) : Nat → Nat → Nat :=
  let prod := set1 prod 0 (vecCopy (eval 0))
  let prod := loopRange 1 (exponent P)
    (fun i prod => set1 prod i (E.vecMul (prod (i - 1)) (eval i))) prod
  let tmp := E.vecInv (prod (exponent P - 1))
  let s := loopDown (exponent P - 1) (fun i (s : (Nat → Nat → Nat) × (Nat → Nat)) =>
    let prod := set1 s.1 (i + 1) (E.vecMul (s.1 i) s.2)
    let tmp := E.vecMul s.2 (eval (i + 1))
    (prod, tmp)) (prod, tmp)
  set1 s.1 0 (vecCopy s.2)

/-- Lines 183-187 of `pkGen`: the sort keys. -/
def sortKeys (P : Params) (list : Nat → Nat) (perm : Nat → Nat) : Nat → Nat :=
  loopUp (1 <<< P.gfBits) (fun i list =>
    let list := set1 list i (shl64 (list i) P.gfBits)
    let list := set1 list i (list i ||| i)
    set1 list i (list i ||| shl64 (perm i) 31)) list

/-- Lines 190-194 of `pkGen`: the adjacent-pair scan; `none` is `return false`. -/
def scanKeys (P : Params) (list : Nat → Nat) : Option Unit :=
  loopRangeM 1 (1 <<< P.gfBits) (fun i _ =>
    if list (i - 1) >>> 31 = list i >>> 31 then none else some ()) ()

/-- Lines 197-199 of `pkGen`: the permutation table. -/
def writePi (P : Params) (list : Nat → Nat) (pi : Nat → Int) : Nat → Int :=
  loopUp (1 <<< P.gfBits) (fun i pi => set1 pi i (toInt16 (list i &&& gfMask P))) pi

/-- Lines 201-214 (`lo = 0`, `hi = nblocksI`) and 326-339 (`lo = nblocksI`, `hi = nblocksH`)
of `pkGen`: the column blocks `lo .. hi - 1` of `mat`; the result is `(mat, prod)`. -/
def fillBlocks (P : Params) (E : Ext) (lo hi : Nat) (consts : Nat → Nat → Nat)
    (s : (Nat → Nat → Nat) × (Nat → Nat → Nat)) : (Nat → Nat → Nat) × (Nat → Nat → Nat) :=
  let mat := loopRange lo hi (fun j mat =>
    loopUp P.gfBits (fun k mat => set2 mat k j (s.2 j k)) mat) s.1
  loopRange 1 P.sysT (fun i s =>
    loopRange lo hi (fun j (s : (Nat → Nat → Nat) × (Nat → Nat → Nat)) =>
      let prod := set1 s.2 j (E.vecMul (s.2 j) (consts j))
      let mat := loopUp P.gfBits (fun k mat => set2 mat (i * P.gfBits + k) j (prod j k)) s.1
      (mat, prod)) s) (mat, s.2)

/-- Lines 218-243 of `pkGen`: `ops` becomes the identity matrix. -/
def opsInit (P : Params) (ops : Nat → Nat → Nat) : Nat → Nat → Nat :=
  if P.Is8192128 then
    let ops := loopUp (P.pkNRows / 64) (fun i ops =>
      loopUp 64 (fun j ops =>
        loopUp (P.pkNRows / 64) (fun c ops => set2 ops (i * 64 + j) c 0) ops) ops) ops
    loopUp (P.pkNRows / 64) (fun i ops =>
      loopUp 64 (fun j ops =>
        let ops := set2 ops (i * 64 + j) i 1
        set2 ops (i * 64 + j) i (shl64 (ops (i * 64 + j) i) j)) ops) ops
  else
    let ops := loopUp P.pkNRows (fun i ops =>
      loopUp (nblocksI P) (fun j ops => set2 ops i j 0) ops) ops
    loopUp P.pkNRows (fun i ops =>
      let ops := set2 ops i (i / 64) 1
      set2 ops i (i / 64) (shl64 (ops i (i / 64)) (i % 64))) ops

/-- Lines 246-249 of `pkGen`: the saved column block (only when the row count is not a
multiple of 64). -/
def saveColumn (P : Params) (mat : Nat → Nat → Nat) (column : Nat → Nat) : Nat → Nat :=
  loopUp P.pkNRows (fun i column => set1 column i (mat i (blockIdx P))) column

/-- Lines 264-288 of `pkGen`: one round of the forward pass, for the pivot `row` found in
word `i`, bit `j`; `none` is `return false`. -/
def forwardRow (P : Params) (row i j : Nat)
    (s : (Nat → Nat → Nat) × (Nat → Nat → Nat)) :
    Option ((Nat → Nat → Nat) × (Nat → Nat → Nat)) :=
  let s := loopRange (row + 1) P.pkNRows
    (fun k (s : (Nat → Nat → Nat) × (Nat → Nat → Nat)) =>
      let mask := s.1 row i >>> j
      let mask := mask &&& 1
      let mask := sub64 mask 1
      loopUp (nblocksI P) (fun c (s : (Nat → Nat → Nat) × (Nat → Nat → Nat)) =>
        (set2 s.1 row c (s.1 row c ^^^ (s.1 k c &&& mask)),
         set2 s.2 row c (s.2 row c ^^^ (s.2 k c &&& mask)))) s) s
  -- return if not systematic
  if (s.1 row i >>> j) &&& 1 = 0 then none
  else
    some (loopRange (row + 1) P.pkNRows
      (fun k (s : (Nat → Nat → Nat) × (Nat → Nat → Nat)) =>
        let mask := s.1 k i >>> j
        let mask := mask &&& 1
        let mask := neg64 mask
        loopUp (nblocksI P) (fun c (s : (Nat → Nat → Nat) × (Nat → Nat → Nat)) =>
          (set2 s.1 k c (s.1 k c ^^^ (s.1 row c &&& mask)),
           set2 s.2 k c (s.2 k c ^^^ (s.2 row c &&& mask)))) s) s)

/-- Lines 254-292 of `pkGen`: the forward pass on `(mat, ops)`. -/
def forwardPass (P : Params) (s : (Nat → Nat → Nat) × (Nat → Nat → Nat)) :
    Option ((Nat → Nat → Nat) × (Nat → Nat → Nat)) :=
  if P.Is8192128 then
    loopUpM (P.pkNRows / 64) (fun i s =>
      loopUpM 64 (fun j s => forwardRow P (i * 64 + j) i j s) s) s
  else
    loopUpM P.pkNRows (fun row s => forwardRow P row (row >>> 6) (row &&& 63) s) s

/-- Lines 300-308 and 313-321 of `pkGen`: one round of the backward pass, for the pivot `row`
read in word `i`, bit `j`, over `cN` words of `ops`. -/
def backwardRow (row i j cN : Nat) (mat ops : Nat → Nat → Nat) : Nat → Nat → Nat :=
  loopUp row (fun k ops =>
    let mask := mat k i >>> j
    let mask := mask &&& 1
    let mask := neg64 mask
    loopUp cN (fun c ops => set2 ops k c (ops k c ^^^ (ops row c &&& mask))) ops) ops

/-- Lines 295-323 of `pkGen`: the backward pass; only `ops` is written. -/
def backwardPass (P : Params) (mat ops : Nat → Nat → Nat) : Nat → Nat → Nat :=
  if P.Is8192128 then
    loopDown (P.pkNRows / 64) (fun i ops =>
      loopDown 64 (fun j ops => backwardRow (i * 64 + j) i j (P.pkNRows / 64) mat ops) ops) ops
  else
    loopDown P.pkNRows (fun row ops =>
      backwardRow row (row / 64) (row &&& 63) (nblocksI P) mat ops) ops

/-- Lines 254-323 of `pkGen`: both elimination passes on `(mat, ops)`; `none` is
`return false`. -/
def elimination (P : Params) (s : (Nat → Nat → Nat) × (Nat → Nat → Nat)) :
    Option ((Nat → Nat → Nat) × (Nat → Nat → Nat)) :=
  match forwardPass P s with
  | none => none
  | some s =>
    -- computing the linear map required to obtain the systematic form
    some (s.1, backwardPass P s.1 s.2)

/-- Lines 372-374 of `pkGen`: the saved column block is put back. -/
def restoreColumn (P : Params) (mat : Nat → Nat → Nat) (column : Nat → Nat) :
    Nat → Nat → Nat :=
  loopUp P.pkNRows (fun i mat => set2 mat i (blockIdx P) (column i)) mat

/-- The state of the serialisation loops: the buffer `pk`, the offset of the slice `pkp` in it,
and the scratch row `oneRow`. -/
structure OutState where
  /-- The buffer `pk`. -/
  pk : Nat → Nat
  /-- The offset of `pkp` in `pk`. -/
  off : Nat
  /-- The array `oneRow`. -/
  oneRow : Nat → Nat

/-- Lines 376-410 of `pkGen`: one row of the public key, all parameter sets but `.Is8192128`. -/
def emitRow (P : Params) (mat ops : Nat → Nat → Nat) (row : Nat) (s : OutState) : OutState :=
  let oneRow := loopUp (nblocksH P) (fun k oneRow => set1 oneRow k 0) s.oneRow
  let oneRow := loopUp P.pkNRows (fun c oneRow =>
    let mask := ops row (c >>> 6) >>> (c &&& 63)
    let mask := mask &&& 1
    let mask := neg64 mask
    loopRange (blockIdx P) (nblocksH P)
      (fun k oneRow => set1 oneRow k (oneRow k ^^^ (mat c k &&& mask))) oneRow) oneRow
  let s : OutState := loopRange (blockIdx P) (nblocksH P - 1) (fun k (s : OutState) =>
    let oneRow :=
      if !(P.Is348864 || P.Is6688128) then
        set1 s.oneRow k ((s.oneRow k >>> tail P) ||| shl64 (s.oneRow (k + 1)) (64 - tail P))
      else s.oneRow
    { pk := store8 s.pk s.off (oneRow k), off := s.off + 8, oneRow := oneRow })
    { pk := s.pk, off := s.off, oneRow := oneRow }
  -- the value of `k` after the loop
  let k := max (blockIdx P) (nblocksH P - 1)
  let oneRow :=
    if !(P.Is348864 || P.Is6688128) then set1 s.oneRow k (s.oneRow k >>> tail P) else s.oneRow
  let pk := storeI s.pk s.off (oneRow k) (P.pkRowBytes % 8)
  let pk :=
    if P.Is6960119 then
      -- removing redundant bits
      set1 pk (s.off + (P.pkRowBytes % 8 - 1))
        (pk (s.off + (P.pkRowBytes % 8 - 1)) &&& (((1 <<< (P.pkNCols % 8)) - 1) % 256))
    else pk
  { pk := pk, off := s.off + P.pkRowBytes % 8, oneRow := oneRow }

/-- Lines 344-369 of `pkGen`: one row of the public key for `.Is8192128`. -/
def emitRow8192 (P : Params) (mat ops : Nat → Nat → Nat) (row : Nat) (s : OutState) :
    OutState :=
  let oneRow := loopUp (P.pkNCols / 64) (fun k oneRow => set1 oneRow k 0) s.oneRow
  let oneRow := loopUp (P.pkNRows / 64) (fun c oneRow =>
    loopUp 64 (fun d oneRow =>
      let mask := ops row c >>> d
      let mask := mask &&& 1
      let mask := neg64 mask
      loopUp (P.pkNCols / 64) (fun k oneRow =>
        set1 oneRow k (oneRow k ^^^ (mat (c * 64 + d) (k + P.pkNRows / 64) &&& mask)))
        oneRow) oneRow) oneRow
  loopUp (P.pkNCols / 64) (fun k (s : OutState) =>
    { pk := store8 s.pk s.off (s.oneRow k), off := s.off + 8, oneRow := s.oneRow })
    { pk := s.pk, off := s.off, oneRow := oneRow }

/-- Lines 341-411 of `pkGen`: the linear map applied to the non-systematic part, written to
`pk`. -/
def emitKey (P : Params) (mat ops : Nat → Nat → Nat) (pk : Nat → Nat) : Nat → Nat :=
  if P.Is8192128 then
    (loopUp (P.pkNRows / 64) (fun i s =>
      loopUp 64 (fun j s => emitRow8192 P mat ops (i * 64 + j) s) s)
      { pk := pk, off := 0, oneRow := fun _ => 0 }).pk
  else
    (loopUp P.pkNRows (fun row s => emitRow P mat ops row s)
      { pk := pk, off := 0, oneRow := fun _ => 0 }).pk

/-- What `pkGen` returns and leaves in its output parameters. -/
structure Result where
  /-- The returned boolean. -/
  ok : Bool
  /-- The buffer `pk` after the call. -/
  pk : Nat → Nat
  /-- The table `pi` after the call. -/
  pi : Nat → Int
  /-- The word `*pivots` after the call. -/
  pivots : Nat

/-- Lines 168-195 of `pkGen`: the sorted keys, before the scan. -/
def sortedKeys (P : Params) (E : Ext) (irr : Nat → Nat) (perm : Nat → Nat) : Nat → Nat :=
  let irrInt := irrLoad P E (fun _ _ => 0) irr
  let eval := E.fft (fun _ _ => 0) irrInt
  let prod := batchInverse P E eval (fun _ _ => 0)
  let list := deBitSlicing P (fun _ => 0) prod
  let list := sortKeys P list perm
  E.UInt64Sort list (1 <<< P.gfBits)

/-- The blocks `prod` when line 195 of `pkGen` is reached (before `toBitslicing2x`). -/
def prodBeforeSplit (P : Params) (E : Ext) (irr : Nat → Nat) : Nat → Nat → Nat :=
  let irrInt := irrLoad P E (fun _ _ => 0) irr
  let eval := E.fft (fun _ _ => 0) irrInt
  batchInverse P E eval (fun _ _ => 0)

/-- The function `pkGen`. -/
def pkGen (P : Params) (E : Ext) (pk : Nat → Nat) (irr : Nat → Nat) (perm : Nat → Nat)
    (pi : Nat → Int) (pivots : Nat) : Result :=
  let mat : Nat → Nat → Nat := fun _ _ => 0
  let ops : Nat → Nat → Nat := fun _ _ => 0
  let consts : Nat → Nat → Nat := fun _ _ => 0
  -- compute the inverses
  let prod := prodBeforeSplit P E irr
  -- fill matrix
  let list := sortedKeys P E irr perm
  match scanKeys P list with
  | none => { ok := false, pk := pk, pi := pi, pivots := pivots }
  | some _ =>
    let cp := toBitslicing2x P consts prod list
    let consts := cp.1
    let prod := cp.2
    let pi := writePi P list pi
    let mp := fillBlocks P E 0 (nblocksI P) consts (mat, prod)
    -- gaussian elimination to obtain an upper triangular matrix
    -- and keep track of the operations in ops
    let ops := opsInit P ops
    let column : Nat → Nat :=
      if !P.Is8192128 && !(P.Is348864 || P.Is6688128) then saveColumn P mp.1 (fun _ => 0)
      else fun _ => 0
    match elimination P (mp.1, ops) with
    | none => { ok := false, pk := pk, pi := pi, pivots := pivots }
    | some s =>
      -- apply the linear map to the non-systematic part
      let mp := fillBlocks P E (nblocksI P) (nblocksH P) consts (s.1, mp.2)
      let mat :=
        if !P.Is8192128 && !(P.Is348864 || P.Is6688128) then restoreColumn P mp.1 column
        else mp.1
      { ok := true, pk := emitKey P mat s.2 pk, pi := pi, pivots := pivots }

/-! ### Reading the packed matrices -/

/-- Entry `(r, c)` of a bit-packed matrix: bit `c % 64` of the word `c / 64` of row `r`. -/
def bitAt (m : Nat → Nat → Nat) (r c : Nat) : Bool := (m r (c / 64)).testBit (c % 64)

/-- The `nr × nc` matrix over GF(2) read from the columns `off .. off + nc - 1` of a bit-packed
matrix. -/
def bitMatrix (m : Nat → Nat → Nat) (nr nc off : Nat) : Matrix (Fin nr) (Fin nc) (ZMod 2) :=
  fun i j => if bitAt m i (off + j) then 1 else 0

/-- The all-ones or all-zeros word selected by a bit. -/
def maskOf (cond : Bool) : Nat := if cond then 2 ^ 64 - 1 else 0

/-- The effect of one inner loop `for c < nb { m[dst][c] ^= m[src][c] & mask }`. -/
def rowXor (nb dst src mask : Nat) (m : Nat → Nat → Nat) : Nat → Nat → Nat :=
  fun a b => if a = dst ∧ b < nb then m dst b ^^^ (m src b &&& mask) else m a b

/-- The first `row` columns of the left block are reduced: a one on the diagonal and zeros
below it. -/
def Reduced (n row : Nat) (m : Nat → Nat → Nat) : Prop :=
  ∀ c, c < row → bitAt m c c = true ∧ ∀ k, c < k → k < n → bitAt m k c = false

/-- The state `(mat, ops)` is the image of the initial left block `A` and of the initial `ops`
block `O` under one and the same product `E` of elementary row additions. -/
def Tracks (n : Nat) (A O : Matrix (Fin n) (Fin n) (ZMod 2))
    (s : (Nat → Nat → Nat) × (Nat → Nat → Nat)) : Prop :=
  ∃ E : Matrix (Fin n) (Fin n) (ZMod 2),
    E.det = 1 ∧ bitMatrix s.1 n n 0 = E * A ∧ bitMatrix s.2 n n 0 = E * O

/-- State of the backward pass when the rows `row, row+1, ..` are done: `ops * A` has the
columns of the identity from `row` on and still the columns of the triangular block `U`
before. -/
def BackInv (n : Nat) (A U : Matrix (Fin n) (Fin n) (ZMod 2)) (row : Nat)
    (ops : Nat → Nat → Nat) : Prop :=
  ∀ i j : Fin n, (bitMatrix ops n n 0 * A) i j
    = if row ≤ (j : Nat) then (if i = j then 1 else 0) else U i j

/-- An example of a packed matrix: the identity with one more entry in row 0, column 1. -/
def exampleMat : Nat → Nat → Nat :=
  fun r c => if c = r / 64 then (1 <<< (r % 64)) ||| (if r = 0 then 2 else 0) else 0

/-- What is assumed of `internal.UInt64Sort(list, n)`: the first `n` entries of `out` are in
ascending order and are a rearrangement of the first `n` entries of `inp`. -/
def SortedPerm (n : Nat) (inp out : Nat → Nat) : Prop :=
  (∀ i j, i ≤ j → j < n → out i ≤ out j) ∧
    (List.map out (List.range n)).Perm (List.map inp (List.range n))

/-- A sorting function that meets `SortedPerm`: insertion sort of the first `n` entries. -/
def sortArr (l : Nat → Nat) (n : Nat) : Nat → Nat :=
  fun i => if i < n then ((List.map l (List.range n)).insertionSort (fun a b => a ≤ b)).getD i 0
    else l i

/-- An instance of the external functions, with `sortArr` for `internal.UInt64Sort`. -/
def exampleExt : Ext :=
  { loadGf := fun _ => 0, fft := fun out _ => out, vecMul := fun a _ => a, vecInv := fun a => a,
    UInt64Sort := sortArr }

end mceliece

namespace mceliece

/-! ### Names for the intermediate values of `pkGen` -/

/-- The pair `(consts, prod)` after line 195 of `pkGen`. -/
def keyBlocks (P : Params) (E : Ext) (irr perm : Nat → Nat) :
    (Nat → Nat → Nat) × (Nat → Nat → Nat) :=
  toBitslicing2x P (fun _ _ => 0) (prodBeforeSplit P E irr) (sortedKeys P E irr perm)

/-- The pair `(mat, prod)` after line 214 of `pkGen`. -/
def leftFill (P : Params) (E : Ext) (irr perm : Nat → Nat) :
    (Nat → Nat → Nat) × (Nat → Nat → Nat) :=
  fillBlocks P E 0 (nblocksI P) (keyBlocks P E irr perm).1
    (fun _ _ => 0, (keyBlocks P E irr perm).2)

/-- The array `column` after line 250 of `pkGen`. -/
def savedColumn (P : Params) (E : Ext) (irr perm : Nat → Nat) : Nat → Nat :=
  if !P.Is8192128 && !(P.Is348864 || P.Is6688128) then
    saveColumn P (leftFill P E irr perm).1 (fun _ => 0)
  else fun _ => 0

/-- The matrix `mat` when line 341 of `pkGen` is reached, `s` being the state left by the
elimination. -/
def finalMat (P : Params) (E : Ext) (irr perm : Nat → Nat)
    (s : (Nat → Nat → Nat) × (Nat → Nat → Nat)) : Nat → Nat → Nat :=
  if !P.Is8192128 && !(P.Is348864 || P.Is6688128) then
    restoreColumn P (fillBlocks P E (nblocksI P) (nblocksH P) (keyBlocks P E irr perm).1
      (s.1, (leftFill P E irr perm).2)).1 (savedColumn P E irr perm)
  else
    (fillBlocks P E (nblocksI P) (nblocksH P) (keyBlocks P E irr perm).1
      (s.1, (leftFill P E irr perm).2)).1

/-- The array `list` when line 188 of `pkGen` is reached (the keys before they are sorted). -/
def unsortedKeys (P : Params) (E : Ext) (irr perm : Nat → Nat) : Nat → Nat :=
  sortKeys P (deBitSlicing P (fun _ => 0) (prodBeforeSplit P E irr)) perm

/-! ### Bitsliced blocks read lane by lane -/

/-- The block `p * c^i` as `pkGen` computes it: `i` calls `vecMul(prod[j], prod[j], consts[j])`
starting from `p`. -/
def powBlock (E : Ext) (p c : Nat → Nat) : Nat → Nat → Nat
  | 0 => p
  | i + 1 => E.vecMul (powBlock E p c i) c

/-- The number with the bits `bit 0, .., bit (n-1)`. -/
def packBits (n : Nat) (bit : Nat → Bool) : Nat :=
  loopUp n (fun k x => x ||| ((bit k).toNat <<< k)) 0

/-- Lane `r` of a bitsliced block `b` of `g` planes: the field element whose bit `k` is bit `r`
of the word `b[k]`. -/
def lane (g : Nat) (b : Nat → Nat) (r : Nat) : Nat := packBits g (fun k => (b k).testBit r)

/-- Plane `k` of 64 field elements `f 0, .., f 63`: the word whose bit `r` is bit `k` of
`f r`. -/
def plane (f : Nat → Nat) (k : Nat) : Nat := packBits 64 (fun r => (f r).testBit k)

/-- The power `c^i` for a multiplication `mul` with unit `one`. -/
def gpow (mul : Nat → Nat → Nat) (one c : Nat) : Nat → Nat
  | 0 => one
  | i + 1 => mul (gpow mul one c i) c

/-- The operations `mul`, `inv` and the element `one` make the numbers below `q` a field (as far
as the nonzero elements go): closure, commutativity, associativity, unit, zero and inverses. -/
def FieldOps (q : Nat) (mul : Nat → Nat → Nat) (inv : Nat → Nat) (one : Nat) : Prop :=
  (∀ x y, x < q → y < q → mul x y < q) ∧
  (∀ x, x < q → inv x < q) ∧
  (one < q) ∧
  (∀ x y, x < q → y < q → mul x y = mul y x) ∧
  (∀ x y z, x < q → y < q → z < q → mul (mul x y) z = mul x (mul y z)) ∧
  (∀ x, x < q → mul x one = x) ∧
  (∀ x, x < q → mul 0 x = 0) ∧
  (∀ x, x < q → x ≠ 0 → mul x (inv x) = one)

/-- The function `vecMul` multiplies lane by lane. -/
def LaneMul (g : Nat) (E : Ext) (mul : Nat → Nat → Nat) : Prop :=
  ∀ a b r, r < 64 → lane g (E.vecMul a b) r = mul (lane g a r) (lane g b r)

/-- The function `vecInv` inverts lane by lane. -/
def LaneInv (g : Nat) (E : Ext) (inv : Nat → Nat) : Prop :=
  ∀ a r, r < 64 → lane g (E.vecInv a) r = inv (lane g a r)

/-- Modelled from the spec: `vecMul` and `vecInv` are not in the source files; section 4.4
reads them as the product and the inverse in every lane, here with `gf8192.Mul` and
`gf8192.Inv` on blocks of 13 planes.  The other functions are those of `exampleExt`. -/
def gf8192Ext : Ext :=
  { loadGf := fun _ => 0, fft := fun out _ => out,
    vecMul := fun a b k => plane (fun r => gf8192.Mul (lane 13 a r) (lane 13 b r)) k,
    vecInv := fun a k => plane (fun r => gf8192.Inv (lane 13 a r)) k,
    UInt64Sort := sortArr }

/-- The running products of lines 170-173 of `pkGen`: `prod[0] = eval[0]` and
`prod[i] = vecMul(prod[i-1], eval[i])`. -/
def runProd (E : Ext) (eval : Nat → Nat → Nat) : Nat → Nat → Nat
  | 0 => vecCopy (eval 0)
  | i + 1 => E.vecMul (runProd E eval i) (eval (i + 1))

/-- The product `e 0 * e 1 * .. * e i` for a multiplication `mul`. -/
def gprod (mul : Nat → Nat → Nat) (e : Nat → Nat) : Nat → Nat
  | 0 => e 0
  | i + 1 => mul (gprod mul e i) (e (i + 1))

/-! ### The public key in closed form -/

/-- Byte `j` of a word, as `storeI` and `store8` write it. -/
def byteAt (w j : Nat) : Nat := ((w >>> (j * 8)) &&& 0xFF) % 256

/-- The word `oneRow[k]` after the loop over `c` (lines 351-360 and 381-389): the XOR of the
words `mat[c][k]` over the columns `c` with bit `c` of row `row` of `ops` set. -/
def accWord (P : Params) (mat ops : Nat → Nat → Nat) (row k : Nat) : Nat :=
  loopUp P.pkNRows (fun c w => w ^^^ (mat c k &&& maskOf (bitAt ops row c))) 0

/-- The `q`-th word that the serialisation loops store for row `row`. -/
def outWord (P : Params) (mat ops : Nat → Nat → Nat) (row q : Nat) : Nat :=
  if P.Is8192128 then accWord P mat ops row (q + P.pkNRows / 64)
  else if !(P.Is348864 || P.Is6688128) then
    if blockIdx P + q < nblocksH P - 1 then
      (accWord P mat ops row (blockIdx P + q) >>> tail P)
        ||| shl64 (accWord P mat ops row (blockIdx P + q + 1)) (64 - tail P)
    else accWord P mat ops row (blockIdx P + q) >>> tail P
  else accWord P mat ops row (blockIdx P + q)

/-- The `j`-th byte of row `row` of the public key. -/
def rowByte (P : Params) (mat ops : Nat → Nat → Nat) (row j : Nat) : Nat :=
  if P.Is6960119 = true ∧ j + 1 = P.pkRowBytes then
    byteAt (outWord P mat ops row (j / 8)) (j % 8) &&& (((1 <<< (P.pkNCols % 8)) - 1) % 256)
  else byteAt (outWord P mat ops row (j / 8)) (j % 8)

/-- The relations between the template flags and the package constants that the five parameter
sets satisfy and that the serialisation relies on. -/
def WellFormed (P : Params) : Prop :=
  1 ≤ P.sysT ∧ P.pkNRows = P.sysT * P.gfBits ∧ nblocksI P ≤ nblocksH P ∧
  P.pkNRows + P.pkNCols ≤ 64 * nblocksH P ∧ P.pkNCols ≤ 8 * P.pkRowBytes ∧
  (P.Is8192128 = true →
    P.Is6960119 = false ∧ P.pkNRows % 64 = 0 ∧ P.pkRowBytes = 8 * (P.pkNCols / 64)) ∧
  (P.Is8192128 = false →
    blockIdx P + 1 ≤ nblocksH P ∧
    P.pkRowBytes = 8 * (nblocksH P - 1 - blockIdx P) + P.pkRowBytes % 8) ∧
  ((P.Is348864 || P.Is6688128) = true → P.Is6960119 = false ∧ P.pkNRows % 64 = 0) ∧
  ((P.Is348864 || P.Is6688128) = false → P.Is8192128 = false → P.pkNRows % 64 ≠ 0) ∧
  (P.Is6960119 = true →
    1 ≤ P.pkRowBytes % 8 ∧ 1 ≤ P.pkNCols % 8 ∧ 8 * (P.pkRowBytes - 1) + P.pkNCols % 8 = P.pkNCols)

/-- The check matrix `H` that `pkGen` builds for `irr` and `perm`: all `nblocksH` column blocks,
built at once from the blocks returned by `toBitslicing2x`. -/
def checkMatrix (P : Params) (E : Ext) (irr perm : Nat → Nat) : Nat → Nat → Nat :=
  (fillBlocks P E 0 (nblocksH P) (keyBlocks P E irr perm).1
    (fun _ _ => 0, (keyBlocks P E irr perm).2)).1

/-! ### An instance on which `pkGen` returns true -/

/-- Word `j` of row `a` of a unit upper triangular bit matrix: the diagonal bit in the block of
the diagonal, zero in the blocks left of it, and the odd number `2 * a + 3` in the blocks right
of it. -/
def triWord (a j : Nat) : Nat :=
  if a / 64 < j then 2 * a + 3 else if a / 64 = j then 1 <<< (a % 64) else 0

/-- A list of keys, with tag `i` at index `i`, whose bitsliced blocks are the first `g` rows of
`triWord` (in `prod`) and the block numbers (in `consts`). -/
def triKey (g i : Nat) : Nat :=
  (shl64 (packBits g (fun k => (triWord k (i / 64)).testBit (i % 64))) g ||| (i / 64))
    ||| shl64 i 31

/-- A function for `vecMul` that maps the rows `a .. a + g - 1` of block `j` of `triWord`, with
`j` read from the second argument, to the rows `a + g .. a + 2 * g - 1`. -/
def triMul (g : Nat) (x c : Nat → Nat) : Nat → Nat :=
  if x 0 = 0 then fun _ => 0
  else fun k =>
    triWord ((if x 0 % 2 = 1 ∧ 3 ≤ x 0 then (x 0 - 3) / 2
        else 64 * packBits g (fun k => (c (g - 1 - k)).testBit 0) + Nat.log2 (x 0)) + g + k)
      (packBits g (fun k => (c (g - 1 - k)).testBit 0))

/-- An instance of the external functions for which the check matrix is `triWord`. -/
def triExt (g : Nat) : Ext :=
  { loadGf := fun _ => 0, fft := fun out _ => out, vecMul := triMul g, vecInv := fun a => a,
    UInt64Sort := fun _ _ => triKey g }

/-! ### The forward pass with a record of its elementary steps -/

/-- The pair `(mat, ops)`. -/
@[reducible] def MatOps : Type := (Nat → Nat → Nat) × (Nat → Nat → Nat)

/-- Lines 264-288 of `pkGen` as in `forwardRow`, the state carrying in its second component the
list of the pairs `(mat, ops)` seen after each completed loop `for c < nblocksI` (one masked
addition of a row to another, in `mat` and in `ops`); on `return false` the first component of
the result is `none`. -/
def forwardRowT (P : Params) (row i j : Nat) (st : MatOps × List MatOps) :
    Option MatOps × List MatOps :=
  let st := loopRange (row + 1) P.pkNRows
    (fun k (st : MatOps × List MatOps) =>
      let mask := st.1.1 row i >>> j
      let mask := mask &&& 1
      let mask := sub64 mask 1
      let s := loopUp (nblocksI P) (fun c (s : MatOps) =>
        (set2 s.1 row c (s.1 row c ^^^ (s.1 k c &&& mask)),
         set2 s.2 row c (s.2 row c ^^^ (s.2 k c &&& mask)))) st.1
      (s, st.2 ++ [s])) st
  -- return if not systematic
  if (st.1.1 row i >>> j) &&& 1 = 0 then (none, st.2)
  else
    let st := loopRange (row + 1) P.pkNRows
      (fun k (st : MatOps × List MatOps) =>
        let mask := st.1.1 k i >>> j
        let mask := mask &&& 1
        let mask := neg64 mask
        let s := loopUp (nblocksI P) (fun c (s : MatOps) =>
          (set2 s.1 k c (s.1 k c ^^^ (s.1 row c &&& mask)),
           set2 s.2 k c (s.2 k c ^^^ (s.2 row c &&& mask)))) st.1
        (s, st.2 ++ [s])) st
    (some st.1, st.2)

/-- One round of the recorded forward pass; after a `return false` nothing more is run. -/
def forwardStepT (P : Params) (row i j : Nat) (st : Option MatOps × List MatOps) :
    Option MatOps × List MatOps :=
  match st.1 with
  | none => st
  | some s => forwardRowT P row i j (s, st.2)

/-- Lines 254-292 of `pkGen` as in `forwardPass`, with the record of the elementary steps. -/
def forwardPassT (P : Params) (s : MatOps) : Option MatOps × List MatOps :=
  if P.Is8192128 then
    loopUp (P.pkNRows / 64) (fun i st =>
      loopUp 64 (fun j st => forwardStepT P (i * 64 + j) i j st) st) (some s, [])
  else
    loopUp P.pkNRows (fun row st => forwardStepT P row (row >>> 6) (row &&& 63) st) (some s, [])

/-- The lock-step relation: the first `nblocksI` column blocks of `mat` are `ops * M0`. -/
def LockStep (P : Params) (M0 : Matrix (Fin P.pkNRows) (Fin (64 * nblocksI P)) (ZMod 2))
    (s : MatOps) : Prop :=
  bitMatrix s.1 P.pkNRows (64 * nblocksI P) 0 = bitMatrix s.2 P.pkNRows P.pkNRows 0 * M0

end mceliece

namespace gf8192

/-! ### Bit-level lemmas -/

theorem or_eq_xor_of_and_eq_zero {a b : Nat} (h : a &&& b = 0) : a ||| b = a ^^^ b := by
  apply Nat.eq_of_testBit_eq
  intro i
  have hi := congrArg (fun x => x.testBit i) h
  simp only [Nat.testBit_and, Nat.zero_testBit] at hi
  rw [Nat.testBit_or, Nat.testBit_xor]
  cases ha : a.testBit i <;> cases hb : b.testBit i <;> simp_all

theorem shr_xor (x y s : Nat) : (x ^^^ y) >>> s = x >>> s ^^^ y >>> s := by
  apply Nat.eq_of_testBit_eq
  intro i
  simp only [Nat.testBit_shiftRight, Nat.testBit_xor]

theorem shl_xor (x y s : Nat) : (x ^^^ y) <<< s = x <<< s ^^^ y <<< s := by
  apply Nat.eq_of_testBit_eq
  intro i
  simp only [Nat.testBit_shiftLeft, Nat.testBit_xor]
  cases decide (i ≥ s) <;> simp

theorem mod_pow_xor (x y n : Nat) : (x ^^^ y) % 2 ^ n = x % 2 ^ n ^^^ y % 2 ^ n := by
  apply Nat.eq_of_testBit_eq
  intro i
  simp only [Nat.testBit_mod_two_pow, Nat.testBit_xor]
  cases decide (i < n) <;> simp

theorem redStep_def (c x : Nat) :
    redStep c x = x ^^^ (((x &&& c) >>> 9) ^^^ ((x &&& c) >>> 10) ^^^ ((x &&& c) >>> 12)
      ^^^ ((x &&& c) >>> 13)) := rfl

theorem redStep_xor (c x y : Nat) : redStep c (x ^^^ y) = redStep c x ^^^ redStep c y := by
  simp only [redStep_def, Nat.and_xor_distrib_right, shr_xor]
  ac_rfl

theorem mulW_def (x y : Nat) : mulW x y = x * y % 2 ^ 64 := rfl

theorem shlW_def (x s : Nat) : shlW x s = (x <<< s) % 2 ^ 64 := rfl

theorem shlW_xor (x y s : Nat) : shlW (x ^^^ y) s = shlW x s ^^^ shlW y s := by
  simp only [shlW_def, shl_xor, mod_pow_xor]

/-- A map that is additive for XOR on `[0, 2^n)` is determined by its values at the powers of
two. -/
theorem xor_linear_ext (f g : Nat → Nat) (n : Nat)
    (hf : ∀ b c, b < 2 ^ n → c < 2 ^ n → f (b ^^^ c) = f b ^^^ f c)
    (hg : ∀ b c, b < 2 ^ n → c < 2 ^ n → g (b ^^^ c) = g b ^^^ g c)
    (hb : ∀ q, q < n → f (2 ^ q) = g (2 ^ q)) :
    ∀ b, b < 2 ^ n → f b = g b := by
  have hpos : 0 < 2 ^ n := Nat.two_pow_pos n
  have f0 : f 0 = 0 := by
    have := hf 0 0 hpos hpos
    simpa only [Nat.xor_self] using this
  have g0 : g 0 = 0 := by
    have := hg 0 0 hpos hpos
    simpa only [Nat.xor_self] using this
  have key : ∀ m, m ≤ n → ∀ b, b < 2 ^ m → f b = g b := by
    intro m
    induction m with
    | zero =>
      intro _ b hb0
      have : b = 0 := by simp at hb0; exact hb0
      subst this; rw [f0, g0]
    | succ m ih =>
      intro hm b hbm
      have hmn : m < n := hm
      have hle : (2:Nat) ^ m < 2 ^ n := Nat.pow_lt_pow_right (by decide) hmn
      by_cases hlt : b < 2 ^ m
      · exact ih (Nat.le_of_lt hmn) b hlt
      · have hge : 2 ^ m ≤ b := Nat.le_of_not_lt hlt
        have hb2 : b < 2 ^ m + 2 ^ m := by rw [pow_succ] at hbm; omega
        have hsmall : b ^^^ 2 ^ m < 2 ^ m := by
          apply Nat.lt_pow_two_of_testBit
          intro i hi
          rw [Nat.testBit_xor, Nat.testBit_two_pow]
          by_cases him : m = i
          · subst him
            have hbm' : b = 2 ^ m + (b - 2 ^ m) := by omega
            have : b.testBit m = true := by
              rw [hbm', Nat.testBit_two_pow_add_eq, Nat.testBit_lt_two_pow (by omega)]
              rfl
            simp [this]
          · have : b < 2 ^ i := by
              have : 2 ^ (m + 1) ≤ 2 ^ i := Nat.pow_le_pow_right (by decide) (by omega)
              omega
            simp [Nat.testBit_lt_two_pow this, him]
        have hdec : b = (b ^^^ 2 ^ m) ^^^ 2 ^ m := by
          rw [Nat.xor_assoc, Nat.xor_self, Nat.xor_zero]
        have e1 := hf (b ^^^ 2 ^ m) (2 ^ m) (Nat.lt_trans hsmall hle) hle
        have e2 := hg (b ^^^ 2 ^ m) (2 ^ m) (Nat.lt_trans hsmall hle) hle
        rw [← hdec] at e1 e2
        rw [e1, e2, ih (Nat.le_of_lt hmn) _ hsmall, hb m hmn]
  exact key n (Nat.le_refl n)

/-! ### Exhaustive checks -/

theorem checkRange_spec (f : Nat → Bool) (base : Nat) :
    ∀ n, checkRange f base n = true → ∀ i, i < n → f (base + i) = true := by
  intro n
  induction n with
  | zero => intro _ i hi; omega
  | succ n ih =>
    intro h i hi
    simp only [checkRange, Bool.and_eq_true] at h
    by_cases hin : i = n
    · subst hin; exact h.1
    · exact ih h.2 i (by omega)

theorem checkGrid_spec (f : Nat → Bool) (m : Nat) :
    ∀ n, checkGrid f m n = true → ∀ a, a < m * n → f a = true := by
  intro n
  induction n with
  | zero => intro _ a ha; simp at ha
  | succ n ih =>
    intro h a ha
    simp only [checkGrid, Bool.and_eq_true] at h
    by_cases hlt : a < m * n
    · exact ih h.2 a hlt
    · have hi : a - m * n < m := by rw [Nat.mul_succ] at ha; omega
      have := checkRange_spec f (m * n) m h.1 (a - m * n) hi
      rwa [show m * n + (a - m * n) = a by omega] at this

/-! ### `Mul` is commutative and bilinear for XOR -/

theorem holeVals_check : checkGrid (fun a => checkRange
    (fun i => Nat.beq (Nat.land a (holeMask i)) (holeVal i (holeIdx i a)) &&
      Nat.blt (holeIdx i a) 16) 0 4) 128 64 = true := by
  decide!

theorem holeVals_spec (a : Nat) (ha : a < 8192) (i : Nat) (hi : i < 4) :
    Nat.land a (holeMask i) = holeVal i (holeIdx i a) ∧ holeIdx i a < 16 := by
  have h1 := checkGrid_spec (fun a => checkRange
    (fun i => Nat.beq (Nat.land a (holeMask i)) (holeVal i (holeIdx i a)) &&
      Nat.blt (holeIdx i a) 16) 0 4) 128 64 holeVals_check a (by omega)
  have h2 := checkRange_spec (fun i => Nat.beq (Nat.land a (holeMask i))
    (holeVal i (holeIdx i a)) && Nat.blt (holeIdx i a) 16) 0 4 h1 i hi
  rw [Nat.zero_add] at h2
  simp only [Bool.and_eq_true] at h2
  exact ⟨Nat.eq_of_beq_eq_true h2.1, by simpa [Nat.blt_eq] using h2.2⟩

theorem holeTerm_check : checkRange (fun i => checkRange (fun j =>
    checkRange (fun t => checkRange (fun u => checkRange (fun v =>
      Nat.beq (Nat.land (mulW (holeVal i t) (Nat.xor (holeVal j u) (holeVal j v)))
          (holeMask ((i + j) % 4)))
        (Nat.xor (Nat.land (mulW (holeVal i t) (holeVal j u)) (holeMask ((i + j) % 4)))
            (Nat.land (mulW (holeVal i t) (holeVal j v)) (holeMask ((i + j) % 4)))))
      0 16) 0 16) 0 16) 0 4) 0 4 = true := by
  decide!

theorem holeTerm_xor (i j : Nat) (hi : i < 4) (hj : j < 4) (a b c : Nat)
    (ha : a < 8192) (hb : b < 8192) (hc : c < 8192) :
    holeTerm i j a (b ^^^ c) = holeTerm i j a b ^^^ holeTerm i j a c := by
  obtain ⟨ea, ta⟩ := holeVals_spec a ha i hi
  obtain ⟨eb, tb⟩ := holeVals_spec b hb j hj
  obtain ⟨ec, tc⟩ := holeVals_spec c hc j hj
  have h1 := checkRange_spec _ 0 4 holeTerm_check i hi
  rw [Nat.zero_add] at h1
  have h2 := checkRange_spec _ 0 4 h1 j hj
  rw [Nat.zero_add] at h2
  have h3 := checkRange_spec _ 0 16 h2 _ ta
  rw [Nat.zero_add] at h3
  have h4 := checkRange_spec _ 0 16 h3 _ tb
  rw [Nat.zero_add] at h4
  have h5 := checkRange_spec _ 0 16 h4 _ tc
  rw [Nat.zero_add] at h5
  have h6 := Nat.eq_of_beq_eq_true h5
  have e : Nat.land (b ^^^ c) (holeMask j)
      = Nat.xor (Nat.land b (holeMask j)) (Nat.land c (holeMask j)) :=
    Nat.and_xor_distrib_right
  unfold holeTerm
  rw [e, ea, eb, ec]
  exact h6

theorem holeTerm_comm (i j a b : Nat) : holeTerm i j a b = holeTerm j i b a := by
  unfold holeTerm
  rw [Nat.add_comm j i]
  show Nat.land (mulW _ _) _ = Nat.land (mulW _ _) _
  rw [mulW_def, mulW_def, Nat.mul_comm]

theorem mask_or_eq_xor (w0 w1 w2 w3 : Nat) :
    (w0 &&& 0x1111111111111) ||| (w1 &&& 0x2222222222222) ||| (w2 &&& 0x4444444444444)
        ||| (w3 &&& 0x8888888888888)
      = (w0 &&& 0x1111111111111) ^^^ (w1 &&& 0x2222222222222) ^^^ (w2 &&& 0x4444444444444)
        ^^^ (w3 &&& 0x8888888888888) := by
  have d01 : (0x1111111111111 : Nat) &&& 0x2222222222222 = 0 := by decide
  have d02 : (0x1111111111111 : Nat) &&& 0x4444444444444 = 0 := by decide
  have d03 : (0x1111111111111 : Nat) &&& 0x8888888888888 = 0 := by decide
  have d12 : (0x2222222222222 : Nat) &&& 0x4444444444444 = 0 := by decide
  have d13 : (0x2222222222222 : Nat) &&& 0x8888888888888 = 0 := by decide
  have d23 : (0x4444444444444 : Nat) &&& 0x8888888888888 = 0 := by decide
  apply Nat.eq_of_testBit_eq
  intro i
  have h01 := congrArg (fun x => x.testBit i) d01
  have h02 := congrArg (fun x => x.testBit i) d02
  have h03 := congrArg (fun x => x.testBit i) d03
  have h12 := congrArg (fun x => x.testBit i) d12
  have h13 := congrArg (fun x => x.testBit i) d13
  have h23 := congrArg (fun x => x.testBit i) d23
  simp only [Nat.testBit_and, Nat.zero_testBit] at h01 h02 h03 h12 h13 h23
  simp only [Nat.testBit_or, Nat.testBit_xor, Nat.testBit_and]
  generalize (0x1111111111111 : Nat).testBit i = m0 at *
  generalize (0x2222222222222 : Nat).testBit i = m1 at *
  generalize (0x4444444444444 : Nat).testBit i = m2 at *
  generalize (0x8888888888888 : Nat).testBit i = m3 at *
  cases m0 <;> cases m1 <;> cases m2 <;> cases m3 <;> simp_all

theorem mulHoles_eq (a b : Nat) : mulHoles a b =
    (holeTerm 0 0 a b ^^^ holeTerm 1 3 a b ^^^ holeTerm 2 2 a b ^^^ holeTerm 3 1 a b)
    ^^^ (holeTerm 0 1 a b ^^^ holeTerm 1 0 a b ^^^ holeTerm 2 3 a b ^^^ holeTerm 3 2 a b)
    ^^^ (holeTerm 0 2 a b ^^^ holeTerm 1 1 a b ^^^ holeTerm 2 0 a b ^^^ holeTerm 3 3 a b)
    ^^^ (holeTerm 0 3 a b ^^^ holeTerm 1 2 a b ^^^ holeTerm 2 1 a b ^^^ holeTerm 3 0 a b) := by
  have h := mask_or_eq_xor
    (mulW (a &&& 0x1111111111111) (b &&& 0x1111111111111)
      ^^^ mulW (a &&& 0x2222222222222) (b &&& 0x8888888888888)
      ^^^ mulW (a &&& 0x4444444444444) (b &&& 0x4444444444444)
      ^^^ mulW (a &&& 0x8888888888888) (b &&& 0x2222222222222))
    (mulW (a &&& 0x1111111111111) (b &&& 0x2222222222222)
      ^^^ mulW (a &&& 0x2222222222222) (b &&& 0x1111111111111)
      ^^^ mulW (a &&& 0x4444444444444) (b &&& 0x8888888888888)
      ^^^ mulW (a &&& 0x8888888888888) (b &&& 0x4444444444444))
    (mulW (a &&& 0x1111111111111) (b &&& 0x4444444444444)
      ^^^ mulW (a &&& 0x2222222222222) (b &&& 0x2222222222222)
      ^^^ mulW (a &&& 0x4444444444444) (b &&& 0x1111111111111)
      ^^^ mulW (a &&& 0x8888888888888) (b &&& 0x8888888888888))
    (mulW (a &&& 0x1111111111111) (b &&& 0x8888888888888)
      ^^^ mulW (a &&& 0x2222222222222) (b &&& 0x4444444444444)
      ^^^ mulW (a &&& 0x4444444444444) (b &&& 0x2222222222222)
      ^^^ mulW (a &&& 0x8888888888888) (b &&& 0x1111111111111))
  refine Eq.trans h ?_
  simp only [Nat.and_xor_distrib_right]
  rfl

end gf8192

namespace gf8192

theorem Mul_eq_MulW (a b : Nat) : Mul a b = MulW a b := rfl

theorem mulHoles_comm (a b : Nat) : mulHoles a b = mulHoles b a := by
  rw [mulHoles_eq a b, mulHoles_eq b a]
  simp only [holeTerm_comm _ _ b a]
  ac_rfl

theorem mulHoles_xor (a b c : Nat) (ha : a < 8192) (hb : b < 8192) (hc : c < 8192) :
    mulHoles a (b ^^^ c) = mulHoles a b ^^^ mulHoles a c := by
  rw [mulHoles_eq a b, mulHoles_eq a c, mulHoles_eq a (b ^^^ c)]
  rw [holeTerm_xor 0 0 (by decide) (by decide) a b c ha hb hc,
    holeTerm_xor 0 1 (by decide) (by decide) a b c ha hb hc,
    holeTerm_xor 0 2 (by decide) (by decide) a b c ha hb hc,
    holeTerm_xor 0 3 (by decide) (by decide) a b c ha hb hc,
    holeTerm_xor 1 0 (by decide) (by decide) a b c ha hb hc,
    holeTerm_xor 1 1 (by decide) (by decide) a b c ha hb hc,
    holeTerm_xor 1 2 (by decide) (by decide) a b c ha hb hc,
    holeTerm_xor 1 3 (by decide) (by decide) a b c ha hb hc,
    holeTerm_xor 2 0 (by decide) (by decide) a b c ha hb hc,
    holeTerm_xor 2 1 (by decide) (by decide) a b c ha hb hc,
    holeTerm_xor 2 2 (by decide) (by decide) a b c ha hb hc,
    holeTerm_xor 2 3 (by decide) (by decide) a b c ha hb hc,
    holeTerm_xor 3 0 (by decide) (by decide) a b c ha hb hc,
    holeTerm_xor 3 1 (by decide) (by decide) a b c ha hb hc,
    holeTerm_xor 3 2 (by decide) (by decide) a b c ha hb hc,
    holeTerm_xor 3 3 (by decide) (by decide) a b c ha hb hc]
  ac_rfl

/-- The final step `uint16(x & GfMask)` is additive for XOR. -/
theorem final_xor (x y : Nat) :
    Nat.mod (Nat.land (x ^^^ y) 8191) 65536
      = Nat.mod (Nat.land x 8191) 65536 ^^^ Nat.mod (Nat.land y 8191) 65536 := by
  show ((x ^^^ y) &&& 8191) % 2 ^ 16 = (x &&& 8191) % 2 ^ 16 ^^^ (y &&& 8191) % 2 ^ 16
  rw [Nat.and_xor_distrib_right, mod_pow_xor]

theorem final_lt (x : Nat) : Nat.mod (Nat.land x 8191) 65536 < 8192 := by
  show (x &&& 8191) % 65536 < 8192
  have h1 : x &&& 8191 ≤ 8191 := Nat.and_le_right
  have h2 : (x &&& 8191) % 65536 ≤ x &&& 8191 := Nat.mod_le _ _
  omega

theorem Mul_lt (a b : Nat) : Mul a b < 8192 := final_lt _

theorem Mul_comm (a b : Nat) : Mul a b = Mul b a := by
  rw [Mul_eq_MulW, Mul_eq_MulW]
  unfold MulW
  rw [mulHoles_comm]

theorem Mul_xor_right (a b c : Nat) (ha : a < 8192) (hb : b < 8192) (hc : c < 8192) :
    Mul a (b ^^^ c) = Mul a b ^^^ Mul a c := by
  rw [Mul_eq_MulW, Mul_eq_MulW, Mul_eq_MulW]
  unfold MulW
  rw [mulHoles_xor a b c ha hb hc, redStep_xor, redStep_xor, final_xor]

theorem Mul_xor_left (a b c : Nat) (ha : a < 8192) (hb : b < 8192) (hc : c < 8192) :
    Mul (a ^^^ b) c = Mul a c ^^^ Mul b c := by
  rw [Mul_comm (a ^^^ b) c, Mul_comm a c, Mul_comm b c]
  exact Mul_xor_right c a b hc ha hb

/-! ### The reference product is bilinear -/

theorem xor_add_both (u v s : Nat) : (u ^^^ s) ^^^ (v ^^^ s) = u ^^^ v := by
  apply Nat.eq_of_testBit_eq
  intro i
  simp only [Nat.testBit_xor]
  cases u.testBit i <;> cases v.testBit i <;> cases s.testBit i <;> rfl

theorem clmul_xor_right (a b c : Nat) : ∀ n, clmul a (b ^^^ c) n = clmul a b n ^^^ clmul a c n := by
  intro n
  induction n with
  | zero => simp [clmul]
  | succ n ih =>
    simp only [clmul, ih, Nat.testBit_xor]
    cases b.testBit n <;> cases c.testBit n <;> simp <;>
      first | ac_rfl | exact (xor_add_both _ _ _).symm

theorem clmul_xor_left (a b c : Nat) : ∀ n, clmul (a ^^^ b) c n = clmul a c n ^^^ clmul b c n := by
  intro n
  induction n with
  | zero => simp [clmul]
  | succ n ih =>
    simp only [clmul, ih, shl_xor]
    cases c.testBit n <;> simp
    ac_rfl

theorem polyMod_xor : ∀ n x y, polyMod (x ^^^ y) n = polyMod x n ^^^ polyMod y n := by
  intro n
  induction n with
  | zero => intro x y; rfl
  | succ n ih =>
    intro x y
    simp only [polyMod, Nat.testBit_xor]
    rw [← ih]
    congr 1
    cases x.testBit (13 + n) <;> cases y.testBit (13 + n) <;> simp <;>
      first | ac_rfl | exact (xor_add_both _ _ _).symm

theorem MulRef_xor_right (a b c : Nat) : MulRef a (b ^^^ c) = MulRef a b ^^^ MulRef a c := by
  unfold MulRef
  rw [clmul_xor_right, polyMod_xor]

theorem MulRef_xor_left (a b c : Nat) : MulRef (a ^^^ b) c = MulRef a c ^^^ MulRef b c := by
  unfold MulRef
  rw [clmul_xor_left, polyMod_xor]

theorem Mul_basis_check : checkRange (fun p => checkRange (fun q =>
    Nat.beq (MulW (Nat.pow 2 p) (Nat.pow 2 q)) (MulRef (Nat.pow 2 p) (Nat.pow 2 q))) 0 13) 0 13
      = true := by
  decide!

theorem Mul_basis (p q : Nat) (hp : p < 13) (hq : q < 13) :
    Mul (2 ^ p) (2 ^ q) = MulRef (2 ^ p) (2 ^ q) := by
  have h1 := checkRange_spec _ 0 13 Mul_basis_check p hp
  rw [Nat.zero_add] at h1
  have h2 := checkRange_spec _ 0 13 h1 q hq
  rw [Nat.zero_add] at h2
  exact Nat.eq_of_beq_eq_true h2

theorem two_pow_lt_8192 (p : Nat) (hp : p < 13) : 2 ^ p < 8192 := by
  have : (2:Nat) ^ p < 2 ^ 13 := Nat.pow_lt_pow_right (by decide) hp
  simpa using this

theorem Mul_eq_MulRef (a b : Nat) (ha : a < 8192) (hb : b < 8192) : Mul a b = MulRef a b := by
  have step1 : ∀ p, p < 13 → ∀ b, b < 2 ^ 13 → Mul (2 ^ p) b = MulRef (2 ^ p) b := by
    intro p hp
    apply xor_linear_ext (fun b => Mul (2 ^ p) b) (fun b => MulRef (2 ^ p) b) 13
    · intro b c hb hc
      exact Mul_xor_right _ b c (two_pow_lt_8192 p hp) hb hc
    · intro b c _ _
      exact MulRef_xor_right _ b c
    · intro q hq
      exact Mul_basis p q hp hq
  have step2 : ∀ a, a < 2 ^ 13 → Mul a b = MulRef a b := by
    apply xor_linear_ext (fun a => Mul a b) (fun a => MulRef a b) 13
    · intro a c ha hc
      exact Mul_xor_left a c b ha hc hb
    · intro a c _ _
      exact MulRef_xor_left a c b
    · intro p hp
      exact step1 p hp b hb
  exact step2 a ha

end gf8192

namespace gf8192

theorem sqr2_eq_sqr2W (a : Nat) : sqr2 a = sqr2W a := rfl

theorem sqrMul_eq_sqrMulW (a b : Nat) : sqrMul a b = sqrMulW a b := rfl

theorem sqr2Mul_eq_sqr2MulW (a b : Nat) : sqr2Mul a b = sqr2MulW a b := rfl

theorem Div_eq_DivW (a b : Nat) : Div a b = DivW a b := rfl

/-! ### `sqrMul` is additive in its second argument -/

theorem high_low_disjoint (a y i : Nat) (hy : y < 2 ^ i) : (2 ^ i * a) &&& y = 0 := by
  apply Nat.eq_of_testBit_eq
  intro j
  rw [Nat.testBit_and, Nat.zero_testBit, Nat.testBit_mul_pow_two]
  by_cases hj : i ≤ j
  · have : y < 2 ^ j := Nat.lt_of_lt_of_le hy (Nat.pow_le_pow_right (by decide) hj)
    simp [Nat.testBit_lt_two_pow this]
  · simp [hj]

/-- Multiplying by a two-bit constant whose bits are at least 14 apart produces no carry. -/
theorem mul_two_bits (b s : Nat) (hb : b < 2 ^ 13) :
    b * (2 ^ s + 2 ^ (s + 14)) = (b <<< s) ^^^ (b <<< (s + 14)) := by
  have hlow : b * 2 ^ s < 2 ^ (s + 14) := by
    rw [Nat.pow_add, Nat.mul_comm (2 ^ s)]
    have : b < 2 ^ 14 := by omega
    exact Nat.mul_lt_mul_of_pos_right this (Nat.two_pow_pos s)
  have h1 : b * (2 ^ s + 2 ^ (s + 14)) = 2 ^ (s + 14) * b + b * 2 ^ s := by ring
  rw [h1, Nat.mul_add_lt_is_or hlow, or_eq_xor_of_and_eq_zero (high_low_disjoint _ _ _ hlow),
    Nat.shiftLeft_eq, Nat.shiftLeft_eq, Nat.xor_comm, Nat.mul_comm (2 ^ (s + 14))]

theorem mul_pow_xor (b c s : Nat) : (b ^^^ c) * 2 ^ s = b * 2 ^ s ^^^ c * 2 ^ s := by
  rw [← Nat.shiftLeft_eq, ← Nat.shiftLeft_eq, ← Nat.shiftLeft_eq, shl_xor]

theorem and_two_pow_cases (x s : Nat) : x &&& 2 ^ s = 0 ∨ x &&& 2 ^ s = 2 ^ s := by
  rw [Nat.and_two_pow]
  cases x.testBit s <;> simp

/-- The masked multiplier `x & (2^s + 2^(s+14))` takes one of four values. -/
theorem two_bit_cases (x s : Nat) :
    x &&& (2 ^ s ||| 2 ^ (s + 14)) = 0 ∨ x &&& (2 ^ s ||| 2 ^ (s + 14)) = 2 ^ s ∨
    x &&& (2 ^ s ||| 2 ^ (s + 14)) = 2 ^ (s + 14) ∨
    x &&& (2 ^ s ||| 2 ^ (s + 14)) = 2 ^ s + 2 ^ (s + 14) := by
  have hor : (2:Nat) ^ (s + 14) ||| 2 ^ s = 2 ^ s + 2 ^ (s + 14) := by
    have hlt : (2:Nat) ^ s < 2 ^ (s + 14) := Nat.pow_lt_pow_right (by decide) (by omega)
    have := Nat.mul_add_lt_is_or hlt 1
    rw [Nat.mul_one] at this
    omega
  rw [Nat.and_or_distrib_left]
  rcases and_two_pow_cases x s with h1 | h1 <;> rcases and_two_pow_cases x (s + 14) with h2 | h2
  · left; rw [h1, h2]; rfl
  · right; right; left; rw [h1, h2]; simp
  · right; left; rw [h1, h2]; simp
  · right; right; right; rw [h1, h2, Nat.or_comm, hor]

/-- Multiplication by the masked two-bit value, written with shifts. -/
theorem mul_two_bit_form (x s b : Nat) (hb : b < 2 ^ 13) :
    b * (x &&& (2 ^ s ||| 2 ^ (s + 14)))
      = (if x.testBit s then b <<< s else 0) ^^^ (if x.testBit (s + 14) then b <<< (s + 14) else 0) := by
  have hor : (2:Nat) ^ (s + 14) ||| 2 ^ s = 2 ^ s + 2 ^ (s + 14) := by
    have hlt : (2:Nat) ^ s < 2 ^ (s + 14) := Nat.pow_lt_pow_right (by decide) (by omega)
    have := Nat.mul_add_lt_is_or hlt 1
    rw [Nat.mul_one] at this
    omega
  rw [Nat.and_or_distrib_left, Nat.and_two_pow, Nat.and_two_pow]
  cases x.testBit s <;> cases x.testBit (s + 14)
  · simp
  · simp [Nat.shiftLeft_eq]
  · simp [Nat.shiftLeft_eq]
  · simp only [Bool.toNat_true, Nat.one_mul, if_true]
    rw [Nat.or_comm, hor, mul_two_bits b s hb]

/-- Multiplication by the masked one-bit value, written with a shift. -/
theorem mul_one_bit_form (x s b : Nat) :
    b * (x &&& 2 ^ s) = if x.testBit s then b <<< s else 0 := by
  rw [Nat.and_two_pow]
  cases x.testBit s <;> simp [Nat.shiftLeft_eq]

theorem mulW_two_bit_xor (x s b c : Nat) (hb : b < 2 ^ 13) (hc : c < 2 ^ 13) :
    mulW (b ^^^ c) (x &&& (2 ^ s ||| 2 ^ (s + 14)))
      = mulW b (x &&& (2 ^ s ||| 2 ^ (s + 14))) ^^^ mulW c (x &&& (2 ^ s ||| 2 ^ (s + 14))) := by
  have hbc : b ^^^ c < 2 ^ 13 := Nat.xor_lt_two_pow hb hc
  rw [mulW_def, mulW_def, mulW_def, mul_two_bit_form x s _ hbc, mul_two_bit_form x s _ hb,
    mul_two_bit_form x s _ hc, ← mod_pow_xor]
  congr 1
  cases x.testBit s <;> cases x.testBit (s + 14) <;> simp [shl_xor]
  ac_rfl

theorem mulW_two_bit_xor_left (x y s b : Nat) (hb : b < 2 ^ 13) :
    mulW b ((x ^^^ y) &&& (2 ^ s ||| 2 ^ (s + 14)))
      = mulW b (x &&& (2 ^ s ||| 2 ^ (s + 14))) ^^^ mulW b (y &&& (2 ^ s ||| 2 ^ (s + 14))) := by
  rw [mulW_def, mulW_def, mulW_def, mul_two_bit_form _ s _ hb, mul_two_bit_form x s _ hb,
    mul_two_bit_form y s _ hb, ← mod_pow_xor]
  congr 1
  simp only [Nat.testBit_xor]
  generalize b <<< s = P
  generalize b <<< (s + 14) = Q
  cases x.testBit s <;> cases x.testBit (s + 14) <;> cases y.testBit s <;>
    cases y.testBit (s + 14) <;> simp <;>
    (apply Nat.eq_of_testBit_eq; intro i; simp only [Nat.testBit_xor];
     cases P.testBit i <;> cases Q.testBit i <;> rfl)

theorem mulW_one_bit_xor (x s b c : Nat) :
    mulW (b ^^^ c) (x &&& 2 ^ s) = mulW b (x &&& 2 ^ s) ^^^ mulW c (x &&& 2 ^ s) := by
  rw [mulW_def, mulW_def, mulW_def, mul_one_bit_form, mul_one_bit_form, mul_one_bit_form,
    ← mod_pow_xor]
  congr 1
  cases x.testBit s <;> simp [shl_xor]

theorem mulW_one_bit_xor_left (x y s b : Nat) :
    mulW b ((x ^^^ y) &&& 2 ^ s) = mulW b (x &&& 2 ^ s) ^^^ mulW b (y &&& 2 ^ s) := by
  rw [mulW_def, mulW_def, mulW_def, mul_one_bit_form, mul_one_bit_form, mul_one_bit_form,
    ← mod_pow_xor]
  congr 1
  simp only [Nat.testBit_xor]
  cases x.testBit s <;> cases y.testBit s <;> simp

theorem sqrMulAcc_eq (a y : Nat) : sqrMulAcc a y =
    mulW (shlW y 6) (a &&& 2 ^ 6)
    ^^^ mulW y ((a ^^^ shlW a 7) &&& (2 ^ 0 ||| 2 ^ (0 + 14)))
    ^^^ shlW (mulW y ((a ^^^ shlW a 7) &&& (2 ^ 1 ||| 2 ^ (1 + 14)))) 1
    ^^^ shlW (mulW y ((a ^^^ shlW a 7) &&& (2 ^ 2 ||| 2 ^ (2 + 14)))) 2
    ^^^ shlW (mulW y ((a ^^^ shlW a 7) &&& (2 ^ 3 ||| 2 ^ (3 + 14)))) 3
    ^^^ shlW (mulW y ((a ^^^ shlW a 7) &&& (2 ^ 4 ||| 2 ^ (4 + 14)))) 4
    ^^^ shlW (mulW y ((a ^^^ shlW a 7) &&& (2 ^ 5 ||| 2 ^ (5 + 14)))) 5 := rfl

theorem sqrMulAcc_xor (a b c : Nat) (hb : b < 2 ^ 13) (hc : c < 2 ^ 13) :
    sqrMulAcc a (b ^^^ c) = sqrMulAcc a b ^^^ sqrMulAcc a c := by
  have e0 := mulW_one_bit_xor a 6 (shlW b 6) (shlW c 6)
  have e1 := mulW_two_bit_xor (a ^^^ shlW a 7) 0 b c hb hc
  have e2 := mulW_two_bit_xor (a ^^^ shlW a 7) 1 b c hb hc
  have e3 := mulW_two_bit_xor (a ^^^ shlW a 7) 2 b c hb hc
  have e4 := mulW_two_bit_xor (a ^^^ shlW a 7) 3 b c hb hc
  have e5 := mulW_two_bit_xor (a ^^^ shlW a 7) 4 b c hb hc
  have e6 := mulW_two_bit_xor (a ^^^ shlW a 7) 5 b c hb hc
  rw [sqrMulAcc_eq, sqrMulAcc_eq, sqrMulAcc_eq, shlW_xor, e0, e1, e2, e3, e4, e5, e6]
  simp only [shlW_xor]
  ac_rfl

theorem sqrMulAcc_xor_left (a c b : Nat) (hb : b < 2 ^ 13) :
    sqrMulAcc (a ^^^ c) b = sqrMulAcc a b ^^^ sqrMulAcc c b := by
  have hx : (a ^^^ c) ^^^ shlW (a ^^^ c) 7 = (a ^^^ shlW a 7) ^^^ (c ^^^ shlW c 7) := by
    rw [shlW_xor]; ac_rfl
  have e0 := mulW_one_bit_xor_left a c 6 (shlW b 6)
  have e1 := mulW_two_bit_xor_left (a ^^^ shlW a 7) (c ^^^ shlW c 7) 0 b hb
  have e2 := mulW_two_bit_xor_left (a ^^^ shlW a 7) (c ^^^ shlW c 7) 1 b hb
  have e3 := mulW_two_bit_xor_left (a ^^^ shlW a 7) (c ^^^ shlW c 7) 2 b hb
  have e4 := mulW_two_bit_xor_left (a ^^^ shlW a 7) (c ^^^ shlW c 7) 3 b hb
  have e5 := mulW_two_bit_xor_left (a ^^^ shlW a 7) (c ^^^ shlW c 7) 4 b hb
  have e6 := mulW_two_bit_xor_left (a ^^^ shlW a 7) (c ^^^ shlW c 7) 5 b hb
  rw [sqrMulAcc_eq, sqrMulAcc_eq, sqrMulAcc_eq, hx, e0, e1, e2, e3, e4, e5, e6]
  simp only [shlW_xor]
  ac_rfl

theorem sqrMul_xor_right (a b c : Nat) (hb : b < 2 ^ 13) (hc : c < 2 ^ 13) :
    sqrMul a (b ^^^ c) = sqrMul a b ^^^ sqrMul a c := by
  rw [sqrMul_eq_sqrMulW, sqrMul_eq_sqrMulW, sqrMul_eq_sqrMulW]
  unfold sqrMulW
  rw [sqrMulAcc_xor a b c hb hc, redStep_xor, redStep_xor, redStep_xor, final_xor]

theorem sqrMul_xor_left (a c b : Nat) (hb : b < 2 ^ 13) :
    sqrMul (a ^^^ c) b = sqrMul a b ^^^ sqrMul c b := by
  rw [sqrMul_eq_sqrMulW, sqrMul_eq_sqrMulW, sqrMul_eq_sqrMulW]
  unfold sqrMulW
  rw [sqrMulAcc_xor_left a c b hb, redStep_xor, redStep_xor, redStep_xor, final_xor]

theorem sqrMul_lt (a b : Nat) : sqrMul a b < 8192 := final_lt _

end gf8192

namespace gf8192

/-! ### Field identities -/

theorem Mul_sq_xor (a c : Nat) (ha : a < 8192) (hc : c < 8192) :
    Mul (a ^^^ c) (a ^^^ c) = Mul a a ^^^ Mul c c := by
  have hac : a ^^^ c < 8192 := Nat.xor_lt_two_pow (n := 13) ha hc
  rw [Mul_xor_left a c _ ha hc hac, Mul_xor_right a a c ha ha hc, Mul_xor_right c a c hc ha hc,
    Mul_comm c a]
  generalize Mul a a = P
  generalize Mul a c = Q
  generalize Mul c c = R
  apply Nat.eq_of_testBit_eq
  intro i
  simp only [Nat.testBit_xor]
  cases P.testBit i <;> cases Q.testBit i <;> cases R.testBit i <;> rfl

theorem sqrMul_basis_check : checkRange (fun p => checkRange (fun q =>
    Nat.beq (sqrMulW (Nat.pow 2 p) (Nat.pow 2 q))
      (MulW (MulW (Nat.pow 2 p) (Nat.pow 2 p)) (Nat.pow 2 q))) 0 13) 0 13 = true := by
  decide!

theorem sqrMul_eq_Mul_sq (a b : Nat) (ha : a < 8192) (hb : b < 8192) :
    sqrMul a b = Mul (Mul a a) b := by
  have step1 : ∀ p, p < 13 → ∀ b, b < 2 ^ 13 → sqrMul (2 ^ p) b = Mul (Mul (2 ^ p) (2 ^ p)) b := by
    intro p hp
    apply xor_linear_ext (fun b => sqrMul (2 ^ p) b) (fun b => Mul (Mul (2 ^ p) (2 ^ p)) b) 13
    · intro b c hb hc
      exact sqrMul_xor_right _ b c hb hc
    · intro b c hb hc
      exact Mul_xor_right _ b c (Mul_lt _ _) hb hc
    · intro q hq
      have h1 := checkRange_spec _ 0 13 sqrMul_basis_check p hp
      rw [Nat.zero_add] at h1
      have h2 := checkRange_spec _ 0 13 h1 q hq
      rw [Nat.zero_add] at h2
      exact Nat.eq_of_beq_eq_true h2
  have step2 : ∀ a, a < 2 ^ 13 → sqrMul a b = Mul (Mul a a) b := by
    apply xor_linear_ext (fun a => sqrMul a b) (fun a => Mul (Mul a a) b) 13
    · intro a c _ _
      exact sqrMul_xor_left a c b hb
    · intro a c ha hc
      show Mul (Mul (a ^^^ c) (a ^^^ c)) b = Mul (Mul a a) b ^^^ Mul (Mul c c) b
      rw [Mul_sq_xor a c ha hc]
      exact Mul_xor_left _ _ b (Mul_lt _ _) (Mul_lt _ _) hb
    · intro p hp
      exact step1 p hp b hb
  exact step2 a ha

theorem Mul_assoc_check : checkRange (fun p => checkRange (fun q => checkRange (fun r =>
    Nat.beq (MulW (MulW (Nat.pow 2 p) (Nat.pow 2 q)) (Nat.pow 2 r))
      (MulW (Nat.pow 2 p) (MulW (Nat.pow 2 q) (Nat.pow 2 r)))) 0 13) 0 13) 0 13 = true := by
  decide!

theorem Mul_assoc (a b c : Nat) (ha : a < 8192) (hb : b < 8192) (hc : c < 8192) :
    Mul (Mul a b) c = Mul a (Mul b c) := by
  have step1 : ∀ p q, p < 13 → q < 13 → ∀ c, c < 2 ^ 13 →
      Mul (Mul (2 ^ p) (2 ^ q)) c = Mul (2 ^ p) (Mul (2 ^ q) c) := by
    intro p q hp hq
    apply xor_linear_ext (fun c => Mul (Mul (2 ^ p) (2 ^ q)) c)
      (fun c => Mul (2 ^ p) (Mul (2 ^ q) c)) 13
    · intro b c hb hc
      exact Mul_xor_right _ b c (Mul_lt _ _) hb hc
    · intro b c hb hc
      show Mul (2 ^ p) (Mul (2 ^ q) (b ^^^ c)) = _
      rw [Mul_xor_right _ b c (two_pow_lt_8192 q hq) hb hc]
      exact Mul_xor_right _ _ _ (two_pow_lt_8192 p hp) (Mul_lt _ _) (Mul_lt _ _)
    · intro r hr
      have h1 := checkRange_spec _ 0 13 Mul_assoc_check p hp
      rw [Nat.zero_add] at h1
      have h2 := checkRange_spec _ 0 13 h1 q hq
      rw [Nat.zero_add] at h2
      have h3 := checkRange_spec _ 0 13 h2 r hr
      rw [Nat.zero_add] at h3
      exact Nat.eq_of_beq_eq_true h3
  have step2 : ∀ p, p < 13 → ∀ b, b < 2 ^ 13 → Mul (Mul (2 ^ p) b) c = Mul (2 ^ p) (Mul b c) := by
    intro p hp
    apply xor_linear_ext (fun b => Mul (Mul (2 ^ p) b) c) (fun b => Mul (2 ^ p) (Mul b c)) 13
    · intro b d hb hd
      show Mul (Mul (2 ^ p) (b ^^^ d)) c = _
      rw [Mul_xor_right _ b d (two_pow_lt_8192 p hp) hb hd]
      exact Mul_xor_left _ _ c (Mul_lt _ _) (Mul_lt _ _) hc
    · intro b d hb hd
      show Mul (2 ^ p) (Mul (b ^^^ d) c) = _
      rw [Mul_xor_left b d c hb hd hc]
      exact Mul_xor_right _ _ _ (two_pow_lt_8192 p hp) (Mul_lt _ _) (Mul_lt _ _)
    · intro q hq
      exact step1 p q hp hq c hc
  have step3 : ∀ a, a < 2 ^ 13 → Mul (Mul a b) c = Mul a (Mul b c) := by
    apply xor_linear_ext (fun a => Mul (Mul a b) c) (fun a => Mul a (Mul b c)) 13
    · intro a d ha hd
      show Mul (Mul (a ^^^ d) b) c = _
      rw [Mul_xor_left a d b ha hd hb]
      exact Mul_xor_left _ _ c (Mul_lt _ _) (Mul_lt _ _) hc
    · intro a d ha hd
      exact Mul_xor_left a d _ ha hd (Mul_lt _ _)
    · intro p hp
      exact step2 p hp b hb
  exact step3 a ha

theorem Mul_one_check : checkRange (fun p => Nat.beq (MulW (Nat.pow 2 p) 1) (Nat.pow 2 p)) 0 13
    = true := by
  decide!

theorem Mul_one (a : Nat) (ha : a < 8192) : Mul a 1 = a := by
  have : ∀ a, a < 2 ^ 13 → Mul a 1 = a := by
    apply xor_linear_ext (fun a => Mul a 1) (fun a => a) 13
    · intro a c ha hc
      exact Mul_xor_left a c 1 ha hc (by decide)
    · intro a c _ _
      rfl
    · intro p hp
      have h1 := checkRange_spec _ 0 13 Mul_one_check p hp
      rw [Nat.zero_add] at h1
      exact Nat.eq_of_beq_eq_true h1
  exact this a ha

theorem Div_self_check : checkGrid (fun b => Nat.beq b 0 || Nat.beq (DivW b b) 1) 128 64
    = true := by
  decide!

theorem Div_self (b : Nat) (h0 : 0 < b) (hb : b < 8192) : Div b b = 1 := by
  have h := checkGrid_spec _ 128 64 Div_self_check b (by omega)
  simp only [Bool.or_eq_true] at h
  rcases h with h | h
  · have := Nat.eq_of_beq_eq_true h
    omega
  · exact Nat.eq_of_beq_eq_true h

theorem divChain_lt (b : Nat) : divChain b < 8192 := final_lt _

/-- The function `Div` multiplies by the square of the chain value `b^4095`. -/
theorem Div_eq_Mul (a b : Nat) (ha : a < 8192) :
    Div a b = Mul (Mul (divChain b) (divChain b)) a := by
  rw [Div_eq_DivW]
  unfold DivW
  rw [← sqrMul_eq_sqrMulW, sqrMul_eq_Mul_sq _ _ (divChain_lt b) ha]

end gf8192

namespace gf8192

/-! ### The `gf8192` claims -/

/-- C6: for every nonzero field element `a` (`0 < a < 2^13`), `Mul(a, Inv(a)) = 1`. -/
theorem Mul_Inv_eq_one (a : Nat) (h0 : 0 < a) (ha : a < 2 ^ 13) : Mul a (Inv a) = 1 := by
  have ha' : a < 8192 := ha
  unfold Inv
  rw [Div_eq_Mul 1 a (by decide), Mul_one _ (Mul_lt _ _), Mul_comm, ← Div_eq_Mul a a ha']
  exact Div_self a h0 ha'

theorem Mul_Inv_eq_one_witness : 0 < 5 ∧ 5 < 2 ^ 13 ∧ Mul 5 (Inv 5) = 1 :=
  ⟨by decide, by decide, Mul_Inv_eq_one 5 (by decide) (by decide)⟩

/-- C7: for every field element `a < 2^13` and every nonzero field element `b`
(`0 < b < 2^13`), `Div(Mul(a, b), b) = a`. -/
theorem Div_Mul_cancel (a b : Nat) (ha : a < 2 ^ 13) (h0 : 0 < b) (hb : b < 2 ^ 13) :
    Div (Mul a b) b = a := by
  have ha' : a < 8192 := ha
  have hb' : b < 8192 := hb
  rw [Div_eq_Mul _ b (Mul_lt _ _), Mul_comm a b,
    ← Mul_assoc _ b a (Mul_lt _ _) hb' ha', ← Div_eq_Mul b b hb', Div_self b h0 hb',
    Mul_comm, Mul_one a ha']

theorem Div_Mul_cancel_witness :
    1234 < 2 ^ 13 ∧ 0 < 777 ∧ 777 < 2 ^ 13 ∧ Div (Mul 1234 777) 777 = 1234 :=
  ⟨by decide, by decide, by decide, Div_Mul_cancel 1234 777 (by decide) (by decide) (by decide)⟩

/-- C8: for all field elements `a, b < 2^13`, `Mul(a, b)` is the reference product in
GF(2)[z]/(z^13 + z^4 + z^3 + z + 1), the carry-less product reduced modulo the field
polynomial, and it is again below `2^13`. -/
theorem Mul_refines_MulRef (a b : Nat) (ha : a < 2 ^ 13) (hb : b < 2 ^ 13) :
    Mul a b = MulRef a b ∧ Mul a b < 2 ^ 13 :=
  ⟨Mul_eq_MulRef a b ha hb, Mul_lt a b⟩

theorem Mul_refines_MulRef_witness :
    4097 < 2 ^ 13 ∧ 8191 < 2 ^ 13 ∧ Mul 4097 8191 = MulRef 4097 8191 ∧ Mul 4097 8191 < 2 ^ 13 :=
  ⟨by decide, by decide, Mul_refines_MulRef 4097 8191 (by decide) (by decide)⟩

/-- C9: for all field elements `a, b, c < 2^13`, `Add` and `Mul` are commutative and `Mul`
distributes over `Add`. -/
theorem Add_Mul_laws (a b c : Nat) (ha : a < 2 ^ 13) (hb : b < 2 ^ 13) (hc : c < 2 ^ 13) :
    Add a b = Add b a ∧ Mul a b = Mul b a ∧ Mul a (Add b c) = Add (Mul a b) (Mul a c) :=
  ⟨Nat.xor_comm a b, Mul_comm a b, Mul_xor_right a b c ha hb hc⟩

theorem Add_Mul_laws_witness :
    3 < 2 ^ 13 ∧ 5 < 2 ^ 13 ∧ 7 < 2 ^ 13 ∧
      (Add 3 5 = Add 5 3 ∧ Mul 3 5 = Mul 5 3 ∧ Mul 3 (Add 5 7) = Add (Mul 3 5) (Mul 3 7)) :=
  ⟨by decide, by decide, by decide, Add_Mul_laws 3 5 7 (by decide) (by decide) (by decide)⟩

end gf8192

namespace mceliece

/-! ### Loops -/

theorem loopUp_succ {σ : Type} (n : Nat) (body : Nat → σ → σ) (s : σ) :
    loopUp (n + 1) body s = body n (loopUp n body s) := rfl

theorem loopDown_succ {σ : Type} (n : Nat) (body : Nat → σ → σ) (s : σ) :
    loopDown (n + 1) body s = loopDown n body (body n s) := rfl

/-- Invariant rule for `loopUp`. -/
theorem loopUp_inv {σ : Type} (Inv : Nat → σ → Prop) (n : Nat) (body : Nat → σ → σ) (s : σ)
    (h0 : Inv 0 s) (hstep : ∀ i, i < n → ∀ t, Inv i t → Inv (i + 1) (body i t)) :
    Inv n (loopUp n body s) := by
  induction n with
  | zero => exact h0
  | succ n ih =>
    exact hstep n (Nat.lt_succ_self n) _ (ih (fun i hi => hstep i (Nat.lt_succ_of_lt hi)))

/-- Invariant rule for `loopDown`: `Inv i` holds when the indices `i, i+1, ..` are done. -/
theorem loopDown_inv {σ : Type} (Inv : Nat → σ → Prop) (n : Nat) (body : Nat → σ → σ) (s : σ)
    (h0 : Inv n s) (hstep : ∀ i, i < n → ∀ t, Inv (i + 1) t → Inv i (body i t)) :
    Inv 0 (loopDown n body s) := by
  induction n generalizing s with
  | zero => exact h0
  | succ n ih =>
    exact ih (body n s) (hstep n (Nat.lt_succ_self n) s h0)
      (fun i hi => hstep i (Nat.lt_succ_of_lt hi))

/-- A loop whose body changes only the entry `a + i` in round `i`, as a function of that entry. -/
theorem loopUp_pointwise {α : Type} (n a : Nat) (f : Nat → α → α) (out : Nat → α) (k : Nat) :
    loopUp n (fun i out => set1 out (a + i) (f i (out (a + i)))) out k
      = if a ≤ k ∧ k < a + n then f (k - a) (out k) else out k := by
  induction n with
  | zero =>
    have : ¬ (a ≤ k ∧ k < a + 0) := by omega
    rw [if_neg this]
    rfl
  | succ n ih =>
    rw [loopUp_succ]
    simp only [set1]
    by_cases hk : k = a + n
    · subst hk
      have h1 : a ≤ a + n ∧ a + n < a + (n + 1) := by omega
      have h2 : ¬ (a ≤ a + n ∧ a + n < a + n) := by omega
      rw [if_pos rfl, if_pos h1, ih, if_neg h2]
      congr 1
      omega
    · rw [if_neg hk, ih]
      by_cases h3 : a ≤ k ∧ k < a + n
      · rw [if_pos h3, if_pos (by omega)]
      · rw [if_neg h3, if_neg (by omega)]

/-- A loop whose bodies act entry by entry acts entry by entry. -/
theorem loopUp_entrywise {α : Type} (n : Nat) (body : Nat → (Nat → α) → (Nat → α))
    (g : Nat → Nat → α → α) (h : ∀ i out k, body i out k = g i k (out k))
    (out : Nat → α) (k : Nat) :
    loopUp n body out k = loopUp n (fun i x => g i k x) (out k) := by
  induction n with
  | zero => rfl
  | succ n ih => rw [loopUp_succ, loopUp_succ, h, ih]

theorem loopDown_entrywise {α : Type} (n : Nat) (body : Nat → (Nat → α) → (Nat → α))
    (g : Nat → Nat → α → α) (h : ∀ i out k, body i out k = g i k (out k))
    (out : Nat → α) (k : Nat) :
    loopDown n body out k = loopDown n (fun i x => g i k x) (out k) := by
  induction n generalizing out with
  | zero => rfl
  | succ n ih => rw [loopDown_succ, loopDown_succ, ih, h]

/-- A loop that leaves a value alone except in one round. -/
theorem loopUp_one_hit {α : Type} (n : Nat) (hit : Nat → Prop) [DecidablePred hit]
    (f : Nat → α → α) (x : α) (i0 : Nat) (h0 : i0 < n) (hhit : hit i0)
    (huniq : ∀ i, i < n → hit i → i = i0) :
    loopUp n (fun i x => if hit i then f i x else x) x = f i0 x := by
  induction n with
  | zero => omega
  | succ n ih =>
    rw [loopUp_succ]
    by_cases hn : i0 = n
    · subst hn
      have : loopUp i0 (fun i x => if hit i then f i x else x) x = x := by
        clear ih
        have hno : ∀ m, m ≤ i0 → loopUp m (fun i x => if hit i then f i x else x) x = x := by
          intro m
          induction m with
          | zero => intro _; rfl
          | succ m ihm =>
            intro hm
            rw [loopUp_succ, ihm (by omega)]
            have : ¬ hit m := fun hh => by
              have := huniq m (by omega) hh
              omega
            rw [if_neg this]
        exact hno i0 (Nat.le_refl _)
      rw [this, if_pos hhit]
    · have hlt : i0 < n := by omega
      rw [ih hlt (fun i hi => huniq i (Nat.lt_succ_of_lt hi))]
      have : ¬ hit n := fun hh => hn (huniq n (Nat.lt_succ_self n) hh).symm
      rw [if_neg this]

theorem loopUp_no_hit {α : Type} (n : Nat) (hit : Nat → Prop) [DecidablePred hit]
    (f : Nat → α → α) (x : α) (hno : ∀ i, i < n → ¬ hit i) :
    loopUp n (fun i x => if hit i then f i x else x) x = x := by
  induction n with
  | zero => rfl
  | succ n ih =>
    rw [loopUp_succ, ih (fun i hi => hno i (Nat.lt_succ_of_lt hi)),
      if_neg (hno n (Nat.lt_succ_self n))]

theorem loopDown_no_hit {α : Type} (n : Nat) (hit : Nat → Prop) [DecidablePred hit]
    (f : Nat → α → α) (x : α) (hno : ∀ i, i < n → ¬ hit i) :
    loopDown n (fun i x => if hit i then f i x else x) x = x := by
  induction n with
  | zero => rfl
  | succ n ih =>
    rw [loopDown_succ, if_neg (hno n (Nat.lt_succ_self n)),
      ih (fun i hi => hno i (Nat.lt_succ_of_lt hi))]

theorem loopDown_one_hit {α : Type} (n : Nat) (hit : Nat → Prop) [DecidablePred hit]
    (f : Nat → α → α) (x : α) (i0 : Nat) (h0 : i0 < n) (hhit : hit i0)
    (huniq : ∀ i, i < n → hit i → i = i0) :
    loopDown n (fun i x => if hit i then f i x else x) x = f i0 x := by
  induction n with
  | zero => omega
  | succ n ih =>
    rw [loopDown_succ]
    by_cases hn : i0 = n
    · subst hn
      rw [if_pos hhit]
      exact loopDown_no_hit _ _ _ _ (fun i hi hh => by
        have := huniq i (Nat.lt_succ_of_lt hi) hh
        omega)
    · have : ¬ hit n := fun hh => hn (huniq n (Nat.lt_succ_self n) hh).symm
      rw [if_neg this]
      exact ih (by omega) (fun i hi => huniq i (Nat.lt_succ_of_lt hi))

theorem loopUp_entrywise2 {α : Type} (n : Nat)
    (body : Nat → (Nat → Nat → α) → (Nat → Nat → α))
    (g : Nat → Nat → Nat → α → α) (h : ∀ i out a b, body i out a b = g i a b (out a b))
    (out : Nat → Nat → α) (a b : Nat) :
    loopUp n body out a b = loopUp n (fun i x => g i a b x) (out a b) := by
  induction n with
  | zero => rfl
  | succ n ih => rw [loopUp_succ, loopUp_succ, h, ih]

theorem loopDown_entrywise2 {α : Type} (n : Nat)
    (body : Nat → (Nat → Nat → α) → (Nat → Nat → α))
    (g : Nat → Nat → Nat → α → α) (h : ∀ i out a b, body i out a b = g i a b (out a b))
    (out : Nat → Nat → α) (a b : Nat) :
    loopDown n body out a b = loopDown n (fun i x => g i a b x) (out a b) := by
  induction n generalizing out with
  | zero => rfl
  | succ n ih => rw [loopDown_succ, loopDown_succ, ih, h]

theorem loopUp_snd {σ τ : Type} (n : Nat) (body : Nat → σ × τ → σ × τ) (g : Nat → τ → τ)
    (h : ∀ i s, (body i s).2 = g i s.2) (s : σ × τ) :
    (loopUp n body s).2 = loopUp n g s.2 := by
  induction n with
  | zero => rfl
  | succ n ih => rw [loopUp_succ, loopUp_succ, h, ih]

theorem loopUp_fst {σ τ : Type} (n : Nat) (body : Nat → σ × τ → σ × τ) (g : Nat → σ → σ)
    (h : ∀ i s, (body i s).1 = g i s.1) (s : σ × τ) :
    (loopUp n body s).1 = loopUp n g s.1 := by
  induction n with
  | zero => rfl
  | succ n ih => rw [loopUp_succ, loopUp_succ, h, ih]

end mceliece

namespace mceliece

/-! ### Bitslicing -/

theorem set1_same {α : Type} (a : Nat → α) (i : Nat) (v : α) : set1 a i v i = v := by
  simp [set1]

theorem set1_set1 {α : Type} (a : Nat → α) (i : Nat) (v w : α) :
    set1 (set1 a i v) i w = set1 a i w := by
  funext k
  simp only [set1]
  by_cases h : k = i <;> simp [h]

theorem testBit_and_one (v t : Nat) : (v &&& 1).testBit t = (decide (t = 0) && v.testBit 0) := by
  rw [Nat.testBit_and]
  cases t with
  | zero => simp
  | succ t =>
    have : Nat.testBit 1 (t + 1) = false := by
      rw [Nat.testBit_succ]; simp
    simp [this]

theorem testBit_shl64_one (x t : Nat) :
    (shl64 x 1).testBit t = (decide (t < 64) && decide (1 ≤ t) && x.testBit (t - 1)) := by
  unfold shl64
  rw [Nat.testBit_mod_two_pow, Nat.testBit_shiftLeft]
  simp [Bool.and_assoc]

theorem shl64_lt (x s : Nat) : shl64 x s < 2 ^ 64 := Nat.mod_lt _ (Nat.two_pow_pos 64)

theorem and_one_lt (v : Nat) : v &&& 1 < 2 ^ 64 :=
  Nat.lt_of_le_of_lt Nat.and_le_right (by decide)

/-- Shifting `n` bits in, most significant first: the accumulated word. -/
theorem shiftIn_testBit (b : Nat → Nat) (n : Nat) (hn : n ≤ 64) (x : Nat) (hx : x < 2 ^ 64)
    (t : Nat) :
    (loopDown n (fun j x => shl64 x 1 ||| (b j &&& 1)) x).testBit t
      = if t < n then (b t).testBit 0 else (decide (t < 64) && x.testBit (t - n)) := by
  induction n generalizing x with
  | zero =>
    simp only [loopDown, Nat.not_lt_zero, if_false, Nat.sub_zero]
    by_cases h : t < 64
    · simp [h]
    · have : x < 2 ^ t := Nat.lt_of_lt_of_le hx (Nat.pow_le_pow_right (by decide) (by omega))
      simp [h, Nat.testBit_lt_two_pow this]
  | succ n ih =>
    rw [loopDown_succ, ih (by omega) _ (Nat.or_lt_two_pow (shl64_lt _ _) (and_one_lt _))]
    by_cases h1 : t < n
    · rw [if_pos h1, if_pos (by omega)]
    · rw [if_neg h1]
      by_cases h2 : t = n
      · subst h2
        rw [if_pos (by omega), Nat.sub_self, Nat.testBit_or, testBit_shl64_one, testBit_and_one]
        have : decide (t < 64) = true := by simp; omega
        simp [this]
      · rw [if_neg (by omega), Nat.testBit_or, testBit_shl64_one, testBit_and_one]
        have e : t - n - 1 = t - (n + 1) := by omega
        have h3 : decide (t - n = 0) = false := by simp; omega
        have h4 : decide (1 ≤ t - n) = true := by simp; omega
        rw [e, h3, h4]
        by_cases h5 : t < 64
        · have : decide (t - n < 64) = true := by simp; omega
          simp [h5, this]
        · simp [h5]

/-- After 64 shifts nothing is left of the initial word. -/
theorem shiftIn_testBit_full (b : Nat → Nat) (x t : Nat) :
    (loopDown 64 (fun j x => shl64 x 1 ||| (b j &&& 1)) x).testBit t
      = (decide (t < 64) && (b t).testBit 0) := by
  rw [loopDown_succ, shiftIn_testBit b 63 (by decide) _
    (Nat.or_lt_two_pow (shl64_lt _ _) (and_one_lt _))]
  by_cases h1 : t < 63
  · have : t < 64 := by omega
    simp [h1, this]
  · rw [if_neg h1]
    by_cases h2 : t = 63
    · subst h2
      rw [Nat.sub_self, Nat.testBit_or, testBit_shl64_one, testBit_and_one]
      simp
    · have : ¬ t < 64 := by omega
      simp [this]

theorem loopDown_ite_const {α : Type} (n : Nat) (c : Prop) [Decidable c] (F : Nat → α → α)
    (x : α) :
    loopDown n (fun j x => if c then F j x else x) x = if c then loopDown n F x else x := by
  by_cases h : c
  · simp only [if_pos h]
  · simp only [if_neg h]
    induction n with
    | zero => rfl
    | succ n ih => rw [loopDown_succ, ih]

theorem loopUp_zero_fill (n : Nat) (out : Nat → Nat) (k : Nat) :
    loopUp n (fun i out => set1 out i 0) out k = if k < n then 0 else out k := by
  induction n with
  | zero => simp [loopUp]
  | succ n ih =>
    rw [loopUp_succ]
    simp only [set1]
    by_cases h : k = n
    · rw [if_pos h, if_pos (by omega)]
    · rw [if_neg h, ih]
      by_cases h2 : k < n
      · rw [if_pos h2, if_pos (by omega)]
      · rw [if_neg h2, if_neg (by omega)]

/-- The word accumulated by `deBitSlicing` for lane `r` of block `i`, started from `x`. -/
theorem deBitSlicing_apply (P : Params) (out : Nat → Nat) (inp : Nat → Nat → Nat) (k : Nat) :
    deBitSlicing P out inp k =
      if k < 64 * exponent P then
        loopDown P.gfBits (fun j x => shl64 x 1 ||| ((inp (k / 64) j >>> (k % 64)) &&& 1))
          (if k < 1 <<< P.gfBits then 0 else out k)
      else (if k < 1 <<< P.gfBits then 0 else out k) := by
  unfold deBitSlicing
  simp only []
  -- the loop over the lanes of one plane
  have hr : ∀ i j (o : Nat → Nat) (k : Nat),
      loopUp 64 (fun r out =>
        set1 (set1 out (i * 64 + r) (shl64 (out (i * 64 + r)) 1)) (i * 64 + r)
          (set1 out (i * 64 + r) (shl64 (out (i * 64 + r)) 1) (i * 64 + r)
            ||| ((inp i j >>> r) &&& 1))) o k
        = if i * 64 ≤ k ∧ k < i * 64 + 64 then
            shl64 (o k) 1 ||| ((inp i j >>> (k - i * 64)) &&& 1) else o k := by
    intro i j o k
    have := loopUp_pointwise 64 (i * 64) (fun r x => shl64 x 1 ||| ((inp i j >>> r) &&& 1)) o k
    simp only [set1_set1, set1_same]
    exact this
  -- the loop over the planes
  have hj : ∀ i (o : Nat → Nat) (k : Nat),
      loopDown P.gfBits (fun j out => loopUp 64 (fun r out =>
        set1 (set1 out (i * 64 + r) (shl64 (out (i * 64 + r)) 1)) (i * 64 + r)
          (set1 out (i * 64 + r) (shl64 (out (i * 64 + r)) 1) (i * 64 + r)
            ||| ((inp i j >>> r) &&& 1))) out) o k
        = if i * 64 ≤ k ∧ k < i * 64 + 64 then
            loopDown P.gfBits (fun j x => shl64 x 1 ||| ((inp i j >>> (k - i * 64)) &&& 1)) (o k)
          else o k := by
    intro i o k
    rw [loopDown_entrywise P.gfBits _ (fun j k x => if i * 64 ≤ k ∧ k < i * 64 + 64 then
      shl64 x 1 ||| ((inp i j >>> (k - i * 64)) &&& 1) else x) (fun j o k => hr i j o k)]
    exact loopDown_ite_const _ _ _ _
  rw [loopUp_entrywise (exponent P) _ (fun i k x => if i * 64 ≤ k ∧ k < i * 64 + 64 then
      loopDown P.gfBits (fun j x => shl64 x 1 ||| ((inp i j >>> (k - i * 64)) &&& 1)) x
    else x) (fun i o k => hj i o k), loopUp_zero_fill]
  by_cases hk : k < 64 * exponent P
  · rw [if_pos hk]
    rw [loopUp_one_hit (exponent P) (fun i => i * 64 ≤ k ∧ k < i * 64 + 64)
      (fun i x => loopDown P.gfBits
        (fun j x => shl64 x 1 ||| ((inp i j >>> (k - i * 64)) &&& 1)) x) _ (k / 64)
      (by omega) (by omega) (fun i _ hi => by omega)]
    have : k - k / 64 * 64 = k % 64 := by omega
    simp only [this]
  · rw [if_neg hk]
    exact loopUp_no_hit _ _ _ _ (fun i hi hh => by omega)

theorem deBitSlicing_testBit (P : Params) (hg : P.gfBits ≤ 64)
    (hexp : 64 * exponent P ≤ 1 <<< P.gfBits) (out : Nat → Nat) (inp : Nat → Nat → Nat)
    (k : Nat) (hk : k < 64 * exponent P) (t : Nat) :
    (deBitSlicing P out inp k).testBit t
      = (decide (t < P.gfBits) && (inp (k / 64) t).testBit (k % 64)) := by
  rw [deBitSlicing_apply, if_pos hk, if_pos (by omega)]
  rw [shiftIn_testBit (fun j => inp (k / 64) j >>> (k % 64)) P.gfBits hg 0 (by decide) t]
  by_cases h : t < P.gfBits
  · simp [h, Nat.testBit_shiftRight]
  · simp [h]

theorem set2_same (m : Nat → Nat → Nat) (r c v : Nat) : set2 m r c v r c = v := by
  simp [set2]

theorem set2_set2 (m : Nat → Nat → Nat) (r c v w : Nat) :
    set2 (set2 m r c v) r c w = set2 m r c w := by
  funext a b
  simp only [set2]
  by_cases h : a = r ∧ b = c <;> simp [h]

/-- The second output of `toBitslicing2x`. -/
theorem toBitslicing2x_snd_apply (P : Params) (out0 out1 : Nat → Nat → Nat) (inp : Nat → Nat)
    (a b : Nat) :
    (toBitslicing2x P out0 out1 inp).2 a b =
      if a < exponent P ∧ b < P.gfBits then
        loopDown 64 (fun r x => shl64 x 1 ||| ((inp (a * 64 + r) >>> (b + P.gfBits)) &&& 1))
          (out1 a b)
      else out1 a b := by
  unfold toBitslicing2x
  rw [loopUp_snd (exponent P) _ (fun i out1 => loopDown P.gfBits (fun j out1 =>
      loopDown 64 (fun r out1 =>
        set2 (set2 out1 i j (shl64 (out1 i j) 1)) i j
          (set2 out1 i j (shl64 (out1 i j) 1) i j
            ||| ((inp (i * 64 + r) >>> (j + P.gfBits)) &&& 1))) out1) out1) (fun i s => rfl)]
  simp only [set2_set2, set2_same]
  have hr : ∀ i j (o : Nat → Nat → Nat) (a b : Nat),
      loopDown 64 (fun r out1 => set2 out1 i j
          (shl64 (out1 i j) 1 ||| ((inp (i * 64 + r) >>> (j + P.gfBits)) &&& 1))) o a b
        = if a = i ∧ b = j then
            loopDown 64 (fun r x =>
              shl64 x 1 ||| ((inp (i * 64 + r) >>> (j + P.gfBits)) &&& 1)) (o a b)
          else o a b := by
    intro i j o a b
    rw [loopDown_entrywise2 64 _ (fun r a b x => if a = i ∧ b = j then
      shl64 x 1 ||| ((inp (i * 64 + r) >>> (j + P.gfBits)) &&& 1) else x)]
    · exact loopDown_ite_const _ _ _ _
    · intro r o a b
      simp only [set2]
      by_cases h : a = i ∧ b = j
      · rw [if_pos h, if_pos h, h.1, h.2]
      · rw [if_neg h, if_neg h]
  have hj : ∀ i (o : Nat → Nat → Nat) (a b : Nat),
      loopDown P.gfBits (fun j out1 => loopDown 64 (fun r out1 => set2 out1 i j
          (shl64 (out1 i j) 1 ||| ((inp (i * 64 + r) >>> (j + P.gfBits)) &&& 1))) out1) o a b
        = if a = i ∧ b < P.gfBits then
            loopDown 64 (fun r x =>
              shl64 x 1 ||| ((inp (i * 64 + r) >>> (b + P.gfBits)) &&& 1)) (o a b)
          else o a b := by
    intro i o a b
    rw [loopDown_entrywise2 P.gfBits _ (fun j a b x => if a = i ∧ b = j then
      loopDown 64 (fun r x =>
        shl64 x 1 ||| ((inp (i * 64 + r) >>> (j + P.gfBits)) &&& 1)) x else x)
      (fun j o a b => hr i j o a b)]
    by_cases h : a = i ∧ b < P.gfBits
    · rw [if_pos h]
      exact loopDown_one_hit P.gfBits (fun j => a = i ∧ b = j) _ _ b h.2 ⟨h.1, rfl⟩
        (fun j _ hj => hj.2.symm)
    · rw [if_neg h]
      exact loopDown_no_hit _ _ _ _ (fun j hj hh => h ⟨hh.1, by omega⟩)
  rw [loopUp_entrywise2 (exponent P) _ (fun i a b x => if a = i ∧ b < P.gfBits then
      loopDown 64 (fun r x =>
        shl64 x 1 ||| ((inp (i * 64 + r) >>> (b + P.gfBits)) &&& 1)) x else x)
      (fun i o a b => hj i o a b)]
  by_cases h : a < exponent P ∧ b < P.gfBits
  · rw [if_pos h]
    exact loopUp_one_hit (exponent P) (fun i => a = i ∧ b < P.gfBits) _ _ a h.1 ⟨rfl, h.2⟩
      (fun i _ hi => hi.1.symm)
  · rw [if_neg h]
    exact loopUp_no_hit _ _ _ _ (fun i hi hh => h ⟨by omega, hh.2⟩)

theorem toBitslicing2x_snd_testBit (P : Params) (out0 out1 : Nat → Nat → Nat)
    (inp : Nat → Nat) (a b : Nat) (ha : a < exponent P) (hb : b < P.gfBits) (t : Nat) :
    ((toBitslicing2x P out0 out1 inp).2 a b).testBit t
      = (decide (t < 64) && (inp (a * 64 + t)).testBit (b + P.gfBits)) := by
  rw [toBitslicing2x_snd_apply, if_pos ⟨ha, hb⟩,
    shiftIn_testBit_full (fun r => inp (a * 64 + r) >>> (b + P.gfBits))]
  simp [Nat.testBit_shiftRight]

end mceliece

namespace mceliece

/-- C10: `deBitSlicing` and the high-block output `out1` of `toBitslicing2x` are mutually
inverse on field elements.  Decoding the re-encoded high block gives, at every index `i` below
`64 * exponent`, the field element `(in[i] >> gfBits) & gfMask`; and re-encoding the words
`(deBitSlicing(B)[i] << gfBits) | low_i`, with any `low_i < 2^gfBits`, gives `out1 = B` on all
`exponent` blocks of `gfBits` planes, whatever `out1` (and `out0`, `list`) held before. -/
theorem bitslice_roundtrip (P : Params) (hg : 2 * P.gfBits ≤ 64)
    (hexp : 64 * exponent P ≤ 1 <<< P.gfBits) :
    (∀ (inp : Nat → Nat) (out0 out1 : Nat → Nat → Nat) (list0 : Nat → Nat) (i : Nat),
      i < 64 * exponent P →
      deBitSlicing P list0 (toBitslicing2x P out0 out1 inp).2 i
        = (inp i >>> P.gfBits) &&& gfMask P) ∧
    (∀ (B : Nat → Nat → Nat) (low : Nat → Nat) (out0 out1 : Nat → Nat → Nat)
      (list0 : Nat → Nat), (∀ i j, B i j < 2 ^ 64) → (∀ i, low i < 2 ^ P.gfBits) →
      ∀ i j, i < exponent P → j < P.gfBits →
      (toBitslicing2x P out0 out1
        (fun k => shl64 (deBitSlicing P list0 B k) P.gfBits ||| low k)).2 i j = B i j) := by
  constructor
  · intro inp out0 out1 list0 i hi
    apply Nat.eq_of_testBit_eq
    intro t
    rw [deBitSlicing_testBit P (by omega) hexp _ _ i hi t]
    have hmask : gfMask P = 2 ^ P.gfBits - 1 := by
      unfold gfMask; rw [Nat.shiftLeft_eq, Nat.one_mul]
    rw [Nat.testBit_and, Nat.testBit_shiftRight, hmask, Nat.testBit_two_pow_sub_one]
    by_cases ht : t < P.gfBits
    · rw [toBitslicing2x_snd_testBit P out0 out1 inp (i / 64) t (by omega) ht (i % 64)]
      have h1 : i / 64 * 64 + i % 64 = i := by omega
      have h2 : i % 64 < 64 := by omega
      rw [h1, Nat.add_comm t]
      simp [ht, h2]
    · simp [ht]
  · intro B low out0 out1 list0 hB hlow i j hi hj
    apply Nat.eq_of_testBit_eq
    intro t
    rw [toBitslicing2x_snd_testBit P out0 out1 _ i j hi hj t]
    by_cases ht : t < 64
    · have hlow' : (low (i * 64 + t)).testBit (j + P.gfBits) = false := by
        apply Nat.testBit_lt_two_pow
        exact Nat.lt_of_lt_of_le (hlow _) (Nat.pow_le_pow_right (by decide) (by omega))
      have hidx : i * 64 + t < 64 * exponent P := by omega
      rw [Nat.testBit_or, hlow']
      unfold shl64
      rw [Nat.testBit_mod_two_pow, Nat.testBit_shiftLeft,
        Nat.add_sub_cancel, deBitSlicing_testBit P (by omega) hexp _ _ _ hidx j]
      have h1 : (i * 64 + t) / 64 = i := by omega
      have h2 : (i * 64 + t) % 64 = t := by omega
      have h3 : j + P.gfBits < 64 := by omega
      rw [h1, h2]
      simp [ht, hj, h3]
    · have : B i j < 2 ^ t :=
        Nat.lt_of_lt_of_le (hB i j) (Nat.pow_le_pow_right (by decide) (by omega))
      simp [ht, Nat.testBit_lt_two_pow this]

theorem bitslice_roundtrip_witness :
    2 * mceliece348864.gfBits ≤ 64 ∧
    64 * exponent mceliece348864 ≤ 1 <<< mceliece348864.gfBits ∧
    5 < 64 * exponent mceliece348864 ∧
    deBitSlicing mceliece348864 (fun _ => 7)
        (toBitslicing2x mceliece348864 (fun _ _ => 1) (fun _ _ => 2) (fun k => 4099 * k)).2 5
      = ((4099 * 5) >>> mceliece348864.gfBits) &&& gfMask mceliece348864 ∧
    (∀ i j : Nat, (i + j) % 2 ^ 64 < 2 ^ 64) ∧
    (∀ _i : Nat, 9 < 2 ^ mceliece348864.gfBits) ∧
    3 < exponent mceliece348864 ∧ 2 < mceliece348864.gfBits ∧
    (toBitslicing2x mceliece348864 (fun _ _ => 1) (fun _ _ => 2)
      (fun k => shl64 (deBitSlicing mceliece348864 (fun _ => 7)
        (fun a b => (a + b) % 2 ^ 64) k) mceliece348864.gfBits ||| 9)).2 3 2
      = (3 + 2) % 2 ^ 64 :=
  ⟨by decide, by decide, by decide,
    (bitslice_roundtrip mceliece348864 (by decide) (by decide)).1 (fun k => 4099 * k)
      (fun _ _ => 1) (fun _ _ => 2) (fun _ => 7) 5 (by decide),
    fun i j => Nat.mod_lt _ (by decide), fun _ => by decide, by decide, by decide,
    (bitslice_roundtrip mceliece348864 (by decide) (by decide)).2
      (fun a b => (a + b) % 2 ^ 64) (fun _ => 9) (fun _ _ => 1) (fun _ _ => 2) (fun _ => 7)
      (fun i j => Nat.mod_lt _ (by decide)) (fun _ => (by decide : 9 < 2 ^ mceliece348864.gfBits))
      3 2 (by decide) (by decide)⟩

end mceliece

namespace mceliece

/-! ### Masks and masked row additions -/

theorem shr_and_one (w j : Nat) : (w >>> j) &&& 1 = if w.testBit j then 1 else 0 := by
  have h : (w >>> j) &&& 1 = (w >>> j) % 2 := Nat.and_one_is_mod _
  rw [h]
  by_cases hb : w.testBit j
  · rw [if_pos hb]
    have := hb
    rw [Nat.testBit_to_div_mod] at this
    rw [Nat.shiftRight_eq_div_pow]
    simpa using this
  · rw [if_neg hb]
    have hb' : w.testBit j = false := by simpa using hb
    rw [Nat.testBit_to_div_mod] at hb'
    rw [Nat.shiftRight_eq_div_pow]
    have := Nat.mod_two_eq_zero_or_one (w / 2 ^ j)
    rcases this with h0 | h1
    · exact h0
    · simp [h1] at hb'

theorem shr_and_one_eq_zero (w j : Nat) : ((w >>> j) &&& 1 = 0) ↔ w.testBit j = false := by
  rw [shr_and_one]
  cases w.testBit j <;> simp

theorem sub64_mask (w j : Nat) : sub64 ((w >>> j) &&& 1) 1 = maskOf (!w.testBit j) := by
  rw [shr_and_one]
  cases w.testBit j <;> decide

theorem neg64_mask (w j : Nat) : neg64 ((w >>> j) &&& 1) = maskOf (w.testBit j) := by
  rw [shr_and_one]
  cases w.testBit j <;> decide

theorem testBit_xor_mask (a b : Nat) (cond : Bool) (t : Nat) (ht : t < 64) :
    (a ^^^ (b &&& maskOf cond)).testBit t = xor (a.testBit t) (cond && b.testBit t) := by
  rw [Nat.testBit_xor, Nat.testBit_and]
  cases cond
  · simp [maskOf]
  · have : (maskOf true).testBit t = true := by
      show (2 ^ 64 - 1).testBit t = true
      rw [Nat.testBit_two_pow_sub_one]
      simpa using ht
    simp [this]

theorem xor_mask_false (a b : Nat) : a ^^^ (b &&& maskOf false) = a := by
  simp [maskOf]

theorem rowXor_zero (dst src mask : Nat) (m : Nat → Nat → Nat) :
    rowXor 0 dst src mask m = m := by
  funext a b
  simp [rowXor]

theorem rowXor_succ (nb dst src mask : Nat) (m : Nat → Nat → Nat) :
    set2 (rowXor nb dst src mask m) dst nb
      (rowXor nb dst src mask m dst nb ^^^ (rowXor nb dst src mask m src nb &&& mask))
    = rowXor (nb + 1) dst src mask m := by
  funext a b
  simp only [set2, rowXor, Nat.lt_irrefl, and_false, if_false]
  by_cases h1 : a = dst ∧ b = nb
  · rw [if_pos h1, if_pos ⟨h1.1, by omega⟩, h1.2]
  · rw [if_neg h1]
    by_cases h2 : a = dst ∧ b < nb
    · rw [if_pos h2, if_pos ⟨h2.1, by omega⟩]
    · rw [if_neg h2, if_neg (by
        intro h3
        rcases Nat.lt_succ_iff_lt_or_eq.mp h3.2 with h4 | h4
        · exact h2 ⟨h3.1, h4⟩
        · exact h1 ⟨h3.1, h4⟩)]

/-- The inner loops of the forward pass perform `rowXor` on both matrices. -/
theorem loop_rowXor (nb dst src mask : Nat)
    (s : (Nat → Nat → Nat) × (Nat → Nat → Nat)) :
    loopUp nb (fun c (s : (Nat → Nat → Nat) × (Nat → Nat → Nat)) =>
        (set2 s.1 dst c (s.1 dst c ^^^ (s.1 src c &&& mask)),
         set2 s.2 dst c (s.2 dst c ^^^ (s.2 src c &&& mask)))) s
      = (rowXor nb dst src mask s.1, rowXor nb dst src mask s.2) := by
  induction nb with
  | zero =>
    show s = _
    rw [rowXor_zero, rowXor_zero]
  | succ nb ih =>
    rw [loopUp_succ, ih]
    simp only [rowXor_succ]

/-- The inner loop of the backward pass performs `rowXor` on `ops`. -/
theorem loop_rowXor_single (nb dst src mask : Nat) (m : Nat → Nat → Nat) :
    loopUp nb (fun c m => set2 m dst c (m dst c ^^^ (m src c &&& mask))) m
      = rowXor nb dst src mask m := by
  induction nb with
  | zero =>
    show m = _
    rw [rowXor_zero]
  | succ nb ih =>
    rw [loopUp_succ, ih]
    exact rowXor_succ nb dst src mask m

theorem rowXor_mask_false (nb dst src : Nat) (m : Nat → Nat → Nat) :
    rowXor nb dst src (maskOf false) m = m := by
  funext a b
  simp only [rowXor, xor_mask_false]
  by_cases h : a = dst ∧ b < nb
  · rw [if_pos h, h.1]
  · rw [if_neg h]

theorem bitAt_rowXor (nb dst src : Nat) (cond : Bool) (m : Nat → Nat → Nat) (a c : Nat) :
    bitAt (rowXor nb dst src (maskOf cond) m) a c
      = if a = dst ∧ c / 64 < nb then xor (bitAt m dst c) (cond && bitAt m src c)
        else bitAt m a c := by
  unfold bitAt rowXor
  by_cases h : a = dst ∧ c / 64 < nb
  · rw [if_pos h, if_pos h, testBit_xor_mask _ _ _ _ (Nat.mod_lt _ (by decide))]
  · rw [if_neg h, if_neg h]

end mceliece

namespace mceliece

open Matrix

/-! ### Row additions as matrix products -/

theorem zmod2_xor (a b c : Bool) :
    ((if xor a (c && b) then 1 else 0 : ZMod 2))
      = (if a then 1 else 0) + (if c then 1 else 0) * (if b then 1 else 0) := by
  cases a <;> cases b <;> cases c <;> decide

theorem bitMatrix_apply (m : Nat → Nat → Nat) (nr nc off : Nat) (i : Fin nr) (j : Fin nc) :
    bitMatrix m nr nc off i j = if bitAt m i (off + j) then 1 else 0 := rfl

/-- A masked row addition multiplies the left block by a transvection. -/
theorem bitMatrix_rowXor (n nb dst src : Nat) (cond : Bool) (m : Nat → Nat → Nat)
    (hn : n ≤ 64 * nb) (hd : dst < n) (hs : src < n) :
    bitMatrix (rowXor nb dst src (maskOf cond) m) n n 0
      = transvection (⟨dst, hd⟩ : Fin n) ⟨src, hs⟩ (if cond then 1 else 0)
          * bitMatrix m n n 0 := by
  ext i j
  have hj : ((0 + (j : Nat)) : Nat) / 64 < nb := by
    have := j.2
    omega
  have hbit := bitAt_rowXor nb dst src cond m i (0 + j)
  by_cases hi : i = ⟨dst, hd⟩
  · subst hi
    rw [if_pos ⟨rfl, hj⟩] at hbit
    rw [transvection_mul_apply_same, bitMatrix_apply, bitMatrix_apply, bitMatrix_apply, hbit,
      zmod2_xor]
  · rw [if_neg (fun h => hi (Fin.ext h.1))] at hbit
    rw [transvection_mul_apply_of_ne _ _ _ _ hi, bitMatrix_apply, bitMatrix_apply, hbit]

theorem Tracks_rowXor (n nb dst src : Nat) (cond : Bool) (A O : Matrix (Fin n) (Fin n) (ZMod 2))
    (s : (Nat → Nat → Nat) × (Nat → Nat → Nat))
    (hn : n ≤ 64 * nb) (hd : dst < n) (hs : src < n) (hne : dst ≠ src) (h : Tracks n A O s) :
    Tracks n A O (rowXor nb dst src (maskOf cond) s.1, rowXor nb dst src (maskOf cond) s.2) := by
  obtain ⟨E, hE, h1, h2⟩ := h
  refine ⟨transvection (⟨dst, hd⟩ : Fin n) ⟨src, hs⟩ (if cond then 1 else 0) * E, ?_, ?_, ?_⟩
  · rw [det_mul, hE, det_transvection_of_ne _ _ (fun h => hne (Fin.mk.inj h)), mul_one]
  · show bitMatrix (rowXor nb dst src (maskOf cond) s.1) n n 0 = _
    rw [bitMatrix_rowXor n nb dst src cond s.1 hn hd hs, h1, Matrix.mul_assoc]
  · show bitMatrix (rowXor nb dst src (maskOf cond) s.2) n n 0 = _
    rw [bitMatrix_rowXor n nb dst src cond s.2 hn hd hs, h2, Matrix.mul_assoc]

theorem Tracks_det (n : Nat) (A O : Matrix (Fin n) (Fin n) (ZMod 2))
    (s : (Nat → Nat → Nat) × (Nat → Nat → Nat)) (h : Tracks n A O s) :
    (bitMatrix s.1 n n 0).det = A.det := by
  obtain ⟨E, hE, h1, _⟩ := h
  rw [h1, det_mul, hE, one_mul]

/-- A reduced left block has determinant one. -/
theorem det_of_Reduced (n : Nat) (m : Nat → Nat → Nat) (h : Reduced n n m) :
    (bitMatrix m n n 0).det = 1 := by
  have htri : (bitMatrix m n n 0).BlockTriangular id := by
    intro i j hij
    have hlt : (j : Nat) < (i : Nat) := hij
    rw [bitMatrix_apply, Nat.zero_add, (h j j.2).2 i hlt i.2]
    rfl
  rw [det_of_upperTriangular htri]
  apply Finset.prod_eq_one
  intro i _
  rw [bitMatrix_apply, Nat.zero_add, (h i i.2).1]
  rfl

/-- A left block whose column `row` vanishes from the diagonal down, behind `row` reduced
columns, is singular. -/
theorem det_of_stuck (n row : Nat) (m : Nat → Nat → Nat) (hrow : row < n)
    (h : Reduced n row m) (hz : ∀ k, row ≤ k → k < n → bitAt m k row = false) :
    (bitMatrix m n n 0).det = 0 := by
  rw [twoBlockTriangular_det (bitMatrix m n n 0) (fun i : Fin n => (i : Nat) ≤ row)]
  · have : (toSquareBlockProp (bitMatrix m n n 0) (fun i : Fin n => (i : Nat) ≤ row)).det = 0 := by
      apply det_eq_zero_of_row_eq_zero ⟨⟨row, hrow⟩, Nat.le_refl row⟩
      intro j
      rw [toSquareBlockProp_def]
      show bitMatrix m n n 0 ⟨row, hrow⟩ j.1 = 0
      rw [bitMatrix_apply, Nat.zero_add]
      have hj : (j.1 : Nat) ≤ row := j.2
      by_cases hjr : (j.1 : Nat) = row
      · rw [hjr, hz row (Nat.le_refl _) hrow]; rfl
      · rw [(h j.1 (by omega)).2 row (by omega) hrow]; rfl
    rw [this, zero_mul]
  · intro i hi j hj
    have hi' : row < (i : Nat) := Nat.lt_of_not_le hi
    have hj' : (j : Nat) ≤ row := hj
    rw [bitMatrix_apply, Nat.zero_add]
    by_cases hjr : (j : Nat) = row
    · rw [hjr, hz i (by omega) i.2]; rfl
    · rw [(h j (by omega)).2 i (by omega) i.2]; rfl

end mceliece

namespace mceliece

open Matrix

/-! ### One round of the forward pass -/

theorem le_nblocksI (P : Params) : P.pkNRows ≤ 64 * nblocksI P := by
  unfold nblocksI
  omega

/-- The search for a pivot: row `row` absorbs later rows while its diagonal bit is zero. -/
theorem forwardRow_eq (P : Params) (row : Nat) (s : (Nat → Nat → Nat) × (Nat → Nat → Nat)) :
    forwardRow P row (row / 64) (row % 64) s =
      if bitAt (loopRange (row + 1) P.pkNRows
            (fun k (s : (Nat → Nat → Nat) × (Nat → Nat → Nat)) =>
              (rowXor (nblocksI P) row k (maskOf (!bitAt s.1 row row)) s.1,
               rowXor (nblocksI P) row k (maskOf (!bitAt s.1 row row)) s.2)) s).1 row row
          = false then none
      else some (loopRange (row + 1) P.pkNRows
        (fun k (s : (Nat → Nat → Nat) × (Nat → Nat → Nat)) =>
          (rowXor (nblocksI P) k row (maskOf (bitAt s.1 k row)) s.1,
           rowXor (nblocksI P) k row (maskOf (bitAt s.1 k row)) s.2))
        (loopRange (row + 1) P.pkNRows
            (fun k (s : (Nat → Nat → Nat) × (Nat → Nat → Nat)) =>
              (rowXor (nblocksI P) row k (maskOf (!bitAt s.1 row row)) s.1,
               rowXor (nblocksI P) row k (maskOf (!bitAt s.1 row row)) s.2)) s)) := by
  unfold forwardRow
  simp only [sub64_mask, neg64_mask, loop_rowXor, shr_and_one_eq_zero]
  rfl

/-- State of the pivot search after the rows `row+1 .. row+t` were offered. -/
theorem pivotSearch_inv (P : Params) (A O : Matrix (Fin P.pkNRows) (Fin P.pkNRows) (ZMod 2))
    (row : Nat) (hrow : row < P.pkNRows) (s : (Nat → Nat → Nat) × (Nat → Nat → Nat))
    (hT : Tracks P.pkNRows A O s) (hR : Reduced P.pkNRows row s.1) :
    let s1 := loopRange (row + 1) P.pkNRows
      (fun k (s : (Nat → Nat → Nat) × (Nat → Nat → Nat)) =>
        (rowXor (nblocksI P) row k (maskOf (!bitAt s.1 row row)) s.1,
         rowXor (nblocksI P) row k (maskOf (!bitAt s.1 row row)) s.2)) s
    Tracks P.pkNRows A O s1 ∧ Reduced P.pkNRows row s1.1 ∧
      (bitAt s1.1 row row = false →
        ∀ k, row < k → k < P.pkNRows → bitAt s1.1 k row = false) := by
  intro s1
  have key := loopUp_inv
    (fun t (u : (Nat → Nat → Nat) × (Nat → Nat → Nat)) =>
      Tracks P.pkNRows A O u ∧ Reduced P.pkNRows row u.1 ∧
        (bitAt u.1 row row = false →
          ∀ k, row < k → k < row + 1 + t → bitAt u.1 k row = false))
    (P.pkNRows - (row + 1))
    (fun t (s : (Nat → Nat → Nat) × (Nat → Nat → Nat)) =>
        (rowXor (nblocksI P) row (row + 1 + t) (maskOf (!bitAt s.1 row row)) s.1,
         rowXor (nblocksI P) row (row + 1 + t) (maskOf (!bitAt s.1 row row)) s.2)) s
    ⟨hT, hR, fun _ k h1 h2 => by omega⟩
    (by
      intro t ht u ⟨uT, uR, uZ⟩
      have hk : row + 1 + t < P.pkNRows := by omega
      refine ⟨Tracks_rowXor _ _ _ _ _ A O u (le_nblocksI P) hrow hk (by omega) uT, ?_, ?_⟩
      · intro c hc
        constructor
        · show bitAt (rowXor _ _ _ _ u.1) c c = true
          rw [bitAt_rowXor, if_neg (by omega)]
          exact (uR c hc).1
        · intro k hck hkn
          show bitAt (rowXor _ _ _ _ u.1) k c = false
          rw [bitAt_rowXor]
          by_cases hkr : k = row ∧ c / 64 < nblocksI P
          · rw [if_pos hkr, (uR c hc).2 row (by omega) hrow,
              (uR c hc).2 (row + 1 + t) (by omega) hk]
            simp
          · rw [if_neg hkr]
            exact (uR c hc).2 k hck hkn
      · intro hz k hrk hkt
        have hcol : row / 64 < nblocksI P := by
          have := le_nblocksI P
          omega
        have hz' : bitAt (rowXor (nblocksI P) row (row + 1 + t)
            (maskOf (!bitAt u.1 row row)) u.1) row row = false := hz
        rw [bitAt_rowXor, if_pos ⟨rfl, hcol⟩] at hz'
        show bitAt (rowXor _ _ _ _ u.1) k row = false
        rw [bitAt_rowXor, if_neg (by omega)]
        cases hb : bitAt u.1 row row
        · rw [hb] at hz'
          simp at hz'
          by_cases hkk : k = row + 1 + t
          · rw [hkk]; exact hz'
          · exact uZ hb k hrk (by omega)
        · rw [hb] at hz'
          simp at hz')
  obtain ⟨k1, k2, k3⟩ := key
  refine ⟨k1, k2, fun hz k h1 h2 => k3 hz k h1 (by omega)⟩

/-- State of the clearing loop: the rows `row+1 .. n-1` lose their bit in column `row`. -/
theorem clearing_inv (P : Params) (A O : Matrix (Fin P.pkNRows) (Fin P.pkNRows) (ZMod 2))
    (row : Nat) (hrow : row < P.pkNRows) (s : (Nat → Nat → Nat) × (Nat → Nat → Nat))
    (hT : Tracks P.pkNRows A O s) (hR : Reduced P.pkNRows row s.1)
    (hp : bitAt s.1 row row = true) :
    let s2 := loopRange (row + 1) P.pkNRows
      (fun k (s : (Nat → Nat → Nat) × (Nat → Nat → Nat)) =>
        (rowXor (nblocksI P) k row (maskOf (bitAt s.1 k row)) s.1,
         rowXor (nblocksI P) k row (maskOf (bitAt s.1 k row)) s.2)) s
    Tracks P.pkNRows A O s2 ∧ Reduced P.pkNRows (row + 1) s2.1 := by
  intro s2
  have hcol : row / 64 < nblocksI P := by
    have := le_nblocksI P
    omega
  have key := loopUp_inv
    (fun t (u : (Nat → Nat → Nat) × (Nat → Nat → Nat)) =>
      Tracks P.pkNRows A O u ∧ Reduced P.pkNRows row u.1 ∧ bitAt u.1 row row = true ∧
        ∀ k, row < k → k < row + 1 + t → bitAt u.1 k row = false)
    (P.pkNRows - (row + 1))
    (fun t (s : (Nat → Nat → Nat) × (Nat → Nat → Nat)) =>
        (rowXor (nblocksI P) (row + 1 + t) row (maskOf (bitAt s.1 (row + 1 + t) row)) s.1,
         rowXor (nblocksI P) (row + 1 + t) row (maskOf (bitAt s.1 (row + 1 + t) row)) s.2)) s
    ⟨hT, hR, hp, fun k h1 h2 => by omega⟩
    (by
      intro t ht u ⟨uT, uR, uP, uZ⟩
      have hk : row + 1 + t < P.pkNRows := by omega
      refine ⟨Tracks_rowXor _ _ _ _ _ A O u (le_nblocksI P) hk hrow (by omega) uT, ?_, ?_, ?_⟩
      · intro c hc
        constructor
        · show bitAt (rowXor _ _ _ _ u.1) c c = true
          rw [bitAt_rowXor, if_neg (by omega)]
          exact (uR c hc).1
        · intro k hck hkn
          show bitAt (rowXor _ _ _ _ u.1) k c = false
          rw [bitAt_rowXor]
          by_cases hkr : k = row + 1 + t ∧ c / 64 < nblocksI P
          · rw [if_pos hkr, (uR c hc).2 row (by omega) hrow,
              (uR c hc).2 (row + 1 + t) (by omega) hk]
            simp
          · rw [if_neg hkr]
            exact (uR c hc).2 k hck hkn
      · show bitAt (rowXor _ _ _ _ u.1) row row = true
        rw [bitAt_rowXor, if_neg (by omega)]
        exact uP
      · intro k hrk hkt
        show bitAt (rowXor _ _ _ _ u.1) k row = false
        rw [bitAt_rowXor]
        by_cases hkk : k = row + 1 + t
        · rw [if_pos ⟨hkk, hcol⟩, uP]
          cases bitAt u.1 (row + 1 + t) row <;> rfl
        · rw [if_neg (fun h => hkk h.1)]
          exact uZ k hrk (by omega))
  obtain ⟨k1, k2, k3, k4⟩ := key
  refine ⟨k1, ?_⟩
  intro c hc
  by_cases hcr : c = row
  · subst hcr
    exact ⟨k3, fun k h1 h2 => k4 k h1 (by omega)⟩
  · exact k2 c (by omega)

/-- A successful round keeps the tracking and reduces one more column. -/
theorem forwardRow_some (P : Params) (A O : Matrix (Fin P.pkNRows) (Fin P.pkNRows) (ZMod 2))
    (row : Nat) (hrow : row < P.pkNRows) (s s' : (Nat → Nat → Nat) × (Nat → Nat → Nat))
    (hT : Tracks P.pkNRows A O s) (hR : Reduced P.pkNRows row s.1)
    (h : forwardRow P row (row / 64) (row % 64) s = some s') :
    Tracks P.pkNRows A O s' ∧ Reduced P.pkNRows (row + 1) s'.1 := by
  rw [forwardRow_eq] at h
  obtain ⟨k1, k2, _⟩ := pivotSearch_inv P A O row hrow s hT hR
  split at h
  · exact absurd h (by simp)
  · rename_i hb
    have hb' : bitAt (loopRange (row + 1) P.pkNRows
        (fun k (s : (Nat → Nat → Nat) × (Nat → Nat → Nat)) =>
          (rowXor (nblocksI P) row k (maskOf (!bitAt s.1 row row)) s.1,
           rowXor (nblocksI P) row k (maskOf (!bitAt s.1 row row)) s.2)) s).1 row row = true := by
      simpa using hb
    have := clearing_inv P A O row hrow _ k1 k2 hb'
    rw [← Option.some.inj h]
    exact this

/-- A failing round exhibits a singular left block. -/
theorem forwardRow_none (P : Params) (A O : Matrix (Fin P.pkNRows) (Fin P.pkNRows) (ZMod 2))
    (row : Nat) (hrow : row < P.pkNRows) (s : (Nat → Nat → Nat) × (Nat → Nat → Nat))
    (hT : Tracks P.pkNRows A O s) (hR : Reduced P.pkNRows row s.1)
    (h : forwardRow P row (row / 64) (row % 64) s = none) :
    A.det = 0 := by
  rw [forwardRow_eq] at h
  obtain ⟨k1, k2, k3⟩ := pivotSearch_inv P A O row hrow s hT hR
  split at h
  · rename_i hb
    rw [← Tracks_det _ A O _ k1]
    apply det_of_stuck P.pkNRows row _ hrow k2
    intro k hk1 hk2
    by_cases hkr : k = row
    · rw [hkr]; exact hb
    · exact k3 hb k (by omega) hk2
  · exact absurd h (by simp)

/-! ### Loops that may return -/

theorem loopUpM_succ {σ : Type} (n : Nat) (body : Nat → σ → Option σ) (s : σ) :
    loopUpM (n + 1) body s = (loopUpM n body s).bind (body n) := rfl

theorem loopUpM_some_inv {σ : Type} (Inv : Nat → σ → Prop) (n : Nat)
    (body : Nat → σ → Option σ) (s s' : σ) (h0 : Inv 0 s)
    (hstep : ∀ i, i < n → ∀ t t', Inv i t → body i t = some t' → Inv (i + 1) t')
    (h : loopUpM n body s = some s') : Inv n s' := by
  induction n generalizing s' with
  | zero =>
    have : s = s' := Option.some.inj h
    rw [← this]; exact h0
  | succ n ih =>
    rw [loopUpM_succ] at h
    cases hm : loopUpM n body s with
    | none => rw [hm] at h; exact absurd h (by simp)
    | some t =>
      rw [hm] at h
      exact hstep n (Nat.lt_succ_self n) t s'
        (ih t (fun i hi => hstep i (Nat.lt_succ_of_lt hi)) hm) h

theorem loopUpM_none_inv {σ : Type} (Inv : Nat → σ → Prop) (n : Nat)
    (body : Nat → σ → Option σ) (s : σ) (h0 : Inv 0 s)
    (hstep : ∀ i, i < n → ∀ t t', Inv i t → body i t = some t' → Inv (i + 1) t')
    (h : loopUpM n body s = none) : ∃ i, i < n ∧ ∃ t, Inv i t ∧ body i t = none := by
  induction n with
  | zero => exact absurd h (by simp [loopUpM])
  | succ n ih =>
    rw [loopUpM_succ] at h
    cases hm : loopUpM n body s with
    | none =>
      obtain ⟨i, hi, t, ht, hb⟩ := ih (fun i hi => hstep i (Nat.lt_succ_of_lt hi)) hm
      exact ⟨i, Nat.lt_succ_of_lt hi, t, ht, hb⟩
    | some t =>
      rw [hm] at h
      exact ⟨n, Nat.lt_succ_self n, t,
        loopUpM_some_inv Inv n body s t h0 (fun i hi => hstep i (Nat.lt_succ_of_lt hi)) hm, h⟩

theorem loopUpM_append {σ : Type} (m a : Nat) (g : Nat → σ → Option σ) (t : σ) :
    loopUpM (a + m) g t
      = (loopUpM a g t).bind (fun u => loopUpM m (fun j s => g (a + j) s) u) := by
  induction m with
  | zero => simp [loopUpM]
  | succ m ihm =>
    rw [← Nat.add_assoc, loopUpM_succ, ihm]
    cases loopUpM a g t <;> rfl

/-- Two nested loops over `q` blocks of `w` rows are one loop over `q * w` rows. -/
theorem loopUpM_nested {σ : Type} (q w : Nat) (hw : 0 < w) (f : Nat → Nat → Nat → σ → Option σ)
    (s : σ) :
    loopUpM q (fun i s => loopUpM w (fun j s => f (i * w + j) i j s) s) s
      = loopUpM (q * w) (fun row s => f row (row / w) (row % w) s) s := by
  induction q with
  | zero => simp [loopUpM]
  | succ q ih =>
    rw [loopUpM_succ, ih, Nat.succ_mul, loopUpM_append]
    have inner : ∀ m, m ≤ w → ∀ t : σ,
        loopUpM m (fun j s => f (q * w + j) q j s) t
          = loopUpM m (fun j s => f (q * w + j) ((q * w + j) / w) ((q * w + j) % w) s) t := by
      intro m
      induction m with
      | zero => intro _ _; rfl
      | succ m ihm =>
        intro hm t
        rw [loopUpM_succ, loopUpM_succ, ihm (by omega)]
        have h1 : (q * w + m) / w = q := by
          rw [Nat.mul_comm q w, Nat.mul_add_div hw, Nat.div_eq_of_lt (by omega)]
          rfl
        have h2 : (q * w + m) % w = m := by
          rw [Nat.mul_comm q w, Nat.mul_add_mod, Nat.mod_eq_of_lt (by omega)]
        rw [h1, h2]
    congr 1
    funext t
    exact inner w (Nat.le_refl w) t

end mceliece

namespace mceliece

open Matrix

/-! ### The forward pass -/

theorem shr6_and63 (row : Nat) : row >>> 6 = row / 64 ∧ row &&& 63 = row % 64 := by
  constructor
  · rw [Nat.shiftRight_eq_div_pow]
  · exact Nat.and_pow_two_sub_one_eq_mod row 6

/-- Both shapes of the forward pass run `forwardRow` on the rows `0 .. pkNRows - 1`. -/
theorem forwardPass_eq (P : Params) (h8 : P.Is8192128 = true → P.pkNRows % 64 = 0)
    (s : (Nat → Nat → Nat) × (Nat → Nat → Nat)) :
    forwardPass P s
      = loopUpM P.pkNRows (fun row s => forwardRow P row (row / 64) (row % 64) s) s := by
  unfold forwardPass
  by_cases h : P.Is8192128 = true
  · rw [if_pos h, loopUpM_nested (P.pkNRows / 64) 64 (by decide)
      (fun row i j s => forwardRow P row i j s) s]
    have : P.pkNRows / 64 * 64 = P.pkNRows := by
      have := h8 h
      omega
    rw [this]
  · rw [if_neg h]
    simp only [(shr6_and63 _).1, (shr6_and63 _).2]

theorem Tracks_init (n : Nat) (s : (Nat → Nat → Nat) × (Nat → Nat → Nat)) :
    Tracks n (bitMatrix s.1 n n 0) (bitMatrix s.2 n n 0) s :=
  ⟨1, det_one, (Matrix.one_mul _).symm, (Matrix.one_mul _).symm⟩

theorem forwardPass_some (P : Params) (h8 : P.Is8192128 = true → P.pkNRows % 64 = 0)
    (s s' : (Nat → Nat → Nat) × (Nat → Nat → Nat)) (h : forwardPass P s = some s') :
    Tracks P.pkNRows (bitMatrix s.1 P.pkNRows P.pkNRows 0) (bitMatrix s.2 P.pkNRows P.pkNRows 0)
      s' ∧ Reduced P.pkNRows P.pkNRows s'.1 := by
  rw [forwardPass_eq P h8] at h
  exact loopUpM_some_inv
    (fun row u => Tracks P.pkNRows (bitMatrix s.1 P.pkNRows P.pkNRows 0)
      (bitMatrix s.2 P.pkNRows P.pkNRows 0) u ∧ Reduced P.pkNRows row u.1)
    P.pkNRows _ s s' ⟨Tracks_init _ s, fun c hc => absurd hc (Nat.not_lt_zero c)⟩
    (fun row hrow t t' ht hb => forwardRow_some P _ _ row hrow t t' ht.1 ht.2 hb) h

theorem forwardPass_none (P : Params) (h8 : P.Is8192128 = true → P.pkNRows % 64 = 0)
    (s : (Nat → Nat → Nat) × (Nat → Nat → Nat)) (h : forwardPass P s = none) :
    (bitMatrix s.1 P.pkNRows P.pkNRows 0).det = 0 := by
  rw [forwardPass_eq P h8] at h
  obtain ⟨row, hrow, t, ht, hb⟩ := loopUpM_none_inv
    (fun row u => Tracks P.pkNRows (bitMatrix s.1 P.pkNRows P.pkNRows 0)
      (bitMatrix s.2 P.pkNRows P.pkNRows 0) u ∧ Reduced P.pkNRows row u.1)
    P.pkNRows _ s ⟨Tracks_init _ s, fun c hc => absurd hc (Nat.not_lt_zero c)⟩
    (fun row hrow t t' ht hb => forwardRow_some P _ _ row hrow t t' ht.1 ht.2 hb) h
  exact forwardRow_none P _ _ row hrow t ht.1 ht.2 hb

/-- Over a field, a square matrix is rank-deficient exactly when it is not invertible. -/
theorem rank_lt_iff_not_isUnit (n : Nat) (A : Matrix (Fin n) (Fin n) (ZMod 2)) :
    A.rank < n ↔ ¬ IsUnit A := by
  constructor
  · intro h hu
    have := rank_of_isUnit A hu
    rw [Fintype.card_fin] at this
    omega
  · intro hu
    have hle : A.rank ≤ n := rank_le_width A
    rcases Nat.lt_or_ge A.rank n with h | h
    · exact h
    · exfalso
      apply hu
      have heq : A.rank = n := Nat.le_antisymm hle h
      have htop : LinearMap.range A.mulVecLin = ⊤ := by
        apply Submodule.eq_top_of_finrank_eq
        rw [Module.finrank_pi, Fintype.card_fin]
        exact heq
      rw [← mulVec_surjective_iff_isUnit]
      intro v
      have : v ∈ LinearMap.range A.mulVecLin := by rw [htop]; trivial
      obtain ⟨w, hw⟩ := this
      exact ⟨w, hw⟩

theorem det_eq_zero_iff_not_isUnit (n : Nat) (A : Matrix (Fin n) (Fin n) (ZMod 2)) :
    A.det = 0 ↔ ¬ IsUnit A := by
  rw [isUnit_iff_isUnit_det, isUnit_iff_ne_zero, not_not]

/-- C2: for every check matrix `mat` that reaches the elimination loop (and whatever `ops`
holds), the forward pass returns false if and only if the square block formed by the first
`pkNRows` columns of `mat` is singular over GF(2): not invertible, equivalently of rank below
`pkNRows`, equivalently of determinant zero. -/
theorem forwardPass_fails_iff_singular (P : Params)
    (h8 : P.Is8192128 = true → P.pkNRows % 64 = 0) (mat ops : Nat → Nat → Nat) :
    (forwardPass P (mat, ops) = none ↔ ¬ IsUnit (bitMatrix mat P.pkNRows P.pkNRows 0)) ∧
    (forwardPass P (mat, ops) = none ↔ (bitMatrix mat P.pkNRows P.pkNRows 0).rank < P.pkNRows) ∧
    (forwardPass P (mat, ops) = none ↔ (bitMatrix mat P.pkNRows P.pkNRows 0).det = 0) := by
  have key : forwardPass P (mat, ops) = none ↔ (bitMatrix mat P.pkNRows P.pkNRows 0).det = 0 := by
    constructor
    · intro h
      exact forwardPass_none P h8 (mat, ops) h
    · intro hdet
      cases hf : forwardPass P (mat, ops) with
      | none => rfl
      | some s' =>
        exfalso
        obtain ⟨hT, hR⟩ := forwardPass_some P h8 (mat, ops) s' hf
        have h1 := Tracks_det _ _ _ _ hT
        rw [det_of_Reduced _ _ hR] at h1
        rw [← h1] at hdet
        exact one_ne_zero hdet
  refine ⟨?_, ?_, key⟩
  · rw [key, det_eq_zero_iff_not_isUnit]
  · rw [key, det_eq_zero_iff_not_isUnit, rank_lt_iff_not_isUnit]

end mceliece

namespace mceliece

open Matrix

/-! ### Nested loops -/

theorem loopUp_append {σ : Type} (m a : Nat) (g : Nat → σ → σ) (t : σ) :
    loopUp (a + m) g t = loopUp m (fun j s => g (a + j) s) (loopUp a g t) := by
  induction m with
  | zero => rfl
  | succ m ihm => rw [← Nat.add_assoc, loopUp_succ, ihm, loopUp_succ]

theorem loopUp_congr {σ : Type} (n : Nat) (f g : Nat → σ → σ)
    (h : ∀ i, i < n → ∀ s, f i s = g i s) (s : σ) : loopUp n f s = loopUp n g s := by
  induction n with
  | zero => rfl
  | succ n ih =>
    rw [loopUp_succ, loopUp_succ, ih (fun i hi => h i (Nat.lt_succ_of_lt hi)),
      h n (Nat.lt_succ_self n)]

theorem loopDown_congr {σ : Type} (n : Nat) (f g : Nat → σ → σ)
    (h : ∀ i, i < n → ∀ s, f i s = g i s) (s : σ) : loopDown n f s = loopDown n g s := by
  induction n generalizing s with
  | zero => rfl
  | succ n ih =>
    rw [loopDown_succ, loopDown_succ, ih (fun i hi => h i (Nat.lt_succ_of_lt hi)),
      h n (Nat.lt_succ_self n)]

theorem div_mod_block (q w m : Nat) (hm : m < w) :
    (q * w + m) / w = q ∧ (q * w + m) % w = m := by
  have hw : 0 < w := by omega
  constructor
  · rw [Nat.mul_comm q w, Nat.mul_add_div hw, Nat.div_eq_of_lt hm]
    rfl
  · rw [Nat.mul_comm q w, Nat.mul_add_mod, Nat.mod_eq_of_lt hm]

/-- Two nested loops over `q` blocks of `w` rows are one loop over `q * w` rows. -/
theorem loopUp_nested {σ : Type} (q w : Nat) (f : Nat → Nat → Nat → σ → σ) (s : σ) :
    loopUp q (fun i s => loopUp w (fun j s => f (i * w + j) i j s) s) s
      = loopUp (q * w) (fun row s => f row (row / w) (row % w) s) s := by
  induction q with
  | zero => simp [loopUp]
  | succ q ih =>
    rw [loopUp_succ, ih, Nat.succ_mul, loopUp_append]
    apply loopUp_congr
    intro j hj t
    rw [(div_mod_block q w j hj).1, (div_mod_block q w j hj).2]

theorem loopDown_append {σ : Type} (m a : Nat) (g : Nat → σ → σ) (t : σ) :
    loopDown (a + m) g t = loopDown a g (loopDown m (fun j s => g (a + j) s) t) := by
  induction m generalizing t with
  | zero => rfl
  | succ m ihm => rw [← Nat.add_assoc, loopDown_succ, ihm, loopDown_succ]

/-- The same for loops that count down. -/
theorem loopDown_nested {σ : Type} (q w : Nat) (f : Nat → Nat → Nat → σ → σ) (s : σ) :
    loopDown q (fun i s => loopDown w (fun j s => f (i * w + j) i j s) s) s
      = loopDown (q * w) (fun row s => f row (row / w) (row % w) s) s := by
  induction q generalizing s with
  | zero => simp [loopDown]
  | succ q ih =>
    rw [loopDown_succ, ih, Nat.succ_mul, loopDown_append]
    congr 1
    apply loopDown_congr
    intro j hj t
    rw [(div_mod_block q w j hj).1, (div_mod_block q w j hj).2]

/-! ### The identity in `ops` -/

theorem div64_eq_nblocksI (P : Params) (h : P.pkNRows % 64 = 0) :
    P.pkNRows / 64 = nblocksI P := by
  unfold nblocksI
  omega

theorem opsInit_eq (P : Params) (h8 : P.Is8192128 = true → P.pkNRows % 64 = 0)
    (ops : Nat → Nat → Nat) :
    opsInit P ops = loopUp P.pkNRows (fun i ops => set2 ops i (i / 64) (shl64 1 (i % 64)))
      (loopUp P.pkNRows (fun i ops => loopUp (nblocksI P) (fun j ops => set2 ops i j 0) ops)
        ops) := by
  unfold opsInit
  by_cases h : P.Is8192128 = true
  · have hq : P.pkNRows / 64 * 64 = P.pkNRows := by
      have := h8 h
      omega
    rw [if_pos h]
    simp only [set2_set2, set2_same]
    rw [loopUp_nested (P.pkNRows / 64) 64
        (fun row i j ops => set2 ops row i (shl64 1 j)),
      loopUp_nested (P.pkNRows / 64) 64
        (fun row _ _ ops => loopUp (P.pkNRows / 64) (fun c ops => set2 ops row c 0) ops),
      hq, div64_eq_nblocksI P (h8 h)]
  · rw [if_neg h]
    simp only [set2_set2, set2_same]

theorem opsInit_apply (P : Params) (h8 : P.Is8192128 = true → P.pkNRows % 64 = 0)
    (ops : Nat → Nat → Nat) (a b : Nat) :
    opsInit P ops a b =
      if a < P.pkNRows ∧ b = a / 64 then shl64 1 (a % 64)
      else if a < P.pkNRows ∧ b < nblocksI P then 0 else ops a b := by
  rw [opsInit_eq P h8]
  have hzero : ∀ (n : Nat) (o : Nat → Nat → Nat) (a b : Nat),
      loopUp n (fun i ops => loopUp (nblocksI P) (fun j ops => set2 ops i j 0) ops) o a b
        = if a < n ∧ b < nblocksI P then 0 else o a b := by
    intro n o a b
    have inner : ∀ (m i : Nat) (o : Nat → Nat → Nat) (a b : Nat),
        loopUp m (fun j ops => set2 ops i j 0) o a b = if a = i ∧ b < m then 0 else o a b := by
      intro m i o a b
      induction m with
      | zero => simp [loopUp]
      | succ m ih =>
        rw [loopUp_succ]
        simp only [set2]
        by_cases h1 : a = i ∧ b = m
        · rw [if_pos h1, if_pos ⟨h1.1, by omega⟩]
        · rw [if_neg h1, ih]
          by_cases h2 : a = i ∧ b < m
          · rw [if_pos h2, if_pos ⟨h2.1, by omega⟩]
          · rw [if_neg h2, if_neg (by
              intro h3
              rcases Nat.lt_succ_iff_lt_or_eq.mp h3.2 with h4 | h4
              · exact h2 ⟨h3.1, h4⟩
              · exact h1 ⟨h3.1, h4⟩)]
    induction n with
    | zero => simp [loopUp]
    | succ n ih =>
      rw [loopUp_succ, inner, ih]
      by_cases h1 : a = n ∧ b < nblocksI P
      · rw [if_pos h1, if_pos ⟨by omega, h1.2⟩]
      · rw [if_neg h1]
        by_cases h2 : a < n ∧ b < nblocksI P
        · rw [if_pos h2, if_pos ⟨by omega, h2.2⟩]
        · rw [if_neg h2, if_neg (by
            intro h3
            rcases Nat.lt_succ_iff_lt_or_eq.mp h3.1 with h4 | h4
            · exact h2 ⟨h4, h3.2⟩
            · exact h1 ⟨h4, h3.2⟩)]
  have hset : ∀ (n : Nat) (o : Nat → Nat → Nat) (a b : Nat),
      loopUp n (fun i ops => set2 ops i (i / 64) (shl64 1 (i % 64))) o a b
        = if a < n ∧ b = a / 64 then shl64 1 (a % 64) else o a b := by
    intro n o a b
    induction n with
    | zero => simp [loopUp]
    | succ n ih =>
      rw [loopUp_succ]
      simp only [set2]
      by_cases h1 : a = n ∧ b = n / 64
      · rw [if_pos h1, if_pos ⟨by omega, by rw [h1.1]; exact h1.2⟩, h1.1]
      · rw [if_neg h1, ih]
        by_cases h2 : a < n ∧ b = a / 64
        · rw [if_pos h2, if_pos ⟨by omega, h2.2⟩]
        · rw [if_neg h2, if_neg (by
            intro h3
            rcases Nat.lt_succ_iff_lt_or_eq.mp h3.1 with h4 | h4
            · exact h2 ⟨h4, h3.2⟩
            · exact h1 ⟨h4, by rw [← h4]; exact h3.2⟩)]
  rw [hset, hzero]

theorem bitAt_opsInit (P : Params) (h8 : P.Is8192128 = true → P.pkNRows % 64 = 0)
    (ops : Nat → Nat → Nat) (a c : Nat) (ha : a < P.pkNRows) (hc : c < 64 * nblocksI P) :
    bitAt (opsInit P ops) a c = decide (a = c) := by
  unfold bitAt
  rw [opsInit_apply P h8]
  by_cases h1 : c / 64 = a / 64
  · rw [if_pos ⟨ha, h1⟩]
    unfold shl64
    rw [Nat.testBit_mod_two_pow, Nat.shiftLeft_eq, Nat.one_mul, Nat.testBit_two_pow]
    have h64 : c % 64 < 64 := Nat.mod_lt _ (by decide)
    by_cases h2 : a % 64 = c % 64
    · have : a = c := by omega
      simp [h2, this, h64]
    · have : a ≠ c := fun h => h2 (by rw [h])
      simp [h2, this]
  · rw [if_neg (fun h => h1 h.2), if_pos ⟨ha, by omega⟩]
    have : a ≠ c := fun h => h1 (by rw [h])
    simp [this]

theorem bitMatrix_opsInit (P : Params) (h8 : P.Is8192128 = true → P.pkNRows % 64 = 0)
    (ops : Nat → Nat → Nat) :
    bitMatrix (opsInit P ops) P.pkNRows P.pkNRows 0 = 1 := by
  ext i j
  have hj : 0 + (j : Nat) < 64 * nblocksI P := by
    have := le_nblocksI P
    have := j.2
    omega
  rw [bitMatrix_apply, bitAt_opsInit P h8 ops i (0 + j) i.2 hj, Matrix.one_apply]
  by_cases h : i = j
  · subst h
    simp
  · have : (i : Nat) ≠ (j : Nat) := fun h2 => h (Fin.ext h2)
    simp [h, this]

end mceliece

namespace mceliece

open Matrix

/-! ### The backward pass -/

theorem backwardRow_eq (row cN : Nat) (mat ops : Nat → Nat → Nat) :
    backwardRow row (row / 64) (row % 64) cN mat ops
      = loopUp row (fun k ops => rowXor cN k row (maskOf (bitAt mat k row)) ops) ops := by
  unfold backwardRow
  simp only [neg64_mask, loop_rowXor_single]
  rfl

theorem bitAt_backwardRow (row cN : Nat) (mat ops : Nat → Nat → Nat) (a c : Nat) :
    bitAt (backwardRow row (row / 64) (row % 64) cN mat ops) a c
      = if a < row ∧ c / 64 < cN then xor (bitAt ops a c) (bitAt mat a row && bitAt ops row c)
        else bitAt ops a c := by
  rw [backwardRow_eq]
  have key : ∀ t, t ≤ row → ∀ a c,
      bitAt (loopUp t (fun k ops => rowXor cN k row (maskOf (bitAt mat k row)) ops) ops) a c
        = if a < t ∧ c / 64 < cN then xor (bitAt ops a c) (bitAt mat a row && bitAt ops row c)
          else bitAt ops a c := by
    intro t
    induction t with
    | zero =>
      intro _ a c
      have : ¬ (a < 0 ∧ c / 64 < cN) := by omega
      rw [if_neg this]
      rfl
    | succ t ih =>
      intro ht a c
      rw [loopUp_succ, bitAt_rowXor]
      by_cases h1 : a = t ∧ c / 64 < cN
      · rw [if_pos h1, if_pos ⟨by omega, h1.2⟩, ih (by omega), ih (by omega),
          if_neg (by omega), if_neg (by omega), h1.1]
      · rw [if_neg h1, ih (by omega)]
        by_cases h2 : a < t ∧ c / 64 < cN
        · rw [if_pos h2, if_pos ⟨by omega, h2.2⟩]
        · rw [if_neg h2, if_neg (by
            intro h3
            rcases Nat.lt_succ_iff_lt_or_eq.mp h3.1 with h4 | h4
            · exact h2 ⟨h4, h3.2⟩
            · exact h1 ⟨h4, h3.2⟩)]
  exact key row (Nat.le_refl row) a c

theorem zmod2_add_self (x : ZMod 2) : x + x = 0 := by
  revert x
  decide

/-- One round of the backward pass clears column `row` of `ops * A` above the diagonal. -/
theorem BackInv_step (n cN row : Nat) (hn : n ≤ 64 * cN) (hrow : row < n)
    (A : Matrix (Fin n) (Fin n) (ZMod 2)) (mat ops : Nat → Nat → Nat)
    (hU : Reduced n n mat) (h : BackInv n A (bitMatrix mat n n 0) (row + 1) ops) :
    BackInv n A (bitMatrix mat n n 0) row
      (backwardRow row (row / 64) (row % 64) cN mat ops) := by
  intro i j
  -- the entries of the new `ops`
  have hops : ∀ l : Fin n, bitMatrix (backwardRow row (row / 64) (row % 64) cN mat ops) n n 0 i l
      = bitMatrix ops n n 0 i l
        + (if (i : Nat) < row then bitMatrix mat n n 0 i ⟨row, hrow⟩ else 0)
          * bitMatrix ops n n 0 ⟨row, hrow⟩ l := by
    intro l
    have hl : (0 + (l : Nat)) / 64 < cN := by
      have := l.2
      omega
    have hb := bitAt_backwardRow row cN mat ops i (0 + l)
    by_cases hi : (i : Nat) < row
    · rw [if_pos ⟨hi, hl⟩] at hb
      rw [bitMatrix_apply, hb, if_pos hi, bitMatrix_apply, bitMatrix_apply, bitMatrix_apply,
        Nat.zero_add, Nat.zero_add, zmod2_xor]
    · rw [if_neg (fun hh => hi hh.1)] at hb
      rw [bitMatrix_apply, hb, if_neg hi, zero_mul, add_zero, bitMatrix_apply]
  -- hence the entries of the new product
  have hprod : (bitMatrix (backwardRow row (row / 64) (row % 64) cN mat ops) n n 0 * A) i j
      = (bitMatrix ops n n 0 * A) i j
        + (if (i : Nat) < row then bitMatrix mat n n 0 i ⟨row, hrow⟩ else 0)
          * (bitMatrix ops n n 0 * A) ⟨row, hrow⟩ j := by
    simp only [Matrix.mul_apply, hops, add_mul, Finset.sum_add_distrib, Finset.mul_sum,
      mul_assoc]
  -- the pivot row of the old product is a unit vector
  have hpiv : (bitMatrix ops n n 0 * A) ⟨row, hrow⟩ j
      = if (⟨row, hrow⟩ : Fin n) = j then 1 else 0 := by
    rw [h ⟨row, hrow⟩ j]
    by_cases hj : row + 1 ≤ (j : Nat)
    · rw [if_pos hj]
    · rw [if_neg hj]
      by_cases hjr : (j : Nat) = row
      · have : (⟨row, hrow⟩ : Fin n) = j := Fin.ext hjr.symm
        rw [if_pos this, bitMatrix_apply, Nat.zero_add, hjr, (hU row hrow).1]
        rfl
      · have : (⟨row, hrow⟩ : Fin n) ≠ j := fun hh => hjr (by rw [← hh])
        rw [if_neg this, bitMatrix_apply, Nat.zero_add,
          (hU j j.2).2 row (by omega) hrow]
        rfl
  rw [hprod, hpiv, h i j]
  by_cases hj : row + 1 ≤ (j : Nat)
  · have hne : (⟨row, hrow⟩ : Fin n) ≠ j := fun hh => by
      have := congrArg Fin.val hh
      simp at this
      omega
    rw [if_pos hj, if_pos (show row ≤ (j : Nat) by omega), if_neg hne, mul_zero, add_zero]
  · rw [if_neg hj]
    by_cases hjr : (j : Nat) = row
    · have hj' : (⟨row, hrow⟩ : Fin n) = j := Fin.ext hjr.symm
      rw [if_pos hj', mul_one, if_pos (show row ≤ (j : Nat) by omega)]
      subst hj'
      by_cases hi : (i : Nat) < row
      · have hne : i ≠ ⟨row, hrow⟩ := fun hh => by
          have := congrArg Fin.val hh
          simp at this
          omega
        rw [if_pos hi, if_neg hne, zmod2_add_self]
      · rw [if_neg hi, add_zero, bitMatrix_apply, Nat.zero_add]
        by_cases hir : (i : Nat) = row
        · have : i = ⟨row, hrow⟩ := Fin.ext hir
          rw [if_pos this, this, (hU row hrow).1]
          rfl
        · have : i ≠ ⟨row, hrow⟩ := fun hh => hir (by rw [hh])
          rw [if_neg this, (hU row hrow).2 i (by omega) i.2]
          rfl
    · have hne : (⟨row, hrow⟩ : Fin n) ≠ j := fun hh => hjr (by rw [← hh])
      rw [if_neg hne, mul_zero, add_zero, if_neg (show ¬ row ≤ (j : Nat) by omega)]

/-- Both shapes of the backward pass run `backwardRow` on the rows `pkNRows - 1 .. 0`. -/
theorem backwardPass_eq (P : Params) (h8 : P.Is8192128 = true → P.pkNRows % 64 = 0)
    (mat ops : Nat → Nat → Nat) :
    backwardPass P mat ops = loopDown P.pkNRows
      (fun row ops => backwardRow row (row / 64) (row % 64) (nblocksI P) mat ops) ops := by
  unfold backwardPass
  by_cases h : P.Is8192128 = true
  · have hq : P.pkNRows / 64 * 64 = P.pkNRows := by
      have := h8 h
      omega
    rw [if_pos h, loopDown_nested (P.pkNRows / 64) 64
      (fun row i j ops => backwardRow row i j (P.pkNRows / 64) mat ops), hq,
      div64_eq_nblocksI P (h8 h)]
  · rw [if_neg h]
    simp only [(shr6_and63 _).2]

theorem backwardPass_spec (P : Params) (h8 : P.Is8192128 = true → P.pkNRows % 64 = 0)
    (A : Matrix (Fin P.pkNRows) (Fin P.pkNRows) (ZMod 2)) (mat ops : Nat → Nat → Nat)
    (hU : Reduced P.pkNRows P.pkNRows mat)
    (h : bitMatrix ops P.pkNRows P.pkNRows 0 * A = bitMatrix mat P.pkNRows P.pkNRows 0) :
    bitMatrix (backwardPass P mat ops) P.pkNRows P.pkNRows 0 * A = 1 := by
  rw [backwardPass_eq P h8]
  have key := loopDown_inv
    (fun row o => BackInv P.pkNRows A (bitMatrix mat P.pkNRows P.pkNRows 0) row o)
    P.pkNRows (fun row ops => backwardRow row (row / 64) (row % 64) (nblocksI P) mat ops) ops
    (by
      intro i j
      have : ¬ P.pkNRows ≤ (j : Nat) := by
        have := j.2
        omega
      rw [if_neg this, h])
    (fun row hrow o ho => BackInv_step P.pkNRows (nblocksI P) row (le_nblocksI P) hrow A mat o
      hU ho)
  ext i j
  rw [key i j, if_pos (Nat.zero_le _), Matrix.one_apply]

end mceliece

namespace mceliece

open Matrix

/-! ### Elimination as a whole -/

theorem loopUp_fixed {σ : Type} (n : Nat) (body : Nat → σ → σ) (s : σ)
    (h : ∀ i, i < n → body i s = s) : loopUp n body s = s := by
  induction n with
  | zero => rfl
  | succ n ih =>
    rw [loopUp_succ, ih (fun i hi => h i (Nat.lt_succ_of_lt hi)), h n (Nat.lt_succ_self n)]

theorem loopUpM_fixed {σ : Type} (n : Nat) (body : Nat → σ → Option σ) (s : σ)
    (h : ∀ i, i < n → body i s = some s) : loopUpM n body s = some s := by
  induction n with
  | zero => rfl
  | succ n ih =>
    rw [loopUpM_succ, ih (fun i hi => h i (Nat.lt_succ_of_lt hi))]
    exact h n (Nat.lt_succ_self n)

/-- On a left block that is already reduced the forward pass changes nothing. -/
theorem forwardPass_of_Reduced (P : Params) (h8 : P.Is8192128 = true → P.pkNRows % 64 = 0)
    (mat ops : Nat → Nat → Nat) (hR : Reduced P.pkNRows P.pkNRows mat) :
    forwardPass P (mat, ops) = some (mat, ops) := by
  rw [forwardPass_eq P h8]
  apply loopUpM_fixed
  intro row hrow
  rw [forwardRow_eq]
  have h1 : loopRange (row + 1) P.pkNRows
      (fun k (s : (Nat → Nat → Nat) × (Nat → Nat → Nat)) =>
        (rowXor (nblocksI P) row k (maskOf (!bitAt s.1 row row)) s.1,
         rowXor (nblocksI P) row k (maskOf (!bitAt s.1 row row)) s.2)) (mat, ops)
      = (mat, ops) := by
    apply loopUp_fixed
    intro t _
    show (rowXor _ _ _ (maskOf (!bitAt mat row row)) mat,
      rowXor _ _ _ (maskOf (!bitAt mat row row)) ops) = (mat, ops)
    rw [(hR row hrow).1]
    show (rowXor _ _ _ (maskOf false) mat, rowXor _ _ _ (maskOf false) ops) = (mat, ops)
    rw [rowXor_mask_false, rowXor_mask_false]
  have h2 : loopRange (row + 1) P.pkNRows
      (fun k (s : (Nat → Nat → Nat) × (Nat → Nat → Nat)) =>
        (rowXor (nblocksI P) k row (maskOf (bitAt s.1 k row)) s.1,
         rowXor (nblocksI P) k row (maskOf (bitAt s.1 k row)) s.2)) (mat, ops)
      = (mat, ops) := by
    apply loopUp_fixed
    intro t ht
    show (rowXor _ _ _ (maskOf (bitAt mat (row + 1 + t) row)) mat,
      rowXor _ _ _ (maskOf (bitAt mat (row + 1 + t) row)) ops) = (mat, ops)
    rw [(hR row hrow).2 (row + 1 + t) (by omega) (by omega), rowXor_mask_false,
      rowXor_mask_false]
  rw [h1, h2]
  have : bitAt (mat, ops).1 row row = true := (hR row hrow).1
  rw [if_neg (by simp [this])]

theorem elimination_some (P : Params) (s s' : (Nat → Nat → Nat) × (Nat → Nat → Nat))
    (h : elimination P s = some s') :
    ∃ u, forwardPass P s = some u ∧ s' = (u.1, backwardPass P u.1 u.2) := by
  unfold elimination at h
  cases hf : forwardPass P s with
  | none => rw [hf] at h; exact absurd h (by simp)
  | some u =>
    rw [hf] at h
    exact ⟨u, rfl, (Option.some.inj h).symm⟩

theorem bitAt_exampleMat (r c : Nat) :
    bitAt exampleMat r c = (decide (c = r) || (decide (r = 0) && decide (c = 1))) := by
  unfold bitAt exampleMat
  have hc : c % 64 < 64 := Nat.mod_lt _ (by decide)
  by_cases h : c / 64 = r / 64
  · rw [if_pos h, Nat.testBit_or, Nat.shiftLeft_eq, Nat.one_mul, Nat.testBit_two_pow]
    by_cases hr : r = 0
    · subst hr
      rw [if_pos rfl]
      have h2 : Nat.testBit 2 (c % 64) = decide (1 = c % 64) := by
        have := @Nat.testBit_two_pow 1 (c % 64)
        simpa using this
      rw [h2]
      have hc0 : c / 64 = 0 := by simpa using h
      have e1 : decide (0 % 64 = c % 64) = decide (c = 0) := by
        apply decide_eq_decide.mpr; omega
      have e2 : decide (1 = c % 64) = decide (c = 1) := by
        apply decide_eq_decide.mpr; omega
      rw [e1, e2]
      simp
    · rw [if_neg hr]
      have e1 : decide (r % 64 = c % 64) = decide (c = r) := by
        apply decide_eq_decide.mpr; omega
      rw [e1]
      simp [hr]
  · rw [if_neg h]
    have h1 : c ≠ r := fun hh => h (by rw [hh])
    have h2 : ¬ (r = 0 ∧ c = 1) := fun hh => h (by rw [hh.1, hh.2])
    by_cases hr : r = 0
    · have : c ≠ 1 := fun hh => h2 ⟨hr, hh⟩
      simp [h1, this]
    · simp [h1, hr]

theorem Reduced_exampleMat (n : Nat) : Reduced n n exampleMat := by
  intro c _
  constructor
  · rw [bitAt_exampleMat]
    simp
  · intro k hk _
    rw [bitAt_exampleMat]
    have h1 : c ≠ k := by omega
    have h2 : k ≠ 0 := by omega
    simp [h1, h2]

theorem elimination_of_Reduced (P : Params) (h8 : P.Is8192128 = true → P.pkNRows % 64 = 0)
    (mat ops : Nat → Nat → Nat) (hR : Reduced P.pkNRows P.pkNRows mat) :
    elimination P (mat, ops) = some (mat, backwardPass P mat ops) := by
  unfold elimination
  rw [forwardPass_of_Reduced P h8 mat ops hR]

/-- A left block with an entry off the diagonal is not the identity. -/
theorem bitMatrix_ne_one (n : Nat) (m : Nat → Nat → Nat) (r c : Nat) (hr : r < n) (hc : c < n)
    (hne : r ≠ c) (hb : bitAt m r c = true) : bitMatrix m n n 0 ≠ 1 := by
  intro hone
  have h := congrFun (congrFun hone (⟨r, hr⟩ : Fin n)) (⟨c, hc⟩ : Fin n)
  rw [bitMatrix_apply, Matrix.one_apply, if_neg (fun hh => hne (Fin.mk.inj hh))] at h
  have hb' : bitAt m r (0 + c) = true := by rw [Nat.zero_add]; exact hb
  have hb'' : bitAt m ((⟨r, hr⟩ : Fin n) : Nat) (0 + ((⟨c, hc⟩ : Fin n) : Nat)) = true := hb'
  rw [hb'', if_pos rfl] at h
  exact one_ne_zero h

/-- C5: whenever elimination succeeds, the transform matrix `ops` left by the backward pass,
read as a `pkNRows × pkNRows` bit matrix (bit `c` of row `r` is bit `c mod 64` of
`ops[r][c/64]`), satisfies `ops * A = 1` over GF(2), where `A` is the first `pkNRows` columns of
the check matrix before elimination started. -/
theorem ops_mul_left_block_eq_one (P : Params) (h8 : P.Is8192128 = true → P.pkNRows % 64 = 0)
    (mat ops0 : Nat → Nat → Nat) (s : (Nat → Nat → Nat) × (Nat → Nat → Nat))
    (h : elimination P (mat, opsInit P ops0) = some s) :
    bitMatrix s.2 P.pkNRows P.pkNRows 0 * bitMatrix mat P.pkNRows P.pkNRows 0 = 1 := by
  obtain ⟨u, hf, hs⟩ := elimination_some P _ s h
  obtain ⟨⟨E, _, h1, h2⟩, hR⟩ := forwardPass_some P h8 _ u hf
  rw [hs]
  apply backwardPass_spec P h8 _ u.1 u.2 hR
  have h2' : bitMatrix u.2 P.pkNRows P.pkNRows 0 = E := by
    rw [h2]
    show E * bitMatrix (opsInit P ops0) P.pkNRows P.pkNRows 0 = E
    rw [bitMatrix_opsInit P h8, Matrix.mul_one]
  rw [h2', h1]

theorem ops_mul_left_block_eq_one_witness :
    (mceliece8192128.Is8192128 = true → mceliece8192128.pkNRows % 64 = 0) ∧
    elimination mceliece8192128 (exampleMat, opsInit mceliece8192128 (fun _ _ => 0))
      = some (exampleMat, backwardPass mceliece8192128 exampleMat
          (opsInit mceliece8192128 (fun _ _ => 0))) ∧
    bitMatrix (exampleMat, backwardPass mceliece8192128 exampleMat
          (opsInit mceliece8192128 (fun _ _ => 0))).2
        mceliece8192128.pkNRows mceliece8192128.pkNRows 0
      * bitMatrix exampleMat mceliece8192128.pkNRows mceliece8192128.pkNRows 0 = 1 :=
  ⟨by decide,
    elimination_of_Reduced mceliece8192128 (by decide) exampleMat _ (Reduced_exampleMat _),
    ops_mul_left_block_eq_one mceliece8192128 (by decide) exampleMat (fun _ _ => 0)
      (exampleMat, backwardPass mceliece8192128 exampleMat
        (opsInit mceliece8192128 (fun _ _ => 0)))
      (elimination_of_Reduced mceliece8192128 (by decide) exampleMat _ (Reduced_exampleMat _))⟩

/-- C4, refuted as stated: for `mceliece348864` and the matrix `exampleMat`, both passes
complete and return `exampleMat` as `mat`, whose left block still has its entry in row 0,
column 1 after the backward pass, so it is not the identity. -/
theorem left_block_not_identity :
    elimination mceliece348864 (exampleMat, opsInit mceliece348864 (fun _ _ => 0))
      = some (exampleMat, backwardPass mceliece348864 exampleMat
          (opsInit mceliece348864 (fun _ _ => 0))) ∧
    bitAt exampleMat 0 1 = true ∧
    bitMatrix exampleMat mceliece348864.pkNRows mceliece348864.pkNRows 0 ≠ 1 :=
  ⟨elimination_of_Reduced mceliece348864 (by decide) exampleMat _ (Reduced_exampleMat _),
    by rw [bitAt_exampleMat]; rfl,
    bitMatrix_ne_one _ exampleMat 0 1 (by decide) (by decide) (by decide)
      (by rw [bitAt_exampleMat]; rfl)⟩

/-- C4, amended: whenever both elimination passes complete, the left block of `mat` after the
backward pass is exactly what the forward pass left, the backward pass writing only `ops`: it is
upper triangular with every diagonal entry equal to 1 (entries above the diagonal are not
cleared). -/
theorem left_block_unit_upper_triangular (P : Params)
    (h8 : P.Is8192128 = true → P.pkNRows % 64 = 0) (mat ops : Nat → Nat → Nat)
    (s : (Nat → Nat → Nat) × (Nat → Nat → Nat)) (h : elimination P (mat, ops) = some s) :
    (∃ ops', forwardPass P (mat, ops) = some (s.1, ops') ∧ s.2 = backwardPass P s.1 ops') ∧
    ∀ r c, r < P.pkNRows → c < P.pkNRows →
      (c = r → bitAt s.1 r c = true) ∧ (c < r → bitAt s.1 r c = false) := by
  obtain ⟨u, hf, hs⟩ := elimination_some P _ s h
  obtain ⟨_, hR⟩ := forwardPass_some P h8 _ u hf
  rw [hs]
  refine ⟨⟨u.2, hf, rfl⟩, ?_⟩
  intro r c hr hc
  constructor
  · intro hcr
    rw [hcr]
    exact (hR r hr).1
  · intro hcr
    exact (hR c hc).2 r hcr hr

theorem left_block_unit_upper_triangular_witness :
    (mceliece348864.Is8192128 = true → mceliece348864.pkNRows % 64 = 0) ∧
    elimination mceliece348864 (exampleMat, opsInit mceliece348864 (fun _ _ => 0))
      = some (exampleMat, backwardPass mceliece348864 exampleMat
          (opsInit mceliece348864 (fun _ _ => 0))) ∧
    ((∃ ops', forwardPass mceliece348864 (exampleMat, opsInit mceliece348864 (fun _ _ => 0))
        = some ((exampleMat, backwardPass mceliece348864 exampleMat
            (opsInit mceliece348864 (fun _ _ => 0))).1, ops') ∧
        (exampleMat, backwardPass mceliece348864 exampleMat
            (opsInit mceliece348864 (fun _ _ => 0))).2
          = backwardPass mceliece348864 (exampleMat, backwardPass mceliece348864 exampleMat
            (opsInit mceliece348864 (fun _ _ => 0))).1 ops') ∧
      ∀ r c, r < mceliece348864.pkNRows → c < mceliece348864.pkNRows →
        (c = r → bitAt (exampleMat, backwardPass mceliece348864 exampleMat
            (opsInit mceliece348864 (fun _ _ => 0))).1 r c = true) ∧
        (c < r → bitAt (exampleMat, backwardPass mceliece348864 exampleMat
            (opsInit mceliece348864 (fun _ _ => 0))).1 r c = false)) :=
  ⟨by decide,
    elimination_of_Reduced mceliece348864 (by decide) exampleMat _ (Reduced_exampleMat _),
    left_block_unit_upper_triangular mceliece348864 (by decide) exampleMat
      (opsInit mceliece348864 (fun _ _ => 0))
      (exampleMat, backwardPass mceliece348864 exampleMat
        (opsInit mceliece348864 (fun _ _ => 0)))
      (elimination_of_Reduced mceliece348864 (by decide) exampleMat _ (Reduced_exampleMat _))⟩

/-- Witness for C2 on `mceliece8192128`, whose row count is a multiple of 64. -/
theorem forwardPass_fails_iff_singular_witness :
    (mceliece8192128.Is8192128 = true → mceliece8192128.pkNRows % 64 = 0) ∧
    ((forwardPass mceliece8192128 (exampleMat, fun _ _ => 0) = none ↔
        ¬ IsUnit (bitMatrix exampleMat mceliece8192128.pkNRows mceliece8192128.pkNRows 0)) ∧
      (forwardPass mceliece8192128 (exampleMat, fun _ _ => 0) = none ↔
        (bitMatrix exampleMat mceliece8192128.pkNRows mceliece8192128.pkNRows 0).rank
          < mceliece8192128.pkNRows) ∧
      (forwardPass mceliece8192128 (exampleMat, fun _ _ => 0) = none ↔
        (bitMatrix exampleMat mceliece8192128.pkNRows mceliece8192128.pkNRows 0).det = 0)) :=
  ⟨by decide, forwardPass_fails_iff_singular mceliece8192128 (by decide) exampleMat
    (fun _ _ => 0)⟩

end mceliece

namespace mceliece

/-! ### The sort keys and the scan -/

theorem loopUp_pointwise0 {α : Type} (n : Nat) (f : Nat → α → α) (out : Nat → α) (k : Nat) :
    loopUp n (fun i out => set1 out i (f i (out i))) out k
      = if k < n then f k (out k) else out k := by
  have := loopUp_pointwise n 0 f out k
  simp only [Nat.zero_add, Nat.zero_le, true_and, Nat.sub_zero] at this
  exact this

theorem sortKeys_apply (P : Params) (list perm : Nat → Nat) (i : Nat) :
    sortKeys P list perm i =
      if i < 1 <<< P.gfBits then (shl64 (list i) P.gfBits ||| i) ||| shl64 (perm i) 31
      else list i := by
  unfold sortKeys
  simp only [set1_set1, set1_same]
  exact loopUp_pointwise0 _ (fun i x => (shl64 x P.gfBits ||| i) ||| shl64 (perm i) 31) list i

theorem deBitSlicing_lt (P : Params) (hg : P.gfBits ≤ 64) (out : Nat → Nat)
    (inp : Nat → Nat → Nat) (k : Nat) (hk : k < 1 <<< P.gfBits) :
    deBitSlicing P out inp k < 2 ^ P.gfBits := by
  rw [deBitSlicing_apply, if_pos hk]
  by_cases h : k < 64 * exponent P
  · rw [if_pos h]
    apply Nat.lt_pow_two_of_testBit
    intro t ht
    rw [shiftIn_testBit (fun j => inp (k / 64) j >>> (k % 64)) P.gfBits hg 0 (by decide) t,
      if_neg (by omega)]
    simp
  · rw [if_neg h]
    exact Nat.two_pow_pos _

/-- The permutation tag is recovered from a key by `>> 31`. -/
theorem key_shr31 (g x i p : Nat) (hg : 2 * g ≤ 31) (hx : x < 2 ^ g) (hi : i < 2 ^ g)
    (hp : p < 2 ^ 32) : ((shl64 x g ||| i) ||| shl64 p 31) >>> 31 = p := by
  have hlow : shl64 x g ||| i < 2 ^ 31 := by
    have h1 : shl64 x g < 2 ^ (2 * g) := by
      unfold shl64
      apply Nat.lt_of_le_of_lt (Nat.mod_le _ _)
      rw [Nat.shiftLeft_eq, Nat.two_mul, Nat.pow_add]
      exact Nat.mul_lt_mul_of_pos_right hx (Nat.two_pow_pos g)
    have h2 : i < 2 ^ (2 * g) :=
      Nat.lt_of_lt_of_le hi (Nat.pow_le_pow_right (by decide) (by omega))
    exact Nat.lt_of_lt_of_le (Nat.or_lt_two_pow h1 h2)
      (Nat.pow_le_pow_right (by decide) hg)
  have hp' : shl64 p 31 = p <<< 31 := by
    unfold shl64
    apply Nat.mod_eq_of_lt
    rw [Nat.shiftLeft_eq]
    have : p * 2 ^ 31 < 2 ^ 32 * 2 ^ 31 := Nat.mul_lt_mul_of_pos_right hp (by decide)
    omega
  rw [hp']
  apply Nat.eq_of_testBit_eq
  intro t
  rw [Nat.testBit_shiftRight, Nat.testBit_or, Nat.testBit_shiftLeft]
  have : (shl64 x g ||| i).testBit (31 + t) = false := by
    apply Nat.testBit_lt_two_pow
    exact Nat.lt_of_lt_of_le hlow (Nat.pow_le_pow_right (by decide) (by omega))
  rw [this]
  simp

/-- The scan returns false exactly when two adjacent keys carry the same tag. -/
theorem scanKeys_none_iff (P : Params) (list : Nat → Nat) :
    scanKeys P list = none ↔
      ∃ i, 1 ≤ i ∧ i < 1 <<< P.gfBits ∧ list (i - 1) >>> 31 = list i >>> 31 := by
  unfold scanKeys loopRangeM
  generalize (1 <<< P.gfBits) = n
  have key : ∀ m, loopUpM m (fun t (_ : Unit) =>
      if list (1 + t - 1) >>> 31 = list (1 + t) >>> 31 then none else some ()) ()
        = none ↔ ∃ t, t < m ∧ list (1 + t - 1) >>> 31 = list (1 + t) >>> 31 := by
    intro m
    induction m with
    | zero => simp [loopUpM]
    | succ m ih =>
      rw [loopUpM_succ]
      cases hm : loopUpM m (fun t (_ : Unit) =>
        if list (1 + t - 1) >>> 31 = list (1 + t) >>> 31 then none else some ()) () with
      | none =>
        obtain ⟨t, ht, hh⟩ := ih.mp hm
        exact ⟨fun _ => ⟨t, by omega, hh⟩, fun _ => rfl⟩
      | some u =>
        have hno : ¬ ∃ t, t < m ∧ list (1 + t - 1) >>> 31 = list (1 + t) >>> 31 := by
          intro hex
          have := ih.mpr hex
          rw [hm] at this
          exact absurd this (by simp)
        show (if list (1 + m - 1) >>> 31 = list (1 + m) >>> 31 then none else some ()) = none ↔ _
        by_cases hc : list (1 + m - 1) >>> 31 = list (1 + m) >>> 31
        · rw [if_pos hc]
          exact ⟨fun _ => ⟨m, by omega, hc⟩, fun _ => rfl⟩
        · rw [if_neg hc]
          constructor
          · intro hcontra
            exact absurd hcontra (by simp)
          · intro ⟨t, ht, hh⟩
            exfalso
            by_cases htm : t = m
            · rw [htm] at hh; exact hc hh
            · exact hno ⟨t, by omega, hh⟩
  rw [key]
  constructor
  · intro ⟨t, ht, hh⟩
    exact ⟨1 + t, by omega, by omega, hh⟩
  · intro ⟨i, h1, h2, hh⟩
    refine ⟨i - 1, by omega, ?_⟩
    have : 1 + (i - 1) = i := by omega
    rw [this]
    exact hh

/-- A list of values over `0 .. n-1` has a repetition exactly when two indices collide. -/
theorem not_nodup_map_range (n : Nat) (f : Nat → Nat) :
    ¬ (List.map f (List.range n)).Nodup ↔ ∃ a b, a < n ∧ b < n ∧ a ≠ b ∧ f a = f b := by
  rw [List.nodup_map_iff_inj_on (List.nodup_range n)]
  constructor
  · intro h
    by_contra hne
    apply h
    intro x hx y hy hxy
    by_contra hxy'
    exact hne ⟨x, y, List.mem_range.mp hx, List.mem_range.mp hy, hxy', hxy⟩
  · intro ⟨a, b, ha, hb, hab, hf⟩ h
    exact hab (h a (List.mem_range.mpr ha) b (List.mem_range.mpr hb) hf)

theorem shr31_mono (x y : Nat) (h : x ≤ y) : x >>> 31 ≤ y >>> 31 := by
  rw [Nat.shiftRight_eq_div_pow, Nat.shiftRight_eq_div_pow]
  exact Nat.div_le_div_right h

/-- In sorted keys a repeated tag shows up in two adjacent keys. -/
theorem adjacent_of_collision (n : Nat) (out : Nat → Nat)
    (hs : ∀ i j, i ≤ j → j < n → out i ≤ out j) :
    (∃ a b, a < n ∧ b < n ∧ a ≠ b ∧ out a >>> 31 = out b >>> 31) ↔
      ∃ i, 1 ≤ i ∧ i < n ∧ out (i - 1) >>> 31 = out i >>> 31 := by
  constructor
  · intro ⟨a, b, ha, hb, hab, h⟩
    have main : ∀ p q, p < q → q < n → out p >>> 31 = out q >>> 31 →
        ∃ i, 1 ≤ i ∧ i < n ∧ out (i - 1) >>> 31 = out i >>> 31 := by
      intro p q hpq hq hh
      refine ⟨p + 1, by omega, by omega, ?_⟩
      have h1 := shr31_mono _ _ (hs p (p + 1) (by omega) (by omega))
      have h2 := shr31_mono _ _ (hs (p + 1) q (by omega) hq)
      have : p + 1 - 1 = p := by omega
      rw [this]
      omega
    rcases Nat.lt_or_gt_of_ne hab with hlt | hgt
    · exact main a b hlt hb h
    · exact main b a hgt ha h.symm
  · intro ⟨i, h1, h2, h⟩
    exact ⟨i - 1, i, by omega, h2, by omega, h⟩

/-- The scan of the sorted keys fails exactly when two permutation tags collide. -/
theorem scanKeys_sortedKeys_none_iff (P : Params) (E : Ext) (hg : 2 * P.gfBits ≤ 31)
    (hsort : ∀ l n, SortedPerm n l (E.UInt64Sort l n))
    (irr perm : Nat → Nat) (hperm : ∀ i, perm i < 2 ^ 32) :
    scanKeys P (sortedKeys P E irr perm) = none ↔
      ∃ a b, a < 1 <<< P.gfBits ∧ b < 1 <<< P.gfBits ∧ a ≠ b ∧ perm a = perm b := by
  rw [scanKeys_none_iff]
  unfold sortedKeys
  generalize hkeys : sortKeys P (deBitSlicing P (fun _ => 0)
    (batchInverse P E (E.fft (fun _ _ => 0) (irrLoad P E (fun _ _ => 0) irr)) (fun _ _ => 0)))
    perm = keys
  obtain ⟨hs, hp⟩ := hsort keys (1 <<< P.gfBits)
  have htag : ∀ i, i < 1 <<< P.gfBits → keys i >>> 31 = perm i := by
    intro i hi
    rw [← hkeys, sortKeys_apply, if_pos hi]
    have hi' : i < 2 ^ P.gfBits := by
      rw [Nat.shiftLeft_eq, Nat.one_mul] at hi
      exact hi
    exact key_shr31 P.gfBits _ i (perm i) hg
      (deBitSlicing_lt P (by omega) _ _ i hi) hi' (hperm i)
  rw [← adjacent_of_collision _ _ hs, ← not_nodup_map_range,
    ← not_nodup_map_range (1 <<< P.gfBits) perm]
  have e1 : List.map (fun i => E.UInt64Sort keys (1 <<< P.gfBits) i >>> 31)
      (List.range (1 <<< P.gfBits))
      = List.map (fun x => x >>> 31)
        (List.map (E.UInt64Sort keys (1 <<< P.gfBits)) (List.range (1 <<< P.gfBits))) := by
    rw [List.map_map]; rfl
  have e2 : List.map perm (List.range (1 <<< P.gfBits))
      = List.map (fun x => x >>> 31) (List.map keys (List.range (1 <<< P.gfBits))) := by
    rw [List.map_map]
    apply List.map_congr_left
    intro i hi
    exact (htag i (List.mem_range.mp hi)).symm
  rw [e1, e2, (hp.map (fun x => x >>> 31)).nodup_iff]

/-- C3: assuming `internal.UInt64Sort` leaves `list` in ascending order as a rearrangement of
its input, for every `irr` and every `perm` (of 32-bit words) the adjacent-pair scan of `pkGen`
returns false if and only if `perm` is not injective: there are indices `a ≠ b` below
`2^gfBits` with `perm[a] = perm[b]`. -/
theorem scan_fails_iff_not_injective (P : Params) (E : Ext) (hg : 2 * P.gfBits ≤ 31)
    (hsort : ∀ l n, SortedPerm n l (E.UInt64Sort l n))
    (irr perm : Nat → Nat) (hperm : ∀ i, perm i < 2 ^ 32) :
    scanKeys P (sortedKeys P E irr perm) = none ↔
      ∃ a b, a < 1 <<< P.gfBits ∧ b < 1 <<< P.gfBits ∧ a ≠ b ∧ perm a = perm b :=
  scanKeys_sortedKeys_none_iff P E hg hsort irr perm hperm

theorem map_sortArr (l : Nat → Nat) (n : Nat) :
    List.map (sortArr l n) (List.range n)
      = (List.map l (List.range n)).insertionSort (fun a b => a ≤ b) := by
  apply List.ext_getElem
  · rw [List.length_map, List.length_range, List.length_insertionSort, List.length_map,
      List.length_range]
  · intro i h1 h2
    have hi : i < n := by
      rw [List.length_map, List.length_range] at h1
      exact h1
    rw [List.getElem_map, List.getElem_range]
    unfold sortArr
    rw [if_pos hi, List.getD_eq_getElem _ _ h2]

theorem sortArr_SortedPerm (l : Nat → Nat) (n : Nat) : SortedPerm n l (sortArr l n) := by
  constructor
  · intro i j hij hj
    have hlen : ((List.map l (List.range n)).insertionSort (fun a b => a ≤ b)).length = n := by
      rw [List.length_insertionSort, List.length_map, List.length_range]
    have hsorted := List.sorted_insertionSort (fun a b : Nat => a ≤ b)
      (List.map l (List.range n))
    have hi : i < n := by omega
    have := hsorted.rel_get_of_le (a := ⟨i, by rw [hlen]; exact hi⟩)
      (b := ⟨j, by rw [hlen]; exact hj⟩) hij
    unfold sortArr
    rw [if_pos hi, if_pos hj, List.getD_eq_getElem _ _ (by rw [hlen]; exact hi),
      List.getD_eq_getElem _ _ (by rw [hlen]; exact hj)]
    exact this
  · rw [map_sortArr]
    exact List.perm_insertionSort _ _

theorem scan_fails_iff_not_injective_witness :
    2 * mceliece6960119.gfBits ≤ 31 ∧
    (∀ l n, SortedPerm n l (exampleExt.UInt64Sort l n)) ∧
    (∀ i : Nat, i % 7 < 2 ^ 32) ∧
    (scanKeys mceliece6960119 (sortedKeys mceliece6960119 exampleExt (fun _ => 0)
        (fun i => i % 7)) = none ↔
      ∃ a b, a < 1 <<< mceliece6960119.gfBits ∧ b < 1 <<< mceliece6960119.gfBits ∧ a ≠ b ∧
        a % 7 = b % 7) :=
  ⟨by decide, sortArr_SortedPerm, fun i => by omega,
    scan_fails_iff_not_injective mceliece6960119 exampleExt (by decide) sortArr_SortedPerm
      (fun _ => 0) (fun i => i % 7) (fun i => (by omega : i % 7 < 2 ^ 32))⟩

end mceliece

namespace mceliece

/-! ### The three exits of `pkGen` -/

theorem pkGen_eq (P : Params) (E : Ext) (pk irr perm : Nat → Nat) (pi : Nat → Int)
    (pivots : Nat) :
    pkGen P E pk irr perm pi pivots =
      match scanKeys P (sortedKeys P E irr perm) with
      | none => { ok := false, pk := pk, pi := pi, pivots := pivots }
      | some _ =>
        match elimination P ((leftFill P E irr perm).1, opsInit P (fun _ _ => 0)) with
        | none =>
          { ok := false, pk := pk, pi := writePi P (sortedKeys P E irr perm) pi,
            pivots := pivots }
        | some s =>
          { ok := true, pk := emitKey P (finalMat P E irr perm s) s.2 pk,
            pi := writePi P (sortedKeys P E irr perm) pi, pivots := pivots } := by
  unfold pkGen finalMat savedColumn leftFill keyBlocks
  rfl

theorem pkGen_of_scan_none (P : Params) (E : Ext) (pk irr perm : Nat → Nat) (pi : Nat → Int)
    (pivots : Nat) (h : scanKeys P (sortedKeys P E irr perm) = none) :
    pkGen P E pk irr perm pi pivots = { ok := false, pk := pk, pi := pi, pivots := pivots } := by
  rw [pkGen_eq, h]

theorem pkGen_of_elimination_none (P : Params) (E : Ext) (pk irr perm : Nat → Nat)
    (pi : Nat → Int) (pivots : Nat) (u : Unit)
    (h1 : scanKeys P (sortedKeys P E irr perm) = some u)
    (h2 : elimination P ((leftFill P E irr perm).1, opsInit P (fun _ _ => 0)) = none) :
    pkGen P E pk irr perm pi pivots =
      { ok := false, pk := pk, pi := writePi P (sortedKeys P E irr perm) pi,
        pivots := pivots } := by
  rw [pkGen_eq, h1, h2]

theorem pkGen_of_elimination_some (P : Params) (E : Ext) (pk irr perm : Nat → Nat)
    (pi : Nat → Int) (pivots : Nat) (u : Unit) (s : (Nat → Nat → Nat) × (Nat → Nat → Nat))
    (h1 : scanKeys P (sortedKeys P E irr perm) = some u)
    (h2 : elimination P ((leftFill P E irr perm).1, opsInit P (fun _ _ => 0)) = some s) :
    pkGen P E pk irr perm pi pivots =
      { ok := true, pk := emitKey P (finalMat P E irr perm s) s.2 pk,
        pi := writePi P (sortedKeys P E irr perm) pi, pivots := pivots } := by
  rw [pkGen_eq, h1, h2]

/-- The three ways `pkGen` can end. -/
theorem pkGen_cases (P : Params) (E : Ext) (pk irr perm : Nat → Nat) (pi : Nat → Int)
    (pivots : Nat) :
    (scanKeys P (sortedKeys P E irr perm) = none ∧
      pkGen P E pk irr perm pi pivots
        = { ok := false, pk := pk, pi := pi, pivots := pivots }) ∨
    (scanKeys P (sortedKeys P E irr perm) = some () ∧
      elimination P ((leftFill P E irr perm).1, opsInit P (fun _ _ => 0)) = none ∧
      pkGen P E pk irr perm pi pivots
        = { ok := false, pk := pk, pi := writePi P (sortedKeys P E irr perm) pi,
            pivots := pivots }) ∨
    (∃ s, scanKeys P (sortedKeys P E irr perm) = some () ∧
      elimination P ((leftFill P E irr perm).1, opsInit P (fun _ _ => 0)) = some s ∧
      pkGen P E pk irr perm pi pivots
        = { ok := true, pk := emitKey P (finalMat P E irr perm s) s.2 pk,
            pi := writePi P (sortedKeys P E irr perm) pi, pivots := pivots }) := by
  cases h1 : scanKeys P (sortedKeys P E irr perm) with
  | none => exact Or.inl ⟨rfl, pkGen_of_scan_none P E pk irr perm pi pivots h1⟩
  | some u =>
    cases h2 : elimination P ((leftFill P E irr perm).1, opsInit P (fun _ _ => 0)) with
    | none =>
      exact Or.inr (Or.inl ⟨rfl, rfl, pkGen_of_elimination_none P E pk irr perm pi pivots u h1 h2⟩)
    | some s =>
      exact Or.inr (Or.inr ⟨s, rfl, rfl,
        pkGen_of_elimination_some P E pk irr perm pi pivots u s h1 h2⟩)

/-- C20: `pkGen` never writes through its `pivots` parameter: on every path, both failure
returns and the success return, the word `*pivots` after the call is the word before it. -/
theorem pkGen_pivots_unchanged (P : Params) (E : Ext) (pk irr perm : Nat → Nat)
    (pi : Nat → Int) (pivots : Nat) :
    (pkGen P E pk irr perm pi pivots).pivots = pivots := by
  rcases pkGen_cases P E pk irr perm pi pivots with ⟨_, h⟩ | ⟨_, _, h⟩ | ⟨s, _, _, h⟩ <;>
    rw [h]

/-- C12: whenever `pkGen` returns false, by either failure kind, the buffer `pk` is byte for
byte what it was before the call. -/
theorem pkGen_false_pk_unchanged (P : Params) (E : Ext) (pk irr perm : Nat → Nat)
    (pi : Nat → Int) (pivots : Nat) (h : (pkGen P E pk irr perm pi pivots).ok = false) :
    (pkGen P E pk irr perm pi pivots).pk = pk := by
  rcases pkGen_cases P E pk irr perm pi pivots with ⟨_, h'⟩ | ⟨_, _, h'⟩ | ⟨s, _, _, h'⟩
  · rw [h']
  · rw [h']
  · rw [h'] at h
    exact absurd h (by simp)

/-- With a sorting `UInt64Sort`, a permutation with a repeated tag makes `pkGen` fail. -/
theorem pkGen_of_collision (P : Params) (E : Ext) (hg : 2 * P.gfBits ≤ 31)
    (hsort : ∀ l n, SortedPerm n l (E.UInt64Sort l n)) (pk irr perm : Nat → Nat)
    (hperm : ∀ i, perm i < 2 ^ 32) (pi : Nat → Int) (pivots : Nat)
    (hcol : ∃ a b, a < 1 <<< P.gfBits ∧ b < 1 <<< P.gfBits ∧ a ≠ b ∧ perm a = perm b) :
    pkGen P E pk irr perm pi pivots = { ok := false, pk := pk, pi := pi, pivots := pivots } :=
  pkGen_of_scan_none P E pk irr perm pi pivots
    ((scanKeys_sortedKeys_none_iff P E hg hsort irr perm hperm).mpr hcol)

theorem pkGen_false_pk_unchanged_witness :
    (pkGen mceliece6960119 exampleExt (fun i => i % 256) (fun _ => 0) (fun i => i % 7)
      (fun _ => 0) 0).ok = false ∧
    (pkGen mceliece6960119 exampleExt (fun i => i % 256) (fun _ => 0) (fun i => i % 7)
      (fun _ => 0) 0).pk = fun i => i % 256 := by
  have hf := pkGen_of_collision mceliece6960119 exampleExt (by decide) sortArr_SortedPerm
    (fun i => i % 256) (fun _ => 0) (fun i => i % 7) (fun i => (by omega : i % 7 < 2 ^ 32))
    (fun _ => 0) 0 ⟨0, 7, by decide, by decide, by decide, by decide⟩
  have hok : (pkGen mceliece6960119 exampleExt (fun i => i % 256) (fun _ => 0)
      (fun i => i % 7) (fun _ => 0) 0).ok = false := by rw [hf]
  exact ⟨hok, pkGen_false_pk_unchanged mceliece6960119 exampleExt _ _ _ _ _ hok⟩

end mceliece

namespace mceliece

/-! ### The fields of a sort key -/

theorem shl64_testBit (x s t : Nat) :
    (shl64 x s).testBit t = (decide (t < 64) && (decide (s ≤ t) && x.testBit (t - s))) := by
  unfold shl64
  rw [Nat.testBit_mod_two_pow, Nat.testBit_shiftLeft]

theorem gfMask_testBit (P : Params) (t : Nat) : (gfMask P).testBit t = decide (t < P.gfBits) := by
  unfold gfMask
  rw [Nat.shiftLeft_eq, Nat.one_mul, Nat.testBit_two_pow_sub_one]

/-- The index is recovered from a key by `& gfMask`. -/
theorem key_and_gfMask (P : Params) (hg : 2 * P.gfBits ≤ 31) (x i p : Nat)
    (hi : i < 2 ^ P.gfBits) :
    ((shl64 x P.gfBits ||| i) ||| shl64 p 31) &&& gfMask P = i := by
  apply Nat.eq_of_testBit_eq
  intro t
  rw [Nat.testBit_and, Nat.testBit_or, Nat.testBit_or, shl64_testBit, shl64_testBit,
    gfMask_testBit]
  by_cases ht : t < P.gfBits
  · have h1 : decide (P.gfBits ≤ t) = false := by simp; omega
    have h2 : decide (31 ≤ t) = false := by simp; omega
    simp [ht, h1, h2]
  · have h3 : i.testBit t = false :=
      Nat.testBit_lt_two_pow (Nat.lt_of_lt_of_le hi (Nat.pow_le_pow_right (by decide) (by omega)))
    simp [ht, h3]

/-- The inverse evaluation is recovered from a key by `>> gfBits` and `& gfMask`. -/
theorem key_shr_and_gfMask (P : Params) (hg : 2 * P.gfBits ≤ 31) (x i p : Nat)
    (hx : x < 2 ^ P.gfBits) (hi : i < 2 ^ P.gfBits) :
    (((shl64 x P.gfBits ||| i) ||| shl64 p 31) >>> P.gfBits) &&& gfMask P = x := by
  apply Nat.eq_of_testBit_eq
  intro t
  rw [Nat.testBit_and, Nat.testBit_shiftRight, Nat.testBit_or, Nat.testBit_or, shl64_testBit,
    shl64_testBit, gfMask_testBit]
  by_cases ht : t < P.gfBits
  · have h1 : decide (P.gfBits + t < 64) = true := by simp; omega
    have h2 : decide (31 ≤ P.gfBits + t) = false := by simp; omega
    have h3 : i.testBit (P.gfBits + t) = false :=
      Nat.testBit_lt_two_pow (Nat.lt_of_lt_of_le hi (Nat.pow_le_pow_right (by decide) (by omega)))
    simp [ht, h1, h2, h3]
  · have h3 : x.testBit t = false :=
      Nat.testBit_lt_two_pow (Nat.lt_of_lt_of_le hx (Nat.pow_le_pow_right (by decide) (by omega)))
    simp [ht, h3]

/-- C16: the three fields of a sort key never overlap. With `2 * gfBits ≤ 31`, for every index
`i < 2^gfBits` and 32-bit tags, the entry `list[i]` left by `deBitSlicing` is below `2^gfBits`
and the key built at lines 183-187 of `pkGen` is `(list[i] << gfBits) | i | (perm[i] << 31)`,
with `key >> 31 = perm[i]`, `key & gfMask = i` and `(key >> gfBits) & gfMask = list[i]`; hence
two keys have equal `key >> 31` exactly when their tags are equal. -/
theorem sort_key_fields (P : Params) (hg : 2 * P.gfBits ≤ 31) (out : Nat → Nat)
    (inp : Nat → Nat → Nat) (perm : Nat → Nat) (hperm : ∀ i, perm i < 2 ^ 32) :
    (∀ i, i < 2 ^ P.gfBits →
      deBitSlicing P out inp i < 2 ^ P.gfBits ∧
      sortKeys P (deBitSlicing P out inp) perm i
        = (shl64 (deBitSlicing P out inp i) P.gfBits ||| i) ||| shl64 (perm i) 31 ∧
      sortKeys P (deBitSlicing P out inp) perm i >>> 31 = perm i ∧
      sortKeys P (deBitSlicing P out inp) perm i &&& gfMask P = i ∧
      (sortKeys P (deBitSlicing P out inp) perm i >>> P.gfBits) &&& gfMask P
        = deBitSlicing P out inp i) ∧
    (∀ i j, i < 2 ^ P.gfBits → j < 2 ^ P.gfBits →
      (sortKeys P (deBitSlicing P out inp) perm i >>> 31
        = sortKeys P (deBitSlicing P out inp) perm j >>> 31 ↔ perm i = perm j)) := by
  have hsh : (1 : Nat) <<< P.gfBits = 2 ^ P.gfBits := by rw [Nat.shiftLeft_eq, Nat.one_mul]
  have key : ∀ i, i < 2 ^ P.gfBits →
      deBitSlicing P out inp i < 2 ^ P.gfBits ∧
      sortKeys P (deBitSlicing P out inp) perm i
        = (shl64 (deBitSlicing P out inp i) P.gfBits ||| i) ||| shl64 (perm i) 31 := by
    intro i hi
    refine ⟨deBitSlicing_lt P (by omega) out inp i (by rw [hsh]; exact hi), ?_⟩
    rw [sortKeys_apply, if_pos (by rw [hsh]; exact hi)]
  constructor
  · intro i hi
    obtain ⟨hx, hk⟩ := key i hi
    refine ⟨hx, hk, ?_, ?_, ?_⟩
    · rw [hk]; exact key_shr31 P.gfBits _ i _ hg hx hi (hperm i)
    · rw [hk]; exact key_and_gfMask P hg _ i _ hi
    · rw [hk]; exact key_shr_and_gfMask P hg _ i _ hx hi
  · intro i j hi hj
    obtain ⟨hx, hk⟩ := key i hi
    obtain ⟨hy, hl⟩ := key j hj
    rw [hk, hl, key_shr31 P.gfBits _ i _ hg hx hi (hperm i),
      key_shr31 P.gfBits _ j _ hg hy hj (hperm j)]

theorem sort_key_fields_witness :
    2 * mceliece8192128.gfBits ≤ 31 ∧
    (∀ i, i < 2 ^ mceliece8192128.gfBits →
      deBitSlicing mceliece8192128 (fun _ => 0) (fun i j => i * 977 + j) i
          < 2 ^ mceliece8192128.gfBits ∧
      sortKeys mceliece8192128 (deBitSlicing mceliece8192128 (fun _ => 0)
          (fun i j => i * 977 + j)) (fun i => i % 7) i
        = (shl64 (deBitSlicing mceliece8192128 (fun _ => 0) (fun i j => i * 977 + j) i)
            mceliece8192128.gfBits ||| i) ||| shl64 (i % 7) 31 ∧
      sortKeys mceliece8192128 (deBitSlicing mceliece8192128 (fun _ => 0)
          (fun i j => i * 977 + j)) (fun i => i % 7) i >>> 31 = i % 7 ∧
      sortKeys mceliece8192128 (deBitSlicing mceliece8192128 (fun _ => 0)
          (fun i j => i * 977 + j)) (fun i => i % 7) i &&& gfMask mceliece8192128 = i ∧
      (sortKeys mceliece8192128 (deBitSlicing mceliece8192128 (fun _ => 0)
          (fun i j => i * 977 + j)) (fun i => i % 7) i >>> mceliece8192128.gfBits)
          &&& gfMask mceliece8192128
        = deBitSlicing mceliece8192128 (fun _ => 0) (fun i j => i * 977 + j) i) :=
  ⟨by decide,
   (sort_key_fields mceliece8192128 (by decide) (fun _ => 0) (fun i j => i * 977 + j)
      (fun i => i % 7) (fun i => (by omega : i % 7 < 2 ^ 32))).1⟩

/-! ### The forward pass leaves a unit upper triangular left block -/

/-- C18: when the forward pass of `pkGen` completes without returning false, the left
`pkNRows × pkNRows` block of `mat` is upper triangular with ones on the diagonal: for all
`r, c < pkNRows` the bit at row `r`, column `c` is 1 when `c = r` and 0 when `c < r`. -/
theorem forward_unit_upper_triangular (P : Params)
    (h8 : P.Is8192128 = true → P.pkNRows % 64 = 0)
    (mat ops : Nat → Nat → Nat) (s : (Nat → Nat → Nat) × (Nat → Nat → Nat))
    (h : forwardPass P (mat, ops) = some s) :
    ∀ r c, r < P.pkNRows → c < P.pkNRows →
      (c = r → bitAt s.1 r c = true) ∧ (c < r → bitAt s.1 r c = false) := by
  intro r c hr hc
  have hR := (forwardPass_some P h8 (mat, ops) s h).2
  constructor
  · intro hcr
    subst hcr
    exact (hR c hc).1
  · intro hcr
    exact (hR c hc).2 r hcr hr

theorem forward_unit_upper_triangular_witness :
    forwardPass mceliece8192128 (exampleMat, fun _ _ => 0) = some (exampleMat, fun _ _ => 0) ∧
    ∀ r c, r < mceliece8192128.pkNRows → c < mceliece8192128.pkNRows →
      (c = r → bitAt exampleMat r c = true) ∧ (c < r → bitAt exampleMat r c = false) :=
  ⟨forwardPass_of_Reduced mceliece8192128 (fun _ => by decide) exampleMat (fun _ _ => 0)
      (Reduced_exampleMat mceliece8192128.pkNRows),
   forward_unit_upper_triangular mceliece8192128 (fun _ => by decide) exampleMat
      (fun _ _ => 0) (exampleMat, fun _ _ => 0)
      (forwardPass_of_Reduced mceliece8192128 (fun _ => by decide) exampleMat (fun _ _ => 0)
        (Reduced_exampleMat mceliece8192128.pkNRows))⟩

end mceliece

namespace mceliece

/-! ### The permutation table -/

theorem sortedKeys_eq (P : Params) (E : Ext) (irr perm : Nat → Nat) :
    sortedKeys P E irr perm = E.UInt64Sort (unsortedKeys P E irr perm) (1 <<< P.gfBits) := rfl

theorem unsortedKeys_fields (P : Params) (E : Ext) (hg : 2 * P.gfBits ≤ 31)
    (irr perm : Nat → Nat) (hperm : ∀ i, perm i < 2 ^ 32) (i : Nat) (hi : i < 1 <<< P.gfBits) :
    unsortedKeys P E irr perm i >>> 31 = perm i ∧
      unsortedKeys P E irr perm i &&& gfMask P = i := by
  have hi' : i < 2 ^ P.gfBits := by
    rw [Nat.shiftLeft_eq, Nat.one_mul] at hi
    exact hi
  unfold unsortedKeys
  rw [sortKeys_apply, if_pos hi]
  exact ⟨key_shr31 P.gfBits _ i (perm i) hg (deBitSlicing_lt P (by omega) _ _ i hi) hi'
    (hperm i), key_and_gfMask P hg _ i _ hi'⟩

theorem writePi_apply (P : Params) (list : Nat → Nat) (pi : Nat → Int) (i : Nat) :
    writePi P list pi i
      = if i < 1 <<< P.gfBits then toInt16 (list i &&& gfMask P) else pi i := by
  unfold writePi
  exact loopUp_pointwise0 _ (fun i _ => toInt16 (list i &&& gfMask P)) pi i

theorem toInt16_of_lt (x : Nat) (h : x < 2 ^ 15) : toInt16 x = (x : Int) := by
  unfold toInt16
  rw [Nat.mod_eq_of_lt (by omega)]
  push_cast
  omega

/-- Every sorted key is one of the keys built, at the index stored in its low bits. -/
theorem sortedKeys_index (P : Params) (E : Ext) (hg : 2 * P.gfBits ≤ 31)
    (hsort : ∀ l n, SortedPerm n l (E.UInt64Sort l n))
    (irr perm : Nat → Nat) (hperm : ∀ i, perm i < 2 ^ 32) (i : Nat) (hi : i < 1 <<< P.gfBits) :
    sortedKeys P E irr perm i &&& gfMask P < 1 <<< P.gfBits ∧
      sortedKeys P E irr perm i
        = unsortedKeys P E irr perm (sortedKeys P E irr perm i &&& gfMask P) := by
  obtain ⟨_, hp⟩ := hsort (unsortedKeys P E irr perm) (1 <<< P.gfBits)
  have hmem : sortedKeys P E irr perm i ∈
      List.map (E.UInt64Sort (unsortedKeys P E irr perm) (1 <<< P.gfBits))
        (List.range (1 <<< P.gfBits)) :=
    List.mem_map.mpr ⟨i, List.mem_range.mpr hi, rfl⟩
  obtain ⟨k, hk, hkk⟩ := List.mem_map.mp (hp.mem_iff.mp hmem)
  have hk' := List.mem_range.mp hk
  have hidx := (unsortedKeys_fields P E hg irr perm hperm k hk').2
  rw [← hkk, hidx]
  exact ⟨hk', rfl⟩

/-- Every key built occurs among the sorted keys. -/
theorem sortedKeys_surj (P : Params) (E : Ext)
    (hsort : ∀ l n, SortedPerm n l (E.UInt64Sort l n))
    (irr perm : Nat → Nat) (k : Nat) (hk : k < 1 <<< P.gfBits) :
    ∃ i, i < 1 <<< P.gfBits ∧ sortedKeys P E irr perm i = unsortedKeys P E irr perm k := by
  obtain ⟨_, hp⟩ := hsort (unsortedKeys P E irr perm) (1 <<< P.gfBits)
  have hmem : unsortedKeys P E irr perm k ∈
      List.map (unsortedKeys P E irr perm) (List.range (1 <<< P.gfBits)) :=
    List.mem_map.mpr ⟨k, List.mem_range.mpr hk, rfl⟩
  obtain ⟨i, hi, hii⟩ := List.mem_map.mp (hp.mem_iff.mpr hmem)
  exact ⟨i, List.mem_range.mp hi, hii⟩

/-- After a scan that passed, the tags of the sorted keys increase strictly. -/
theorem sortedKeys_tag_lt (P : Params) (E : Ext)
    (hsort : ∀ l n, SortedPerm n l (E.UInt64Sort l n))
    (irr perm : Nat → Nat) (hscan : scanKeys P (sortedKeys P E irr perm) = some ())
    (i j : Nat) (hij : i < j) (hj : j < 1 <<< P.gfBits) :
    sortedKeys P E irr perm i >>> 31 < sortedKeys P E irr perm j >>> 31 := by
  obtain ⟨hs, _⟩ := hsort (unsortedKeys P E irr perm) (1 <<< P.gfBits)
  have hne : ∀ t, 1 ≤ t → t < 1 <<< P.gfBits →
      sortedKeys P E irr perm (t - 1) >>> 31 ≠ sortedKeys P E irr perm t >>> 31 := by
    intro t h1 h2 heq
    have := (scanKeys_none_iff P (sortedKeys P E irr perm)).mpr ⟨t, h1, h2, heq⟩
    rw [hscan] at this
    exact absurd this (by simp)
  have hadj : sortedKeys P E irr perm (j - 1) >>> 31 < sortedKeys P E irr perm j >>> 31 := by
    have h1 := shr31_mono _ _ (hs (j - 1) j (by omega) hj)
    have h2 := hne j (by omega) hj
    rw [sortedKeys_eq]
    rw [sortedKeys_eq] at h2
    omega
  have hle := shr31_mono _ _ (hs i (j - 1) (by omega) (by omega))
  rw [sortedKeys_eq]
  rw [sortedKeys_eq] at hadj
  omega

/-- The entries of the table written at lines 197-199. -/
theorem writePi_sortedKeys (P : Params) (E : Ext) (hg : 2 * P.gfBits ≤ 31)
    (hsort : ∀ l n, SortedPerm n l (E.UInt64Sort l n))
    (irr perm : Nat → Nat) (hperm : ∀ i, perm i < 2 ^ 32) (pi : Nat → Int)
    (i : Nat) (hi : i < 1 <<< P.gfBits) :
    writePi P (sortedKeys P E irr perm) pi i
      = ((sortedKeys P E irr perm i &&& gfMask P : Nat) : Int) := by
  rw [writePi_apply, if_pos hi]
  apply toInt16_of_lt
  have h1 := (sortedKeys_index P E hg hsort irr perm hperm i hi).1
  rw [Nat.shiftLeft_eq, Nat.one_mul] at h1
  exact Nat.lt_of_lt_of_le h1 (Nat.pow_le_pow_right (by decide) (by omega))

/-- The table of a scan that passed: a permutation that sorts the tags. -/
theorem writePi_permutation (P : Params) (E : Ext) (hg : 2 * P.gfBits ≤ 31)
    (hsort : ∀ l n, SortedPerm n l (E.UInt64Sort l n))
    (irr perm : Nat → Nat) (hperm : ∀ i, perm i < 2 ^ 32) (pi : Nat → Int)
    (hscan : scanKeys P (sortedKeys P E irr perm) = some ()) :
    (∀ i, i < 2 ^ P.gfBits →
      0 ≤ writePi P (sortedKeys P E irr perm) pi i ∧
      writePi P (sortedKeys P E irr perm) pi i < 2 ^ P.gfBits) ∧
    (∀ k : Nat, k < 2 ^ P.gfBits →
      ∃! i, i < 2 ^ P.gfBits ∧ writePi P (sortedKeys P E irr perm) pi i = (k : Int)) ∧
    (∀ i, 0 < i → i < 2 ^ P.gfBits →
      perm (writePi P (sortedKeys P E irr perm) pi (i - 1)).toNat
        < perm (writePi P (sortedKeys P E irr perm) pi i).toNat) := by
  have hn : (1 : Nat) <<< P.gfBits = 2 ^ P.gfBits := by rw [Nat.shiftLeft_eq, Nat.one_mul]
  rw [← hn]
  have hpi := fun i hi => writePi_sortedKeys P E hg hsort irr perm hperm pi i hi
  have hidx := fun i hi => sortedKeys_index P E hg hsort irr perm hperm i hi
  have htag : ∀ i, i < 1 <<< P.gfBits →
      perm (sortedKeys P E irr perm i &&& gfMask P) = sortedKeys P E irr perm i >>> 31 := by
    intro i hi
    obtain ⟨h1, h2⟩ := hidx i hi
    have := (unsortedKeys_fields P E hg irr perm hperm _ h1).1
    rw [← h2] at this
    exact this.symm
  refine ⟨?_, ?_, ?_⟩
  · intro i hi
    rw [hpi i hi]
    have h1 := (hidx i hi).1
    rw [hn] at h1
    exact ⟨Int.ofNat_nonneg _, by exact_mod_cast h1⟩
  · intro k hk
    obtain ⟨i, hi, hik⟩ := sortedKeys_surj P E hsort irr perm k hk
    have hki : sortedKeys P E irr perm i &&& gfMask P = k := by
      rw [hik]
      exact (unsortedKeys_fields P E hg irr perm hperm k hk).2
    refine ⟨i, ⟨hi, by rw [hpi i hi, hki]⟩, ?_⟩
    intro j ⟨hj, hjk⟩
    rw [hpi j hj] at hjk
    have hjk' : sortedKeys P E irr perm j &&& gfMask P = k := by exact_mod_cast hjk
    have heq : sortedKeys P E irr perm j = sortedKeys P E irr perm i := by
      rw [(hidx j hj).2, (hidx i hi).2, hjk', hki]
    rcases Nat.lt_trichotomy j i with h | h | h
    · have := sortedKeys_tag_lt P E hsort irr perm hscan j i h hi
      rw [heq] at this
      exact absurd this (Nat.lt_irrefl _)
    · exact h
    · have := sortedKeys_tag_lt P E hsort irr perm hscan i j h hj
      rw [heq] at this
      exact absurd this (Nat.lt_irrefl _)
  · intro i h0 hi
    rw [hpi i hi, hpi (i - 1) (by omega), Int.toNat_ofNat, Int.toNat_ofNat,
      htag i hi, htag (i - 1) (by omega)]
    exact sortedKeys_tag_lt P E hsort irr perm hscan (i - 1) i (by omega) hi

/-- The table `pi` after a call whose scan passed. -/
theorem pkGen_pi_of_scan_some (P : Params) (E : Ext) (pk irr perm : Nat → Nat)
    (pi : Nat → Int) (pivots : Nat)
    (hscan : scanKeys P (sortedKeys P E irr perm) = some ()) :
    (pkGen P E pk irr perm pi pivots).pi = writePi P (sortedKeys P E irr perm) pi := by
  rcases pkGen_cases P E pk irr perm pi pivots with ⟨h, _⟩ | ⟨_, _, h⟩ | ⟨s, _, _, h⟩
  · rw [hscan] at h
    exact absurd h (by simp)
  · rw [h]
  · rw [h]

/-- C14: assuming `internal.UInt64Sort` sorts ascending (as a rearrangement), for every input
(32-bit tags) that passes the duplicate-tag check of `pkGen`, the table `pi` after the call is a
permutation of `0 .. 2^gfBits - 1`: every entry is non-negative and below `2^gfBits`, every
index occurs exactly once, and the tags are ordered strictly increasingly,
`perm[pi[i-1]] < perm[pi[i]]` for `0 < i < 2^gfBits`. -/
theorem pi_sorts_tags (P : Params) (E : Ext) (hg : 2 * P.gfBits ≤ 31)
    (hsort : ∀ l n, SortedPerm n l (E.UInt64Sort l n))
    (pk irr perm : Nat → Nat) (hperm : ∀ i, perm i < 2 ^ 32) (pi : Nat → Int) (pivots : Nat)
    (hscan : scanKeys P (sortedKeys P E irr perm) = some ()) :
    (∀ i, i < 2 ^ P.gfBits →
      0 ≤ (pkGen P E pk irr perm pi pivots).pi i ∧
      (pkGen P E pk irr perm pi pivots).pi i < 2 ^ P.gfBits) ∧
    (∀ k : Nat, k < 2 ^ P.gfBits →
      ∃! i, i < 2 ^ P.gfBits ∧ (pkGen P E pk irr perm pi pivots).pi i = (k : Int)) ∧
    (∀ i, 0 < i → i < 2 ^ P.gfBits →
      perm ((pkGen P E pk irr perm pi pivots).pi (i - 1)).toNat
        < perm ((pkGen P E pk irr perm pi pivots).pi i).toNat) := by
  rw [pkGen_pi_of_scan_some P E pk irr perm pi pivots hscan]
  exact writePi_permutation P E hg hsort irr perm hperm pi hscan

/-- With a sorting `UInt64Sort`, the scan passes on tags without repetition. -/
theorem scanKeys_some_of_injective (P : Params) (E : Ext) (hg : 2 * P.gfBits ≤ 31)
    (hsort : ∀ l n, SortedPerm n l (E.UInt64Sort l n))
    (irr perm : Nat → Nat) (hperm : ∀ i, perm i < 2 ^ 32)
    (hinj : ∀ a b, a < 1 <<< P.gfBits → b < 1 <<< P.gfBits → perm a = perm b → a = b) :
    scanKeys P (sortedKeys P E irr perm) = some () := by
  cases h : scanKeys P (sortedKeys P E irr perm) with
  | none =>
    obtain ⟨a, b, ha, hb, hab, hh⟩ :=
      (scanKeys_sortedKeys_none_iff P E hg hsort irr perm hperm).mp h
    exact absurd (hinj a b ha hb hh) hab
  | some u => rfl

theorem mod_8192_injective (a b : Nat) (ha : a < 1 <<< mceliece8192128.gfBits)
    (hb : b < 1 <<< mceliece8192128.gfBits) (h : a % 8192 = b % 8192) : a = b := by
  have e : 1 <<< mceliece8192128.gfBits = 8192 := rfl
  rw [e] at ha hb
  omega

theorem pi_sorts_tags_witness :
    scanKeys mceliece8192128 (sortedKeys mceliece8192128 exampleExt (fun _ => 0)
      (fun i => i % 8192)) = some () ∧
    ((∀ i, i < 2 ^ mceliece8192128.gfBits →
      0 ≤ (pkGen mceliece8192128 exampleExt (fun _ => 0) (fun _ => 0) (fun i => i % 8192)
        (fun _ => -1) 0).pi i ∧
      (pkGen mceliece8192128 exampleExt (fun _ => 0) (fun _ => 0) (fun i => i % 8192)
        (fun _ => -1) 0).pi i < 2 ^ mceliece8192128.gfBits) ∧
    (∀ k : Nat, k < 2 ^ mceliece8192128.gfBits →
      ∃! i, i < 2 ^ mceliece8192128.gfBits ∧
        (pkGen mceliece8192128 exampleExt (fun _ => 0) (fun _ => 0) (fun i => i % 8192)
          (fun _ => -1) 0).pi i = (k : Int)) ∧
    (∀ i, 0 < i → i < 2 ^ mceliece8192128.gfBits →
      ((pkGen mceliece8192128 exampleExt (fun _ => 0) (fun _ => 0)
          (fun i => i % 8192) (fun _ => -1) 0).pi (i - 1)).toNat % 8192
        < ((pkGen mceliece8192128 exampleExt (fun _ => 0) (fun _ => 0)
          (fun i => i % 8192) (fun _ => -1) 0).pi i).toNat % 8192)) :=
  ⟨scanKeys_some_of_injective mceliece8192128 exampleExt (by decide) sortArr_SortedPerm
      (fun _ => 0) (fun i => i % 8192) (fun i => (by omega : i % 8192 < 2 ^ 32))
      mod_8192_injective,
   pi_sorts_tags mceliece8192128 exampleExt (by decide) sortArr_SortedPerm (fun _ => 0)
      (fun _ => 0) (fun i => i % 8192) (fun i => (by omega : i % 8192 < 2 ^ 32))
      (fun _ => -1) 0
      (scanKeys_some_of_injective mceliece8192128 exampleExt (by decide) sortArr_SortedPerm
        (fun _ => 0) (fun i => i % 8192) (fun i => (by omega : i % 8192 < 2 ^ 32))
        mod_8192_injective)⟩

end mceliece

namespace mceliece

/-! ### The blocks of the check matrix in closed form -/

theorem block_div_mod (g i a : Nat) (h1 : i * g ≤ a) (h2 : a < i * g + g) :
    a / g = i ∧ a % g = a - i * g := by
  have hg : 0 < g := by omega
  have hd : a / g = i := by
    apply Nat.div_eq_of_lt_le
    · exact h1
    · rw [Nat.succ_mul]; exact h2
  refine ⟨hd, ?_⟩
  have := Nat.div_add_mod a g
  rw [hd, Nat.mul_comm] at this
  omega

/-- One column of words written at the rows `o, .., o + g - 1`. -/
theorem writeWords_apply (g o j : Nat) (w : Nat → Nat) (mat : Nat → Nat → Nat) (a b : Nat) :
    loopUp g (fun k mat => set2 mat (o + k) j (w k)) mat a b
      = if b = j ∧ o ≤ a ∧ a < o + g then w (a - o) else mat a b := by
  induction g with
  | zero =>
    have : ¬ (b = j ∧ o ≤ a ∧ a < o + 0) := by omega
    rw [if_neg this]
    rfl
  | succ g ih =>
    rw [loopUp_succ]
    show (if a = o + g ∧ b = j then w g
      else loopUp g (fun k mat => set2 mat (o + k) j (w k)) mat a b) = _
    rw [ih]
    by_cases h : a = o + g ∧ b = j
    · rw [if_pos h, if_pos (by omega)]
      obtain ⟨h1, _⟩ := h
      rw [h1, Nat.add_sub_cancel_left]
    · rw [if_neg h]
      by_cases h2 : b = j ∧ o ≤ a ∧ a < o + g
      · rw [if_pos h2, if_pos (by omega)]
      · rw [if_neg h2, if_neg (by omega)]

/-- Lines 201-205 (and 326-330): the first `gfBits` rows of the blocks `lo .. lo + n - 1`. -/
theorem seedBlocks_apply (g lo n : Nat) (v : Nat → Nat → Nat) (mat : Nat → Nat → Nat)
    (a b : Nat) :
    loopUp n (fun t mat => loopUp g (fun k mat => set2 mat k (lo + t) (v (lo + t) k)) mat) mat a b
      = if lo ≤ b ∧ b < lo + n ∧ a < g then v b a else mat a b := by
  induction n with
  | zero =>
    have : ¬ (lo ≤ b ∧ b < lo + 0 ∧ a < g) := by omega
    rw [if_neg this]
    rfl
  | succ n ih =>
    rw [loopUp_succ]
    have e := writeWords_apply g 0 (lo + n) (v (lo + n))
      (loopUp n (fun t mat =>
        loopUp g (fun k mat => set2 mat k (lo + t) (v (lo + t) k)) mat) mat) a b
    simp only [Nat.zero_add, Nat.sub_zero, Nat.zero_le, true_and] at e
    rw [e, ih]
    by_cases h : b = lo + n ∧ a < g
    · rw [if_pos h, if_pos (by omega), h.1]
    · rw [if_neg h]
      by_cases h2 : lo ≤ b ∧ b < lo + n ∧ a < g
      · rw [if_pos h2, if_pos (by omega)]
      · rw [if_neg h2, if_neg (by omega)]

/-- Lines 207-214 (and 332-339) for one power `i`: the blocks `lo .. lo + n - 1` are multiplied
by `consts` and written at the rows `i * gfBits ..`. -/
theorem mulBlocks_eq (E : Ext) (g i lo n : Nat) (consts : Nat → Nat → Nat)
    (mat prod : Nat → Nat → Nat) :
    loopUp n (fun t (s : (Nat → Nat → Nat) × (Nat → Nat → Nat)) =>
      (loopUp g (fun k mat => set2 mat (i * g + k) (lo + t)
          (set1 s.2 (lo + t) (E.vecMul (s.2 (lo + t)) (consts (lo + t))) (lo + t) k)) s.1,
        set1 s.2 (lo + t) (E.vecMul (s.2 (lo + t)) (consts (lo + t))))) (mat, prod)
    = (fun a b => if lo ≤ b ∧ b < lo + n ∧ i * g ≤ a ∧ a < i * g + g
          then E.vecMul (prod b) (consts b) (a - i * g) else mat a b,
        fun b => if lo ≤ b ∧ b < lo + n then E.vecMul (prod b) (consts b) else prod b) := by
  induction n with
  | zero =>
    apply Prod.ext
    · funext a b
      have : ¬ (lo ≤ b ∧ b < lo + 0 ∧ i * g ≤ a ∧ a < i * g + g) := by omega
      simp only [if_neg this]
      rfl
    · funext b
      have : ¬ (lo ≤ b ∧ b < lo + 0) := by omega
      simp only [if_neg this]
      rfl
  | succ n ih =>
    rw [loopUp_succ, ih]
    have hp : (if lo ≤ lo + n ∧ lo + n < lo + n then E.vecMul (prod (lo + n)) (consts (lo + n))
        else prod (lo + n)) = prod (lo + n) := if_neg (by omega)
    apply Prod.ext
    · funext a b
      simp only [set1, if_true]
      rw [writeWords_apply, hp]
      by_cases h : b = lo + n ∧ i * g ≤ a ∧ a < i * g + g
      · rw [if_pos h, if_pos (by omega), h.1]
      · rw [if_neg h]
        by_cases h2 : lo ≤ b ∧ b < lo + n ∧ i * g ≤ a ∧ a < i * g + g
        · rw [if_pos h2, if_pos (by omega)]
        · rw [if_neg h2, if_neg (by omega)]
    · funext b
      simp only [set1]
      rw [hp]
      by_cases h : b = lo + n
      · rw [if_pos h, if_pos (by omega), h]
      · rw [if_neg h]
        by_cases h2 : lo ≤ b ∧ b < lo + n
        · rw [if_pos h2, if_pos (by omega)]
        · rw [if_neg h2, if_neg (by omega)]

/-- Lines 201-214 and 326-339 in closed form: after the powers `0 .. m` the block `b` holds
`powBlock` in the rows below `(m + 1) * gfBits`, and `prod[b]` is the power `m`. -/
theorem powerLoop_eq (E : Ext) (g lo n : Nat) (consts : Nat → Nat → Nat)
    (mat prod : Nat → Nat → Nat) (m : Nat) :
    loopUp m (fun t (s : (Nat → Nat → Nat) × (Nat → Nat → Nat)) =>
      loopUp n (fun u (s : (Nat → Nat → Nat) × (Nat → Nat → Nat)) =>
        (loopUp g (fun k mat => set2 mat ((1 + t) * g + k) (lo + u)
            (set1 s.2 (lo + u) (E.vecMul (s.2 (lo + u)) (consts (lo + u))) (lo + u) k)) s.1,
          set1 s.2 (lo + u) (E.vecMul (s.2 (lo + u)) (consts (lo + u))))) s)
      (fun a b => if lo ≤ b ∧ b < lo + n ∧ a < g then prod b a else mat a b, prod)
    = (fun a b => if lo ≤ b ∧ b < lo + n ∧ a < (m + 1) * g
          then powBlock E (prod b) (consts b) (a / g) (a % g) else mat a b,
        fun b => if lo ≤ b ∧ b < lo + n then powBlock E (prod b) (consts b) m else prod b) := by
  induction m with
  | zero =>
    have e : (0 + 1) * g = g := by omega
    rw [e]
    apply Prod.ext
    · funext a b
      show (if lo ≤ b ∧ b < lo + n ∧ a < g then prod b a else mat a b)
        = (if lo ≤ b ∧ b < lo + n ∧ a < g
            then powBlock E (prod b) (consts b) (a / g) (a % g) else mat a b)
      by_cases h : lo ≤ b ∧ b < lo + n ∧ a < g
      · rw [if_pos h, if_pos h, Nat.div_eq_of_lt h.2.2, Nat.mod_eq_of_lt h.2.2]
        rfl
      · rw [if_neg h, if_neg h]
    · funext b
      show prod b = (if lo ≤ b ∧ b < lo + n then powBlock E (prod b) (consts b) 0 else prod b)
      by_cases h : lo ≤ b ∧ b < lo + n
      · rw [if_pos h]; rfl
      · rw [if_neg h]
  | succ m ih =>
    rw [loopUp_succ, ih, mulBlocks_eq]
    have e1 : (m + 1 + 1) * g = (1 + m) * g + g := by
      rw [Nat.succ_mul, Nat.add_comm m 1]
    have e2 : (m + 1) * g = (1 + m) * g := by rw [Nat.add_comm]
    apply Prod.ext
    · funext a b
      dsimp only
      by_cases h : lo ≤ b ∧ b < lo + n ∧ (1 + m) * g ≤ a ∧ a < (1 + m) * g + g
      · obtain ⟨hd, hm⟩ := block_div_mod g (1 + m) a h.2.2.1 h.2.2.2
        rw [if_pos h, if_pos (show lo ≤ b ∧ b < lo + n from ⟨h.1, h.2.1⟩),
          if_pos (show lo ≤ b ∧ b < lo + n ∧ a < (m + 1 + 1) * g from ⟨h.1, h.2.1, by omega⟩),
          hd, hm, Nat.add_comm 1 m]
        rfl
      · rw [if_neg h]
        by_cases h2 : lo ≤ b ∧ b < lo + n ∧ a < (m + 1) * g
        · rw [if_pos h2, if_pos (show lo ≤ b ∧ b < lo + n ∧ a < (m + 1 + 1) * g from
            ⟨h2.1, h2.2.1, by omega⟩)]
        · rw [if_neg h2, if_neg (show ¬ (lo ≤ b ∧ b < lo + n ∧ a < (m + 1 + 1) * g) from
            fun hh => by omega)]
    · funext b
      dsimp only
      by_cases h : lo ≤ b ∧ b < lo + n
      · simp only [if_pos h]
        rfl
      · simp only [if_neg h]

/-- The function `fillBlocks` in closed form. -/
theorem fillBlocks_eq (P : Params) (E : Ext) (hT : 1 ≤ P.sysT) (lo hi : Nat) (hlh : lo ≤ hi)
    (consts mat prod : Nat → Nat → Nat) :
    fillBlocks P E lo hi consts (mat, prod)
      = (fun a b => if lo ≤ b ∧ b < hi ∧ a < P.sysT * P.gfBits
            then powBlock E (prod b) (consts b) (a / P.gfBits) (a % P.gfBits) else mat a b,
          fun b => if lo ≤ b ∧ b < hi
            then powBlock E (prod b) (consts b) (P.sysT - 1) else prod b) := by
  unfold fillBlocks loopRange
  have hseed : loopUp (hi - lo) (fun t mat =>
      loopUp P.gfBits (fun k mat => set2 mat k (lo + t) (prod (lo + t) k)) mat) mat
      = fun a b => if lo ≤ b ∧ b < lo + (hi - lo) ∧ a < P.gfBits then prod b a else mat a b := by
    funext a b
    exact seedBlocks_apply P.gfBits lo (hi - lo) prod mat a b
  simp only [hseed]
  rw [powerLoop_eq E P.gfBits lo (hi - lo) consts mat prod (P.sysT - 1)]
  have e1 : lo + (hi - lo) = hi := by omega
  have e2 : P.sysT - 1 + 1 = P.sysT := by omega
  rw [e1, e2]

end mceliece

namespace mceliece

/-! ### Lanes and planes -/

theorem toNat_testBit (c : Bool) (s : Nat) : c.toNat.testBit s = (decide (s = 0) && c) := by
  cases c
  · simp
  · cases s with
    | zero => simp
    | succ s =>
      have : (1 : Nat).testBit (s + 1) = false :=
        Nat.testBit_lt_two_pow (Nat.lt_of_lt_of_le (by decide : 1 < 2 ^ 1)
          (Nat.pow_le_pow_right (by decide) (by omega)))
      simp [this]

theorem packBits_testBit (n : Nat) (bit : Nat → Bool) (t : Nat) :
    (packBits n bit).testBit t = (decide (t < n) && bit t) := by
  induction n with
  | zero => simp [packBits, loopUp]
  | succ n ih =>
    have e : packBits (n + 1) bit = packBits n bit ||| ((bit n).toNat <<< n) := rfl
    rw [e, Nat.testBit_or, ih, Nat.testBit_shiftLeft, toNat_testBit]
    by_cases h1 : t < n
    · have h2 : ¬ t ≥ n := by omega
      have h3 : t < n + 1 := by omega
      simp [h1, h2, h3]
    · by_cases h4 : t = n
      · subst h4
        simp
      · have h5 : ¬ t < n + 1 := by omega
        have h6 : ¬ t - n = 0 := by omega
        simp [h1, h5, h6]

theorem packBits_lt (n : Nat) (bit : Nat → Bool) : packBits n bit < 2 ^ n := by
  apply Nat.lt_pow_two_of_testBit
  intro t ht
  rw [packBits_testBit]
  have : ¬ t < n := by omega
  simp [this]

theorem lane_lt (g : Nat) (b : Nat → Nat) (r : Nat) : lane g b r < 2 ^ g := packBits_lt _ _

theorem lane_testBit (g : Nat) (b : Nat → Nat) (r k : Nat) (hk : k < g) :
    (lane g b r).testBit k = (b k).testBit r := by
  unfold lane
  rw [packBits_testBit]
  simp [hk]

theorem plane_testBit (f : Nat → Nat) (k r : Nat) (hr : r < 64) :
    (plane f k).testBit r = (f r).testBit k := by
  unfold plane
  rw [packBits_testBit]
  simp [hr]

/-- Reading the lanes of the planes of 64 field elements gives the elements back. -/
theorem lane_plane (g : Nat) (f : Nat → Nat) (r : Nat) (hr : r < 64) (hf : f r < 2 ^ g) :
    lane g (fun k => plane f k) r = f r := by
  apply Nat.eq_of_testBit_eq
  intro k
  unfold lane
  rw [packBits_testBit]
  by_cases hk : k < g
  · simp only [hk, decide_True, Bool.true_and]
    exact plane_testBit f k r hr
  · have : (f r).testBit k = false :=
      Nat.testBit_lt_two_pow (Nat.lt_of_lt_of_le hf (Nat.pow_le_pow_right (by decide) (by omega)))
    simp [hk, this]

/-! ### The field `gf8192` as an instance -/

theorem gf8192_Mul_zero (x : Nat) (hx : x < 8192) : gf8192.Mul 0 x = 0 := by
  have h := gf8192.Mul_xor_left 0 0 x (by decide) (by decide) hx
  rw [Nat.xor_self] at h
  rw [Nat.xor_self] at h
  exact h

theorem gf8192_Inv_lt (x : Nat) : gf8192.Inv x < 8192 := by
  unfold gf8192.Inv gf8192.Div
  exact gf8192.sqrMul_lt _ _

theorem gf8192_Mul_Inv (a : Nat) (ha : a < 8192) (h0 : a ≠ 0) :
    gf8192.Mul a (gf8192.Inv a) = 1 := by
  unfold gf8192.Inv
  rw [gf8192.Div_eq_Mul 1 a (by decide), gf8192.Mul_one _ (gf8192.Mul_lt _ _), gf8192.Mul_comm,
    ← gf8192.Div_eq_Mul a a ha]
  exact gf8192.Div_self a (Nat.pos_of_ne_zero h0) ha

theorem gf8192_FieldOps : FieldOps (2 ^ 13) gf8192.Mul gf8192.Inv 1 :=
  ⟨fun x y _ _ => gf8192.Mul_lt x y, fun x _ => gf8192_Inv_lt x, by decide,
   fun x y _ _ => gf8192.Mul_comm x y, fun x y z hx hy hz => gf8192.Mul_assoc x y z hx hy hz,
   fun x hx => gf8192.Mul_one x hx, fun x hx => gf8192_Mul_zero x hx,
   fun x hx h0 => gf8192_Mul_Inv x hx h0⟩

theorem gf8192Ext_LaneMul : LaneMul 13 gf8192Ext gf8192.Mul := by
  intro a b r hr
  exact lane_plane 13 (fun r => gf8192.Mul (lane 13 a r) (lane 13 b r)) r hr
    (gf8192.Mul_lt _ _)

theorem gf8192Ext_LaneInv : LaneInv 13 gf8192Ext gf8192.Inv := by
  intro a r hr
  exact lane_plane 13 (fun r => gf8192.Inv (lane 13 a r)) r hr (gf8192_Inv_lt _)

/-! ### Powers lane by lane -/

theorem gpow_lt (q : Nat) (mul : Nat → Nat → Nat) (inv : Nat → Nat) (one : Nat)
    (hF : FieldOps q mul inv one) (c : Nat) (hc : c < q) (i : Nat) : gpow mul one c i < q := by
  induction i with
  | zero => exact hF.2.2.1
  | succ i ih => exact hF.1 _ _ ih hc

theorem lane_powBlock (g : Nat) (E : Ext) (mul : Nat → Nat → Nat) (inv : Nat → Nat) (one : Nat)
    (hF : FieldOps (2 ^ g) mul inv one) (hL : LaneMul g E mul) (p c : Nat → Nat) (i r : Nat)
    (hr : r < 64) :
    lane g (powBlock E p c i) r = mul (lane g p r) (gpow mul one (lane g c r) i) := by
  induction i with
  | zero => exact (hF.2.2.2.2.2.1 _ (lane_lt g p r)).symm
  | succ i ih =>
    show lane g (E.vecMul (powBlock E p c i) c) r = mul (lane g p r)
      (mul (gpow mul one (lane g c r) i) (lane g c r))
    rw [hL _ _ r hr, ih, hF.2.2.2.2.1 _ _ _ (lane_lt g p r)
      (gpow_lt _ mul inv one hF _ (lane_lt g c r) i) (lane_lt g c r)]

theorem mul_add_div_mod (g i k : Nat) (hk : k < g) :
    (i * g + k) / g = i ∧ (i * g + k) % g = k := by
  obtain ⟨h1, h2⟩ := block_div_mod g i (i * g + k) (by omega) (by omega)
  exact ⟨h1, by omega⟩

/-- The two phases of the construction give the matrix of a single pass over all blocks. -/
theorem fillBlocks_two_phase (P : Params) (E : Ext) (hT : 1 ≤ P.sysT)
    (hI : nblocksI P ≤ nblocksH P) (consts mat prod : Nat → Nat → Nat) :
    fillBlocks P E (nblocksI P) (nblocksH P) consts
        (fillBlocks P E 0 (nblocksI P) consts (mat, prod))
      = fillBlocks P E 0 (nblocksH P) consts (mat, prod) := by
  rw [fillBlocks_eq P E hT 0 (nblocksI P) (Nat.zero_le _), fillBlocks_eq P E hT _ _ hI,
    fillBlocks_eq P E hT 0 (nblocksH P) (Nat.zero_le _)]
  apply Prod.ext
  · funext a b
    dsimp only
    by_cases h1 : nblocksI P ≤ b ∧ b < nblocksH P ∧ a < P.sysT * P.gfBits
    · rw [if_pos h1, if_neg (show ¬ (0 ≤ b ∧ b < nblocksI P) from fun hh => by omega),
        if_pos (show 0 ≤ b ∧ b < nblocksH P ∧ a < P.sysT * P.gfBits from
          ⟨Nat.zero_le _, h1.2.1, h1.2.2⟩)]
    · rw [if_neg h1]
      by_cases h2 : 0 ≤ b ∧ b < nblocksI P ∧ a < P.sysT * P.gfBits
      · rw [if_pos h2, if_pos (show 0 ≤ b ∧ b < nblocksH P ∧ a < P.sysT * P.gfBits from
          ⟨Nat.zero_le _, by omega, h2.2.2⟩)]
      · rw [if_neg h2, if_neg (show ¬ (0 ≤ b ∧ b < nblocksH P ∧ a < P.sysT * P.gfBits) from
          fun hh => by omega)]
  · funext b
    dsimp only
    by_cases h1 : nblocksI P ≤ b ∧ b < nblocksH P
    · rw [if_pos h1, if_neg (show ¬ (0 ≤ b ∧ b < nblocksI P) from fun hh => by omega),
        if_pos (show 0 ≤ b ∧ b < nblocksH P from ⟨Nat.zero_le _, h1.2⟩)]
    · rw [if_neg h1]
      by_cases h2 : 0 ≤ b ∧ b < nblocksI P
      · rw [if_pos h2, if_pos (show 0 ≤ b ∧ b < nblocksH P from ⟨Nat.zero_le _, by omega⟩)]
      · rw [if_neg h2, if_neg (show ¬ (0 ≤ b ∧ b < nblocksH P) from fun hh => by omega)]

/-- The words of the left blocks, as written before the elimination. -/
theorem leftFill_apply (P : Params) (E : Ext) (hT : 1 ≤ P.sysT) (irr perm : Nat → Nat)
    (i j k : Nat) (hi : i < P.sysT) (hj : j < nblocksI P) (hk : k < P.gfBits) :
    (leftFill P E irr perm).1 (i * P.gfBits + k) j
      = powBlock E ((keyBlocks P E irr perm).2 j) ((keyBlocks P E irr perm).1 j) i k := by
  unfold leftFill
  rw [fillBlocks_eq P E hT 0 (nblocksI P) (Nat.zero_le _)]
  dsimp only
  obtain ⟨h1, h2⟩ := mul_add_div_mod P.gfBits i k hk
  have hlt : i * P.gfBits + k < P.sysT * P.gfBits := by
    have : (i + 1) * P.gfBits ≤ P.sysT * P.gfBits := Nat.mul_le_mul_right _ hi
    rw [Nat.succ_mul] at this
    omega
  rw [if_pos ⟨Nat.zero_le _, hj, hlt⟩, h1, h2]

/-- The blocks `prod[j]` of the right part are untouched by the first phase. -/
theorem leftFill_snd (P : Params) (E : Ext) (hT : 1 ≤ P.sysT) (irr perm : Nat → Nat)
    (j : Nat) (hj : nblocksI P ≤ j) :
    (leftFill P E irr perm).2 j = (keyBlocks P E irr perm).2 j := by
  unfold leftFill
  rw [fillBlocks_eq P E hT 0 (nblocksI P) (Nat.zero_le _)]
  dsimp only
  rw [if_neg (fun hh => by omega)]

/-- The words of the right blocks, as written after the elimination on the matrix `mat`. -/
theorem rightFill_apply (P : Params) (E : Ext) (hT : 1 ≤ P.sysT) (hI : nblocksI P ≤ nblocksH P)
    (irr perm : Nat → Nat) (mat : Nat → Nat → Nat)
    (i j k : Nat) (hi : i < P.sysT) (hj : nblocksI P ≤ j) (hj' : j < nblocksH P)
    (hk : k < P.gfBits) :
    (fillBlocks P E (nblocksI P) (nblocksH P) (keyBlocks P E irr perm).1
        (mat, (leftFill P E irr perm).2)).1 (i * P.gfBits + k) j
      = powBlock E ((keyBlocks P E irr perm).2 j) ((keyBlocks P E irr perm).1 j) i k := by
  rw [fillBlocks_eq P E hT _ _ hI]
  dsimp only
  obtain ⟨h1, h2⟩ := mul_add_div_mod P.gfBits i k hk
  have hlt : i * P.gfBits + k < P.sysT * P.gfBits := by
    have : (i + 1) * P.gfBits ≤ P.sysT * P.gfBits := Nat.mul_le_mul_right _ hi
    rw [Nat.succ_mul] at this
    omega
  rw [if_pos ⟨hj, hj', hlt⟩, h1, h2, leftFill_snd P E hT irr perm j hj]

end mceliece

namespace mceliece

/-! ### The Vandermonde structure of the check matrix -/

/-- C19: with `vecMul` a lane-wise field multiplication, let `P_j` and `C_j` be the blocks
`prod[j]` and `consts[j]` returned by `toBitslicing2x`. For every power `i < sysT` and plane
`k < gfBits`, the word `mat[i*gfBits + k][j]` as first written (left blocks `j < nblocksI`
before the elimination, right blocks `nblocksI ≤ j < nblocksH` after it, whatever the
elimination left in `mat`) is plane `k` of the lane-wise product `P_j * C_j^i`: its bit `r` is
bit `k` of the product in lane `r`. The two-phase construction yields the same matrix as
building all `nblocksH` blocks at once. -/
theorem check_matrix_vandermonde (P : Params) (E : Ext) (hT : 1 ≤ P.sysT)
    (hI : nblocksI P ≤ nblocksH P) (mul : Nat → Nat → Nat) (inv : Nat → Nat) (one : Nat)
    (hF : FieldOps (2 ^ P.gfBits) mul inv one) (hL : LaneMul P.gfBits E mul)
    (irr perm : Nat → Nat) :
    (∀ i j k r, i < P.sysT → j < nblocksI P → k < P.gfBits → r < 64 →
      ((leftFill P E irr perm).1 (i * P.gfBits + k) j).testBit r
        = (mul (lane P.gfBits ((keyBlocks P E irr perm).2 j) r)
            (gpow mul one (lane P.gfBits ((keyBlocks P E irr perm).1 j) r) i)).testBit k) ∧
    (∀ (mat : Nat → Nat → Nat) i j k r, i < P.sysT → nblocksI P ≤ j → j < nblocksH P →
      k < P.gfBits → r < 64 →
      ((fillBlocks P E (nblocksI P) (nblocksH P) (keyBlocks P E irr perm).1
          (mat, (leftFill P E irr perm).2)).1 (i * P.gfBits + k) j).testBit r
        = (mul (lane P.gfBits ((keyBlocks P E irr perm).2 j) r)
            (gpow mul one (lane P.gfBits ((keyBlocks P E irr perm).1 j) r) i)).testBit k) ∧
    (∀ mat prod : Nat → Nat → Nat,
      fillBlocks P E (nblocksI P) (nblocksH P) (keyBlocks P E irr perm).1
          (fillBlocks P E 0 (nblocksI P) (keyBlocks P E irr perm).1 (mat, prod))
        = fillBlocks P E 0 (nblocksH P) (keyBlocks P E irr perm).1 (mat, prod)) := by
  refine ⟨?_, ?_, ?_⟩
  · intro i j k r hi hj hk hr
    rw [leftFill_apply P E hT irr perm i j k hi hj hk, ← lane_testBit P.gfBits _ r k hk,
      lane_powBlock P.gfBits E mul inv one hF hL _ _ i r hr]
  · intro mat i j k r hi hj hj' hk hr
    rw [rightFill_apply P E hT hI irr perm mat i j k hi hj hj' hk,
      ← lane_testBit P.gfBits _ r k hk, lane_powBlock P.gfBits E mul inv one hF hL _ _ i r hr]
  · intro mat prod
    exact fillBlocks_two_phase P E hT hI _ mat prod

theorem check_matrix_vandermonde_witness :
    1 ≤ mceliece8192128.sysT ∧ nblocksI mceliece8192128 ≤ nblocksH mceliece8192128 ∧
    FieldOps (2 ^ mceliece8192128.gfBits) gf8192.Mul gf8192.Inv 1 ∧
    LaneMul mceliece8192128.gfBits gf8192Ext gf8192.Mul ∧
    ((leftFill mceliece8192128 gf8192Ext (fun _ => 0) (fun i => i % 8192)).1
        (5 * mceliece8192128.gfBits + 3) 7).testBit 9
      = (gf8192.Mul (lane mceliece8192128.gfBits
            ((keyBlocks mceliece8192128 gf8192Ext (fun _ => 0) (fun i => i % 8192)).2 7) 9)
          (gpow gf8192.Mul 1 (lane mceliece8192128.gfBits
            ((keyBlocks mceliece8192128 gf8192Ext (fun _ => 0) (fun i => i % 8192)).1 7) 9)
            5)).testBit 3 :=
  ⟨by decide, by decide, gf8192_FieldOps, gf8192Ext_LaneMul,
   (check_matrix_vandermonde mceliece8192128 gf8192Ext (by decide) (by decide) gf8192.Mul
      gf8192.Inv 1 gf8192_FieldOps gf8192Ext_LaneMul (fun _ => 0) (fun i => i % 8192)).1
      5 7 3 9 (by decide) (by decide) (by decide) (by decide)⟩

end mceliece

namespace mceliece

/-! ### The table `pi` on the failure paths -/

theorem forwardPass_none_of_det_zero (P : Params)
    (h8 : P.Is8192128 = true → P.pkNRows % 64 = 0) (mat ops : Nat → Nat → Nat)
    (hdet : (bitMatrix mat P.pkNRows P.pkNRows 0).det = 0) :
    forwardPass P (mat, ops) = none := by
  cases hf : forwardPass P (mat, ops) with
  | none => rfl
  | some s' =>
    exfalso
    obtain ⟨hT, hR⟩ := forwardPass_some P h8 (mat, ops) s' hf
    have h1 := Tracks_det _ _ _ _ hT
    rw [det_of_Reduced _ _ hR] at h1
    rw [← h1] at hdet
    exact one_ne_zero hdet

theorem elimination_none_of_det_zero (P : Params)
    (h8 : P.Is8192128 = true → P.pkNRows % 64 = 0) (mat ops : Nat → Nat → Nat)
    (hdet : (bitMatrix mat P.pkNRows P.pkNRows 0).det = 0) :
    elimination P (mat, ops) = none := by
  unfold elimination
  rw [forwardPass_none_of_det_zero P h8 mat ops hdet]

/-- A left block with two equal rows is singular. -/
theorem det_zero_of_equal_rows (n nb : Nat) (hn : n ≤ 64 * nb) (m : Nat → Nat → Nat)
    (r1 r2 : Nat) (h1 : r1 < n) (h2 : r2 < n) (hne : r1 ≠ r2)
    (h : ∀ b, b < nb → m r1 b = m r2 b) : (bitMatrix m n n 0).det = 0 := by
  apply Matrix.det_zero_of_row_eq (i := (⟨r1, h1⟩ : Fin n)) (j := (⟨r2, h2⟩ : Fin n))
  · intro hh
    exact hne (Fin.mk.inj hh)
  · funext j
    rw [bitMatrix_apply, bitMatrix_apply]
    unfold bitAt
    have hj : (0 + (j : Nat)) / 64 < nb := by
      have := j.2
      rw [Nat.zero_add]
      apply Nat.div_lt_of_lt_mul
      omega
    show (if (m r1 ((0 + (j : Nat)) / 64)).testBit ((0 + (j : Nat)) % 64) = true then
      (1 : ZMod 2) else 0) = _
    rw [h _ hj]

theorem powBlock_exampleExt (p c : Nat → Nat) (i : Nat) : powBlock exampleExt p c i = p := by
  induction i with
  | zero => rfl
  | succ i ih => exact ih

/-- With `exampleExt` the left block has equal rows `0` and `gfBits`. -/
theorem leftFill_exampleExt_det (P : Params) (hT : 2 ≤ P.sysT) (hg : 0 < P.gfBits)
    (hn : P.pkNRows = P.sysT * P.gfBits) (irr perm : Nat → Nat) :
    (bitMatrix (leftFill P exampleExt irr perm).1 P.pkNRows P.pkNRows 0).det = 0 := by
  have hlt : P.gfBits < P.pkNRows := by
    rw [hn]
    have : 2 * P.gfBits ≤ P.sysT * P.gfBits := Nat.mul_le_mul_right _ hT
    omega
  apply det_zero_of_equal_rows P.pkNRows (nblocksI P) (le_nblocksI P) _ 0 P.gfBits
    (by omega) hlt (by omega)
  intro b hb
  have e0 := leftFill_apply P exampleExt (by omega) irr perm 0 b 0 (by omega) hb hg
  have e1 := leftFill_apply P exampleExt (by omega) irr perm 1 b 0 (by omega) hb hg
  rw [powBlock_exampleExt] at e0 e1
  simp only [Nat.zero_mul, Nat.one_mul, Nat.add_zero] at e0 e1
  rw [e0, e1]

/-- An input on which `pkGen` fails with a singular pivot, for every parameter set. -/
theorem pkGen_exampleExt_singular (P : Params) (h8 : P.Is8192128 = true → P.pkNRows % 64 = 0)
    (hg : 2 * P.gfBits ≤ 31) (hg0 : 0 < P.gfBits) (hT : 2 ≤ P.sysT)
    (hn : P.pkNRows = P.sysT * P.gfBits) (pk irr perm : Nat → Nat)
    (hperm : ∀ i, perm i < 2 ^ 32)
    (hinj : ∀ a b, a < 1 <<< P.gfBits → b < 1 <<< P.gfBits → perm a = perm b → a = b)
    (pi : Nat → Int) (pivots : Nat) :
    pkGen P exampleExt pk irr perm pi pivots =
      { ok := false, pk := pk, pi := writePi P (sortedKeys P exampleExt irr perm) pi,
        pivots := pivots } :=
  pkGen_of_elimination_none P exampleExt pk irr perm pi pivots ()
    (scanKeys_some_of_injective P exampleExt hg sortArr_SortedPerm irr perm hperm hinj)
    (elimination_none_of_det_zero P h8 _ _ (leftFill_exampleExt_det P hT hg0 hn irr perm))

/-- Counterexample to C13: a call of `pkGen` (parameter set `mceliece8192128`, injective tags,
a singular left block) that returns false and has overwritten entry 0 of `pi`, which held
`-1` before the call and is non-negative after it. -/
theorem pi_overwritten_on_singular_failure :
    (pkGen mceliece8192128 exampleExt (fun _ => 0) (fun _ => 0) (fun i => i % 8192)
      (fun _ => -1) 0).ok = false ∧
    (pkGen mceliece8192128 exampleExt (fun _ => 0) (fun _ => 0) (fun i => i % 8192)
      (fun _ => -1) 0).pi 0 ≠ (fun _ => (-1 : Int)) 0 := by
  have hf := pkGen_exampleExt_singular mceliece8192128 (fun _ => by decide) (by decide)
    (by decide) (by decide) (by decide) (fun _ => 0) (fun _ => 0) (fun i => i % 8192)
    (fun i => (by omega : i % 8192 < 2 ^ 32)) mod_8192_injective (fun _ => -1) 0
  have hscan := scanKeys_some_of_injective mceliece8192128 exampleExt (by decide)
    sortArr_SortedPerm (fun _ => 0) (fun i => i % 8192)
    (fun i => (by omega : i % 8192 < 2 ^ 32)) mod_8192_injective
  have hpos := ((writePi_permutation mceliece8192128 exampleExt (by decide) sortArr_SortedPerm
    (fun _ => 0) (fun i => i % 8192) (fun i => (by omega : i % 8192 < 2 ^ 32)) (fun _ => -1)
    hscan).1 0 (Nat.two_pow_pos mceliece8192128.gfBits)).1
  have hpi : (pkGen mceliece8192128 exampleExt (fun _ => 0) (fun _ => 0) (fun i => i % 8192)
      (fun _ => -1) 0).pi = writePi mceliece8192128 (sortedKeys mceliece8192128 exampleExt
        (fun _ => 0) (fun i => i % 8192)) (fun _ => -1) := by rw [hf]
  constructor
  · rw [hf]
  · rw [hpi]
    intro h
    rw [h] at hpos
    exact absurd hpos (by decide)

/-- C13, amended: whenever `pkGen` returns false, either the duplicate-tag scan failed and every
entry of `pi` holds the value it held before the call, or the scan passed and the forward pass
met a singular pivot, in which case `pi` was already overwritten at lines 197-199:
`pi[i] = int16(list[i] & gfMask)` for every `i < 2^gfBits`, `list` being the sorted keys. -/
theorem pkGen_false_pi (P : Params) (E : Ext) (pk irr perm : Nat → Nat) (pi : Nat → Int)
    (pivots : Nat) (h : (pkGen P E pk irr perm pi pivots).ok = false) :
    (scanKeys P (sortedKeys P E irr perm) = none ∧
      (pkGen P E pk irr perm pi pivots).pi = pi) ∨
    (scanKeys P (sortedKeys P E irr perm) = some () ∧
      forwardPass P ((leftFill P E irr perm).1, opsInit P (fun _ _ => 0)) = none ∧
      ∀ i, (pkGen P E pk irr perm pi pivots).pi i
        = if i < 1 <<< P.gfBits then toInt16 (sortedKeys P E irr perm i &&& gfMask P)
          else pi i) := by
  rcases pkGen_cases P E pk irr perm pi pivots with ⟨h1, h'⟩ | ⟨h1, h2, h'⟩ | ⟨s, _, _, h'⟩
  · left
    rw [h']
    exact ⟨h1, rfl⟩
  · right
    rw [h']
    refine ⟨h1, ?_, fun i => writePi_apply P _ pi i⟩
    unfold elimination at h2
    cases hf : forwardPass P ((leftFill P E irr perm).1, opsInit P (fun _ _ => 0)) with
    | none => rfl
    | some u =>
      rw [hf] at h2
      exact absurd h2 (by simp)
  · rw [h'] at h
    exact absurd h (by simp)

theorem pkGen_false_pi_witness :
    (pkGen mceliece8192128 exampleExt (fun _ => 0) (fun _ => 0) (fun i => i % 8192)
      (fun _ => -1) 0).ok = false ∧
    ((scanKeys mceliece8192128 (sortedKeys mceliece8192128 exampleExt (fun _ => 0)
        (fun i => i % 8192)) = none ∧
      (pkGen mceliece8192128 exampleExt (fun _ => 0) (fun _ => 0) (fun i => i % 8192)
        (fun _ => -1) 0).pi = fun _ => -1) ∨
    (scanKeys mceliece8192128 (sortedKeys mceliece8192128 exampleExt (fun _ => 0)
        (fun i => i % 8192)) = some () ∧
      forwardPass mceliece8192128 ((leftFill mceliece8192128 exampleExt (fun _ => 0)
        (fun i => i % 8192)).1, opsInit mceliece8192128 (fun _ _ => 0)) = none ∧
      ∀ i, (pkGen mceliece8192128 exampleExt (fun _ => 0) (fun _ => 0) (fun i => i % 8192)
          (fun _ => -1) 0).pi i
        = if i < 1 <<< mceliece8192128.gfBits then
            toInt16 (sortedKeys mceliece8192128 exampleExt (fun _ => 0) (fun i => i % 8192) i
              &&& gfMask mceliece8192128)
          else (fun _ => -1) i)) := by
  have hf := pkGen_exampleExt_singular mceliece8192128 (fun _ => by decide) (by decide)
    (by decide) (by decide) (by decide) (fun _ => 0) (fun _ => 0) (fun i => i % 8192)
    (fun i => (by omega : i % 8192 < 2 ^ 32)) mod_8192_injective (fun _ => -1) 0
  have hok : (pkGen mceliece8192128 exampleExt (fun _ => 0) (fun _ => 0) (fun i => i % 8192)
      (fun _ => -1) 0).ok = false := by rw [hf]
  exact ⟨hok, pkGen_false_pi mceliece8192128 exampleExt _ _ _ _ _ hok⟩

end mceliece

namespace mceliece

open Matrix

/-! ### The lock-step invariant of the forward pass -/

/-- A loop that records each new state keeps the states of the plain loop. -/
theorem logLoop_fst {σ : Type} (n : Nat) (F : Nat → σ → σ) (st : σ × List σ) :
    (loopUp n (fun k (st : σ × List σ) => (F k st.1, st.2 ++ [F k st.1])) st).1
      = loopUp n F st.1 :=
  loopUp_fst n _ F (fun _ _ => rfl) st

/-- A property kept by every step holds of the state and of every recorded state. -/
theorem logLoop_inv {σ : Type} (Q : σ → Prop) (n : Nat) (F : Nat → σ → σ)
    (hF : ∀ k, k < n → ∀ s, Q s → Q (F k s)) (st : σ × List σ)
    (h0 : Q st.1) (hl : ∀ t ∈ st.2, Q t) :
    Q (loopUp n (fun k (st : σ × List σ) => (F k st.1, st.2 ++ [F k st.1])) st).1 ∧
      ∀ t ∈ (loopUp n (fun k (st : σ × List σ) => (F k st.1, st.2 ++ [F k st.1])) st).2, Q t := by
  apply loopUp_inv (fun _ (u : σ × List σ) => Q u.1 ∧ ∀ t ∈ u.2, Q t) n _ st ⟨h0, hl⟩
  intro k hk u ⟨hu, hul⟩
  refine ⟨hF k hk _ hu, ?_⟩
  intro t ht
  rcases List.mem_append.mp ht with h | h
  · exact hul t h
  · rw [List.mem_singleton.mp h]
    exact hF k hk _ hu

/-- The recorded round in terms of `rowXor`. -/
theorem forwardRowT_eq (P : Params) (row : Nat) (st : MatOps × List MatOps) :
    forwardRowT P row (row / 64) (row % 64) st =
      if bitAt (loopRange (row + 1) P.pkNRows
            (fun k (st : MatOps × List MatOps) =>
              ((rowXor (nblocksI P) row k (maskOf (!bitAt st.1.1 row row)) st.1.1,
                rowXor (nblocksI P) row k (maskOf (!bitAt st.1.1 row row)) st.1.2),
               st.2 ++ [(rowXor (nblocksI P) row k (maskOf (!bitAt st.1.1 row row)) st.1.1,
                rowXor (nblocksI P) row k (maskOf (!bitAt st.1.1 row row)) st.1.2)])) st).1.1
            row row = false then
        (none, (loopRange (row + 1) P.pkNRows
            (fun k (st : MatOps × List MatOps) =>
              ((rowXor (nblocksI P) row k (maskOf (!bitAt st.1.1 row row)) st.1.1,
                rowXor (nblocksI P) row k (maskOf (!bitAt st.1.1 row row)) st.1.2),
               st.2 ++ [(rowXor (nblocksI P) row k (maskOf (!bitAt st.1.1 row row)) st.1.1,
                rowXor (nblocksI P) row k (maskOf (!bitAt st.1.1 row row)) st.1.2)])) st).2)
      else
        (some (loopRange (row + 1) P.pkNRows
          (fun k (st : MatOps × List MatOps) =>
            ((rowXor (nblocksI P) k row (maskOf (bitAt st.1.1 k row)) st.1.1,
              rowXor (nblocksI P) k row (maskOf (bitAt st.1.1 k row)) st.1.2),
             st.2 ++ [(rowXor (nblocksI P) k row (maskOf (bitAt st.1.1 k row)) st.1.1,
              rowXor (nblocksI P) k row (maskOf (bitAt st.1.1 k row)) st.1.2)]))
          (loopRange (row + 1) P.pkNRows
            (fun k (st : MatOps × List MatOps) =>
              ((rowXor (nblocksI P) row k (maskOf (!bitAt st.1.1 row row)) st.1.1,
                rowXor (nblocksI P) row k (maskOf (!bitAt st.1.1 row row)) st.1.2),
               st.2 ++ [(rowXor (nblocksI P) row k (maskOf (!bitAt st.1.1 row row)) st.1.1,
                rowXor (nblocksI P) row k (maskOf (!bitAt st.1.1 row row)) st.1.2)])) st)).1,
         (loopRange (row + 1) P.pkNRows
          (fun k (st : MatOps × List MatOps) =>
            ((rowXor (nblocksI P) k row (maskOf (bitAt st.1.1 k row)) st.1.1,
              rowXor (nblocksI P) k row (maskOf (bitAt st.1.1 k row)) st.1.2),
             st.2 ++ [(rowXor (nblocksI P) k row (maskOf (bitAt st.1.1 k row)) st.1.1,
              rowXor (nblocksI P) k row (maskOf (bitAt st.1.1 k row)) st.1.2)]))
          (loopRange (row + 1) P.pkNRows
            (fun k (st : MatOps × List MatOps) =>
              ((rowXor (nblocksI P) row k (maskOf (!bitAt st.1.1 row row)) st.1.1,
                rowXor (nblocksI P) row k (maskOf (!bitAt st.1.1 row row)) st.1.2),
               st.2 ++ [(rowXor (nblocksI P) row k (maskOf (!bitAt st.1.1 row row)) st.1.1,
                rowXor (nblocksI P) row k (maskOf (!bitAt st.1.1 row row)) st.1.2)])) st)).2) := by
  unfold forwardRowT
  simp only [sub64_mask, neg64_mask, loop_rowXor, shr_and_one_eq_zero]
  rfl

/-- The recorded round returns what `forwardRow` returns. -/
theorem forwardRowT_fst (P : Params) (row : Nat) (st : MatOps × List MatOps) :
    (forwardRowT P row (row / 64) (row % 64) st).1
      = forwardRow P row (row / 64) (row % 64) st.1 := by
  rw [forwardRowT_eq, forwardRow_eq]
  have e1 := logLoop_fst (P.pkNRows - (row + 1))
    (fun t (s : MatOps) =>
      ((rowXor (nblocksI P) row (row + 1 + t) (maskOf (!bitAt s.1 row row)) s.1,
        rowXor (nblocksI P) row (row + 1 + t) (maskOf (!bitAt s.1 row row)) s.2) : MatOps)) st
  have e2 := fun u => logLoop_fst (P.pkNRows - (row + 1))
    (fun t (s : MatOps) =>
      ((rowXor (nblocksI P) (row + 1 + t) row (maskOf (bitAt s.1 (row + 1 + t) row)) s.1,
        rowXor (nblocksI P) (row + 1 + t) row (maskOf (bitAt s.1 (row + 1 + t) row)) s.2)
        : MatOps)) u
  unfold loopRange
  by_cases h : bitAt (loopUp (P.pkNRows - (row + 1))
      (fun t (st : MatOps × List MatOps) =>
        (((rowXor (nblocksI P) row (row + 1 + t) (maskOf (!bitAt st.1.1 row row)) st.1.1,
          rowXor (nblocksI P) row (row + 1 + t) (maskOf (!bitAt st.1.1 row row)) st.1.2)
          : MatOps),
         st.2 ++ [((rowXor (nblocksI P) row (row + 1 + t) (maskOf (!bitAt st.1.1 row row))
            st.1.1,
          rowXor (nblocksI P) row (row + 1 + t) (maskOf (!bitAt st.1.1 row row)) st.1.2)
          : MatOps)])) st).1.1 row row = false
  · rw [if_pos h]
    rw [e1] at h
    rw [if_pos h]
  · rw [if_neg h]
    rw [e1] at h
    rw [if_neg h]
    show some _ = some _
    rw [e2, e1]

/-- One round of the recorded pass keeps a property that every masked row addition keeps. -/
theorem forwardRowT_inv (P : Params) (Q : MatOps → Prop) (row : Nat)
    (hQ : ∀ dst src cond (s : MatOps), dst < P.pkNRows → src < P.pkNRows → dst ≠ src → Q s →
      Q (rowXor (nblocksI P) dst src (maskOf cond) s.1,
         rowXor (nblocksI P) dst src (maskOf cond) s.2))
    (st : MatOps × List MatOps) (hrow : row < P.pkNRows) (h0 : Q st.1) (hl : ∀ t ∈ st.2, Q t) :
    (∀ s, (forwardRowT P row (row / 64) (row % 64) st).1 = some s → Q s) ∧
      ∀ t ∈ (forwardRowT P row (row / 64) (row % 64) st).2, Q t := by
  rw [forwardRowT_eq]
  have i1 := logLoop_inv Q (P.pkNRows - (row + 1))
    (fun t (s : MatOps) =>
      ((rowXor (nblocksI P) row (row + 1 + t) (maskOf (!bitAt s.1 row row)) s.1,
        rowXor (nblocksI P) row (row + 1 + t) (maskOf (!bitAt s.1 row row)) s.2) : MatOps))
    (fun t ht s hs => hQ row (row + 1 + t) _ s hrow (by omega) (by omega) hs) st h0 hl
  have i2 := fun u hu0 hul => logLoop_inv Q (P.pkNRows - (row + 1))
    (fun t (s : MatOps) =>
      ((rowXor (nblocksI P) (row + 1 + t) row (maskOf (bitAt s.1 (row + 1 + t) row)) s.1,
        rowXor (nblocksI P) (row + 1 + t) row (maskOf (bitAt s.1 (row + 1 + t) row)) s.2)
        : MatOps))
    (fun t ht s hs => hQ (row + 1 + t) row _ s (by omega) hrow (by omega) hs) u hu0 hul
  unfold loopRange
  by_cases h : bitAt (loopUp (P.pkNRows - (row + 1))
      (fun t (st : MatOps × List MatOps) =>
        (((rowXor (nblocksI P) row (row + 1 + t) (maskOf (!bitAt st.1.1 row row)) st.1.1,
          rowXor (nblocksI P) row (row + 1 + t) (maskOf (!bitAt st.1.1 row row)) st.1.2)
          : MatOps),
         st.2 ++ [((rowXor (nblocksI P) row (row + 1 + t) (maskOf (!bitAt st.1.1 row row))
            st.1.1,
          rowXor (nblocksI P) row (row + 1 + t) (maskOf (!bitAt st.1.1 row row)) st.1.2)
          : MatOps)])) st).1.1 row row = false
  · rw [if_pos h]
    exact ⟨fun s hs => absurd hs (by simp), i1.2⟩
  · rw [if_neg h]
    have i3 := i2 _ i1.1 i1.2
    refine ⟨fun s hs => ?_, i3.2⟩
    have hs' := Option.some.inj hs
    rw [← hs']
    exact i3.1

/-- Both shapes of the recorded pass run the rounds `0 .. pkNRows - 1`. -/
theorem forwardPassT_eq (P : Params) (h8 : P.Is8192128 = true → P.pkNRows % 64 = 0)
    (s : MatOps) :
    forwardPassT P s
      = loopUp P.pkNRows (fun row st => forwardStepT P row (row / 64) (row % 64) st)
          (some s, []) := by
  unfold forwardPassT
  by_cases h : P.Is8192128 = true
  · rw [if_pos h, loopUp_nested (P.pkNRows / 64) 64
      (fun row i j st => forwardStepT P row i j st) (some s, [])]
    have : P.pkNRows / 64 * 64 = P.pkNRows := by
      have := h8 h
      omega
    rw [this]
  · rw [if_neg h]
    simp only [(shr6_and63 _).1, (shr6_and63 _).2]

theorem forwardSteps_fst (P : Params) (s : MatOps) (n : Nat) :
    (loopUp n (fun row st => forwardStepT P row (row / 64) (row % 64) st) (some s, [])).1
      = loopUpM n (fun row s => forwardRow P row (row / 64) (row % 64) s) s := by
  induction n with
  | zero => rfl
  | succ n ih =>
    rw [loopUp_succ, loopUpM_succ, ← ih]
    rcases hst : loopUp n (fun row st => forwardStepT P row (row / 64) (row % 64) st)
      (some s, []) with ⟨o, l⟩
    cases o with
    | none => rfl
    | some u =>
      show (forwardRowT P n (n / 64) (n % 64) (u, l)).1 = _
      rw [forwardRowT_fst]
      rfl

/-- The recorded pass returns what `forwardPass` returns. -/
theorem forwardPassT_fst (P : Params) (h8 : P.Is8192128 = true → P.pkNRows % 64 = 0)
    (s : MatOps) : (forwardPassT P s).1 = forwardPass P s := by
  rw [forwardPassT_eq P h8, forwardPass_eq P h8, forwardSteps_fst]

/-- A property that every masked row addition keeps holds of every recorded state. -/
theorem forwardPassT_inv (P : Params) (h8 : P.Is8192128 = true → P.pkNRows % 64 = 0)
    (Q : MatOps → Prop)
    (hQ : ∀ dst src cond (s : MatOps), dst < P.pkNRows → src < P.pkNRows → dst ≠ src → Q s →
      Q (rowXor (nblocksI P) dst src (maskOf cond) s.1,
         rowXor (nblocksI P) dst src (maskOf cond) s.2))
    (s : MatOps) (h0 : Q s) :
    (∀ u, (forwardPassT P s).1 = some u → Q u) ∧ ∀ t ∈ (forwardPassT P s).2, Q t := by
  rw [forwardPassT_eq P h8]
  apply loopUp_inv (fun _ (st : Option MatOps × List MatOps) =>
    (∀ u, st.1 = some u → Q u) ∧ ∀ t ∈ st.2, Q t) P.pkNRows _ (some s, [])
  · refine ⟨fun u hu => ?_, fun t ht => absurd ht (List.not_mem_nil t)⟩
    rw [← Option.some.inj hu]
    exact h0
  · intro row hrow st ⟨h1, h2⟩
    rcases st with ⟨o, l⟩
    cases o with
    | none => exact ⟨h1, h2⟩
    | some u =>
      exact forwardRowT_inv P Q row hQ (u, l) hrow (h1 u rfl) h2

end mceliece

namespace mceliece

open Matrix

/-- A transvection applied to a matrix of any width. -/
theorem transvection_mul_apply_cols (n nc : Nat) (d s : Fin n) (c : ZMod 2)
    (X : Matrix (Fin n) (Fin nc) (ZMod 2)) (i : Fin n) (j : Fin nc) :
    ((transvection d s c : Matrix (Fin n) (Fin n) (ZMod 2)) * X) i j
      = X i j + if i = d then c * X s j else 0 := by
  rw [transvection, Matrix.add_mul, Matrix.one_mul, Matrix.add_apply, Matrix.mul_apply]
  congr 1
  by_cases h : i = d
  · subst h
    rw [if_pos rfl]
    simp [stdBasisMatrix]
  · rw [if_neg h]
    apply Finset.sum_eq_zero
    intro k _
    have : ¬ (d = i) := fun hh => h hh.symm
    simp [stdBasisMatrix, this]

/-- A masked row addition multiplies the first `nc` columns by a transvection. -/
theorem bitMatrix_rowXor_cols (n nc nb dst src : Nat) (cond : Bool) (m : Nat → Nat → Nat)
    (hn : nc ≤ 64 * nb) (hd : dst < n) (hs : src < n) :
    bitMatrix (rowXor nb dst src (maskOf cond) m) n nc 0
      = (transvection (⟨dst, hd⟩ : Fin n) ⟨src, hs⟩ (if cond then 1 else 0)
          : Matrix (Fin n) (Fin n) (ZMod 2)) * bitMatrix m n nc 0 := by
  ext i j
  have hj : ((0 + (j : Nat)) : Nat) / 64 < nb := by
    have := j.2
    omega
  have hbit := bitAt_rowXor nb dst src cond m i (0 + j)
  rw [transvection_mul_apply_cols]
  by_cases hi : i = ⟨dst, hd⟩
  · subst hi
    rw [if_pos ⟨rfl, hj⟩] at hbit
    rw [if_pos rfl, bitMatrix_apply, bitMatrix_apply, bitMatrix_apply, hbit, zmod2_xor]
  · rw [if_neg (fun h => hi (Fin.ext h.1))] at hbit
    rw [if_neg hi, add_zero, bitMatrix_apply, bitMatrix_apply, hbit]

/-- The lock-step relation is kept by a masked row addition made in `mat` and in `ops`. -/
theorem LockStep_rowXor (P : Params)
    (M0 : Matrix (Fin P.pkNRows) (Fin (64 * nblocksI P)) (ZMod 2))
    (dst src : Nat) (cond : Bool) (s : MatOps) (hd : dst < P.pkNRows) (hs : src < P.pkNRows)
    (h : LockStep P M0 s) :
    LockStep P M0 (rowXor (nblocksI P) dst src (maskOf cond) s.1,
      rowXor (nblocksI P) dst src (maskOf cond) s.2) := by
  unfold LockStep at h ⊢
  show bitMatrix (rowXor (nblocksI P) dst src (maskOf cond) s.1) P.pkNRows (64 * nblocksI P) 0
    = bitMatrix (rowXor (nblocksI P) dst src (maskOf cond) s.2) P.pkNRows P.pkNRows 0 * M0
  rw [bitMatrix_rowXor_cols P.pkNRows (64 * nblocksI P) (nblocksI P) dst src cond s.1
      (Nat.le_refl _) hd hs,
    bitMatrix_rowXor P.pkNRows (nblocksI P) dst src cond s.2 (le_nblocksI P) hd hs, h,
    Matrix.mul_assoc]

/-- With `ops` the identity, the lock-step relation holds before the first step. -/
theorem LockStep_init (P : Params) (h8 : P.Is8192128 = true → P.pkNRows % 64 = 0)
    (mat ops : Nat → Nat → Nat) :
    LockStep P (bitMatrix mat P.pkNRows (64 * nblocksI P) 0) (mat, opsInit P ops) := by
  unfold LockStep
  show bitMatrix mat P.pkNRows (64 * nblocksI P) 0
    = bitMatrix (opsInit P ops) P.pkNRows P.pkNRows 0
      * bitMatrix mat P.pkNRows (64 * nblocksI P) 0
  rw [bitMatrix_opsInit P h8 ops, Matrix.one_mul]

/-! ### The length of the record -/

theorem logLoop_length {σ : Type} (n : Nat) (F : Nat → σ → σ) (st : σ × List σ) :
    (loopUp n (fun k (st : σ × List σ) => (F k st.1, st.2 ++ [F k st.1])) st).2.length
      = st.2.length + n := by
  induction n with
  | zero => rfl
  | succ n ih =>
    rw [loopUp_succ]
    show (_ ++ [_]).length = _
    rw [List.length_append, ih]
    rfl

theorem forwardRowT_length (P : Params) (row : Nat) (st : MatOps × List MatOps) :
    st.2.length + (P.pkNRows - (row + 1))
      ≤ (forwardRowT P row (row / 64) (row % 64) st).2.length := by
  rw [forwardRowT_eq]
  have l1 := logLoop_length (P.pkNRows - (row + 1))
    (fun t (s : MatOps) =>
      ((rowXor (nblocksI P) row (row + 1 + t) (maskOf (!bitAt s.1 row row)) s.1,
        rowXor (nblocksI P) row (row + 1 + t) (maskOf (!bitAt s.1 row row)) s.2) : MatOps)) st
  have l2 := fun u => logLoop_length (P.pkNRows - (row + 1))
    (fun t (s : MatOps) =>
      ((rowXor (nblocksI P) (row + 1 + t) row (maskOf (bitAt s.1 (row + 1 + t) row)) s.1,
        rowXor (nblocksI P) (row + 1 + t) row (maskOf (bitAt s.1 (row + 1 + t) row)) s.2)
        : MatOps)) u
  unfold loopRange
  by_cases h : bitAt (loopUp (P.pkNRows - (row + 1))
      (fun t (st : MatOps × List MatOps) =>
        (((rowXor (nblocksI P) row (row + 1 + t) (maskOf (!bitAt st.1.1 row row)) st.1.1,
          rowXor (nblocksI P) row (row + 1 + t) (maskOf (!bitAt st.1.1 row row)) st.1.2)
          : MatOps),
         st.2 ++ [((rowXor (nblocksI P) row (row + 1 + t) (maskOf (!bitAt st.1.1 row row))
            st.1.1,
          rowXor (nblocksI P) row (row + 1 + t) (maskOf (!bitAt st.1.1 row row)) st.1.2)
          : MatOps)])) st).1.1 row row = false
  · rw [if_pos h]
    exact Nat.le_of_eq l1.symm
  · rw [if_neg h]
    rw [l2, l1]
    omega

/-- The record holds at least the `pkNRows - 1` steps of the first pivot search. -/
theorem forwardPassT_length (P : Params) (h8 : P.Is8192128 = true → P.pkNRows % 64 = 0)
    (s : MatOps) : P.pkNRows - 1 ≤ (forwardPassT P s).2.length := by
  rw [forwardPassT_eq P h8]
  have key : ∀ m, 1 ≤ m → P.pkNRows - 1 ≤
      (loopUp m (fun row st => forwardStepT P row (row / 64) (row % 64) st)
        (some s, [])).2.length := by
    intro m hm
    induction m with
    | zero => omega
    | succ m ih =>
      rw [loopUp_succ]
      by_cases h0 : m = 0
      · subst h0
        have := forwardRowT_length P 0 (s, [])
        exact Nat.le_trans (by simp) this
      · have ih' := ih (by omega)
        rcases hst : loopUp m (fun row st => forwardStepT P row (row / 64) (row % 64) st)
          (some s, []) with ⟨o, l⟩
        rw [hst] at ih'
        cases o with
        | none => exact ih'
        | some u =>
          have := forwardRowT_length P m (u, l)
          exact Nat.le_trans ih' (Nat.le_trans (Nat.le_add_right _ _) this)
  by_cases hn : P.pkNRows = 0
  · rw [hn]
    exact Nat.zero_le _
  · exact key P.pkNRows (by omega)

/-- C17: lock-step invariant of the forward pass of `pkGen`. With `ops` initialised to the
identity and `M0` the first `nblocksI` column blocks of `mat` before the elimination, the
recorded pass returns what the forward pass returns, and after every elementary step (each
masked XOR of one row into another, applied to `mat` and `ops` together) the current first
`nblocksI` column blocks of `mat` equal `ops * M0` over GF(2); the record holds at least the
`pkNRows - 1` steps of the first pivot search. -/
theorem forward_lock_step (P : Params) (h8 : P.Is8192128 = true → P.pkNRows % 64 = 0)
    (mat ops : Nat → Nat → Nat) :
    (forwardPassT P (mat, opsInit P ops)).1 = forwardPass P (mat, opsInit P ops) ∧
    (∀ t ∈ (forwardPassT P (mat, opsInit P ops)).2,
      bitMatrix t.1 P.pkNRows (64 * nblocksI P) 0
        = bitMatrix t.2 P.pkNRows P.pkNRows 0 * bitMatrix mat P.pkNRows (64 * nblocksI P) 0) ∧
    P.pkNRows - 1 ≤ (forwardPassT P (mat, opsInit P ops)).2.length :=
  ⟨forwardPassT_fst P h8 _,
   (forwardPassT_inv P h8 (LockStep P (bitMatrix mat P.pkNRows (64 * nblocksI P) 0))
      (fun dst src cond s hd hs _ h => LockStep_rowXor P _ dst src cond s hd hs h)
      (mat, opsInit P ops) (LockStep_init P h8 mat ops)).2,
   forwardPassT_length P h8 _⟩

theorem forward_lock_step_witness :
    (forwardPassT mceliece6960119 (exampleMat, opsInit mceliece6960119 (fun _ _ => 0))).1
      = forwardPass mceliece6960119 (exampleMat, opsInit mceliece6960119 (fun _ _ => 0)) ∧
    (∀ t ∈ (forwardPassT mceliece6960119
        (exampleMat, opsInit mceliece6960119 (fun _ _ => 0))).2,
      bitMatrix t.1 mceliece6960119.pkNRows (64 * nblocksI mceliece6960119) 0
        = bitMatrix t.2 mceliece6960119.pkNRows mceliece6960119.pkNRows 0
          * bitMatrix exampleMat mceliece6960119.pkNRows (64 * nblocksI mceliece6960119) 0) ∧
    mceliece6960119.pkNRows - 1
      ≤ (forwardPassT mceliece6960119
          (exampleMat, opsInit mceliece6960119 (fun _ _ => 0))).2.length :=
  forward_lock_step mceliece6960119 (fun h => absurd h (by decide)) exampleMat (fun _ _ => 0)

end mceliece

namespace mceliece

/-! ### Batch inversion -/

theorem FieldOps_mul_ne_zero {q : Nat} {mul : Nat → Nat → Nat} {inv : Nat → Nat} {one : Nat}
    (hF : FieldOps q mul inv one) (x y : Nat) (hx : x < q) (hy : y < q)
    (hx0 : x ≠ 0) (hy0 : y ≠ 0) : mul x y ≠ 0 := by
  obtain ⟨hcl, hinv, _, _, hassoc, hone, hzero, hmi⟩ := hF
  intro h
  apply hx0
  have h1 : mul (mul x y) (inv y) = mul x (mul y (inv y)) := hassoc x y (inv y) hx hy (hinv y hy)
  rw [hmi y hy hy0, hone x hx, h, hzero _ (hinv y hy)] at h1
  exact h1.symm

theorem FieldOps_inv_unique {q : Nat} {mul : Nat → Nat → Nat} {inv : Nat → Nat} {one : Nat}
    (hF : FieldOps q mul inv one) (x y : Nat) (hx : x < q) (hy : y < q)
    (hx0 : x ≠ 0) (h : mul x y = one) : y = inv x := by
  obtain ⟨hcl, hinv, hone', hcomm, hassoc, hone, hzero, hmi⟩ := hF
  have h1 : mul (mul y x) (inv x) = mul y (mul x (inv x)) := hassoc y x (inv x) hy hx (hinv x hx)
  rw [hmi x hx hx0, hone y hy, hcomm y x hy hx, h, hcomm one (inv x) hone' (hinv x hx),
    hone _ (hinv x hx)] at h1
  exact h1.symm

/-- The step `inv_i = p_{i-1} * runningInverse`. -/
theorem FieldOps_mul_inv_mul {q : Nat} {mul : Nat → Nat → Nat} {inv : Nat → Nat} {one : Nat}
    (hF : FieldOps q mul inv one) (p e : Nat) (hp : p < q) (he : e < q)
    (hp0 : p ≠ 0) (he0 : e ≠ 0) : mul p (inv (mul p e)) = inv e := by
  have hF' := hF
  obtain ⟨hcl, hinv, hone', hcomm, hassoc, hone, hzero, hmi⟩ := hF
  have hpe := hcl p e hp he
  have hpe0 := FieldOps_mul_ne_zero hF' p e hp he hp0 he0
  have hz := hinv _ hpe
  apply FieldOps_inv_unique hF' e _ he (hcl _ _ hp hz) he0
  rw [← hassoc e p _ he hp hz, hcomm e p he hp]
  exact hmi _ hpe hpe0

/-- The step `runningInverse = runningInverse * e_i`. -/
theorem FieldOps_inv_mul_mul {q : Nat} {mul : Nat → Nat → Nat} {inv : Nat → Nat} {one : Nat}
    (hF : FieldOps q mul inv one) (p e : Nat) (hp : p < q) (he : e < q)
    (hp0 : p ≠ 0) (he0 : e ≠ 0) : mul (inv (mul p e)) e = inv p := by
  have hF' := hF
  obtain ⟨hcl, hinv, hone', hcomm, hassoc, hone, hzero, hmi⟩ := hF
  have hpe := hcl p e hp he
  have hpe0 := FieldOps_mul_ne_zero hF' p e hp he hp0 he0
  have hz := hinv _ hpe
  apply FieldOps_inv_unique hF' p _ hp (hcl _ _ hz he) hp0
  rw [hcomm _ e hz he, ← hassoc p e _ hp he hz]
  exact hmi _ hpe hpe0

theorem gprod_spec {q : Nat} {mul : Nat → Nat → Nat} {inv : Nat → Nat} {one : Nat}
    (hF : FieldOps q mul inv one) (e : Nat → Nat) (n : Nat)
    (he : ∀ i, i < n → e i < q ∧ e i ≠ 0) (i : Nat) (hi : i < n) :
    gprod mul e i < q ∧ gprod mul e i ≠ 0 := by
  induction i with
  | zero => exact he 0 hi
  | succ i ih =>
    have h1 := ih (by omega)
    have h2 := he (i + 1) hi
    exact ⟨hF.1 _ _ h1.1 h2.1, FieldOps_mul_ne_zero hF _ _ h1.1 h2.1 h1.2 h2.2⟩

theorem lane_runProd (g : Nat) (E : Ext) (mul : Nat → Nat → Nat) (hM : LaneMul g E mul)
    (eval : Nat → Nat → Nat) (r : Nat) (hr : r < 64) (i : Nat) :
    lane g (runProd E eval i) r = gprod mul (fun k => lane g (eval k) r) i := by
  induction i with
  | zero => rfl
  | succ i ih =>
    show lane g (E.vecMul (runProd E eval i) (eval (i + 1))) r = _
    rw [hM _ _ r hr, ih]
    rfl

/-- Lines 170-173 of `pkGen`: the running products. -/
theorem forwardProducts (E : Ext) (eval prod : Nat → Nat → Nat) (n : Nat) (k : Nat)
    (hk : k < n) :
    loopRange 1 n (fun i prod => set1 prod i (E.vecMul (prod (i - 1)) (eval i)))
        (set1 prod 0 (vecCopy (eval 0))) k
      = runProd E eval k := by
  unfold loopRange
  have key := loopUp_inv
    (fun t (p : Nat → Nat → Nat) => ∀ k, k ≤ t → p k = runProd E eval k) (n - 1)
    (fun t prod => set1 prod (1 + t) (E.vecMul (prod (1 + t - 1)) (eval (1 + t))))
    (set1 prod 0 (vecCopy (eval 0)))
    (by
      intro k hk
      have : k = 0 := by omega
      rw [this]
      rfl)
    (by
      intro t _ p hp k hk
      show (if k = 1 + t then E.vecMul (p (1 + t - 1)) (eval (1 + t)) else p k) = _
      by_cases h : k = 1 + t
      · rw [if_pos h, h, hp (1 + t - 1) (by omega)]
        have e : 1 + t - 1 = t := by omega
        rw [e, Nat.add_comm 1 t]
        rfl
      · rw [if_neg h]
        exact hp k (by omega))
  exact key k (by omega)

/-- Batch inversion lane by lane. -/
theorem batchInverse_lanes (P : Params) (E : Ext) (he : 1 ≤ exponent P)
    (mul : Nat → Nat → Nat) (inv : Nat → Nat) (one : Nat)
    (hF : FieldOps (2 ^ P.gfBits) mul inv one) (hM : LaneMul P.gfBits E mul)
    (hI : LaneInv P.gfBits E inv) (eval prod : Nat → Nat → Nat)
    (hnz : ∀ i r, i < exponent P → r < 64 → lane P.gfBits (eval i) r ≠ 0)
    (i r : Nat) (hi : i < exponent P) (hr : r < 64) :
    lane P.gfBits (batchInverse P E eval prod i) r = inv (lane P.gfBits (eval i) r) := by
  unfold batchInverse
  have hfw := fun k hk => forwardProducts E eval prod (exponent P) k hk
  generalize hpf : loopRange 1 (exponent P)
    (fun i prod => set1 prod i (E.vecMul (prod (i - 1)) (eval i)))
    (set1 prod 0 (vecCopy (eval 0))) = prodF at hfw
  have hle : ∀ r, r < 64 → ∀ k, k < exponent P →
      lane P.gfBits (eval k) r < 2 ^ P.gfBits ∧ lane P.gfBits (eval k) r ≠ 0 :=
    fun r hr k hk => ⟨lane_lt _ _ _, hnz k r hk hr⟩
  have hgp := fun r hr k hk =>
    gprod_spec hF (fun k => lane P.gfBits (eval k) r) (exponent P) (hle r hr) k hk
  have key := loopDown_inv
    (fun m (t : (Nat → Nat → Nat) × (Nat → Nat)) =>
      (∀ k, k ≤ m → t.1 k = runProd E eval k) ∧
      (∀ r, r < 64 → lane P.gfBits t.2 r
        = inv (gprod mul (fun k => lane P.gfBits (eval k) r) m)) ∧
      (∀ k r, m < k → k < exponent P → r < 64 →
        lane P.gfBits (t.1 k) r = inv (lane P.gfBits (eval k) r)))
    (exponent P - 1)
    (fun i (s : (Nat → Nat → Nat) × (Nat → Nat)) =>
      (set1 s.1 (i + 1) (E.vecMul (s.1 i) s.2), E.vecMul s.2 (eval (i + 1))))
    (prodF, E.vecInv (prodF (exponent P - 1)))
    (by
      refine ⟨fun k hk => hfw k (by omega), fun r hr => ?_, fun k r h1 h2 _ => by omega⟩
      show lane P.gfBits (E.vecInv (prodF (exponent P - 1))) r = _
      rw [hI _ r hr, hfw _ (by omega), lane_runProd P.gfBits E mul hM eval r hr])
    (by
      intro m hm t ⟨h1, h2, h3⟩
      have hp := hgp
      refine ⟨?_, ?_, ?_⟩
      · intro k hk
        show set1 t.1 (m + 1) _ k = _
        unfold set1
        rw [if_neg (by omega)]
        exact h1 k (by omega)
      · intro r hr
        show lane P.gfBits (E.vecMul t.2 (eval (m + 1))) r = _
        rw [hM _ _ r hr, h2 r hr]
        exact FieldOps_inv_mul_mul hF _ _ (hgp r hr m (by omega)).1 (lane_lt _ _ _)
          (hgp r hr m (by omega)).2 (hnz (m + 1) r (by omega) hr)
      · intro k r hmk hk hr
        show lane P.gfBits (set1 t.1 (m + 1) (E.vecMul (t.1 m) t.2) k) r = _
        unfold set1
        by_cases hkm : k = m + 1
        · rw [if_pos hkm, hkm, hM _ _ r hr, h1 m (by omega), h2 r hr,
            lane_runProd P.gfBits E mul hM eval r hr]
          exact FieldOps_mul_inv_mul hF _ _ (hgp r hr m (by omega)).1 (lane_lt _ _ _)
            (hgp r hr m (by omega)).2 (hnz (m + 1) r (by omega) hr)
        · rw [if_neg hkm]
          exact h3 k r (by omega) hk hr)
  obtain ⟨_, k2, k3⟩ := key
  show lane P.gfBits (set1 _ 0 (vecCopy _) i) r = _
  unfold set1
  by_cases h0 : i = 0
  · rw [if_pos h0, h0]
    exact k2 r hr
  · rw [if_neg h0]
    exact k3 i r (by omega) hi hr

end mceliece

namespace mceliece

/-- C11: batch inversion in `pkGen` (running products, one `vecInv`, backward walk), with
`vecMul` and `vecInv` lane-wise field multiplication and inversion: for evaluation blocks
`eval[0..exponent-1]` in which every lane of every block is a nonzero field element, after
lines 170-179 `prod[i]` holds in every lane `r < 64` the inverse of lane `r` of `eval[i]`, for
every `i < exponent`; bit `r` of the plane `prod[i][k]` is bit `k` of that inverse. -/
theorem batch_inversion_lanewise (P : Params) (E : Ext) (he : 1 ≤ exponent P)
    (mul : Nat → Nat → Nat) (inv : Nat → Nat) (one : Nat)
    (hF : FieldOps (2 ^ P.gfBits) mul inv one) (hM : LaneMul P.gfBits E mul)
    (hI : LaneInv P.gfBits E inv) (eval prod : Nat → Nat → Nat)
    (hnz : ∀ i r, i < exponent P → r < 64 → lane P.gfBits (eval i) r ≠ 0) :
    ∀ i r, i < exponent P → r < 64 →
      lane P.gfBits (batchInverse P E eval prod i) r = inv (lane P.gfBits (eval i) r) ∧
      ∀ k, k < P.gfBits →
        (batchInverse P E eval prod i k).testBit r
          = (inv (lane P.gfBits (eval i) r)).testBit k := by
  intro i r hi hr
  have h := batchInverse_lanes P E he mul inv one hF hM hI eval prod hnz i r hi hr
  refine ⟨h, fun k hk => ?_⟩
  rw [← h, lane_testBit _ _ _ _ hk]

theorem lane_ones (r : Nat) (hr : r < 64) :
    lane 13 (fun k => if k = 0 then 2 ^ 64 - 1 else 0) r = 1 := by
  apply Nat.eq_of_testBit_eq
  intro k
  unfold lane
  rw [packBits_testBit]
  dsimp only
  by_cases hk : k = 0
  · subst hk
    rw [if_pos rfl, Nat.testBit_two_pow_sub_one]
    simp [hr]
  · rw [if_neg hk]
    have h1 : (1 : Nat).testBit k = false :=
      Nat.testBit_lt_two_pow (Nat.lt_of_lt_of_le (by decide : 1 < 2 ^ 1)
        (Nat.pow_le_pow_right (by decide) (by omega)))
    simp [h1]

theorem batch_inversion_lanewise_witness :
    1 ≤ exponent mceliece8192128 ∧
    FieldOps (2 ^ mceliece8192128.gfBits) gf8192.Mul gf8192.Inv 1 ∧
    LaneMul mceliece8192128.gfBits gf8192Ext gf8192.Mul ∧
    LaneInv mceliece8192128.gfBits gf8192Ext gf8192.Inv ∧
    (∀ i r, i < exponent mceliece8192128 → r < 64 →
      lane mceliece8192128.gfBits
        ((fun (_ : Nat) (k : Nat) => if k = 0 then 2 ^ 64 - 1 else 0) i) r ≠ 0) ∧
    ∀ i r, i < exponent mceliece8192128 → r < 64 →
      lane mceliece8192128.gfBits (batchInverse mceliece8192128 gf8192Ext
          (fun _ k => if k = 0 then 2 ^ 64 - 1 else 0) (fun _ _ => 0) i) r
        = gf8192.Inv (lane mceliece8192128.gfBits
          ((fun (_ : Nat) (k : Nat) => if k = 0 then 2 ^ 64 - 1 else 0) i) r) ∧
      ∀ k, k < mceliece8192128.gfBits →
        (batchInverse mceliece8192128 gf8192Ext
          (fun _ k => if k = 0 then 2 ^ 64 - 1 else 0) (fun _ _ => 0) i k).testBit r
          = (gf8192.Inv (lane mceliece8192128.gfBits
            ((fun (_ : Nat) (k : Nat) => if k = 0 then 2 ^ 64 - 1 else 0) i) r)).testBit k :=
  have hnz : ∀ i r, i < exponent mceliece8192128 → r < 64 →
      lane mceliece8192128.gfBits
        ((fun (_ : Nat) (k : Nat) => if k = 0 then 2 ^ 64 - 1 else 0) i) r ≠ 0 :=
    fun _ r _ hr => by
      show lane 13 (fun k => if k = 0 then 2 ^ 64 - 1 else 0) r ≠ 0
      rw [lane_ones r hr]
      decide
  ⟨by decide, gf8192_FieldOps, gf8192Ext_LaneMul, gf8192Ext_LaneInv, hnz,
   batch_inversion_lanewise mceliece8192128 gf8192Ext (by decide) gf8192.Mul gf8192.Inv 1
     gf8192_FieldOps gf8192Ext_LaneMul gf8192Ext_LaneInv
     (fun _ k => if k = 0 then 2 ^ 64 - 1 else 0) (fun _ _ => 0) hnz⟩

end mceliece

namespace mceliece

/-! ### The serialisation of one row -/

theorem storeI_apply (out : Nat → Nat) (off inp n i : Nat) :
    storeI out off inp n i = if off ≤ i ∧ i < off + n then byteAt inp (i - off) else out i := by
  unfold storeI
  exact loopUp_pointwise n off (fun j _ => byteAt inp j) out i

theorem store8_apply (out : Nat → Nat) (off inp i : Nat) :
    store8 out off inp i = if off ≤ i ∧ i < off + 8 then byteAt inp (i - off) else out i :=
  storeI_apply out off inp 8 i

theorem loopRange_pointwise {α : Type} (lo hi : Nat) (f : Nat → α → α) (out : Nat → α)
    (k : Nat) :
    loopRange lo hi (fun i out => set1 out i (f i (out i))) out k
      = if lo ≤ k ∧ k < hi then f k (out k) else out k := by
  unfold loopRange
  have h := loopUp_pointwise (hi - lo) lo (fun t x => f (lo + t) x) out k
  rw [h]
  by_cases hc : lo ≤ k ∧ k < hi
  · rw [if_pos hc, if_pos (by omega)]
    have : lo + (k - lo) = k := by omega
    rw [this]
  · rw [if_neg hc, if_neg (by omega)]

theorem loopUp_ite_const {α : Type} (n : Nat) (c : Prop) [Decidable c] (F : Nat → α → α)
    (x : α) :
    loopUp n (fun j x => if c then F j x else x) x = if c then loopUp n F x else x := by
  by_cases h : c
  · simp only [if_pos h]
  · simp only [if_neg h]
    induction n with
    | zero => rfl
    | succ n ih => rw [loopUp_succ, ih]

/-- Lines 381-389: the words of `oneRow` after the loop over the columns of `ops`. -/
theorem accLoop_apply (P : Params) (mat ops : Nat → Nat → Nat) (row : Nat) (o : Nat → Nat)
    (k : Nat) :
    loopUp P.pkNRows (fun c oneRow =>
        let mask := ops row (c >>> 6) >>> (c &&& 63)
        let mask := mask &&& 1
        let mask := neg64 mask
        loopRange (blockIdx P) (nblocksH P)
          (fun k oneRow => set1 oneRow k (oneRow k ^^^ (mat c k &&& mask))) oneRow) o k
      = if blockIdx P ≤ k ∧ k < nblocksH P then
          loopUp P.pkNRows (fun c w => w ^^^ (mat c k &&& maskOf (bitAt ops row c))) (o k)
        else o k := by
  rw [loopUp_entrywise P.pkNRows _
    (fun c k x => if blockIdx P ≤ k ∧ k < nblocksH P then
      x ^^^ (mat c k &&& maskOf (bitAt ops row c)) else x)]
  · exact loopUp_ite_const _ _ _ _
  · intro c out k
    dsimp only
    rw [loopRange_pointwise (blockIdx P) (nblocksH P)
      (fun k x => x ^^^ (mat c k &&& neg64 (ops row (c >>> 6) >>> (c &&& 63) &&& 1))) out k,
      neg64_mask, (shr6_and63 c).1, (shr6_and63 c).2]
    rfl

/-- Lines 392-398: the full words of a row, stored one after the other. -/
theorem emitWords_spec (P : Params) (o1 pk0 : Nat → Nat) (off0 T : Nat) :
    (loopUp T (fun t (s : OutState) =>
        ({ pk := store8 s.pk s.off
            ((if !(P.Is348864 || P.Is6688128) then
              set1 s.oneRow (blockIdx P + t) ((s.oneRow (blockIdx P + t) >>> tail P)
                ||| shl64 (s.oneRow (blockIdx P + t + 1)) (64 - tail P))
              else s.oneRow) (blockIdx P + t)),
           off := s.off + 8,
           oneRow := if !(P.Is348864 || P.Is6688128) then
              set1 s.oneRow (blockIdx P + t) ((s.oneRow (blockIdx P + t) >>> tail P)
                ||| shl64 (s.oneRow (blockIdx P + t + 1)) (64 - tail P))
              else s.oneRow } : OutState))
        { pk := pk0, off := off0, oneRow := o1 }).off = off0 + 8 * T ∧
    (∀ i, (loopUp T (fun t (s : OutState) =>
        ({ pk := store8 s.pk s.off
            ((if !(P.Is348864 || P.Is6688128) then
              set1 s.oneRow (blockIdx P + t) ((s.oneRow (blockIdx P + t) >>> tail P)
                ||| shl64 (s.oneRow (blockIdx P + t + 1)) (64 - tail P))
              else s.oneRow) (blockIdx P + t)),
           off := s.off + 8,
           oneRow := if !(P.Is348864 || P.Is6688128) then
              set1 s.oneRow (blockIdx P + t) ((s.oneRow (blockIdx P + t) >>> tail P)
                ||| shl64 (s.oneRow (blockIdx P + t + 1)) (64 - tail P))
              else s.oneRow } : OutState))
        { pk := pk0, off := off0, oneRow := o1 }).pk i
      = if off0 ≤ i ∧ i < off0 + 8 * T then
          byteAt (if !(P.Is348864 || P.Is6688128) then
              (o1 (blockIdx P + (i - off0) / 8) >>> tail P)
                ||| shl64 (o1 (blockIdx P + (i - off0) / 8 + 1)) (64 - tail P)
            else o1 (blockIdx P + (i - off0) / 8)) ((i - off0) % 8)
        else pk0 i) ∧
    (∀ k, blockIdx P + T ≤ k → (loopUp T (fun t (s : OutState) =>
        ({ pk := store8 s.pk s.off
            ((if !(P.Is348864 || P.Is6688128) then
              set1 s.oneRow (blockIdx P + t) ((s.oneRow (blockIdx P + t) >>> tail P)
                ||| shl64 (s.oneRow (blockIdx P + t + 1)) (64 - tail P))
              else s.oneRow) (blockIdx P + t)),
           off := s.off + 8,
           oneRow := if !(P.Is348864 || P.Is6688128) then
              set1 s.oneRow (blockIdx P + t) ((s.oneRow (blockIdx P + t) >>> tail P)
                ||| shl64 (s.oneRow (blockIdx P + t + 1)) (64 - tail P))
              else s.oneRow } : OutState))
        { pk := pk0, off := off0, oneRow := o1 }).oneRow k = o1 k) := by
  generalize (!(P.Is348864 || P.Is6688128)) = st
  induction T with
  | zero =>
    refine ⟨rfl, fun i => ?_, fun k _ => rfl⟩
    rw [if_neg (show ¬ (off0 ≤ i ∧ i < off0 + 8 * 0) from by omega)]
    rfl
  | succ T ih =>
    obtain ⟨h1, h2, h3⟩ := ih
    rw [loopUp_succ]
    generalize loopUp T _ _ = s at h1 h2 h3
    have hk : (if st = true then
          set1 s.oneRow (blockIdx P + T) ((s.oneRow (blockIdx P + T) >>> tail P)
            ||| shl64 (s.oneRow (blockIdx P + T + 1)) (64 - tail P))
          else s.oneRow) (blockIdx P + T)
        = if st = true then (o1 (blockIdx P + T) >>> tail P)
            ||| shl64 (o1 (blockIdx P + T + 1)) (64 - tail P)
          else o1 (blockIdx P + T) := by
      cases st
      · exact h3 _ (Nat.le_refl _)
      · show set1 _ _ _ _ = _
        rw [set1_same, h3 _ (Nat.le_refl _), h3 _ (by omega)]
        rfl
    refine ⟨?_, ?_, ?_⟩
    · show s.off + 8 = _
      rw [h1]
      omega
    · intro i
      show store8 s.pk s.off _ i = _
      rw [hk, store8_apply, h1, h2]
      by_cases hi : off0 + 8 * T ≤ i ∧ i < off0 + 8 * T + 8
      · rw [if_pos hi, if_pos (show off0 ≤ i ∧ i < off0 + 8 * (T + 1) from by omega)]
        have e1 : (i - off0) / 8 = T := by omega
        have e2 : (i - off0) % 8 = i - (off0 + 8 * T) := by omega
        rw [e1, e2]
      · rw [if_neg hi]
        by_cases hi2 : off0 ≤ i ∧ i < off0 + 8 * T
        · rw [if_pos hi2, if_pos (show off0 ≤ i ∧ i < off0 + 8 * (T + 1) from by omega)]
        · rw [if_neg hi2, if_neg (show ¬ (off0 ≤ i ∧ i < off0 + 8 * (T + 1)) from by omega)]
    · intro k hk'
      show (if st = true then set1 s.oneRow (blockIdx P + T) _ else s.oneRow) k = _
      cases st
      · exact h3 k (by omega)
      · show set1 _ _ _ k = _
        unfold set1
        rw [if_neg (by omega)]
        exact h3 k (by omega)

end mceliece

namespace mceliece

/-- The words of `oneRow` that the serialisation reads. -/
theorem accWord_eq (P : Params) (mat ops : Nat → Nat → Nat) (row : Nat) (o : Nat → Nat)
    (k : Nat) (h1 : blockIdx P ≤ k) (h2 : k < nblocksH P) :
    loopUp P.pkNRows (fun c oneRow =>
        let mask := ops row (c >>> 6) >>> (c &&& 63)
        let mask := mask &&& 1
        let mask := neg64 mask
        loopRange (blockIdx P) (nblocksH P)
          (fun k oneRow => set1 oneRow k (oneRow k ^^^ (mat c k &&& mask))) oneRow)
      (loopUp (nblocksH P) (fun k oneRow => set1 oneRow k 0) o) k
      = accWord P mat ops row k := by
  rw [accLoop_apply, if_pos ⟨h1, h2⟩, loopUp_zero_fill, if_pos h2]
  rfl

theorem outWord_full (P : Params) (h8 : P.Is8192128 = false) (mat ops : Nat → Nat → Nat)
    (row q : Nat) (hq : blockIdx P + q < nblocksH P - 1) :
    outWord P mat ops row q
      = if !(P.Is348864 || P.Is6688128) then
          (accWord P mat ops row (blockIdx P + q) >>> tail P)
            ||| shl64 (accWord P mat ops row (blockIdx P + q + 1)) (64 - tail P)
        else accWord P mat ops row (blockIdx P + q) := by
  unfold outWord
  rw [if_neg (by rw [h8]; decide), if_pos hq]

theorem outWord_last (P : Params) (h8 : P.Is8192128 = false) (mat ops : Nat → Nat → Nat)
    (row q : Nat) (hq : ¬ blockIdx P + q < nblocksH P - 1) :
    outWord P mat ops row q
      = if !(P.Is348864 || P.Is6688128) then accWord P mat ops row (blockIdx P + q) >>> tail P
        else accWord P mat ops row (blockIdx P + q) := by
  unfold outWord
  rw [if_neg (by rw [h8]; decide), if_neg hq]

theorem emitRow_spec (P : Params) (h8 : P.Is8192128 = false)
    (hb : blockIdx P + 1 ≤ nblocksH P)
    (hL : P.pkRowBytes = 8 * (nblocksH P - 1 - blockIdx P) + P.pkRowBytes % 8)
    (h69 : P.Is6960119 = true → 1 ≤ P.pkRowBytes % 8)
    (mat ops : Nat → Nat → Nat) (row : Nat) (s : OutState) :
    (emitRow P mat ops row s).off = s.off + P.pkRowBytes ∧
    ∀ i, (emitRow P mat ops row s).pk i
      = if s.off ≤ i ∧ i < s.off + P.pkRowBytes then rowByte P mat ops row (i - s.off)
        else s.pk i := by
  have hacc := fun k h1 h2 => accWord_eq P mat ops row s.oneRow k h1 h2
  unfold emitRow
  dsimp only at hacc ⊢
  generalize loopUp P.pkNRows _ _ = o1 at hacc ⊢
  have hW := emitWords_spec P o1 s.pk s.off (nblocksH P - 1 - blockIdx P)
  unfold loopRange
  dsimp only
  generalize loopUp (nblocksH P - 1 - blockIdx P) _ _ = s2 at hW ⊢
  obtain ⟨w1, w2, w3⟩ := hW
  have hmax : max (blockIdx P) (nblocksH P - 1) = blockIdx P + (nblocksH P - 1 - blockIdx P) := by
    rw [Nat.max_eq_right (by omega)]
    omega
  have hlast : (if (!(P.Is348864 || P.Is6688128)) = true then
        set1 s2.oneRow (max (blockIdx P) (nblocksH P - 1))
          (s2.oneRow (max (blockIdx P) (nblocksH P - 1)) >>> tail P)
        else s2.oneRow) (max (blockIdx P) (nblocksH P - 1))
      = outWord P mat ops row (nblocksH P - 1 - blockIdx P) := by
    rw [outWord_last P h8 _ _ _ _ (by omega), hmax]
    by_cases hst : (!(P.Is348864 || P.Is6688128)) = true
    · rw [if_pos hst, if_pos hst, set1_same, w3 _ (Nat.le_refl _), hacc _ (by omega) (by omega)]
    · rw [if_neg hst, if_neg hst, w3 _ (Nat.le_refl _), hacc _ (by omega) (by omega)]
  rw [hlast]
  have hB : ∀ i, storeI s2.pk s2.off (outWord P mat ops row (nblocksH P - 1 - blockIdx P))
        (P.pkRowBytes % 8) i
      = if s.off ≤ i ∧ i < s.off + P.pkRowBytes then
          byteAt (outWord P mat ops row ((i - s.off) / 8)) ((i - s.off) % 8)
        else s.pk i := by
    intro i
    have hR : P.pkRowBytes % 8 < 8 := Nat.mod_lt _ (by decide)
    rw [storeI_apply, w1]
    by_cases hi : s.off + 8 * (nblocksH P - 1 - blockIdx P) ≤ i ∧
        i < s.off + 8 * (nblocksH P - 1 - blockIdx P) + P.pkRowBytes % 8
    · rw [if_pos hi, if_pos (show s.off ≤ i ∧ i < s.off + P.pkRowBytes from by omega)]
      have e1 : (i - s.off) / 8 = nblocksH P - 1 - blockIdx P := by omega
      have e2 : (i - s.off) % 8 = i - (s.off + 8 * (nblocksH P - 1 - blockIdx P)) := by omega
      rw [e1, e2]
    · rw [if_neg hi, w2]
      by_cases hi2 : s.off ≤ i ∧ i < s.off + 8 * (nblocksH P - 1 - blockIdx P)
      · rw [if_pos hi2, if_pos (show s.off ≤ i ∧ i < s.off + P.pkRowBytes from by omega)]
        have hq : blockIdx P + (i - s.off) / 8 < nblocksH P - 1 := by omega
        rw [outWord_full P h8 _ _ _ _ hq, hacc _ (by omega) (by omega),
          hacc _ (by omega) (by omega)]
      · rw [if_neg hi2, if_neg (show ¬ (s.off ≤ i ∧ i < s.off + P.pkRowBytes) from by omega)]
  refine ⟨by omega, fun i => ?_⟩
  unfold rowByte
  by_cases h6 : P.Is6960119 = true
  · rw [if_pos h6]
    have hR := h69 h6
    unfold set1
    by_cases hidx : i = s2.off + (P.pkRowBytes % 8 - 1)
    · rw [if_pos hidx, hB, w1,
        if_pos (show s.off ≤ s.off + 8 * (nblocksH P - 1 - blockIdx P) + (P.pkRowBytes % 8 - 1) ∧
          s.off + 8 * (nblocksH P - 1 - blockIdx P) + (P.pkRowBytes % 8 - 1)
            < s.off + P.pkRowBytes from by omega)]
      rw [hidx, w1,
        if_pos (show s.off ≤ s.off + 8 * (nblocksH P - 1 - blockIdx P) + (P.pkRowBytes % 8 - 1) ∧
          s.off + 8 * (nblocksH P - 1 - blockIdx P) + (P.pkRowBytes % 8 - 1)
            < s.off + P.pkRowBytes from by omega),
        if_pos (show P.Is6960119 = true ∧
          s.off + 8 * (nblocksH P - 1 - blockIdx P) + (P.pkRowBytes % 8 - 1) - s.off + 1
            = P.pkRowBytes from ⟨h6, by omega⟩)]
    · rw [if_neg hidx, hB]
      by_cases hin : s.off ≤ i ∧ i < s.off + P.pkRowBytes
      · rw [if_pos hin, if_pos hin,
          if_neg (show ¬ (P.Is6960119 = true ∧ i - s.off + 1 = P.pkRowBytes) from
            fun hh => hidx (by omega))]
      · rw [if_neg hin, if_neg hin]
  · rw [if_neg h6, hB]
    by_cases hin : s.off ≤ i ∧ i < s.off + P.pkRowBytes
    · rw [if_pos hin, if_pos hin,
        if_neg (show ¬ (P.Is6960119 = true ∧ i - s.off + 1 = P.pkRowBytes) from
          fun hh => h6 hh.1)]
    · rw [if_neg hin, if_neg hin]

/-! ### The serialisation of one row for `.Is8192128` -/

/-- Lines 349-360: the words of `oneRow` after the loops over the bits of `ops`. -/
theorem accLoop8192_apply (P : Params) (hn : P.pkNRows % 64 = 0) (mat ops : Nat → Nat → Nat)
    (row : Nat) (o : Nat → Nat) (k : Nat) :
    loopUp (P.pkNRows / 64) (fun c oneRow =>
        loopUp 64 (fun d oneRow =>
          let mask := ops row c >>> d
          let mask := mask &&& 1
          let mask := neg64 mask
          loopUp (P.pkNCols / 64) (fun k oneRow =>
            set1 oneRow k (oneRow k ^^^ (mat (c * 64 + d) (k + P.pkNRows / 64) &&& mask)))
            oneRow) oneRow) o k
      = if k < P.pkNCols / 64 then
          loopUp P.pkNRows
            (fun c w => w ^^^ (mat c (k + P.pkNRows / 64) &&& maskOf (bitAt ops row c))) (o k)
        else o k := by
  have hnest := loopUp_nested (P.pkNRows / 64) 64
    (fun idx c d (oneRow : Nat → Nat) =>
      loopUp (P.pkNCols / 64) (fun k oneRow =>
        set1 oneRow k (oneRow k ^^^ (mat idx (k + P.pkNRows / 64)
          &&& neg64 (ops row c >>> d &&& 1)))) oneRow) o
  have e : P.pkNRows / 64 * 64 = P.pkNRows := by omega
  rw [e] at hnest
  dsimp only at hnest ⊢
  rw [hnest, loopUp_entrywise P.pkNRows _
    (fun c k x => if k < P.pkNCols / 64 then
      x ^^^ (mat c (k + P.pkNRows / 64) &&& maskOf (bitAt ops row c)) else x)]
  · exact loopUp_ite_const _ _ _ _
  · intro c out k
    rw [loopUp_pointwise0 (P.pkNCols / 64)
      (fun k x => x ^^^ (mat c (k + P.pkNRows / 64)
        &&& neg64 (ops row (c / 64) >>> (c % 64) &&& 1))) out k, neg64_mask]
    rfl

/-- Lines 362-365: the words of a row, stored one after the other. -/
theorem emitWords8192_spec (o1 pk0 : Nat → Nat) (off0 T : Nat) :
    (loopUp T (fun k (s : OutState) =>
        ({ pk := store8 s.pk s.off (s.oneRow k), off := s.off + 8, oneRow := s.oneRow }
          : OutState))
        { pk := pk0, off := off0, oneRow := o1 }).off = off0 + 8 * T ∧
    (∀ i, (loopUp T (fun k (s : OutState) =>
        ({ pk := store8 s.pk s.off (s.oneRow k), off := s.off + 8, oneRow := s.oneRow }
          : OutState))
        { pk := pk0, off := off0, oneRow := o1 }).pk i
      = if off0 ≤ i ∧ i < off0 + 8 * T then byteAt (o1 ((i - off0) / 8)) ((i - off0) % 8)
        else pk0 i) ∧
    (loopUp T (fun k (s : OutState) =>
        ({ pk := store8 s.pk s.off (s.oneRow k), off := s.off + 8, oneRow := s.oneRow }
          : OutState))
        { pk := pk0, off := off0, oneRow := o1 }).oneRow = o1 := by
  induction T with
  | zero =>
    refine ⟨rfl, fun i => ?_, rfl⟩
    rw [if_neg (show ¬ (off0 ≤ i ∧ i < off0 + 8 * 0) from by omega)]
    rfl
  | succ T ih =>
    obtain ⟨h1, h2, h3⟩ := ih
    rw [loopUp_succ]
    generalize loopUp T _ _ = s at h1 h2 h3
    refine ⟨?_, ?_, h3⟩
    · show s.off + 8 = _
      rw [h1]
      omega
    · intro i
      show store8 s.pk s.off (s.oneRow T) i = _
      rw [store8_apply, h1, h2, h3]
      by_cases hi : off0 + 8 * T ≤ i ∧ i < off0 + 8 * T + 8
      · rw [if_pos hi, if_pos (show off0 ≤ i ∧ i < off0 + 8 * (T + 1) from by omega)]
        have e1 : (i - off0) / 8 = T := by omega
        have e2 : (i - off0) % 8 = i - (off0 + 8 * T) := by omega
        rw [e1, e2]
      · rw [if_neg hi]
        by_cases hi2 : off0 ≤ i ∧ i < off0 + 8 * T
        · rw [if_pos hi2, if_pos (show off0 ≤ i ∧ i < off0 + 8 * (T + 1) from by omega)]
        · rw [if_neg hi2, if_neg (show ¬ (off0 ≤ i ∧ i < off0 + 8 * (T + 1)) from by omega)]

theorem emitRow8192_spec (P : Params) (h8 : P.Is8192128 = true) (hn : P.pkNRows % 64 = 0)
    (hL : P.pkRowBytes = 8 * (P.pkNCols / 64)) (h69 : P.Is6960119 = false)
    (mat ops : Nat → Nat → Nat) (row : Nat) (s : OutState) :
    (emitRow8192 P mat ops row s).off = s.off + P.pkRowBytes ∧
    ∀ i, (emitRow8192 P mat ops row s).pk i
      = if s.off ≤ i ∧ i < s.off + P.pkRowBytes then rowByte P mat ops row (i - s.off)
        else s.pk i := by
  have hacc : ∀ k, k < P.pkNCols / 64 →
      loopUp (P.pkNRows / 64) (fun c oneRow =>
        loopUp 64 (fun d oneRow =>
          let mask := ops row c >>> d
          let mask := mask &&& 1
          let mask := neg64 mask
          loopUp (P.pkNCols / 64) (fun k oneRow =>
            set1 oneRow k (oneRow k ^^^ (mat (c * 64 + d) (k + P.pkNRows / 64) &&& mask)))
            oneRow) oneRow)
        (loopUp (P.pkNCols / 64) (fun k oneRow => set1 oneRow k 0) s.oneRow) k
      = accWord P mat ops row (k + P.pkNRows / 64) := by
    intro k hk
    rw [accLoop8192_apply P hn, if_pos hk, loopUp_zero_fill, if_pos hk]
    rfl
  unfold emitRow8192
  dsimp only at hacc ⊢
  generalize loopUp (P.pkNRows / 64) _ _ = o1 at hacc ⊢
  obtain ⟨w1, w2, _⟩ := emitWords8192_spec o1 s.pk s.off (P.pkNCols / 64)
  refine ⟨by rw [w1, hL], fun i => ?_⟩
  rw [w2, ← hL]
  by_cases hin : s.off ≤ i ∧ i < s.off + P.pkRowBytes
  · rw [if_pos hin, if_pos hin]
    unfold rowByte outWord
    rw [if_neg (by rw [h69]; exact fun hh => absurd hh.1 (by decide)), if_pos h8,
      hacc _ (by omega)]
  · rw [if_neg hin, if_neg hin]

/-! ### The whole key -/

/-- Rows of `L` bytes written one after the other fill the first `n * L` bytes. -/
theorem rowLoop_spec (n L : Nat) (rowF : Nat → OutState → OutState) (B : Nat → Nat → Nat)
    (hrow : ∀ row s, (rowF row s).off = s.off + L ∧
      ∀ i, (rowF row s).pk i = if s.off ≤ i ∧ i < s.off + L then B row (i - s.off) else s.pk i)
    (s0 : OutState) (h0 : s0.off = 0) :
    (loopUp n rowF s0).off = n * L ∧
    ∀ i, (loopUp n rowF s0).pk i = if i < n * L then B (i / L) (i % L) else s0.pk i := by
  induction n with
  | zero =>
    refine ⟨by rw [Nat.zero_mul]; exact h0, fun i => ?_⟩
    rw [if_neg (by omega)]
    rfl
  | succ n ih =>
    obtain ⟨h1, h2⟩ := ih
    rw [loopUp_succ]
    obtain ⟨r1, r2⟩ := hrow n (loopUp n rowF s0)
    have e : (n + 1) * L = n * L + L := Nat.succ_mul n L
    refine ⟨by rw [r1, h1, e], fun i => ?_⟩
    rw [r2, h1, h2, e]
    by_cases hi : n * L ≤ i ∧ i < n * L + L
    · obtain ⟨hd, hm⟩ := block_div_mod L n i hi.1 hi.2
      rw [if_pos hi, if_pos hi.2, hd, hm]
    · rw [if_neg hi]
      by_cases hi2 : i < n * L
      · rw [if_pos hi2, if_pos (by omega)]
      · rw [if_neg hi2, if_neg (by omega)]

/-- The function `emitKey` in closed form: every byte of `pk` below `pkNRows * pkRowBytes` is
written, with a value that depends on `mat` and `ops` only. -/
theorem emitKey_apply (P : Params) (hW : WellFormed P) (mat ops : Nat → Nat → Nat)
    (pk : Nat → Nat) (i : Nat) :
    emitKey P mat ops pk i
      = if i < P.pkNRows * P.pkRowBytes then
          rowByte P mat ops (i / P.pkRowBytes) (i % P.pkRowBytes)
        else pk i := by
  obtain ⟨_, _, _, _, _, w8, wg, _, _, w69⟩ := hW
  unfold emitKey
  by_cases h8 : P.Is8192128 = true
  · obtain ⟨h69, hn, hL⟩ := w8 h8
    rw [if_pos h8, loopUp_nested (P.pkNRows / 64) 64
      (fun row _ _ s => emitRow8192 P mat ops row s)]
    have e : P.pkNRows / 64 * 64 = P.pkNRows := by omega
    rw [e]
    exact (rowLoop_spec P.pkNRows P.pkRowBytes _ (rowByte P mat ops)
      (fun row s => emitRow8192_spec P h8 hn hL h69 mat ops row s) _ rfl).2 i
  · have h8' : P.Is8192128 = false := by
      cases h : P.Is8192128
      · rfl
      · exact absurd h h8
    obtain ⟨hb, hL⟩ := wg h8'
    rw [if_neg h8]
    exact (rowLoop_spec P.pkNRows P.pkRowBytes _ (rowByte P mat ops)
      (fun row s => emitRow_spec P h8' hb hL (fun h => (w69 h).1) mat ops row s) _ rfl).2 i

end mceliece

namespace mceliece

/-! ### Determinism -/

theorem wellFormed_mceliece348864 : WellFormed mceliece348864 := by
  unfold WellFormed
  decide

theorem wellFormed_mceliece460896 : WellFormed mceliece460896 := by
  unfold WellFormed
  decide

theorem wellFormed_mceliece6688128 : WellFormed mceliece6688128 := by
  unfold WellFormed
  decide

theorem wellFormed_mceliece6960119 : WellFormed mceliece6960119 := by
  unfold WellFormed
  decide

theorem wellFormed_mceliece8192128 : WellFormed mceliece8192128 := by
  unfold WellFormed
  decide

/-- The outputs of a call that returns true, byte by byte and entry by entry. -/
theorem pkGen_true_outputs (P : Params) (hW : WellFormed P) (E : Ext) (pk irr perm : Nat → Nat)
    (pi : Nat → Int) (pivots : Nat) (h : (pkGen P E pk irr perm pi pivots).ok = true) :
    ∃ s, scanKeys P (sortedKeys P E irr perm) = some () ∧
      elimination P ((leftFill P E irr perm).1, opsInit P (fun _ _ => 0)) = some s ∧
      (∀ i, i < P.pkNRows * P.pkRowBytes →
        (pkGen P E pk irr perm pi pivots).pk i
          = rowByte P (finalMat P E irr perm s) s.2 (i / P.pkRowBytes) (i % P.pkRowBytes)) ∧
      (∀ i, i < 1 <<< P.gfBits →
        (pkGen P E pk irr perm pi pivots).pi i
          = toInt16 (sortedKeys P E irr perm i &&& gfMask P)) := by
  rcases pkGen_cases P E pk irr perm pi pivots with ⟨_, h'⟩ | ⟨_, _, h'⟩ | ⟨s, h1, h2, h'⟩
  · rw [h'] at h
    exact absurd h (by simp)
  · rw [h'] at h
    exact absurd h (by simp)
  · refine ⟨s, h1, h2, ?_, ?_⟩
    · intro i hi
      rw [h']
      show emitKey P (finalMat P E irr perm s) s.2 pk i = _
      rw [emitKey_apply P hW, if_pos hi]
    · intro i hi
      rw [h']
      show writePi P (sortedKeys P E irr perm) pi i = _
      rw [writePi_apply, if_pos hi]

/-- The returned boolean does not depend on what `pk`, `pi` and `*pivots` held. -/
theorem pkGen_ok_eq (P : Params) (E : Ext) (irr perm pk pk' : Nat → Nat) (pi pi' : Nat → Int)
    (pivots pivots' : Nat) :
    (pkGen P E pk irr perm pi pivots).ok = (pkGen P E pk' irr perm pi' pivots').ok := by
  rw [pkGen_eq, pkGen_eq]
  cases scanKeys P (sortedKeys P E irr perm) with
  | none => rfl
  | some u =>
    cases elimination P ((leftFill P E irr perm).1, opsInit P (fun _ _ => 0)) with
    | none => rfl
    | some s => rfl

/-- C15: `pkGen` is a function of `irr` and `perm` alone. Two runs with the same `irr` and
`perm` and arbitrary prior contents of `pk`, `pi` and `*pivots` return the same boolean; when it
is true, the two `pk` buffers agree in every byte `i < pkNRows * pkRowBytes` (every byte of `pk`
is overwritten) and the two tables `pi` agree in every entry `i < 2^gfBits`. -/
theorem pkGen_deterministic (P : Params) (hW : WellFormed P) (E : Ext)
    (irr perm pk pk' : Nat → Nat) (pi pi' : Nat → Int) (pivots pivots' : Nat) :
    (pkGen P E pk irr perm pi pivots).ok = (pkGen P E pk' irr perm pi' pivots').ok ∧
    ((pkGen P E pk irr perm pi pivots).ok = true →
      (∀ i, i < P.pkNRows * P.pkRowBytes →
        (pkGen P E pk irr perm pi pivots).pk i = (pkGen P E pk' irr perm pi' pivots').pk i) ∧
      (∀ i, i < 2 ^ P.gfBits →
        (pkGen P E pk irr perm pi pivots).pi i = (pkGen P E pk' irr perm pi' pivots').pi i)) := by
  have hok := pkGen_ok_eq P E irr perm pk pk' pi pi' pivots pivots'
  refine ⟨hok, fun h => ?_⟩
  obtain ⟨s, _, e1, p1, q1⟩ := pkGen_true_outputs P hW E pk irr perm pi pivots h
  obtain ⟨s', _, e2, p2, q2⟩ := pkGen_true_outputs P hW E pk' irr perm pi' pivots' (hok ▸ h)
  have hs : s = s' := Option.some.inj (e1.symm.trans e2)
  subst hs
  have hn : (1 : Nat) <<< P.gfBits = 2 ^ P.gfBits := by rw [Nat.shiftLeft_eq, Nat.one_mul]
  refine ⟨fun i hi => ?_, fun i hi => ?_⟩
  · rw [p1 i hi, p2 i hi]
  · rw [q1 i (by rw [hn]; exact hi), q2 i (by rw [hn]; exact hi)]

end mceliece

namespace mceliece

open Matrix

/-! ### The bits of the public key -/

theorem maskOf_lt (c : Bool) : maskOf c < 2 ^ 64 := by
  cases c <;> decide

theorem accWord_lt (P : Params) (mat ops : Nat → Nat → Nat) (row k : Nat) :
    accWord P mat ops row k < 2 ^ 64 := by
  unfold accWord
  induction P.pkNRows with
  | zero => exact Nat.two_pow_pos 64
  | succ n ih =>
    rw [loopUp_succ]
    exact Nat.xor_lt_two_pow ih
      (Nat.lt_of_le_of_lt Nat.and_le_right (maskOf_lt _))

theorem accWord_testBit (P : Params) (mat ops : Nat → Nat → Nat) (row k t : Nat) (ht : t < 64) :
    (accWord P mat ops row k).testBit t
      = loopUp P.pkNRows (fun c p => xor p (bitAt ops row c && (mat c k).testBit t)) false := by
  unfold accWord
  induction P.pkNRows with
  | zero => simp [loopUp]
  | succ n ih =>
    rw [loopUp_succ, loopUp_succ, testBit_xor_mask _ _ _ _ ht, ih]

/-- The parity of the products is their sum in GF(2). -/
theorem parity_eq_sum (f g : Nat → Bool) (n : Nat) :
    ((if loopUp n (fun c p => xor p (f c && g c)) false then 1 else 0 : ZMod 2))
      = ∑ c in Finset.range n, (if f c then 1 else 0) * (if g c then 1 else 0) := by
  induction n with
  | zero => simp [loopUp]
  | succ n ih =>
    rw [loopUp_succ, Finset.sum_range_succ, ← ih, zmod2_xor]

/-- An entry of `ops * mat`, for the columns of `mat` from `off` on, is a bit of `accWord`. -/
theorem mul_apply_accWord (P : Params) (mat ops : Nat → Nat → Nat) (nc off : Nat)
    (r : Fin P.pkNRows) (b : Fin nc) :
    (bitMatrix ops P.pkNRows P.pkNRows 0 * bitMatrix mat P.pkNRows nc off) r b
      = if (accWord P mat ops r ((off + b) / 64)).testBit ((off + b) % 64) then 1 else 0 := by
  rw [accWord_testBit P mat ops r _ _ (Nat.mod_lt _ (by decide)),
    parity_eq_sum (fun c => bitAt ops r c)
      (fun c => (mat c ((off + b) / 64)).testBit ((off + b) % 64)) P.pkNRows,
    Matrix.mul_apply,
    Finset.sum_range (fun c => (if bitAt ops r c then (1 : ZMod 2) else 0)
      * (if (mat c ((off + b) / 64)).testBit ((off + b) % 64) then 1 else 0))]
  apply Finset.sum_congr rfl
  intro c _
  rw [bitMatrix_apply, bitMatrix_apply, Nat.zero_add]
  rfl

theorem byteAt_testBit (w j t : Nat) (ht : t < 8) :
    (byteAt w j).testBit t = w.testBit (j * 8 + t) := by
  unfold byteAt
  have e : (255 : Nat) = 2 ^ 8 - 1 := by decide
  have e2 : (256 : Nat) = 2 ^ 8 := by decide
  rw [e2, Nat.testBit_mod_two_pow, Nat.testBit_and, Nat.testBit_shiftRight, e,
    Nat.testBit_two_pow_sub_one]
  simp [ht]

/-- The bits of a row of the public key: bit `b` of the row is bit `pkNRows + b` of the row of
`ops * mat`. -/
theorem rowByte_testBit (P : Params) (hW : WellFormed P) (mat ops : Nat → Nat → Nat)
    (row b : Nat) (hb : b < P.pkNCols) :
    (rowByte P mat ops row (b / 8)).testBit (b % 8)
      = (accWord P mat ops row ((P.pkNRows + b) / 64)).testBit ((P.pkNRows + b) % 64) := by
  obtain ⟨_, _, hI, hH, hC, w8, wg, wa, wb, w69⟩ := hW
  have ht : b % 8 < 8 := Nat.mod_lt _ (by decide)
  have hbyte : (byteAt (outWord P mat ops row (b / 8 / 8)) (b / 8 % 8)).testBit (b % 8)
      = (accWord P mat ops row ((P.pkNRows + b) / 64)).testBit ((P.pkNRows + b) % 64) := by
    rw [byteAt_testBit _ _ _ ht]
    have eu : b / 8 % 8 * 8 + b % 8 = b % 64 := by omega
    have eq : b / 8 / 8 = b / 64 := by omega
    rw [eu, eq]
    unfold outWord
    by_cases h8 : P.Is8192128 = true
    · obtain ⟨_, hn, _⟩ := w8 h8
      rw [if_pos h8]
      have e1 : (P.pkNRows + b) / 64 = b / 64 + P.pkNRows / 64 := by omega
      have e2 : (P.pkNRows + b) % 64 = b % 64 := by omega
      rw [e1, e2]
    · rw [if_neg h8]
      have h8' : P.Is8192128 = false := by
        cases h : P.Is8192128
        · rfl
        · exact absurd h h8
      obtain ⟨hbI, _⟩ := wg h8'
      have hnI : nblocksI P = (P.pkNRows + 63) / 64 := rfl
      by_cases hst : (!(P.Is348864 || P.Is6688128)) = true
      · have hst' : (P.Is348864 || P.Is6688128) = false := by
          cases h : (P.Is348864 || P.Is6688128)
          · rfl
          · rw [h] at hst
            exact absurd hst (by decide)
        have htail := wb hst' h8'
        have hbi : blockIdx P = P.pkNRows / 64 := by
          unfold blockIdx
          rw [if_neg (by rw [hst']; decide), hnI]
          omega
        have htl : tail P = P.pkNRows % 64 := rfl
        rw [if_pos hst]
        by_cases hq : blockIdx P + b / 64 < nblocksH P - 1
        · rw [if_pos hq, Nat.testBit_or, Nat.testBit_shiftRight, shl64_testBit]
          by_cases hlow : tail P + b % 64 < 64
          · have e1 : (P.pkNRows + b) / 64 = blockIdx P + b / 64 := by omega
            have e2 : (P.pkNRows + b) % 64 = tail P + b % 64 := by omega
            have e3 : decide (64 - tail P ≤ b % 64) = false := by simp; omega
            rw [e1, e2, e3]
            simp
          · have e1 : (P.pkNRows + b) / 64 = blockIdx P + b / 64 + 1 := by omega
            have e2 : (P.pkNRows + b) % 64 = b % 64 - (64 - tail P) := by omega
            have e3 : decide (64 - tail P ≤ b % 64) = true := by simp; omega
            have e4 : decide (b % 64 < 64) = true := by simp; omega
            have e5 : (accWord P mat ops row (blockIdx P + b / 64)).testBit (tail P + b % 64)
                = false :=
              Nat.testBit_lt_two_pow (Nat.lt_of_lt_of_le (accWord_lt _ _ _ _ _)
                (Nat.pow_le_pow_right (by decide) (by omega)))
            rw [e1, e2, e3, e4, e5]
            simp
        · rw [if_neg hq, Nat.testBit_shiftRight]
          have e1 : (P.pkNRows + b) / 64 = blockIdx P + b / 64 := by omega
          have e2 : (P.pkNRows + b) % 64 = tail P + b % 64 := by omega
          rw [e1, e2]
      · have hst' : (P.Is348864 || P.Is6688128) = true := by
          cases h : (P.Is348864 || P.Is6688128)
          · rw [h] at hst
            exact absurd rfl hst
          · rfl
        obtain ⟨_, hn⟩ := wa hst'
        have hbi : blockIdx P = P.pkNRows / 64 := by
          unfold blockIdx
          rw [if_pos hst', hnI]
          omega
        rw [if_neg hst]
        have e1 : (P.pkNRows + b) / 64 = blockIdx P + b / 64 := by omega
        have e2 : (P.pkNRows + b) % 64 = b % 64 := by omega
        rw [e1, e2]
  unfold rowByte
  by_cases h6 : P.Is6960119 = true ∧ b / 8 + 1 = P.pkRowBytes
  · obtain ⟨_, h2, h3⟩ := w69 h6.1
    rw [if_pos h6, Nat.testBit_and, hbyte]
    have e : (256 : Nat) = 2 ^ 8 := by decide
    have hm : (((1 <<< (P.pkNCols % 8)) - 1) % 256).testBit (b % 8) = true := by
      rw [e, Nat.testBit_mod_two_pow, Nat.shiftLeft_eq, Nat.one_mul,
        Nat.testBit_two_pow_sub_one]
      have : b % 8 < P.pkNCols % 8 := by omega
      simp [ht, this]
    rw [hm, Bool.and_true]
  · rw [if_neg h6]
    exact hbyte

end mceliece

namespace mceliece

open Matrix

/-! ### The public key is the systematic form of the check matrix -/

theorem wellFormed_h8 (P : Params) (hW : WellFormed P) :
    P.Is8192128 = true → P.pkNRows % 64 = 0 :=
  fun h => (hW.2.2.2.2.2.1 h).2.1

/-- After an elimination that succeeds, `ops` is a left inverse of the left block. -/
theorem elimination_ops_mul (P : Params) (h8 : P.Is8192128 = true → P.pkNRows % 64 = 0)
    (mat ops0 : Nat → Nat → Nat) (s : (Nat → Nat → Nat) × (Nat → Nat → Nat))
    (h : elimination P (mat, opsInit P ops0) = some s) :
    bitMatrix s.2 P.pkNRows P.pkNRows 0 * bitMatrix mat P.pkNRows P.pkNRows 0 = 1 := by
  obtain ⟨u, hf, hs⟩ := elimination_some P _ s h
  obtain ⟨⟨E, _, h1, h2⟩, hR⟩ := forwardPass_some P h8 _ u hf
  rw [hs]
  apply backwardPass_spec P h8 _ u.1 u.2 hR
  have h2' : bitMatrix u.2 P.pkNRows P.pkNRows 0 = E := by
    rw [h2]
    show E * bitMatrix (opsInit P ops0) P.pkNRows P.pkNRows 0 = E
    rw [bitMatrix_opsInit P h8, Matrix.mul_one]
  rw [h2', h1]

theorem checkMatrix_apply (P : Params) (E : Ext) (hT : 1 ≤ P.sysT) (irr perm : Nat → Nat)
    (a b : Nat) :
    checkMatrix P E irr perm a b
      = if 0 ≤ b ∧ b < nblocksH P ∧ a < P.sysT * P.gfBits then
          powBlock E ((keyBlocks P E irr perm).2 b) ((keyBlocks P E irr perm).1 b)
            (a / P.gfBits) (a % P.gfBits)
        else 0 := by
  unfold checkMatrix
  rw [fillBlocks_eq P E hT 0 (nblocksH P) (Nat.zero_le _)]

theorem leftFill_eq_checkMatrix (P : Params) (E : Ext) (hT : 1 ≤ P.sysT)
    (hI : nblocksI P ≤ nblocksH P) (irr perm : Nat → Nat) (a b : Nat) (hb : b < nblocksI P) :
    (leftFill P E irr perm).1 a b = checkMatrix P E irr perm a b := by
  rw [checkMatrix_apply P E hT]
  unfold leftFill
  rw [fillBlocks_eq P E hT 0 (nblocksI P) (Nat.zero_le _)]
  dsimp only
  by_cases h : a < P.sysT * P.gfBits
  · rw [if_pos ⟨Nat.zero_le _, hb, h⟩, if_pos ⟨Nat.zero_le _, by omega, h⟩]
  · rw [if_neg (fun hh => h hh.2.2), if_neg (fun hh => h hh.2.2)]

theorem bitMatrix_leftFill (P : Params) (E : Ext) (hT : 1 ≤ P.sysT)
    (hI : nblocksI P ≤ nblocksH P) (irr perm : Nat → Nat) :
    bitMatrix (leftFill P E irr perm).1 P.pkNRows P.pkNRows 0
      = bitMatrix (checkMatrix P E irr perm) P.pkNRows P.pkNRows 0 := by
  ext i j
  rw [bitMatrix_apply, bitMatrix_apply]
  unfold bitAt
  have hj : (0 + (j : Nat)) / 64 < nblocksI P := by
    have := le_nblocksI P
    have := j.2
    omega
  rw [leftFill_eq_checkMatrix P E hT hI irr perm _ _ hj]

theorem restoreColumn_apply (P : Params) (mat : Nat → Nat → Nat) (column : Nat → Nat)
    (a b : Nat) :
    restoreColumn P mat column a b
      = if a < P.pkNRows ∧ b = blockIdx P then column a else mat a b := by
  unfold restoreColumn
  induction P.pkNRows with
  | zero =>
    rw [if_neg (by omega)]
    rfl
  | succ n ih =>
    rw [loopUp_succ]
    show (if a = n ∧ b = blockIdx P then column n else _) = _
    rw [ih]
    by_cases h : a = n ∧ b = blockIdx P
    · rw [if_pos h, if_pos ⟨by omega, h.2⟩, h.1]
    · rw [if_neg h]
      by_cases h2 : a < n ∧ b = blockIdx P
      · rw [if_pos h2, if_pos ⟨by omega, h2.2⟩]
      · rw [if_neg h2, if_neg (by omega)]

theorem saveColumn_apply (P : Params) (mat : Nat → Nat → Nat) (column : Nat → Nat) (a : Nat) :
    saveColumn P mat column a = if a < P.pkNRows then mat a (blockIdx P) else column a := by
  unfold saveColumn
  have h := loopUp_pointwise0 P.pkNRows (fun i _ => mat i (blockIdx P)) column a
  exact h

/-- The column blocks that the serialisation reads hold the check matrix. -/
theorem finalMat_eq_checkMatrix (P : Params) (hW : WellFormed P) (E : Ext)
    (irr perm : Nat → Nat) (s : (Nat → Nat → Nat) × (Nat → Nat → Nat)) (a b : Nat)
    (ha : a < P.pkNRows) (hb1 : P.pkNRows / 64 ≤ b) (hb2 : b < nblocksH P) :
    finalMat P E irr perm s a b = checkMatrix P E irr perm a b := by
  obtain ⟨hT, hn, hI, _, _, w8, _, wa, wb, _⟩ := hW
  have hnI : nblocksI P = (P.pkNRows + 63) / 64 := rfl
  have ha' : a < P.sysT * P.gfBits := by rw [← hn]; exact ha
  have hright : ∀ b, nblocksI P ≤ b → b < nblocksH P →
      (fillBlocks P E (nblocksI P) (nblocksH P) (keyBlocks P E irr perm).1
        (s.1, (leftFill P E irr perm).2)).1 a b = checkMatrix P E irr perm a b := by
    intro b h1 h2
    rw [checkMatrix_apply P E hT, fillBlocks_eq P E hT _ _ hI]
    dsimp only
    rw [if_pos ⟨h1, h2, ha'⟩, if_pos ⟨Nat.zero_le _, h2, ha'⟩, leftFill_snd P E hT irr perm b h1]
  unfold finalMat
  by_cases hflag : (!P.Is8192128 && !(P.Is348864 || P.Is6688128)) = true
  · have h8' : P.Is8192128 = false := by
      cases h : P.Is8192128
      · rfl
      · rw [h] at hflag
        exact absurd hflag (by simp)
    have hst' : (P.Is348864 || P.Is6688128) = false := by
      cases h : (P.Is348864 || P.Is6688128)
      · rfl
      · rw [h8', h] at hflag
        exact absurd hflag (by decide)
    have htail := wb hst' h8'
    have hbi : blockIdx P = P.pkNRows / 64 := by
      unfold blockIdx
      rw [if_neg (by rw [hst']; decide), hnI]
      omega
    rw [if_pos hflag, restoreColumn_apply]
    by_cases hb : b = blockIdx P
    · rw [if_pos ⟨ha, hb⟩]
      unfold savedColumn
      rw [if_pos hflag, saveColumn_apply, if_pos ha, hb]
      exact leftFill_eq_checkMatrix P E hT hI irr perm _ _ (by omega)
    · rw [if_neg (fun hh => hb hh.2)]
      exact hright b (by omega) hb2
  · rw [if_neg hflag]
    have hmod : P.pkNRows % 64 = 0 := by
      cases h8 : P.Is8192128
      · cases hst : (P.Is348864 || P.Is6688128)
        · rw [h8, hst] at hflag
          exact absurd rfl hflag
        · exact (wa hst).2
      · exact (w8 h8).2.1
    exact hright b (by omega) hb2

theorem accWord_congr (P : Params) (mat mat' ops : Nat → Nat → Nat) (row k : Nat)
    (h : ∀ c, c < P.pkNRows → mat c k = mat' c k) :
    accWord P mat ops row k = accWord P mat' ops row k := by
  unfold accWord
  apply loopUp_congr
  intro c hc w
  rw [h c hc]

/-- C1: for every input on which `pkGen` returns true, write the check matrix that `pkGen`
builds as `H = [A | B]`, with `A` its first `pkNRows` columns and `B` its columns
`pkNRows .. pkNRows + pkNCols - 1`. Then `A` is invertible over GF(2) and `pk` is the row-major
packing of `A⁻¹ * B`: for every row `r < pkNRows` and every `b < pkNCols`, bit `b mod 8` of byte
`pk[r*pkRowBytes + b/8]` is entry `(r, b)` of `A⁻¹ * B`; with `A⁻¹ * A = 1`, the matrix
`[I | pk]` is `A⁻¹ * H`, row-equivalent to `H`. -/
theorem pk_is_systematic_form (P : Params) (hW : WellFormed P) (E : Ext)
    (pk irr perm : Nat → Nat) (pi : Nat → Int) (pivots : Nat)
    (h : (pkGen P E pk irr perm pi pivots).ok = true) :
    IsUnit (bitMatrix (checkMatrix P E irr perm) P.pkNRows P.pkNRows 0) ∧
    (bitMatrix (checkMatrix P E irr perm) P.pkNRows P.pkNRows 0)⁻¹
      * bitMatrix (checkMatrix P E irr perm) P.pkNRows P.pkNRows 0 = 1 ∧
    ∀ (r : Fin P.pkNRows) (b : Fin P.pkNCols),
      ((pkGen P E pk irr perm pi pivots).pk (r * P.pkRowBytes + b / 8)).testBit (b % 8)
        = decide (((bitMatrix (checkMatrix P E irr perm) P.pkNRows P.pkNRows 0)⁻¹
            * bitMatrix (checkMatrix P E irr perm) P.pkNRows P.pkNCols P.pkNRows) r b = 1) := by
  obtain ⟨s, _, he, hpk, _⟩ := pkGen_true_outputs P hW E pk irr perm pi pivots h
  have hW' := hW
  obtain ⟨hT, hn, hI, hH, hC, _⟩ := hW'
  have hOA := elimination_ops_mul P (wellFormed_h8 P hW) _ _ s he
  rw [bitMatrix_leftFill P E hT hI] at hOA
  have hinv := Matrix.inv_eq_left_inv hOA
  have hdet := Matrix.isUnit_det_of_left_inverse hOA
  refine ⟨(Matrix.isUnit_iff_isUnit_det _).mpr hdet, Matrix.nonsing_inv_mul _ hdet, ?_⟩
  intro r b
  have hb8 : (b : Nat) / 8 < P.pkRowBytes := by
    have := b.2
    omega
  have hlo : (r : Nat) * P.pkRowBytes ≤ r * P.pkRowBytes + b / 8 := Nat.le_add_right _ _
  have hhi : (r : Nat) * P.pkRowBytes + b / 8 < r * P.pkRowBytes + P.pkRowBytes := by omega
  have hi : (r : Nat) * P.pkRowBytes + b / 8 < P.pkNRows * P.pkRowBytes := by
    have h1 : ((r : Nat) + 1) * P.pkRowBytes ≤ P.pkNRows * P.pkRowBytes :=
      Nat.mul_le_mul_right _ r.2
    rw [Nat.succ_mul] at h1
    omega
  obtain ⟨hd, hm⟩ := block_div_mod P.pkRowBytes r _ hlo hhi
  have hm' : ((r : Nat) * P.pkRowBytes + b / 8) % P.pkRowBytes = b / 8 := by omega
  rw [hpk _ hi, hd, hm', rowByte_testBit P hW _ _ _ _ b.2,
    accWord_congr P _ (checkMatrix P E irr perm) s.2 r _
      (fun c hc => finalMat_eq_checkMatrix P hW E irr perm s c _ hc (by omega)
        (by have := b.2; omega)),
    hinv, mul_apply_accWord]
  cases (accWord P (checkMatrix P E irr perm) s.2 r ((P.pkNRows + b) / 64)).testBit
    ((P.pkNRows + b) % 64) <;> simp

end mceliece

namespace mceliece

/-! ### An input on which `pkGen` returns true -/

/-- The first output of `toBitslicing2x`. -/
theorem toBitslicing2x_fst_apply (P : Params) (out0 out1 : Nat → Nat → Nat) (inp : Nat → Nat)
    (a b : Nat) :
    (toBitslicing2x P out0 out1 inp).1 a b =
      if a < exponent P ∧ b < P.gfBits then
        loopDown 64 (fun r x => shl64 x 1 ||| ((inp (a * 64 + r) >>> (P.gfBits - 1 - b)) &&& 1))
          (out0 a b)
      else out0 a b := by
  unfold toBitslicing2x
  rw [loopUp_fst (exponent P) _ (fun i out0 => loopDown P.gfBits (fun j out0 =>
      loopDown 64 (fun r out0 =>
        set2 (set2 out0 i (P.gfBits - 1 - j) (shl64 (out0 i (P.gfBits - 1 - j)) 1)) i
          (P.gfBits - 1 - j)
          (set2 out0 i (P.gfBits - 1 - j) (shl64 (out0 i (P.gfBits - 1 - j)) 1) i
            (P.gfBits - 1 - j) ||| ((inp (i * 64 + r) >>> j) &&& 1))) out0) out0)
      (fun i s => rfl)]
  simp only [set2_set2, set2_same]
  have hr : ∀ i j (o : Nat → Nat → Nat) (a b : Nat),
      loopDown 64 (fun r out0 => set2 out0 i (P.gfBits - 1 - j)
          (shl64 (out0 i (P.gfBits - 1 - j)) 1 ||| ((inp (i * 64 + r) >>> j) &&& 1))) o a b
        = if a = i ∧ b = P.gfBits - 1 - j then
            loopDown 64 (fun r x =>
              shl64 x 1 ||| ((inp (i * 64 + r) >>> j) &&& 1)) (o a b)
          else o a b := by
    intro i j o a b
    rw [loopDown_entrywise2 64 _ (fun r a b x => if a = i ∧ b = P.gfBits - 1 - j then
      shl64 x 1 ||| ((inp (i * 64 + r) >>> j) &&& 1) else x)]
    · exact loopDown_ite_const _ _ _ _
    · intro r o a b
      simp only [set2]
      by_cases h : a = i ∧ b = P.gfBits - 1 - j
      · rw [if_pos h, if_pos h, h.1, h.2]
      · rw [if_neg h, if_neg h]
  have hj : ∀ i (o : Nat → Nat → Nat) (a b : Nat),
      loopDown P.gfBits (fun j out0 => loopDown 64 (fun r out0 =>
          set2 out0 i (P.gfBits - 1 - j)
            (shl64 (out0 i (P.gfBits - 1 - j)) 1 ||| ((inp (i * 64 + r) >>> j) &&& 1)))
          out0) o a b
        = if a = i ∧ b < P.gfBits then
            loopDown 64 (fun r x =>
              shl64 x 1 ||| ((inp (i * 64 + r) >>> (P.gfBits - 1 - b)) &&& 1)) (o a b)
          else o a b := by
    intro i o a b
    rw [loopDown_entrywise2 P.gfBits _ (fun j a b x => if a = i ∧ b = P.gfBits - 1 - j then
      loopDown 64 (fun r x =>
        shl64 x 1 ||| ((inp (i * 64 + r) >>> j) &&& 1)) x else x)
      (fun j o a b => hr i j o a b)]
    by_cases h : a = i ∧ b < P.gfBits
    · rw [if_pos h]
      exact loopDown_one_hit P.gfBits (fun j => a = i ∧ b = P.gfBits - 1 - j) _ _
        (P.gfBits - 1 - b) (by omega) ⟨h.1, by omega⟩ (fun j hj hh => by omega)
    · rw [if_neg h]
      exact loopDown_no_hit _ _ _ _ (fun j hj hh => h ⟨hh.1, by omega⟩)
  rw [loopUp_entrywise2 (exponent P) _ (fun i a b x => if a = i ∧ b < P.gfBits then
      loopDown 64 (fun r x =>
        shl64 x 1 ||| ((inp (i * 64 + r) >>> (P.gfBits - 1 - b)) &&& 1)) x else x)
      (fun i o a b => hj i o a b)]
  by_cases h : a < exponent P ∧ b < P.gfBits
  · rw [if_pos h]
    exact loopUp_one_hit (exponent P) (fun i => a = i ∧ b < P.gfBits) _ _ a h.1 ⟨rfl, h.2⟩
      (fun i _ hi => hi.1.symm)
  · rw [if_neg h]
    exact loopUp_no_hit _ _ _ _ (fun i hi hh => h ⟨by omega, hh.2⟩)

theorem toBitslicing2x_fst_testBit (P : Params) (out0 out1 : Nat → Nat → Nat)
    (inp : Nat → Nat) (a b : Nat) (ha : a < exponent P) (hb : b < P.gfBits) (t : Nat) :
    ((toBitslicing2x P out0 out1 inp).1 a b).testBit t
      = (decide (t < 64) && (inp (a * 64 + t)).testBit (P.gfBits - 1 - b)) := by
  rw [toBitslicing2x_fst_apply, if_pos ⟨ha, hb⟩,
    shiftIn_testBit_full (fun r => inp (a * 64 + r) >>> (P.gfBits - 1 - b))]
  simp [Nat.testBit_shiftRight]

end mceliece

namespace mceliece

theorem triWord_lt (a j : Nat) (ha : a < 2 ^ 62) : triWord a j < 2 ^ 64 := by
  unfold triWord
  by_cases h1 : a / 64 < j
  · rw [if_pos h1]
    omega
  · rw [if_neg h1]
    by_cases h2 : a / 64 = j
    · rw [if_pos h2, Nat.shiftLeft_eq, Nat.one_mul]
      exact Nat.pow_lt_pow_right (by decide) (Nat.mod_lt _ (by decide))
    · rw [if_neg h2]
      exact Nat.two_pow_pos 64

theorem testBit_of_lt_two_pow (x g t : Nat) (hx : x < 2 ^ g) (ht : g ≤ t) :
    x.testBit t = false :=
  Nat.testBit_lt_two_pow (Nat.lt_of_lt_of_le hx (Nat.pow_le_pow_right (by decide) ht))

/-- The low field of a key of `triKey` is the block number. -/
theorem triKey_testBit_low (g i k : Nat) (hg : 2 * g ≤ 31) (hk : k < g) :
    (triKey g i).testBit k = (i / 64).testBit k := by
  unfold triKey
  rw [Nat.testBit_or, Nat.testBit_or, shl64_testBit, shl64_testBit]
  have h1 : decide (g ≤ k) = false := by simp; omega
  have h2 : decide (31 ≤ k) = false := by simp; omega
  simp [h1, h2]

/-- The second field of a key of `triKey` holds the bits of `triWord`. -/
theorem triKey_testBit_high (g i k : Nat) (hg : 2 * g ≤ 31) (hk : k < g)
    (hi : i / 64 < 2 ^ g) :
    (triKey g i).testBit (k + g) = (triWord k (i / 64)).testBit (i % 64) := by
  unfold triKey
  rw [Nat.testBit_or, Nat.testBit_or, shl64_testBit, shl64_testBit, packBits_testBit,
    testBit_of_lt_two_pow _ g _ hi (by omega)]
  have h1 : decide (k + g < 64) = true := by simp; omega
  have h2 : decide (g ≤ k + g) = true := by simp
  have h3 : decide (31 ≤ k + g) = false := by simp; omega
  have h4 : k + g - g = k := by omega
  simp [h1, h3, h4, hk]

theorem triKey_shr31 (g i : Nat) (hg : 2 * g ≤ 31) (hi : i < 2 ^ g) :
    triKey g i >>> 31 = i := by
  unfold triKey
  have h1 : i / 64 < 2 ^ g := Nat.lt_of_le_of_lt (Nat.div_le_self _ _) hi
  have h2 : i < 2 ^ 32 :=
    Nat.lt_of_lt_of_le hi (Nat.pow_le_pow_right (by decide) (by omega))
  exact key_shr31 g _ (i / 64) i hg (packBits_lt _ _) h1 h2

theorem scanKeys_triKey (P : Params) (hg : 2 * P.gfBits ≤ 31) :
    scanKeys P (triKey P.gfBits) = some () := by
  cases h : scanKeys P (triKey P.gfBits) with
  | none =>
    obtain ⟨i, h1, h2, h3⟩ := (scanKeys_none_iff P _).mp h
    rw [Nat.shiftLeft_eq, Nat.one_mul] at h2
    rw [triKey_shr31 _ _ hg (by omega), triKey_shr31 _ _ hg h2] at h3
    omega
  | some u => rfl

theorem sortedKeys_triExt (P : Params) (irr perm : Nat → Nat) :
    sortedKeys P (triExt P.gfBits) irr perm = triKey P.gfBits := rfl

/-- The blocks `prod` returned by `toBitslicing2x` are the first rows of `triWord`. -/
theorem keyBlocks_triExt_snd (P : Params) (hg : 2 * P.gfBits ≤ 31)
    (hexp : 64 * exponent P ≤ 2 ^ P.gfBits) (irr perm : Nat → Nat) (j k : Nat)
    (hj : j < exponent P) (hk : k < P.gfBits) :
    (keyBlocks P (triExt P.gfBits) irr perm).2 j k = triWord k j := by
  apply Nat.eq_of_testBit_eq
  intro t
  unfold keyBlocks
  rw [toBitslicing2x_snd_testBit P _ _ _ j k hj hk, sortedKeys_triExt]
  by_cases ht : t < 64
  · have e1 : (j * 64 + t) / 64 = j := by omega
    have e2 : (j * 64 + t) % 64 = t := by omega
    have hj' : (j * 64 + t) / 64 < 2 ^ P.gfBits := by omega
    rw [triKey_testBit_high _ _ _ hg hk hj', e1, e2]
    simp [ht]
  · have : (triWord k j).testBit t = false :=
      testBit_of_lt_two_pow _ 64 _ (triWord_lt k j (by omega)) (by omega)
    simp [ht, this]

/-- The block number is read back from the blocks `consts` returned by `toBitslicing2x`. -/
theorem keyBlocks_triExt_fst (P : Params) (hg : 2 * P.gfBits ≤ 31)
    (hexp : 64 * exponent P ≤ 2 ^ P.gfBits) (irr perm : Nat → Nat) (j : Nat)
    (hj : j < exponent P) :
    packBits P.gfBits
      (fun k => ((keyBlocks P (triExt P.gfBits) irr perm).1 j (P.gfBits - 1 - k)).testBit 0)
      = j := by
  apply Nat.eq_of_testBit_eq
  intro k
  rw [packBits_testBit]
  by_cases hk : k < P.gfBits
  · unfold keyBlocks
    rw [toBitslicing2x_fst_testBit P _ _ _ j _ hj (by omega), sortedKeys_triExt]
    have e : P.gfBits - 1 - (P.gfBits - 1 - k) = k := by omega
    have e1 : (j * 64 + 0) / 64 = j := by omega
    rw [e, triKey_testBit_low _ _ _ hg hk, e1]
    simp [hk]
  · have : j.testBit k = false := testBit_of_lt_two_pow j P.gfBits k (by omega) (by omega)
    simp [hk, this]

theorem two_pow_not_odd_ge_three (t : Nat) : ¬ (2 ^ t % 2 = 1 ∧ 3 ≤ 2 ^ t) := by
  cases t with
  | zero => simp
  | succ t =>
    rw [Nat.pow_succ]
    omega

/-- One call of `triMul` moves a block of `triWord` down by `g` rows. -/
theorem triMul_step (g : Nat) (x c : Nat → Nat) (a j : Nat)
    (hc : packBits g (fun k => (c (g - 1 - k)).testBit 0) = j) (hx : x 0 = triWord a j) :
    triMul g x c = fun k => triWord (a + g + k) j := by
  unfold triMul
  rw [hc, hx]
  unfold triWord
  by_cases h1 : a / 64 < j
  · rw [if_pos h1, if_neg (by omega), if_pos ⟨by omega, by omega⟩]
    have e : (2 * a + 3 - 3) / 2 = a := by omega
    rw [e]
  · rw [if_neg h1]
    by_cases h2 : a / 64 = j
    · rw [if_pos h2, Nat.shiftLeft_eq, Nat.one_mul,
        if_neg (Nat.pos_iff_ne_zero.mp (Nat.two_pow_pos _)),
        if_neg (two_pow_not_odd_ge_three _), Nat.log2_two_pow]
      have e : 64 * j + a % 64 = a := by omega
      rw [e]
    · rw [if_neg h2, if_pos rfl]
      funext k
      rw [if_neg (by omega), if_neg (by omega)]

/-- The powers computed by `pkGen` with `triExt` are the row blocks of `triWord`. -/
theorem powBlock_triExt (g : Nat) (hg0 : 0 < g) (p c : Nat → Nat) (j : Nat)
    (hc : packBits g (fun k => (c (g - 1 - k)).testBit 0) = j)
    (hp : ∀ k, k < g → p k = triWord k j) (i k : Nat) (hik : i = 0 → k < g) :
    powBlock (triExt g) p c i k = triWord (i * g + k) j := by
  induction i generalizing k with
  | zero =>
    rw [Nat.zero_mul, Nat.zero_add]
    exact hp k (hik rfl)
  | succ i ih =>
    show triMul g (powBlock (triExt g) p c i) c k = _
    have h0 := ih 0 (fun _ => hg0)
    rw [Nat.add_zero] at h0
    rw [triMul_step g _ c (i * g) j hc h0, Nat.succ_mul]

theorem div_mul_add_mod (a g : Nat) : a / g * g + a % g = a := by
  rw [Nat.mul_comm]
  exact Nat.div_add_mod a g

/-- With `triExt` the left part of the check matrix is `triWord`. -/
theorem leftFill_triExt (P : Params) (hW : WellFormed P) (hg : 2 * P.gfBits ≤ 31)
    (hg0 : 0 < P.gfBits) (hexp : 64 * exponent P ≤ 2 ^ P.gfBits)
    (hH : nblocksH P ≤ exponent P) (irr perm : Nat → Nat) (a b : Nat)
    (ha : a < P.pkNRows) (hb : b < nblocksI P) :
    (leftFill P (triExt P.gfBits) irr perm).1 a b = triWord a b := by
  obtain ⟨hT, hn, hI, _⟩ := hW
  have hj : b < exponent P := by omega
  have hdiv : a / P.gfBits < P.sysT := by
    rw [Nat.div_lt_iff_lt_mul hg0, ← hn]
    exact ha
  have h := leftFill_apply P (triExt P.gfBits) hT irr perm (a / P.gfBits) b (a % P.gfBits)
    hdiv hb (Nat.mod_lt _ hg0)
  rw [div_mul_add_mod] at h
  rw [h, powBlock_triExt P.gfBits hg0 _ _ b (keyBlocks_triExt_fst P hg hexp irr perm b hj)
    (fun k hk => keyBlocks_triExt_snd P hg hexp irr perm b k hj hk) _ _
    (fun _ => Nat.mod_lt _ hg0), div_mul_add_mod]

theorem Reduced_leftFill_triExt (P : Params) (hW : WellFormed P) (hg : 2 * P.gfBits ≤ 31)
    (hg0 : 0 < P.gfBits) (hexp : 64 * exponent P ≤ 2 ^ P.gfBits)
    (hH : nblocksH P ≤ exponent P) (irr perm : Nat → Nat) :
    Reduced P.pkNRows P.pkNRows (leftFill P (triExt P.gfBits) irr perm).1 := by
  intro c hc
  have hcb : c / 64 < nblocksI P := by
    have := le_nblocksI P
    omega
  constructor
  · unfold bitAt
    rw [leftFill_triExt P hW hg hg0 hexp hH irr perm c _ hc hcb]
    unfold triWord
    rw [if_neg (by omega), if_pos rfl, Nat.shiftLeft_eq, Nat.one_mul, Nat.testBit_two_pow]
    simp
  · intro k hck hk
    unfold bitAt
    rw [leftFill_triExt P hW hg hg0 hexp hH irr perm k _ hk hcb]
    unfold triWord
    rw [if_neg (by omega)]
    by_cases h2 : k / 64 = c / 64
    · rw [if_pos h2, Nat.shiftLeft_eq, Nat.one_mul, Nat.testBit_two_pow]
      have : k % 64 ≠ c % 64 := by omega
      simp [this]
    · rw [if_neg h2]
      simp

/-- With `triExt`, `pkGen` returns true. -/
theorem pkGen_triExt_ok (P : Params) (hW : WellFormed P) (hg : 2 * P.gfBits ≤ 31)
    (hg0 : 0 < P.gfBits) (hexp : 64 * exponent P ≤ 2 ^ P.gfBits)
    (hH : nblocksH P ≤ exponent P) (pk irr perm : Nat → Nat) (pi : Nat → Int) (pivots : Nat) :
    (pkGen P (triExt P.gfBits) pk irr perm pi pivots).ok = true := by
  have hs : scanKeys P (sortedKeys P (triExt P.gfBits) irr perm) = some () := by
    rw [sortedKeys_triExt]
    exact scanKeys_triKey P hg
  have he := elimination_of_Reduced P (wellFormed_h8 P hW) _ (opsInit P (fun _ _ => 0))
    (Reduced_leftFill_triExt P hW hg hg0 hexp hH irr perm)
  rw [pkGen_of_elimination_some P _ pk irr perm pi pivots () _ hs he]

end mceliece

namespace mceliece

theorem pkGen_deterministic_witness :
    WellFormed mceliece8192128 ∧
    (pkGen mceliece8192128 (triExt mceliece8192128.gfBits) (fun _ => 0) (fun _ => 0)
      (fun i => i) (fun _ => 0) 0).ok = true ∧
    ((pkGen mceliece8192128 (triExt mceliece8192128.gfBits) (fun _ => 0) (fun _ => 0)
        (fun i => i) (fun _ => 0) 0).ok
      = (pkGen mceliece8192128 (triExt mceliece8192128.gfBits) (fun _ => 255) (fun _ => 0)
        (fun i => i) (fun _ => -1) 7).ok ∧
    ((pkGen mceliece8192128 (triExt mceliece8192128.gfBits) (fun _ => 0) (fun _ => 0)
        (fun i => i) (fun _ => 0) 0).ok = true →
      (∀ i, i < mceliece8192128.pkNRows * mceliece8192128.pkRowBytes →
        (pkGen mceliece8192128 (triExt mceliece8192128.gfBits) (fun _ => 0) (fun _ => 0)
          (fun i => i) (fun _ => 0) 0).pk i
        = (pkGen mceliece8192128 (triExt mceliece8192128.gfBits) (fun _ => 255) (fun _ => 0)
          (fun i => i) (fun _ => -1) 7).pk i) ∧
      (∀ i, i < 2 ^ mceliece8192128.gfBits →
        (pkGen mceliece8192128 (triExt mceliece8192128.gfBits) (fun _ => 0) (fun _ => 0)
          (fun i => i) (fun _ => 0) 0).pi i
        = (pkGen mceliece8192128 (triExt mceliece8192128.gfBits) (fun _ => 255) (fun _ => 0)
          (fun i => i) (fun _ => -1) 7).pi i))) :=
  ⟨wellFormed_mceliece8192128,
   pkGen_triExt_ok mceliece8192128 wellFormed_mceliece8192128 (by decide) (by decide)
     (by decide) (by decide) (fun _ => 0) (fun _ => 0) (fun i => i) (fun _ => 0) 0,
   pkGen_deterministic mceliece8192128 wellFormed_mceliece8192128
     (triExt mceliece8192128.gfBits) (fun _ => 0) (fun i => i) (fun _ => 0) (fun _ => 255)
     (fun _ => 0) (fun _ => -1) 0 7⟩

theorem pk_is_systematic_form_witness :
    WellFormed mceliece6960119 ∧
    (pkGen mceliece6960119 (triExt mceliece6960119.gfBits) (fun _ => 0) (fun _ => 0)
      (fun i => i) (fun _ => 0) 0).ok = true ∧
    (IsUnit (bitMatrix (checkMatrix mceliece6960119 (triExt mceliece6960119.gfBits)
        (fun _ => 0) (fun i => i)) mceliece6960119.pkNRows mceliece6960119.pkNRows 0) ∧
    (bitMatrix (checkMatrix mceliece6960119 (triExt mceliece6960119.gfBits) (fun _ => 0)
        (fun i => i)) mceliece6960119.pkNRows mceliece6960119.pkNRows 0)⁻¹
      * bitMatrix (checkMatrix mceliece6960119 (triExt mceliece6960119.gfBits) (fun _ => 0)
        (fun i => i)) mceliece6960119.pkNRows mceliece6960119.pkNRows 0 = 1 ∧
    ∀ (r : Fin mceliece6960119.pkNRows) (b : Fin mceliece6960119.pkNCols),
      ((pkGen mceliece6960119 (triExt mceliece6960119.gfBits) (fun _ => 0) (fun _ => 0)
          (fun i => i) (fun _ => 0) 0).pk
        (r * mceliece6960119.pkRowBytes + b / 8)).testBit (b % 8)
        = decide (((bitMatrix (checkMatrix mceliece6960119 (triExt mceliece6960119.gfBits)
              (fun _ => 0) (fun i => i)) mceliece6960119.pkNRows mceliece6960119.pkNRows 0)⁻¹
            * bitMatrix (checkMatrix mceliece6960119 (triExt mceliece6960119.gfBits)
              (fun _ => 0) (fun i => i)) mceliece6960119.pkNRows mceliece6960119.pkNCols
              mceliece6960119.pkNRows) r b = 1)) :=
  ⟨wellFormed_mceliece6960119,
   pkGen_triExt_ok mceliece6960119 wellFormed_mceliece6960119 (by decide) (by decide)
     (by decide) (by decide) (fun _ => 0) (fun _ => 0) (fun i => i) (fun _ => 0) 0,
   pk_is_systematic_form mceliece6960119 wellFormed_mceliece6960119
     (triExt mceliece6960119.gfBits) (fun _ => 0) (fun _ => 0) (fun i => i) (fun _ => 0) 0
     (pkGen_triExt_ok mceliece6960119 wellFormed_mceliece6960119 (by decide) (by decide)
       (by decide) (by decide) (fun _ => 0) (fun _ => 0) (fun i => i) (fun _ => 0) 0)⟩

end mceliece
